import Mathlib

/-!
# Process management core of the teaching kernel (`kernel/proc.c`)

A shallow embedding of the process table (an intrusive circular doubly linked
list anchored at the sentinel `dummyhead`), of the lock discipline and of the
lifecycle and synchronisation operations, followed by theorems about them.

Memory is a partial map from addresses to objects.  Address `0` is `NULL`.
Dereferencing an address that holds no object is the fault `badptr`.
Loops over the list take a fuel argument; the theorems show that any fuel
above the length of the table yields the stated result.
-/

namespace Xv6

/-! ## Data model -/

/-- A kernel address; `0` is the null pointer. -/
abbrev Ptr := Nat

/-- The `enum procstate` of `proc.h`, in the order used by `procdump`. -/
inductive procstate where
  | UNUSED
  | USED
  | SLEEPING
  | RUNNABLE
  | RUNNING
  | ZOMBIE
  deriving DecidableEq

/-- Modelled from the spec: `struct trapframe` (declared in `proc.h`, which is
not part of the sources at hand), the saved user register frame.  `proc.c`
names `epc`, `sp`, `a0` and the ten registers `s2` .. `s11` that start at
`s2`; the other registers are kept in `rest`. -/
structure trapframe where
  epc : Nat
  sp : Nat
  a0 : Nat
  sregs : List Nat
  rest : List Nat
  deriving DecidableEq

/-- The two fields of `struct context` that `allocproc` sets; `memset` zeroes
the others. -/
structure context where
  ra : Nat
  sp : Nat
  deriving DecidableEq

/-- Modelled from the spec: `struct proc` (declared in `proc.h`), with exactly
the fields `proc.c` reads or writes.  `name` is the string stored in the
`name` array, without its terminating NUL. -/
structure proc where
  pid : Int
  state : procstate
  parent : Ptr
  chan : Ptr
  killed : Int
  xstate : Int
  kstack : Nat
  trapframe : Ptr
  pagetable : Ptr
  sz : Nat
  ctx : context
  ofile : List Ptr
  cwd : Ptr
  name : List Char
  next : Ptr
  prev : Ptr
  deriving DecidableEq

/-- Modelled from the spec: `struct cpu` (declared in `proc.h`): the process
running on the core, the depth of `push_off` nesting and the interrupt state
saved by the outermost `push_off`.  The saved scheduler context is the
business of `swtch` and is not represented. -/
structure cpu where
  proc : Ptr
  noff : Nat
  intena : Bool
  deriving DecidableEq

/-- The spinlocks of `proc.c`, and any other lock a caller of `sleep` holds. -/
inductive lockid where
  | list_lock
  | pid_lock
  | wait_lock
  | other (n : Nat)
  deriving DecidableEq

/-- Ways in which the kernel stops instead of returning. -/
inductive fault where
  | badptr
  | panic_acquire
  | panic_release
  | panic_pop_off
  | panic_sched_list_lock
  | panic_sched_locks
  | panic_sched_running
  | panic_sched_interruptible
  | panic_init_exiting
  | spin
  | fuel
  deriving DecidableEq

/-- Memory holding `struct proc` objects. -/
abbrev procmem := Ptr → Option proc

/-- The global state `proc.c` works on.
* `procs`: the `struct proc` objects (the sentinel and the `bd_malloc`ed ones);
* `pages`: the pages handed out by `kalloc`, with the register frame a page
  holds when it is used as a trapframe;
* `user`: per page table, the user memory `copyout` can write;
* `locks`: the core holding each spinlock, if any;
* `intr`: the interrupt-enable bit of each core. -/
structure kernel where
  procs : procmem
  pages : Ptr → Option trapframe
  user : Ptr → Nat → Option Int
  initproc : Ptr
  nextpid : Int
  locks : lockid → Option Nat
  cpus : Nat → cpu
  intr : Nat → Bool

/-- The address of the global `struct proc dummyhead`. -/
def dummyhead : Ptr := 1

/-- Results of the external allocators and memory-subsystem calls made by one
call of `allocproc` or `fork`, and the constants of `param.h`, `riscv.h` and
`proc.h` those functions use. -/
structure allocenv where
  bd_malloc : Ptr
  kalloc_kstack : Ptr
  kalloc_trapframe : Ptr
  junk : trapframe
  uvmcreate : Ptr
  mappages_trampoline : Int
  mappages_trapframe : Int
  uvmcopy : Int
  forkret : Nat
  PGSIZE : Nat
  NOFILE : Nat
  NAMESZ : Nat

/-! ## Memory access -/

/-- Read the object at `a`. -/
def rd {α : Type} (m : Ptr → Option α) (a : Ptr) : Except fault α :=
  match m a with
  | some r => .ok r
  | none => .error .badptr

/-- Update the object at `a` in place. -/
def upd {α : Type} (m : Ptr → Option α) (a : Ptr) (f : α → α) :
    Except fault (Ptr → Option α) :=
  match m a with
  | some r => .ok (Function.update m a (some (f r)))
  | none => .error .badptr

/-! ## Locks (spinlock.c) -/

/-- Modelled from the spec: `holding` (spinlock.c), whether this core holds
the lock. -/
def holding (s : kernel) (lk : lockid) (tp : Nat) : Bool :=
  s.locks lk == some tp

/-- Modelled from the spec: `push_off` (spinlock.c): disable interrupts and
count one more level of interrupt-disable nesting; the outermost level saves
the previous interrupt state. -/
def push_off (tp : Nat) (s : kernel) : kernel :=
  let c := s.cpus tp
  { s with
    intr := Function.update s.intr tp false
    cpus := Function.update s.cpus tp
      { c with noff := c.noff + 1
               intena := if c.noff = 0 then s.intr tp else c.intena } }

/-- Modelled from the spec: `pop_off` (spinlock.c): leave one level of
nesting and restore the saved interrupt state at the outermost level. -/
def pop_off (tp : Nat) (s : kernel) : Except fault kernel :=
  let c := s.cpus tp
  if s.intr tp then .error .panic_pop_off
  else if c.noff < 1 then .error .panic_pop_off
  else
    .ok { s with
      cpus := Function.update s.cpus tp { c with noff := c.noff - 1 }
      intr := if c.noff - 1 = 0 ∧ c.intena then Function.update s.intr tp true
              else s.intr }

/-- Modelled from the spec: `acquire` (spinlock.c), mutual exclusion.  A core
that already holds the lock panics; a lock held by another core makes the
caller spin, which a sequential run cannot leave. -/
def acquire (tp : Nat) (lk : lockid) (s : kernel) : Except fault kernel :=
  let s1 := push_off tp s
  if holding s1 lk tp then .error .panic_acquire
  else if s1.locks lk ≠ none then .error .spin
  else .ok { s1 with locks := Function.update s1.locks lk (some tp) }

/-- Modelled from the spec: `release` (spinlock.c). -/
def release (tp : Nat) (lk : lockid) (s : kernel) : Except fault kernel :=
  if ¬ holding s lk tp then .error .panic_release
  else pop_off tp { s with locks := Function.update s.locks lk none }

/-! ## Per-core state -/

/-- The process of the core `tp`: the field `proc` of its `struct cpu`. -/
def curproc (s : kernel) (tp : Nat) : Ptr :=
  (s.cpus tp).proc

/-- The function `myproc` on the core `tp` (the value of `r_tp()`): the
process of the core, read between `push_off` and `pop_off`, and the state
these two leave. -/
def myproc (tp : Nat) (s : kernel) : Except fault (Ptr × kernel) := do
  let s := push_off tp s
  let p := (s.cpus tp).proc
  let s ← pop_off tp s
  .ok (p, s)

/-! ## The list helpers -/

/-- The function `proc_init`. -/
def proc_init (m : procmem) (p : Ptr) : Except fault procmem :=
  upd m p (fun r => { r with pid := -1, state := .UNUSED, next := p, prev := p })

/-- The function `proc_push`, statement by statement. -/
def proc_push (m : procmem) (head p : Ptr) : Except fault procmem := do
  let h ← rd m head
  let m ← upd m p (fun r => { r with next := h.next })
  let m ← upd m p (fun r => { r with prev := head })
  let h ← rd m head
  let m ← upd m h.next (fun r => { r with prev := p })
  upd m head (fun r => { r with next := p })

/-- The function `proc_remove`, statement by statement. -/
def proc_remove (m : procmem) (p : Ptr) : Except fault procmem := do
  let r ← rd m p
  let m ← upd m r.prev (fun q => { q with next := r.next })
  let r ← rd m p
  upd m r.next (fun q => { q with prev := r.prev })

/-! ## External collaborators (memory subsystem, string helpers) -/

/-- Modelled from the spec: `kalloc` (kalloc.c) handing out the page `a`
(`0` when memory is exhausted); a fresh page holds arbitrary contents. -/
def kalloc (a : Ptr) (junk : trapframe) (s : kernel) : kernel :=
  if a = 0 then s else { s with pages := Function.update s.pages a (some junk) }

/-- Modelled from the spec: `kfree` (kalloc.c) taking the page back. -/
def kfree (a : Ptr) (s : kernel) : kernel :=
  { s with pages := Function.update s.pages a none }

/-- Modelled from the spec: `copyout` (vm.c) of one value to the user address
`dstva` of an address space: it fails when the address is not mapped. -/
def copyout (u : Ptr → Nat → Option Int) (pagetable : Ptr) (dstva : Nat) (v : Int) :
    Option (Ptr → Nat → Option Int) :=
  match u pagetable dstva with
  | some _ => some (Function.update u pagetable (Function.update (u pagetable) dstva (some v)))
  | none => none

/-- Modelled from the spec: `safestrcpy` (string.c): copy at most `n - 1`
characters and terminate the string. -/
def safestrcpy (dst src : List Char) (n : Nat) : List Char :=
  if n = 0 then dst else src.take (n - 1)

/-- The function `proc_freepagetable`: the address space is torn down, so
nothing stays mapped in it. -/
def proc_freepagetable (pagetable : Ptr) (_sz : Nat) (s : kernel) : kernel :=
  { s with user := Function.update s.user pagetable (fun _ => none) }

/-- The function `proc_pagetable`: the new page table, or `0` when `uvmcreate`
or one of the two `mappages` calls fails (what was built is freed again). -/
def proc_pagetable (env : allocenv) : Ptr :=
  let pagetable := env.uvmcreate
  if pagetable = 0 then 0
  else if env.mappages_trampoline < 0 then 0
  else if env.mappages_trapframe < 0 then 0
  else pagetable

/-! ## Allocation and release of process records -/

/-- Wrap-around of a C `int`. -/
def wrap32 (x : Int) : Int := (x + 2 ^ 31) % 2 ^ 32 - 2 ^ 31

/-- The function `allocpid`. -/
def allocpid (tp : Nat) (s : kernel) : Except fault (Int × kernel) := do
  let s ← acquire tp .pid_lock s
  let pid := s.nextpid
  let s := { s with nextpid := wrap32 (s.nextpid + 1) }
  let s ← release tp .pid_lock s
  .ok (pid, s)

/-- The function `freeproc`. -/
def freeproc (p : Ptr) (s : kernel) : Except fault kernel := do
  let r ← rd s.procs p
  let s := if r.kstack ≠ 0 then kfree r.kstack s else s
  let procs ← upd s.procs p (fun r => { r with kstack := 0 })
  let s := { s with procs := procs }
  let r ← rd s.procs p
  let s := if r.trapframe ≠ 0 then kfree r.trapframe s else s
  let procs ← upd s.procs p (fun r => { r with trapframe := 0 })
  let s := { s with procs := procs }
  let r ← rd s.procs p
  let s := if r.pagetable ≠ 0 then proc_freepagetable r.pagetable r.sz s else s
  let procs ← proc_remove s.procs p
  .ok { s with procs := Function.update procs p none }

/-- What `memset(p, 0, sizeof(struct proc))` leaves in a record. -/
def zeroproc (NOFILE : Nat) : proc :=
  { pid := 0, state := .UNUSED, parent := 0, chan := 0, killed := 0, xstate := 0,
    kstack := 0, trapframe := 0, pagetable := 0, sz := 0, ctx := { ra := 0, sp := 0 },
    ofile := List.replicate NOFILE 0, cwd := 0, name := [], next := 0, prev := 0 }

/-- The function `allocproc`: the new record (`0` on failure) and the state. -/
def allocproc (tp : Nat) (env : allocenv) (s : kernel) : Except fault (Ptr × kernel) := do
  let p := env.bd_malloc
  if p = 0 then
    .ok (0, s)
  else
    let s := { s with procs := Function.update s.procs p (some (zeroproc env.NOFILE)) }
    let (pid, s) ← allocpid tp s
    let procs ← upd s.procs p (fun r => { r with pid := pid })
    let procs ← upd procs p (fun r => { r with state := .USED })
    let s := kalloc env.kalloc_kstack env.junk { s with procs := procs }
    let procs ← upd s.procs p (fun r => { r with kstack := env.kalloc_kstack })
    let s := { s with procs := procs }
    if env.kalloc_kstack = 0 then
      let s ← freeproc p s
      let s ← release tp .list_lock s
      .ok (0, s)
    else
      let s := kalloc env.kalloc_trapframe env.junk s
      let procs ← upd s.procs p (fun r => { r with trapframe := env.kalloc_trapframe })
      let s := { s with procs := procs }
      if env.kalloc_trapframe = 0 then
        let s ← freeproc p s
        let s ← release tp .list_lock s
        .ok (0, s)
      else
        let procs ← upd s.procs p (fun r => { r with pagetable := proc_pagetable env })
        let s := { s with procs := procs }
        if proc_pagetable env = 0 then
          let s ← freeproc p s
          let s ← release tp .list_lock s
          .ok (0, s)
        else
          let r ← rd s.procs p
          let procs ← upd s.procs p (fun r' =>
            { r' with ctx := { ra := env.forkret, sp := (r.kstack + env.PGSIZE) % 2 ^ 64 } })
          let s ← acquire tp .list_lock { s with procs := procs }
          let procs ← proc_push s.procs dummyhead p
          .ok (p, { s with procs := procs })

/-! ## Sleep, wakeup, kill -/

/-- The function `sched` up to its `swtch` into the scheduler: `myproc()`,
the four checks on the state it leaves, and the saved `intena` that is
restored when the process runs again. -/
def sched (tp : Nat) (s : kernel) : Except fault (Bool × kernel) := do
  let (p, s) ← myproc tp s
  if ¬ holding s .list_lock tp then .error .panic_sched_list_lock
  else if (s.cpus tp).noff ≠ 1 then .error .panic_sched_locks
  else do
    let r ← rd s.procs p
    if r.state = .RUNNING then .error .panic_sched_running
    else if s.intr tp then .error .panic_sched_interruptible
    else .ok ((s.cpus tp).intena, s)

/-- The last statement of `sched`, run on the core `tp` the process is
switched back in on. -/
def sched_resume (tp : Nat) (intena : Bool) (s : kernel) : kernel :=
  { s with cpus := Function.update s.cpus tp { s.cpus tp with intena := intena } }

/-- The function `sleep` up to the `swtch` inside `sched`. -/
def sleep (tp : Nat) (chan : Ptr) (lk : lockid) (s : kernel) :
    Except fault (Bool × kernel) := do
  let (p, s) ← myproc tp s
  let s ← (if lk ≠ .list_lock then do
      let s ← acquire tp .list_lock s
      release tp lk s
    else pure s)
  let procs ← upd s.procs p (fun r => { r with chan := chan })
  let procs ← upd procs p (fun r => { r with state := .SLEEPING })
  sched tp { s with procs := procs }

/-- The rest of `sleep`, after the process has been switched back in on the
core `tp`; the local `p` is the process of that core. -/
def sleep_resume (tp : Nat) (intena : Bool) (lk : lockid) (s : kernel) :
    Except fault kernel := do
  let s := sched_resume tp intena s
  let p := curproc s tp
  let procs ← upd s.procs p (fun r => { r with chan := 0 })
  let s := { s with procs := procs }
  if lk ≠ .list_lock then do
    let s ← release tp .list_lock s
    acquire tp lk s
  else pure s

/-- The loop of `wakeup_nolock` from the record `p` on; `myproc()` is called
in every round. -/
def wakeup_scan (tp : Nat) (chan : Ptr) : Nat → Ptr → kernel → Except fault kernel
  | 0, _, _ => .error .fuel
  | n + 1, p, s =>
    if p = dummyhead then .ok s
    else do
      let (me, s) ← myproc tp s
      let s ← (if p ≠ me then do
          let r ← rd s.procs p
          if r.state = .SLEEPING ∧ r.chan = chan then do
            let procs ← upd s.procs p (fun r => { r with state := .RUNNABLE })
            pure { s with procs := procs }
          else pure s
        else pure s)
      let r ← rd s.procs p
      wakeup_scan tp chan n r.next s

/-- The function `wakeup_nolock`. -/
def wakeup_nolock (tp : Nat) (chan : Ptr) (fuel : Nat) (s : kernel) : Except fault kernel := do
  let d ← rd s.procs dummyhead
  wakeup_scan tp chan fuel d.next s

/-- The function `wakeup`. -/
def wakeup (tp : Nat) (chan : Ptr) (fuel : Nat) (s : kernel) : Except fault kernel := do
  let s ← acquire tp .list_lock s
  let s ← wakeup_nolock tp chan fuel s
  release tp .list_lock s

/-- The loop of `kill` from the record `p` on, and the return that follows
it. -/
def kill_scan (tp : Nat) (pid : Int) : Nat → Ptr → kernel → Except fault (Int × kernel)
  | 0, _, _ => .error .fuel
  | n + 1, p, s =>
    if p = dummyhead then do
      let s ← release tp .list_lock s
      .ok (-1, s)
    else do
      let r ← rd s.procs p
      if r.pid = pid then
        let procs ← upd s.procs p (fun r => { r with killed := 1 })
        let r ← rd procs p
        let procs ← (if r.state = .SLEEPING then
            upd procs p (fun r => { r with state := .RUNNABLE })
          else pure procs)
        let s ← release tp .list_lock { s with procs := procs }
        .ok (0, s)
      else kill_scan tp pid n r.next s

/-- The function `kill`. -/
def kill (tp : Nat) (pid : Int) (fuel : Nat) (s : kernel) : Except fault (Int × kernel) := do
  let s ← acquire tp .list_lock s
  let d ← rd s.procs dummyhead
  kill_scan tp pid fuel d.next s

/-- The function `setkilled`. -/
def setkilled (tp : Nat) (p : Ptr) (s : kernel) : Except fault kernel := do
  let s ← acquire tp .list_lock s
  let procs ← upd s.procs p (fun r => { r with killed := 1 })
  release tp .list_lock { s with procs := procs }

/-- The function `killed`. -/
def killed (tp : Nat) (p : Ptr) (s : kernel) : Except fault (Int × kernel) := do
  let s ← acquire tp .list_lock s
  let r ← rd s.procs p
  let s ← release tp .list_lock s
  .ok (r.killed, s)

/-! ## Lifecycle: fork, reparent, exit, wait -/

/-- The loop of `fork` over the parent's open files; `filedup` returns the
file it is given (its reference count is the file layer's business). -/
def fork_ofile (NOFILE : Nat) (pofile npofile : List Ptr) : List Ptr :=
  (List.range NOFILE).foldl
    (fun acc i => if pofile.getD i 0 ≠ 0 then acc.set i (pofile.getD i 0) else acc) npofile

/-- The function `fork`: its return value and the state. -/
def fork (tp : Nat) (env : allocenv) (s : kernel) : Except fault (Int × kernel) := do
  let (p, s) ← myproc tp s
  let (np, s) ← allocproc tp env s
  if np = 0 then
    .ok (-1, s)
  else
    let pr ← rd s.procs p
    let nr ← rd s.procs np
    if env.uvmcopy < 0 then
      let s ← freeproc np s
      let s ← release tp .list_lock s
      .ok (-1, s)
    else
      let s := { s with user := Function.update s.user nr.pagetable (s.user pr.pagetable) }
      let procs ← upd s.procs np (fun r => { r with sz := pr.sz })
      let s := { s with procs := procs }
      let pr ← rd s.procs p
      let nr ← rd s.procs np
      let tf ← rd s.pages pr.trapframe
      let pages ← upd s.pages nr.trapframe (fun _ => tf)
      let pages ← upd pages nr.trapframe (fun t => { t with a0 := 0 })
      let s := { s with pages := pages }
      let procs ← upd s.procs np (fun r => { r with ofile := fork_ofile env.NOFILE pr.ofile r.ofile })
      let pr ← rd procs p
      let procs ← upd procs np (fun r => { r with cwd := pr.cwd })
      let pr ← rd procs p
      let procs ← upd procs np (fun r => { r with name := safestrcpy r.name pr.name env.NAMESZ })
      let nr ← rd procs np
      let pid := nr.pid
      let procs ← upd procs np (fun r => { r with parent := p })
      let procs ← upd procs np (fun r => { r with state := .RUNNABLE })
      let s ← release tp .list_lock { s with procs := procs }
      .ok (pid, s)

/-- The loop of `reparent` from the record `pp` on; `fuel` is the fuel of
each `wakeup_nolock` it calls. -/
def reparent_scan (tp : Nat) (p : Ptr) (fuel : Nat) : Nat → Ptr → kernel → Except fault kernel
  | 0, _, _ => .error .fuel
  | n + 1, pp, s =>
    if pp = dummyhead then .ok s
    else do
      let r ← rd s.procs pp
      let s ← (if r.parent = p then do
          let procs ← upd s.procs pp (fun r => { r with parent := s.initproc })
          wakeup_nolock tp s.initproc fuel { s with procs := procs }
        else pure s)
      let r ← rd s.procs pp
      reparent_scan tp p fuel n r.next s

/-- The function `reparent`. -/
def reparent (tp : Nat) (p : Ptr) (fuel : Nat) (s : kernel) : Except fault kernel := do
  let d ← rd s.procs dummyhead
  reparent_scan tp p fuel fuel d.next s

/-- The function `exit` up to the `swtch` inside `sched`, which it never
comes back from.  Closing the files and releasing the working directory is
the file layer's business; here the references are cleared. -/
def exit (tp : Nat) (status : Int) (fuel : Nat) (s : kernel) :
    Except fault (Bool × kernel) := do
  let (p, s) ← myproc tp s
  if p = s.initproc then
    .error .panic_init_exiting
  else
    let procs ← upd s.procs p (fun r => { r with ofile := r.ofile.map (fun _ => 0) })
    let procs ← upd procs p (fun r => { r with cwd := 0 })
    let s ← acquire tp .list_lock { s with procs := procs }
    let s ← reparent tp p fuel s
    let r ← rd s.procs p
    let s ← wakeup_nolock tp r.parent fuel s
    let procs ← upd s.procs p (fun r => { r with xstate := status })
    let procs ← upd procs p (fun r => { r with state := .ZOMBIE })
    sched tp { s with procs := procs }

/-- How a call of `wait` leaves the caller: returned, or asleep in
`sleep(p, &list_lock)` with the given saved `intena`. -/
inductive waitout where
  | ret (v : Int)
  | asleep (intena : Bool)
  deriving DecidableEq

/-- The block of `wait` run on a ZOMBIE child `pp` of `p`: the value `wait`
returns and the state. -/
def wait_found (tp : Nat) (p : Ptr) (addr : Nat) (pp : Ptr) (s : kernel) :
    Except fault (Int × kernel) := do
  let c ← rd s.procs pp
  let pid := c.pid
  let copied ← (if addr ≠ 0 then do
      let me ← rd s.procs p
      let c ← rd s.procs pp
      pure (copyout s.user me.pagetable addr c.xstate)
    else pure (some s.user))
  match copied with
  | none => do
    let s ← release tp .list_lock s
    .ok (-1, s)
  | some u => do
    let s ← freeproc pp { s with user := u }
    let s ← release tp .list_lock s
    .ok (pid, s)

/-- The inner loop of `wait` from the record `pp` on: the value returned from
inside the loop if any, `havekids`, and the state. -/
def wait_scan (tp : Nat) (p : Ptr) (addr : Nat) :
    Nat → Ptr → Bool → kernel → Except fault (Option Int × Bool × kernel)
  | 0, _, _, _ => .error .fuel
  | n + 1, pp, havekids, s =>
    if pp = dummyhead then .ok (none, havekids, s)
    else do
      let c ← rd s.procs pp
      if c.parent = p then
        if c.state = .ZOMBIE then do
          let (v, s) ← wait_found tp p addr pp s
          .ok (some v, true, s)
        else wait_scan tp p addr n c.next true s
      else wait_scan tp p addr n c.next havekids s

/-- One round of the outer loop of `wait`, entered with `list_lock` held; the
local `p` is the process of the core. -/
def wait_loop (tp : Nat) (addr : Nat) (fuel : Nat) (s : kernel) :
    Except fault (waitout × kernel) := do
  let p := curproc s tp
  let d ← rd s.procs dummyhead
  let (r, havekids, s) ← wait_scan tp p addr fuel d.next false s
  match r with
  | some v => .ok (.ret v, s)
  | none =>
    if havekids = false then do
      let s ← release tp .list_lock s
      .ok (.ret (-1), s)
    else do
      let me ← rd s.procs p
      if me.killed ≠ 0 then do
        let s ← release tp .list_lock s
        .ok (.ret (-1), s)
      else do
        let (intena, s) ← sleep tp p .list_lock s
        .ok (.asleep intena, s)

/-- The function `wait` up to its return or its first `sleep`. -/
def wait (tp : Nat) (addr : Nat) (fuel : Nat) (s : kernel) :
    Except fault (waitout × kernel) := do
  let (_, s) ← myproc tp s
  let s ← acquire tp .list_lock s
  wait_loop tp addr fuel s

/-- The function `wait` from the point where its `sleep` is switched back in. -/
def wait_resume (tp : Nat) (intena : Bool) (addr : Nat) (fuel : Nat) (s : kernel) :
    Except fault (waitout × kernel) := do
  let s ← sleep_resume tp intena .list_lock s
  wait_loop tp addr fuel s

/-! ## Scheduler -/

/-- The inner loop of `scheduler` from the record `p` on, with `list_lock`
held, until it switches into a process (`some p`) or finishes the pass and
releases the lock (`none`). -/
def scheduler_scan (tp : Nat) : Nat → Ptr → kernel → Except fault (Option Ptr × kernel)
  | 0, _, _ => .error .fuel
  | n + 1, p, s =>
    if p = dummyhead then do
      let s ← release tp .list_lock s
      .ok (none, s)
    else do
      let r ← rd s.procs p
      if r.state = .RUNNABLE then
        let procs ← upd s.procs p (fun r => { r with state := .RUNNING })
        .ok (some p, { s with procs := procs
                              cpus := Function.update s.cpus tp { s.cpus tp with proc := p } })
      else scheduler_scan tp n r.next s

/-- One pass of the outer loop of `scheduler`, from `intr_on()`. -/
def scheduler_pass (tp : Nat) (fuel : Nat) (s : kernel) : Except fault (Option Ptr × kernel) := do
  let s ← acquire tp .list_lock { s with intr := Function.update s.intr tp true }
  let d ← rd s.procs dummyhead
  scheduler_scan tp fuel d.next s

/-- The function `scheduler` from the point where a process switches back
into it: the local `p` is still the core's process. -/
def scheduler_resume (tp : Nat) (fuel : Nat) (s : kernel) : Except fault (Option Ptr × kernel) := do
  let p := (s.cpus tp).proc
  let s := { s with cpus := Function.update s.cpus tp { s.cpus tp with proc := 0 } }
  let r ← rd s.procs p
  scheduler_scan tp fuel r.next s

/-- The function `yield` up to the `swtch` inside `sched`. -/
def yield (tp : Nat) (s : kernel) : Except fault (Bool × kernel) := do
  let (p, s) ← myproc tp s
  let s ← acquire tp .list_lock s
  let procs ← upd s.procs p (fun r => { r with state := .RUNNABLE })
  sched tp { s with procs := procs }

/-- The rest of `yield`, after the process has been switched back in. -/
def yield_resume (tp : Nat) (intena : Bool) (s : kernel) : Except fault kernel :=
  release tp .list_lock (sched_resume tp intena s)

/-- The function `forkret` as far as the process table is concerned: a new
process releases the lock the scheduler took. -/
def forkret (tp : Nat) (s : kernel) : Except fault kernel :=
  release tp .list_lock s

/-! ## Diagnostics -/

/-- One line printed by `procdump`: the pid, the state name and the process
name. -/
structure dumpline where
  pid : Int
  state : List Char
  name : List Char
  deriving DecidableEq

/-- The array `states` of `procdump`.  Every state of the enumeration has an
entry, so the fallback name `???` is never printed. -/
def states : procstate → List Char
  | .UNUSED => ['u', 'n', 'u', 's', 'e', 'd']
  | .USED => ['u', 's', 'e', 'd']
  | .SLEEPING => ['s', 'l', 'e', 'e', 'p', ' ']
  | .RUNNABLE => ['r', 'u', 'n', 'b', 'l', 'e']
  | .RUNNING => ['r', 'u', 'n', ' ', ' ', ' ']
  | .ZOMBIE => ['z', 'o', 'm', 'b', 'i', 'e']

/-- The loop of `procdump` from the record `p` on: the lines printed so far
and `proc_count`.  A record in state UNUSED is skipped by `continue`, which
goes on to the increment `p = p->next` of the `for`; for any other record the
body prints one line, executes its own `p = p->next`, counts, and then the
increment of the `for` runs as well. -/
def procdump_scan : Nat → Ptr → procmem → List dumpline → Int →
    Except fault (List dumpline × Int)
  | 0, _, _, _, _ => .error .fuel
  | n + 1, p, m, out, proc_count =>
    if p = dummyhead then .ok (out, proc_count)
    else do
      let r ← rd m p
      if r.state = .UNUSED then
        procdump_scan n r.next m out proc_count
      else
        let out := out ++ [{ pid := r.pid, state := states r.state, name := r.name }]
        let p := r.next
        let proc_count := wrap32 (proc_count + 1)
        let r ← rd m p
        procdump_scan n r.next m out proc_count

/-- The function `procdump`: the record lines it prints, in order, and the
total it reports.  It takes no lock. -/
def procdump (fuel : Nat) (s : kernel) : Except fault (List dumpline × Int) := do
  let d ← rd s.procs dummyhead
  procdump_scan fuel d.next s.procs [] 0

/-- The search loop of `dump2` from the record `needed_proc` on: the record
with the given pid, or the sentinel. -/
def dump2_scan (pid : Int) : Nat → Ptr → procmem → Except fault Ptr
  | 0, _, _ => .error .fuel
  | n + 1, needed_proc, m =>
    if needed_proc = dummyhead then .ok needed_proc
    else do
      let r ← rd m needed_proc
      if r.pid = pid then .ok needed_proc
      else dump2_scan pid n r.next m

/-- The function `dump2`: its return value and the state.  The register
`s<register_num>` is the entry `register_num - 2` of the registers that start
at `s2`; the second operand of `||` is evaluated only when the first is
false. -/
def dump2 (tp : Nat) (pid register_num : Int) (return_value : Nat) (fuel : Nat) (s : kernel) :
    Except fault (Int × kernel) :=
  if register_num > 11 ∨ register_num < 2 then .ok (-3, s)
  else do
    let d ← rd s.procs dummyhead
    let needed_proc ← dump2_scan pid fuel d.next s.procs
    if needed_proc = dummyhead then .ok (-2, s)
    else
      let (cur_proc, s) ← myproc tp s
      let cur ← rd s.procs cur_proc
      let needed ← rd s.procs needed_proc
      let allowed ← (if cur.pid = needed.pid then pure true
        else do
          let parent ← rd s.procs needed.parent
          pure (decide (cur.pid = parent.pid)))
      if allowed = false then .ok (-1, s)
      else
        let tf ← rd s.pages needed.trapframe
        let v := tf.sregs.getD (register_num - 2).toNat 0
        match copyout s.user cur.pagetable return_value v with
        | none => .ok (-4, s)
        | some u => .ok (0, { s with user := u })

/-! ## Well-formed tables -/

/-- Following the link field `f` from the pointer `p` visits exactly the
records `L`, in this order, and then reaches `q`. -/
def chainb (f : proc → Ptr) (m : procmem) : Ptr → List Ptr → Ptr → Bool
  | p, [], q => p == q
  | p, a :: L, q =>
    p == a && (match m a with
      | some r => chainb f m (f r) L q
      | none => false)

/-- The same as a proposition. -/
def chain (f : proc → Ptr) (m : procmem) (p : Ptr) (L : List Ptr) (q : Ptr) : Prop :=
  chainb f m p L q = true

instance (f : proc → Ptr) (m : procmem) (p : Ptr) (L : List Ptr) (q : Ptr) :
    Decidable (chain f m p L q) :=
  inferInstanceAs (Decidable (chainb f m p L q = true))

/-- The process table is well formed and holds the records `L`, in list
order: the sentinel and the records are distinct objects, `next` leads from
the sentinel through `L` back to the sentinel, and `prev` leads through `L`
backwards. -/
def table (m : procmem) (L : List Ptr) : Prop :=
  m 0 = none ∧ (dummyhead :: L).Nodup ∧
  chain proc.next m dummyhead (dummyhead :: L) dummyhead ∧
  chain proc.prev m dummyhead (dummyhead :: L.reverse) dummyhead

instance (m : procmem) (L : List Ptr) : Decidable (table m L) :=
  inferInstanceAs (Decidable (_ ∧ _))

/-- A record without its list linkage. -/
def data (r : proc) : proc := { r with next := 0, prev := 0 }

/-- The last element of `x :: L`. -/
def lastOr (x : Ptr) : List Ptr → Ptr
  | [] => x
  | a :: L => lastOr a L

/-- The first element of `L ++ [q]`. -/
def headOr (q : Ptr) : List Ptr → Ptr
  | [] => q
  | a :: _ => a

/-! ## Specification vocabulary -/

/-- The state `acquire` leaves when the lock is free. -/
def acquired (tp : Nat) (lk : lockid) (s : kernel) : kernel :=
  { push_off tp s with locks := Function.update s.locks lk (some tp) }

/-- The state `release` leaves when the core holds the lock with interrupts
off. -/
def released (tp : Nat) (lk : lockid) (s : kernel) : kernel :=
  { s with
    locks := Function.update s.locks lk none
    cpus := Function.update s.cpus tp { s.cpus tp with noff := (s.cpus tp).noff - 1 }
    intr := if (s.cpus tp).noff - 1 = 0 ∧ (s.cpus tp).intena then Function.update s.intr tp true
            else s.intr }

/-- The state `myproc()` leaves on the core `tp`: at nesting depth 0 the
saved `intena` is overwritten with the interrupt bit, which is restored; at
a greater depth interrupts stay off. -/
def bracketed (tp : Nat) (s : kernel) : kernel :=
  { s with
    cpus := Function.update s.cpus tp
      { s.cpus tp with
        intena := if (s.cpus tp).noff = 0 then s.intr tp else (s.cpus tp).intena }
    intr := Function.update s.intr tp (decide ((s.cpus tp).noff = 0) && s.intr tp) }

/-- The core `tp` is inside a `list_lock` critical section. -/
def locked (tp : Nat) (s : kernel) : Prop :=
  s.locks .list_lock = some tp ∧ s.intr tp = false ∧ 1 ≤ (s.cpus tp).noff

/-- What `wakeup_nolock(chan)` called by `me` does to the record `r` at `a`. -/
def wake (me chan : Ptr) (a : Ptr) (r : proc) : proc :=
  if a ≠ me ∧ r.state = .SLEEPING ∧ r.chan = chan then { r with state := .RUNNABLE } else r

/-- The record at `a` is a child of `p`. -/
def is_child (m : procmem) (p a : Ptr) : Bool :=
  match m a with
  | some r => r.parent = p
  | none => false

/-- The record at `a` is a ZOMBIE child of `p`. -/
def zombie_child (m : procmem) (p a : Ptr) : Bool :=
  match m a with
  | some r => r.parent = p ∧ r.state = .ZOMBIE
  | none => false

/-- The process memory after `wakeup_nolock(chan)` called by `me` on a table
holding the records `L`. -/
def woken (m : procmem) (L : List Ptr) (me chan : Ptr) : procmem :=
  fun a => if a ∈ L then (m a).map (wake me chan a) else m a

/-- The record at `a` has the given pid. -/
def has_pid (m : procmem) (pid : Int) (a : Ptr) : Bool :=
  match m a with
  | some r => r.pid = pid
  | none => false

/-- What `kill` does to the record it finds. -/
def kill_rec (r : proc) : proc :=
  { r with killed := 1, state := if r.state = .SLEEPING then .RUNNABLE else r.state }

/-- What `reparent(p)` does to the parent link of a record. -/
def reparent_rec (p init : Ptr) (r : proc) : proc :=
  if r.parent = p then { r with parent := init } else r

/-- The process memory after the parent links of the records `L` have been
passed from `p` to `init`. -/
def reparented (m : procmem) (L : List Ptr) (p init : Ptr) : procmem :=
  fun a => if a ∈ L then (m a).map (reparent_rec p init) else m a

/-- The record `allocproc` has built when it returns: zeroed, with the new
pid, state USED, its three resources, the context that starts at `forkret`,
and linked at the head of the list. -/
def new_proc (env : allocenv) (pid : Int) (next : Ptr) : proc :=
  { zeroproc env.NOFILE with
    pid := pid, state := .USED, kstack := env.kalloc_kstack,
    trapframe := env.kalloc_trapframe, pagetable := proc_pagetable env,
    ctx := { ra := env.forkret, sp := (env.kalloc_kstack + env.PGSIZE) % 2 ^ 64 },
    next := next, prev := dummyhead }

/-- The record at `a` is RUNNABLE. -/
def is_runnable (m : procmem) (a : Ptr) : Bool :=
  match m a with
  | some r => r.state = .RUNNABLE
  | none => false

/-- The record at `a` is RUNNING. -/
def is_running (m : procmem) (a : Ptr) : Bool :=
  match m a with
  | some r => r.state = .RUNNING
  | none => false

/-- The record at `a` is not UNUSED. -/
def in_use (m : procmem) (a : Ptr) : Bool :=
  match m a with
  | some r => r.state ≠ .UNUSED
  | none => false

/-- The line that describes the record at `a`. -/
def dump_of (m : procmem) (a : Ptr) : Option dumpline :=
  (m a).map (fun r => { pid := r.pid, state := states r.state, name := r.name })

/-- The pids returned by `n` successive calls of `allocpid`, oldest first, and
the state after them. -/
def allocpids (tp : Nat) : Nat → kernel → Except fault (List Int × kernel)
  | 0, s => .ok ([], s)
  | n + 1, s => do
    let (pid, s) ← allocpid tp s
    let (pids, s) ← allocpids tp n s
    .ok (pid :: pids, s)

/-- Every record of `L` carries a pid that `allocpid` has issued: positive and
below the counter. -/
def pids_issued (s : kernel) (L : List Ptr) : Prop :=
  ∀ a ∈ L, ∀ r, s.procs a = some r → 0 < r.pid ∧ r.pid < s.nextpid

/-- No two records of `L` share a pid. -/
def pids_distinct (m : procmem) (L : List Ptr) : Prop :=
  ∀ a ∈ L, ∀ b ∈ L, ∀ ra rb, m a = some ra → m b = some rb → ra.pid = rb.pid → a = b

/-- One use of the list helpers on the table: `proc_push(&dummyhead, p)` or
`proc_remove(p)`. -/
inductive listop where
  | push (p : Ptr)
  | remove (p : Ptr)
  deriving DecidableEq

/-- Run a sequence of uses of the list helpers. -/
def listops : List listop → procmem → Except fault procmem
  | [], m => .ok m
  | .push p :: ops, m => do
    let m ← proc_push m dummyhead p
    listops ops m
  | .remove p :: ops, m => do
    let m ← proc_remove m p
    listops ops m

/-- The records the table is meant to hold after the sequence, starting from
the records `L`: a pushed record comes first, a removed one is taken out. -/
def listops_abs : List listop → List Ptr → List Ptr
  | [], L => L
  | .push p :: ops, L => listops_abs ops (p :: L)
  | .remove p :: ops, L => listops_abs ops (L.erase p)

/-- The sequence pushes only fresh records (objects of the memory that are
neither the sentinel nor linked) and removes only linked records. -/
def listops_legal (m : procmem) : List listop → List Ptr → Prop
  | [], _ => True
  | .push p :: ops, L => (m p).isSome = true ∧ p ∉ dummyhead :: L ∧ listops_legal m ops (p :: L)
  | .remove p :: ops, L => p ∈ L ∧ listops_legal m ops (L.erase p)

/-- Every node of the list, the sentinel included, is doubly linked with its
two neighbours, which are nodes of the list. -/
def linked (m : procmem) (L : List Ptr) : Prop :=
  ∀ n ∈ dummyhead :: L, ∃ r rn rp, m n = some r ∧
    r.next ∈ dummyhead :: L ∧ m r.next = some rn ∧ rn.prev = n ∧
    r.prev ∈ dummyhead :: L ∧ m r.prev = some rp ∧ rp.next = n

/-- Whatever ZOMBIE record `m` holds at `a` is still there in `m'`: ZOMBIE,
with the same exit status and pid. -/
def keeps_zombie (a : Ptr) (m m' : procmem) : Prop :=
  ∀ r, m a = some r → r.state = .ZOMBIE →
    ∃ r', m' a = some r' ∧ r'.state = .ZOMBIE ∧ r'.xstate = r.xstate ∧ r'.pid = r.pid

/-- A run from `s` to `s'` of one of the table operations that do not reap:
`wakeup_nolock`, `wakeup`, `kill`, `setkilled`, `reparent`, a pass of the
scheduler from its start or from the point where a process switched back
into it, and a `fork` whose record allocator hands out unused memory. -/
inductive tableop (s s' : kernel) : Prop where
  | wakeup_nolock (tp : Nat) (chan : Ptr) (fuel : Nat) :
      wakeup_nolock tp chan fuel s = .ok s' → tableop s s'
  | wakeup (tp : Nat) (chan : Ptr) (fuel : Nat) : wakeup tp chan fuel s = .ok s' → tableop s s'
  | kill (tp : Nat) (pid : Int) (fuel : Nat) (v : Int) :
      kill tp pid fuel s = .ok (v, s') → tableop s s'
  | setkilled (tp : Nat) (p : Ptr) : setkilled tp p s = .ok s' → tableop s s'
  | reparent (tp : Nat) (p : Ptr) (fuel : Nat) : reparent tp p fuel s = .ok s' → tableop s s'
  | scheduler_pass (tp fuel : Nat) (res : Option Ptr) :
      scheduler_pass tp fuel s = .ok (res, s') → tableop s s'
  | scheduler_resume (tp fuel : Nat) (res : Option Ptr) :
      scheduler_resume tp fuel s = .ok (res, s') → tableop s s'
  | fork (tp : Nat) (env : allocenv) (v : Int) :
      s.procs env.bd_malloc = none → fork tp env s = .ok (v, s') → tableop s s'

/-- The step from the process memory `m` to `m'` neither starts nor stops a
RUNNING record, and keeps address `0` empty. -/
def quiet (m m' : procmem) : Prop :=
  (∀ a, is_running m' a = is_running m a) ∧ (m 0 = none → m' 0 = none)

/-- The step from `s` to `s'` leaves the locks and the cores alone. -/
def same_cores (s s' : kernel) : Prop :=
  s'.locks = s.locks ∧ s'.cpus = s.cpus ∧ s'.intr = s.intr

/-- The same as `quiet`, except that the record at `a` may start or stop
being RUNNING. -/
def quiet_except (a : Ptr) (m m' : procmem) : Prop :=
  (∀ b, b ≠ a → is_running m' b = is_running m b) ∧ (m 0 = none → m' 0 = none)

/-- The step from `s` to `s'` neither starts nor stops a RUNNING record and
leaves the current process of every core as it is. -/
def calm (s s' : kernel) : Prop :=
  quiet s.procs s'.procs ∧ ∀ c, (s'.cpus c).proc = (s.cpus c).proc

/-- The step from `s` to `t` stays inside one critical section: it is quiet,
touches no lock and no core's current process. -/
def inside (s t : kernel) : Prop :=
  quiet s.procs t.procs ∧ t.locks = s.locks ∧ ∀ c, (t.cpus c).proc = (s.cpus c).proc

/-- The step from `s` to `s'` ends a critical section of core `tp` with a
`release` of `list_lock`. -/
def closes (tp : Nat) (s s' : kernel) : Prop :=
  ∃ t, inside s t ∧ t.locks .list_lock = some tp ∧ s' = released tp .list_lock t

/-- The step from `s` to `s'` is the first half of a switch out of the
process of core `tp`: apart from that process, which is no longer RUNNING,
it is quiet, and the core holds `list_lock` afterwards. -/
def retires (tp : Nat) (s s' : kernel) : Prop :=
  quiet_except (curproc s tp) s.procs s'.procs ∧
  is_running s'.procs (curproc s tp) = false ∧
  (∀ c, (s'.cpus c).proc = (s.cpus c).proc) ∧ s'.locks .list_lock = some tp

/-! ## The cores as a transition system

Every step is one stretch of code that runs with `list_lock` held from an
`acquire` or a switch to a `release` or a switch.  Which code a core may run
next is recorded per core: -/

/-- Where a core stands between two steps: in the scheduler loop outside a
pass (`idle`), switched into a process that still holds the scheduler's lock
(`dispatched`), inside a process that runs without the lock (`running`), or
switched from a process back into the scheduler, which still holds the
process's lock (`switching`). -/
inductive phase where
  | idle
  | dispatched
  | running
  | switching
  deriving DecidableEq

/-- The kernel state together with the phase of every core. -/
structure sys where
  k : kernel
  pc : Nat → phase

/-- The steps of the cores.  A process switched into resumes in `forkret`
or behind the `sched` of `yield`, `sleep` or `wait`; which one is left open. -/
inductive step : sys → sys → Prop where
  | pass_dispatch (σ : sys) (c fuel : Nat) (q : Ptr) (k' : kernel) :
      σ.pc c = .idle → scheduler_pass c fuel σ.k = .ok (some q, k') →
      step σ { k := k', pc := Function.update σ.pc c .dispatched }
  | pass_idle (σ : sys) (c fuel : Nat) (k' : kernel) :
      σ.pc c = .idle → scheduler_pass c fuel σ.k = .ok (none, k') →
      step σ { k := k', pc := σ.pc }
  | resume_dispatch (σ : sys) (c fuel : Nat) (q : Ptr) (k' : kernel) :
      σ.pc c = .switching → scheduler_resume c fuel σ.k = .ok (some q, k') →
      step σ { k := k', pc := Function.update σ.pc c .dispatched }
  | resume_idle (σ : sys) (c fuel : Nat) (k' : kernel) :
      σ.pc c = .switching → scheduler_resume c fuel σ.k = .ok (none, k') →
      step σ { k := k', pc := Function.update σ.pc c .idle }
  | forkret (σ : sys) (c : Nat) (k' : kernel) :
      σ.pc c = .dispatched → forkret c σ.k = .ok k' →
      step σ { k := k', pc := Function.update σ.pc c .running }
  | yield_resume (σ : sys) (c : Nat) (i : Bool) (k' : kernel) :
      σ.pc c = .dispatched → yield_resume c i σ.k = .ok k' →
      step σ { k := k', pc := Function.update σ.pc c .running }
  | sleep_resume (σ : sys) (c : Nat) (i : Bool) (lk : lockid) (k' : kernel) :
      σ.pc c = .dispatched → lk ≠ .list_lock → sleep_resume c i lk σ.k = .ok k' →
      step σ { k := k', pc := Function.update σ.pc c .running }
  | wait_resume_ret (σ : sys) (c : Nat) (i : Bool) (addr fuel : Nat) (v : Int) (k' : kernel) :
      σ.pc c = .dispatched → wait_resume c i addr fuel σ.k = .ok (.ret v, k') →
      step σ { k := k', pc := Function.update σ.pc c .running }
  | wait_resume_asleep (σ : sys) (c : Nat) (i : Bool) (addr fuel : Nat) (j : Bool)
      (k' : kernel) :
      σ.pc c = .dispatched → wait_resume c i addr fuel σ.k = .ok (.asleep j, k') →
      step σ { k := k', pc := Function.update σ.pc c .switching }
  | yield (σ : sys) (c : Nat) (i : Bool) (k' : kernel) :
      σ.pc c = .running → yield c σ.k = .ok (i, k') →
      step σ { k := k', pc := Function.update σ.pc c .switching }
  | sleep (σ : sys) (c : Nat) (chan : Ptr) (lk : lockid) (i : Bool) (k' : kernel) :
      σ.pc c = .running → lk ≠ .list_lock → sleep c chan lk σ.k = .ok (i, k') →
      step σ { k := k', pc := Function.update σ.pc c .switching }
  | exit (σ : sys) (c : Nat) (status : Int) (fuel : Nat) (i : Bool) (k' : kernel) :
      σ.pc c = .running → exit c status fuel σ.k = .ok (i, k') →
      step σ { k := k', pc := Function.update σ.pc c .switching }
  | wait_ret (σ : sys) (c : Nat) (addr fuel : Nat) (v : Int) (k' : kernel) :
      σ.pc c = .running → wait c addr fuel σ.k = .ok (.ret v, k') →
      step σ { k := k', pc := σ.pc }
  | wait_asleep (σ : sys) (c : Nat) (addr fuel : Nat) (j : Bool) (k' : kernel) :
      σ.pc c = .running → wait c addr fuel σ.k = .ok (.asleep j, k') →
      step σ { k := k', pc := Function.update σ.pc c .switching }
  | fork (σ : sys) (c : Nat) (env : allocenv) (v : Int) (k' : kernel) :
      σ.pc c = .running → σ.k.procs env.bd_malloc = none → fork c env σ.k = .ok (v, k') →
      step σ { k := k', pc := σ.pc }
  | wakeup (σ : sys) (c : Nat) (chan : Ptr) (fuel : Nat) (k' : kernel) :
      wakeup c chan fuel σ.k = .ok k' → step σ { k := k', pc := σ.pc }
  | kill (σ : sys) (c : Nat) (pid : Int) (fuel : Nat) (v : Int) (k' : kernel) :
      kill c pid fuel σ.k = .ok (v, k') → step σ { k := k', pc := σ.pc }
  | setkilled (σ : sys) (c : Nat) (p : Ptr) (k' : kernel) :
      setkilled c p σ.k = .ok k' → step σ { k := k', pc := σ.pc }
  | killed (σ : sys) (c : Nat) (p : Ptr) (v : Int) (k' : kernel) :
      killed c p σ.k = .ok (v, k') → step σ { k := k', pc := σ.pc }

/-- The states at which the cores start: every core is in its scheduler with
no current process, the lock is free and no process runs yet. -/
def initial (σ : sys) : Prop :=
  (∀ c, (σ.k.cpus c).proc = 0 ∧ σ.pc c = .idle) ∧ σ.k.locks .list_lock = none ∧
  σ.k.procs 0 = none ∧ ∀ a, is_running σ.k.procs a = false

/-- The states the cores can reach. -/
inductive reachable : sys → Prop where
  | init (σ : sys) : initial σ → reachable σ
  | next (σ σ' : sys) : reachable σ → step σ σ' → reachable σ'

/-- The scheduler of core `c` selects the record `q` in the step from `σ`. -/
def dispatches (σ : sys) (c : Nat) (q : Ptr) : Prop :=
  ∃ fuel k', (σ.pc c = .idle ∧ scheduler_pass c fuel σ.k = .ok (some q, k')) ∨
    (σ.pc c = .switching ∧ scheduler_resume c fuel σ.k = .ok (some q, k'))

/-- The invariant of the reachable states: address `0` is empty; an idle
core has no process; the process of a core that runs it or has just switched
into it is RUNNING; the process a core is switching out of is not; the lock
is held exactly by the core that is in the middle of a switch; every RUNNING
record is the process of some core; and no process is the process of two
cores. -/
def inv (σ : sys) : Prop :=
  σ.k.procs 0 = none ∧
  (∀ c, σ.pc c = .idle → (σ.k.cpus c).proc = 0) ∧
  (∀ c, σ.pc c = .running ∨ σ.pc c = .dispatched →
    is_running σ.k.procs (σ.k.cpus c).proc = true) ∧
  (∀ c, σ.pc c = .switching → is_running σ.k.procs (σ.k.cpus c).proc = false) ∧
  (∀ c, (σ.pc c = .dispatched ∨ σ.pc c = .switching) ↔ σ.k.locks .list_lock = some c) ∧
  (∀ a, is_running σ.k.procs a = true → ∃ c, (σ.k.cpus c).proc = a) ∧
  (∀ c1 c2, (σ.k.cpus c1).proc = (σ.k.cpus c2).proc → (σ.k.cpus c1).proc ≠ 0 → c1 = c2)

/-! ## Example states -/

/-- A record with the given identity, state and linkage, all else zero. -/
def ex_proc (pid : Int) (st : procstate) (parent chan next prev : Ptr) : proc :=
  { zeroproc 0 with pid := pid, state := st, parent := parent, chan := chan,
                    next := next, prev := prev }

/-- A kernel state around the process memory `m`: every core runs `cur`, no
lock is held, interrupts are on. -/
def ex_kernel (m : procmem) (initproc cur : Ptr) : kernel :=
  { procs := m, pages := fun _ => none, user := fun _ _ => none, initproc := initproc,
    nextpid := 10, locks := fun _ => none,
    cpus := fun _ => { proc := cur, noff := 0, intena := false }, intr := fun _ => true }

/-- The sentinel, the root process at `2` and its child at `3`, which sleeps
on channel `7`; the list order is `3, 2`. -/
def ex_sleeper : procmem := fun a =>
  if a = 1 then some (ex_proc (-1) .UNUSED 0 0 3 2)
  else if a = 2 then some (ex_proc 1 .RUNNING 0 0 1 3)
  else if a = 3 then some (ex_proc 2 .SLEEPING 2 7 2 1)
  else none

/-- The sentinel, the root process at `2` (address space `9`) and its child at
`3`, a ZOMBIE with exit status `7`; the list order is `3, 2`. -/
def ex_zombie : procmem := fun a =>
  if a = 1 then some (ex_proc (-1) .UNUSED 0 0 3 2)
  else if a = 2 then some { ex_proc 1 .RUNNING 0 0 1 3 with pagetable := 9 }
  else if a = 3 then some { ex_proc 2 .ZOMBIE 2 0 2 1 with xstate := 7 }
  else none

/-- The state around `ex_zombie` in which address `5` of the root's address
space is mapped. -/
def ex_zombie_kernel : kernel :=
  { ex_kernel ex_zombie 2 2 with user := fun pt va => if pt = 9 ∧ va = 5 then some 0 else none }

/-- The sentinel and the root process at `2`, alone in the table; its
register frame is the page `8` and its address space is `9`. -/
def ex_root : procmem := fun a =>
  if a = 1 then some (ex_proc (-1) .UNUSED 0 0 2 2)
  else if a = 2 then
    some { ex_proc 1 .RUNNING 0 0 1 1 with pagetable := 9, trapframe := 8, sz := 4096,
                                           name := ['i', 'n', 'i', 't'] }
  else none

/-- The register frame of the root process in `ex_root_kernel`. -/
def ex_frame : trapframe := { epc := 64, sp := 4096, a0 := 5, sregs := [], rest := [] }

/-- The state around `ex_root`: the root runs on core `0`, core `1` is idle
in its scheduler, and address `5` of the root's address space is mapped. -/
def ex_root_kernel : kernel :=
  { ex_kernel ex_root 2 2 with
    pages := fun a => if a = 8 then some ex_frame else none
    user := fun pt va => if pt = 9 ∧ va = 5 then some 0 else none
    cpus := fun c => { proc := if c = 0 then 2 else 0, noff := 0, intena := false } }

/-- Allocator results for one `fork`: the record at `3`, the pages `20` and
`21`, the address space `22`. -/
def ex_env : allocenv :=
  { bd_malloc := 3, kalloc_kstack := 20, kalloc_trapframe := 21,
    junk := { epc := 0, sp := 0, a0 := 0, sregs := [], rest := [] },
    uvmcreate := 22, mappages_trampoline := 0, mappages_trapframe := 0, uvmcopy := 0,
    forkret := 100, PGSIZE := 4096, NOFILE := 16, NAMESZ := 16 }

/-- The sentinel, the root process at `2`, asleep in `wait` on its own
address, a process at `3` and its child at `4`; the list order is `4, 3, 2`. -/
def ex_family : procmem := fun a =>
  if a = 1 then some (ex_proc (-1) .UNUSED 0 0 4 2)
  else if a = 2 then some (ex_proc 1 .SLEEPING 0 2 1 3)
  else if a = 3 then some (ex_proc 2 .RUNNING 2 0 2 4)
  else if a = 4 then some (ex_proc 3 .RUNNABLE 3 0 3 1)
  else none

/-- The state after boot: the root process at `2` is RUNNABLE and every core
is in its scheduler. -/
def ex_boot : sys :=
  { k := { ex_kernel (fun a =>
        if a = 1 then some (ex_proc (-1) .UNUSED 0 0 2 2)
        else if a = 2 then some (ex_proc 1 .RUNNABLE 0 0 1 1)
        else none) 2 0 with
      cpus := fun _ => { proc := 0, noff := 0, intena := false } }
    pc := fun _ => .idle }

/-- The state around `ex_root` before the first pid is issued. -/
def ex_start : kernel := { ex_kernel ex_root 2 2 with nextpid := 1 }

/-- The table of `ex_sleeper` after the root process has been killed. -/
def ex_killed : procmem :=
  Function.update ex_sleeper 2 (some { ex_proc 1 .RUNNING 0 0 1 3 with killed := 1 })

/-- A memory with the sentinel object, not yet initialised, and two zeroed
records at `2` and `3`. -/
def ex_raw : procmem := fun a =>
  if a = 1 ∨ a = 2 ∨ a = 3 then some (zeroproc 0) else none

/-- Core `0` holds `list_lock` at nesting depth 1 for the RUNNABLE root
process, and the interrupts of every core are on. -/
def ex_interruptible : kernel :=
  { acquired 0 .list_lock (ex_kernel ex_boot.k.procs 2 2) with intr := fun _ => true }

/-- The state `ex_root_kernel` when the pid counter has come round to `1`,
the pid of the root process. -/
def ex_root_wrapped : kernel := { ex_root_kernel with nextpid := 1 }

/-! ## Theorems -/

theorem chain_nil (f : proc → Ptr) (m : procmem) (p q : Ptr) :
    chain f m p [] q ↔ p = q := by
  simp [chain, chainb]

theorem chain_cons (f : proc → Ptr) (m : procmem) (p a : Ptr) (L : List Ptr) (q : Ptr) :
    chain f m p (a :: L) q ↔ p = a ∧ ∃ r, m a = some r ∧ chain f m (f r) L q := by
  unfold chain
  cases h : m a <;> simp [chainb, h]

theorem chain_mono (f : proc → Ptr) {m m' : procmem} {L : List Ptr} :
    ∀ {p q : Ptr}, (∀ a ∈ L, ∀ r, m a = some r → ∃ r', m' a = some r' ∧ f r' = f r) →
      chain f m p L q → chain f m' p L q := by
  induction L with
  | nil => intro p q _ h; simpa [chain_nil] using h
  | cons a L ih =>
    intro p q hm h
    rw [chain_cons] at h ⊢
    obtain ⟨hpa, r, hr, hc⟩ := h
    obtain ⟨r', hr', hf⟩ := hm a (List.mem_cons_self _ _) r hr
    refine ⟨hpa, r', hr', ?_⟩
    rw [hf]
    exact ih (fun b hb => hm b (List.mem_cons_of_mem _ hb)) hc

theorem chain_congr (f : proc → Ptr) {m m' : procmem} {L : List Ptr} {p q : Ptr}
    (hm : ∀ a ∈ L, m' a = m a) (h : chain f m p L q) : chain f m' p L q :=
  chain_mono f (fun a ha r hr => ⟨r, by rw [hm a ha, hr], rfl⟩) h

theorem chain_alloc (f : proc → Ptr) {m : procmem} {L : List Ptr} :
    ∀ {p q : Ptr}, chain f m p L q → ∀ a ∈ L, ∃ r, m a = some r := by
  induction L with
  | nil => intro p q _ a ha; simp at ha
  | cons b L ih =>
    intro p q h a ha
    rw [chain_cons] at h
    obtain ⟨_, r, hr, hc⟩ := h
    rcases List.mem_cons.1 ha with rfl | ha
    · exact ⟨r, hr⟩
    · exact ih hc a ha

theorem chain_head (f : proc → Ptr) {m : procmem} {L : List Ptr} {p q : Ptr}
    (h : chain f m p L q) : p = headOr q L := by
  cases L with
  | nil => simpa [chain_nil, headOr] using h
  | cons a L => rw [chain_cons] at h; simpa [headOr] using h.1

theorem chain_split (f : proc → Ptr) {m : procmem} {A : List Ptr} {c : Ptr} {B : List Ptr} :
    ∀ {p q : Ptr}, chain f m p (A ++ c :: B) q →
      chain f m p A c ∧ ∃ rc, m c = some rc ∧ chain f m (f rc) B q := by
  induction A with
  | nil =>
    intro p q h
    rw [List.nil_append, chain_cons] at h
    exact ⟨by simpa [chain_nil] using h.1, h.2⟩
  | cons a A ih =>
    intro p q h
    rw [List.cons_append, chain_cons] at h
    obtain ⟨hpa, r, hr, hc⟩ := h
    obtain ⟨h1, h2⟩ := ih hc
    exact ⟨(chain_cons ..).2 ⟨hpa, r, hr, h1⟩, h2⟩

theorem chain_last (f : proc → Ptr) {m : procmem} {A : List Ptr} :
    ∀ {x c : Ptr}, chain f m x (x :: A) c → ∃ rp, m (lastOr x A) = some rp ∧ f rp = c := by
  induction A with
  | nil =>
    intro x c h
    rw [chain_cons] at h
    obtain ⟨_, r, hr, hc⟩ := h
    exact ⟨r, hr, by simpa [chain_nil] using hc⟩
  | cons a A ih =>
    intro x c h
    rw [chain_cons] at h
    obtain ⟨_, r, _, hc⟩ := h
    have hfa : f r = a := by simpa [headOr] using chain_head f hc
    rw [hfa] at hc
    exact ih hc

theorem lastOr_mem (x : Ptr) (A : List Ptr) : lastOr x A ∈ x :: A := by
  induction A generalizing x with
  | nil => simp [lastOr]
  | cons a A ih =>
    have := ih a
    simp only [lastOr]
    exact List.mem_cons_of_mem _ this

theorem headOr_reverse (x : Ptr) (A : List Ptr) : headOr x A.reverse = lastOr x A := by
  induction A generalizing x with
  | nil => rfl
  | cons a A ih =>
    rw [List.reverse_cons]
    cases h : A.reverse with
    | nil =>
      have : A = [] := by simpa using h
      subst this
      simp [headOr, lastOr]
    | cons b B =>
      have := ih a
      rw [h] at this
      simp only [List.cons_append, headOr, lastOr] at this ⊢
      have h2 := ih x
      rw [h] at h2
      simp only [headOr] at h2
      rw [← this]

theorem chain_remove (f : proc → Ptr) {m : procmem} {A : List Ptr} {c : Ptr} {B : List Ptr}
    {rc : proc} (rp' : proc) (hrc : m c = some rc) (hf : f rp' = f rc) :
    ∀ {x q : Ptr}, (x :: (A ++ c :: B)).Nodup → chain f m x (x :: (A ++ c :: B)) q →
      chain f (Function.update m (lastOr x A) (some rp')) x (x :: (A ++ B)) q := by
  induction A with
  | nil =>
    intro x q hnd h
    simp only [List.nil_append] at h hnd ⊢
    rw [chain_cons] at h
    obtain ⟨_, rx, hrx, hc⟩ := h
    rw [chain_cons] at hc
    obtain ⟨_, rc', hrc', hc⟩ := hc
    rw [hrc] at hrc'
    cases hrc'
    rw [chain_cons]
    refine ⟨rfl, rp', by simp [lastOr], ?_⟩
    rw [hf]
    refine chain_congr f (fun a ha => ?_) hc
    have : a ≠ x := by
      rintro rfl
      simp at hnd
      exact hnd.1.2 ha
    simp [lastOr, Function.update_apply, this]
  | cons a A ih =>
    intro x q hnd h
    rw [List.cons_append] at h hnd
    rw [chain_cons] at h
    obtain ⟨_, rx, hrx, hc⟩ := h
    have hfa : f rx = a := by simpa [headOr] using chain_head f hc
    rw [hfa] at hc
    have hnd' : (a :: (A ++ c :: B)).Nodup := (List.nodup_cons.1 hnd).2
    have h1 := ih hnd' hc
    rw [List.cons_append, chain_cons]
    have hx : x ≠ lastOr a A := by
      intro hx
      have hmem : lastOr a A ∈ a :: A := lastOr_mem a A
      have : x ∈ a :: (A ++ c :: B) := by
        rw [hx]
        rcases List.mem_cons.1 hmem with h | h
        · rw [h]; exact List.mem_cons_self _ _
        · exact List.mem_cons_of_mem _ (List.mem_append_left _ h)
      exact (List.nodup_cons.1 hnd).1 this
    refine ⟨rfl, rx, ?_, ?_⟩
    · simp only [lastOr, Function.update_apply, hx, if_false]; exact hrx
    · rw [hfa]; exact h1

theorem chain_insert (f : proc → Ptr) {m m' : procmem} {A : List Ptr} {p : Ptr} {B : List Ptr}
    {q : Ptr} (hp : ∃ rp, m' p = some rp ∧ f rp = headOr q B) :
    ∀ {x : Ptr}, (x :: (A ++ p :: B)).Nodup → chain f m x (x :: (A ++ B)) q →
      (∃ rl, m' (lastOr x A) = some rl ∧ f rl = p) →
      (∀ a ∈ x :: (A ++ B), a ≠ lastOr x A →
        ∀ r, m a = some r → ∃ r', m' a = some r' ∧ f r' = f r) →
      chain f m' x (x :: (A ++ p :: B)) q := by
  induction A with
  | nil =>
    intro x hnd h hl hm
    simp only [List.nil_append, lastOr] at h hnd hl hm ⊢
    rw [chain_cons] at h
    obtain ⟨_, rx, hrx, hc⟩ := h
    obtain ⟨rl, hrl, hfl⟩ := hl
    obtain ⟨rp, hrp, hfp⟩ := hp
    rw [chain_cons]
    refine ⟨rfl, rl, hrl, ?_⟩
    rw [hfl, chain_cons]
    refine ⟨rfl, rp, hrp, ?_⟩
    rw [hfp, ← chain_head f hc]
    refine chain_mono f (fun a ha r hr => ?_) hc
    have hax : a ≠ x := by
      rintro rfl
      simp at hnd
      exact hnd.1.2 ha
    exact hm a (List.mem_cons_of_mem _ ha) hax r hr
  | cons a A ih =>
    intro x hnd h hl hm
    rw [List.cons_append] at h hnd
    rw [chain_cons] at h
    obtain ⟨_, rx, hrx, hc⟩ := h
    have hfa : f rx = a := by simpa [headOr] using chain_head f hc
    rw [hfa] at hc
    have hnd' : (a :: (A ++ p :: B)).Nodup := (List.nodup_cons.1 hnd).2
    have h1 := ih hnd' hc hl (fun b hb => hm b (List.mem_cons_of_mem _ hb))
    have hx : x ≠ lastOr a A := by
      intro hx
      have hmem : lastOr a A ∈ a :: A := lastOr_mem a A
      have : x ∈ a :: (A ++ p :: B) := by
        rw [hx]
        rcases List.mem_cons.1 hmem with h | h
        · rw [h]; exact List.mem_cons_self _ _
        · exact List.mem_cons_of_mem _ (List.mem_append_left _ h)
      exact (List.nodup_cons.1 hnd).1 this
    obtain ⟨r', hr', hf'⟩ := hm x (List.mem_cons_self _ _) hx rx hrx
    rw [List.cons_append, chain_cons]
    exact ⟨rfl, r', hr', by rw [hf', hfa]; exact h1⟩

theorem rd_some {α : Type} {m : Ptr → Option α} {a : Ptr} {r : α} (h : m a = some r) :
    rd m a = .ok r := by
  simp [rd, h]

theorem upd_some {α : Type} {m : Ptr → Option α} {a : Ptr} {r : α} (f : α → α)
    (h : m a = some r) : upd m a f = .ok (Function.update m a (some (f r))) := by
  simp [upd, h]

/-- What the table gives about a record `c` of the list: its neighbours. -/
theorem table_nbrs {m : procmem} {A : List Ptr} {c : Ptr} {B : List Ptr}
    (hT : table m (A ++ c :: B)) :
    ∃ rc rp rn, m c = some rc ∧ rc.prev = lastOr dummyhead A ∧ rc.next = headOr dummyhead B ∧
      m (lastOr dummyhead A) = some rp ∧ rp.next = c ∧
      m (headOr dummyhead B) = some rn ∧ rn.prev = c ∧
      lastOr dummyhead A ≠ c ∧ headOr dummyhead B ≠ c := by
  obtain ⟨_, hnd, hn, hp⟩ := hT
  rw [← List.cons_append] at hn
  obtain ⟨hn1, rc, hrc, hn2⟩ := chain_split proc.next hn
  obtain ⟨rp, hrp, hrpn⟩ := chain_last proc.next hn1
  have hnext := chain_head proc.next hn2
  rw [List.reverse_append, List.reverse_cons, List.append_assoc, List.singleton_append,
    ← List.cons_append] at hp
  obtain ⟨hp1, rc', hrc', hp2⟩ := chain_split proc.prev hp
  rw [hrc] at hrc'
  cases hrc'
  obtain ⟨rn, hrn, hrnp⟩ := chain_last proc.prev hp1
  have hprev := chain_head proc.prev hp2
  rw [headOr_reverse] at hprev
  have hB : lastOr dummyhead B.reverse = headOr dummyhead B := by
    have := headOr_reverse dummyhead B.reverse
    rw [List.reverse_reverse] at this
    exact this.symm
  rw [hB] at hrn
  have hnd2 : (dummyhead :: A ++ c :: B).Nodup := by simpa using hnd
  have hcA : c ∉ dummyhead :: A := by
    intro h
    have := (List.nodup_append.1 hnd2).2.2
    exact this h (List.mem_cons_self _ _)
  have hcB : c ∉ B := by
    have := (List.nodup_append.1 hnd2).2.1
    exact (List.nodup_cons.1 this).1
  have hcd : c ≠ dummyhead := fun h => hcA (h ▸ List.mem_cons_self _ _)
  refine ⟨rc, rp, rn, hrc, hprev, hnext, hrp, hrpn, hrn, hrnp, ?_, ?_⟩
  · intro h
    exact hcA (h ▸ lastOr_mem dummyhead A)
  · intro h
    cases B with
    | nil => exact hcd (by simpa [headOr] using h.symm)
    | cons b B => exact hcB (by simp [headOr] at h; simp [h])

theorem data_link (r : proc) (a b : Ptr) : data { r with next := a, prev := b } = data r := rfl

theorem data_link_next (r : proc) (a : Ptr) : data { r with next := a } = data r := rfl

/-- Unlinking a record of a well-formed table. -/
theorem proc_remove_table {m : procmem} {A : List Ptr} {c : Ptr} {B : List Ptr}
    (hT : table m (A ++ c :: B)) :
    ∃ m', proc_remove m c = .ok m' ∧ table m' (A ++ B) ∧
      (∀ a, (m' a).map data = (m a).map data) ∧ m' c = m c := by
  obtain ⟨rc, rp, rn, hrc, hprev, hnext, hrp, hrpn, hrn, hrnp, hpc, hsc⟩ := table_nbrs hT
  obtain ⟨h0, hnd, hn, hp⟩ := hT
  set pred := lastOr dummyhead A with hpred
  set succ := headOr dummyhead B with hsucc
  set m1 : procmem := Function.update m pred (some { rp with next := rc.next }) with hm1
  have hm1c : m1 c = some rc := by
    simp [hm1, Function.update_apply, Ne.symm hpc, hrc]
  obtain ⟨rn1, hrn1, hrn1p⟩ : ∃ rn1, m1 succ = some rn1 ∧ data rn1 = data rn := by
    by_cases h : succ = pred
    · refine ⟨{ rp with next := rc.next }, by simp [hm1, h], ?_⟩
      have : rn = rp := by
        rw [h] at hrn; rw [hrp] at hrn; cases hrn; rfl
      rw [this]; rfl
    · exact ⟨rn, by simp [hm1, Function.update_apply, h, hrn], rfl⟩
  set m2 : procmem := Function.update m1 succ (some { rn1 with prev := rc.prev }) with hm2
  have hrun : proc_remove m c = .ok m2 := by
    simp only [proc_remove, bind, Except.bind, rd_some hrc]
    rw [hprev, upd_some _ hrp]
    simp only [← hm1, rd_some hm1c]
    rw [hnext, upd_some _ hrn1]
  have hnd' : (dummyhead :: (A ++ B)).Nodup := by
    have : (dummyhead :: (A ++ B)).Sublist (dummyhead :: (A ++ c :: B)) :=
      List.Sublist.cons₂ _ (List.Sublist.append_left (List.sublist_cons_self _ _) _)
    exact this.nodup hnd
  have hpred0 : pred ≠ 0 := by
    intro h; rw [h, h0] at hrp; cases hrp
  have hsucc0 : succ ≠ 0 := by
    intro h; rw [h, h0] at hrn; cases hrn
  refine ⟨m2, hrun, ⟨?_, hnd', ?_, ?_⟩, ?_, ?_⟩
  · simp [hm2, hm1, Function.update_apply, Ne.symm hpred0, Ne.symm hsucc0, h0]
  · have h1 : chain proc.next m1 dummyhead (dummyhead :: (A ++ B)) dummyhead :=
      chain_remove proc.next { rp with next := rc.next } hrc rfl hnd hn
    refine chain_mono proc.next (fun a _ r hr => ?_) h1
    by_cases h : a = succ
    · subst h
      rw [hrn1] at hr; cases hr
      exact ⟨{ rn1 with prev := rc.prev }, by simp [hm2], rfl⟩
    · exact ⟨r, by simp [hm2, Function.update_apply, h, hr], rfl⟩
  · have hp' : chain proc.prev m dummyhead (dummyhead :: (B.reverse ++ c :: A.reverse))
        dummyhead := by
      simpa using hp
    have hp1 : chain proc.prev m1 dummyhead (dummyhead :: (B.reverse ++ c :: A.reverse))
        dummyhead := by
      refine chain_mono proc.prev (fun a _ r hr => ?_) hp'
      by_cases h : a = pred
      · subst h
        rw [hrp] at hr; cases hr
        exact ⟨{ rp with next := rc.next }, by simp [hm1], rfl⟩
      · exact ⟨r, by simp [hm1, Function.update_apply, h, hr], rfl⟩
    have hndr : (dummyhead :: (B.reverse ++ c :: A.reverse)).Nodup := by
      have hperm : (dummyhead :: (B.reverse ++ c :: A.reverse)).Perm
          (dummyhead :: (A ++ c :: B)) := by
        refine List.Perm.cons _ ?_
        have : B.reverse ++ c :: A.reverse = (A ++ c :: B).reverse := by simp
        rw [this]
        exact List.reverse_perm _
      exact hperm.nodup_iff.2 hnd
    have h2 := chain_remove proc.prev { rn1 with prev := rc.prev } hm1c rfl hndr hp1
    have hB : lastOr dummyhead B.reverse = succ := by
      have := headOr_reverse dummyhead B.reverse
      rw [List.reverse_reverse] at this
      exact this.symm
    rw [hB] at h2
    simpa [hm2] using h2
  · intro a
    by_cases h : a = succ
    · subst h
      simp only [hm2, Function.update_same, Option.map_some', hrn]
      rw [data_link, hrn1p]
    · simp only [hm2, Function.update_apply, h, if_false]
      by_cases h' : a = pred
      · subst h'
        simp [hm1, hrp, data]
      · simp [hm1, Function.update_apply, h']
  · simp [hm2, hm1, Function.update_apply, Ne.symm hpc, Ne.symm hsc]

theorem acquire_eq {tp : Nat} {lk : lockid} {s : kernel} (h : s.locks lk = none) :
    acquire tp lk s = .ok (acquired tp lk s) := by
  simp [acquire, holding, push_off, h, acquired]

theorem release_eq {tp : Nat} {lk : lockid} {s : kernel} (h1 : s.locks lk = some tp)
    (h2 : s.intr tp = false) (h3 : 1 ≤ (s.cpus tp).noff) :
    release tp lk s = .ok (released tp lk s) := by
  have h4 : ¬ (s.cpus tp).noff < 1 := by omega
  simp [release, holding, pop_off, h1, h2, h4, released]

theorem locked_acquired (tp : Nat) (s : kernel) : locked tp (acquired tp .list_lock s) := by
  simp [locked, acquired, push_off]

theorem release_locked {tp : Nat} {s : kernel} (h : locked tp s) :
    release tp .list_lock s = .ok (released tp .list_lock s) :=
  release_eq h.1 h.2.1 h.2.2

@[simp] theorem acquired_procs (tp : Nat) (lk : lockid) (s : kernel) :
    (acquired tp lk s).procs = s.procs := rfl
@[simp] theorem acquired_pages (tp : Nat) (lk : lockid) (s : kernel) :
    (acquired tp lk s).pages = s.pages := rfl
@[simp] theorem acquired_user (tp : Nat) (lk : lockid) (s : kernel) :
    (acquired tp lk s).user = s.user := rfl
@[simp] theorem acquired_initproc (tp : Nat) (lk : lockid) (s : kernel) :
    (acquired tp lk s).initproc = s.initproc := rfl
@[simp] theorem acquired_nextpid (tp : Nat) (lk : lockid) (s : kernel) :
    (acquired tp lk s).nextpid = s.nextpid := rfl
@[simp] theorem acquired_curproc (tp : Nat) (lk : lockid) (s : kernel) :
    curproc (acquired tp lk s) tp = curproc s tp := by
  simp [curproc, acquired, push_off]
@[simp] theorem released_procs (tp : Nat) (lk : lockid) (s : kernel) :
    (released tp lk s).procs = s.procs := rfl
@[simp] theorem released_pages (tp : Nat) (lk : lockid) (s : kernel) :
    (released tp lk s).pages = s.pages := rfl
@[simp] theorem released_user (tp : Nat) (lk : lockid) (s : kernel) :
    (released tp lk s).user = s.user := rfl
@[simp] theorem released_initproc (tp : Nat) (lk : lockid) (s : kernel) :
    (released tp lk s).initproc = s.initproc := rfl
@[simp] theorem released_nextpid (tp : Nat) (lk : lockid) (s : kernel) :
    (released tp lk s).nextpid = s.nextpid := rfl
@[simp] theorem released_locks (tp : Nat) (lk : lockid) (s : kernel) :
    (released tp lk s).locks lk = none := by
  simp [released]
@[simp] theorem released_curproc (tp : Nat) (lk : lockid) (s : kernel) :
    curproc (released tp lk s) tp = curproc s tp := by
  simp [curproc, released]

theorem ok_bind {α β : Type} (v : α) (f : α → Except fault β) :
    (Except.ok v : Except fault α).bind f = f v := rfl

@[simp] theorem bracketed_procs (tp : Nat) (s : kernel) : (bracketed tp s).procs = s.procs := rfl
@[simp] theorem bracketed_pages (tp : Nat) (s : kernel) : (bracketed tp s).pages = s.pages := rfl
@[simp] theorem bracketed_user (tp : Nat) (s : kernel) : (bracketed tp s).user = s.user := rfl
@[simp] theorem bracketed_initproc (tp : Nat) (s : kernel) :
    (bracketed tp s).initproc = s.initproc := rfl
@[simp] theorem bracketed_nextpid (tp : Nat) (s : kernel) :
    (bracketed tp s).nextpid = s.nextpid := rfl
@[simp] theorem bracketed_locks (tp : Nat) (s : kernel) : (bracketed tp s).locks = s.locks := rfl

theorem bracketed_proc (tp : Nat) (s : kernel) (c : Nat) :
    ((bracketed tp s).cpus c).proc = (s.cpus c).proc := by
  by_cases h : c = tp
  · subst h; simp [bracketed]
  · simp [bracketed, Function.update_apply, h]

theorem bracketed_noff (tp : Nat) (s : kernel) (c : Nat) :
    ((bracketed tp s).cpus c).noff = (s.cpus c).noff := by
  by_cases h : c = tp
  · subst h; simp [bracketed]
  · simp [bracketed, Function.update_apply, h]

@[simp] theorem bracketed_curproc (tp : Nat) (s : kernel) (c : Nat) :
    curproc (bracketed tp s) c = curproc s c :=
  bracketed_proc tp s c

theorem bracketed_cpus_ne (tp : Nat) (s : kernel) {c : Nat} (h : c ≠ tp) :
    (bracketed tp s).cpus c = s.cpus c ∧ (bracketed tp s).intr c = s.intr c := by
  simp [bracketed, Function.update_apply, h]

/-- The function `myproc` always returns: the process of the core, and the
state its bracket leaves. -/
theorem myproc_eq (tp : Nat) (s : kernel) :
    myproc tp s = .ok (curproc s tp, bracketed tp s) := by
  unfold myproc pop_off push_off bracketed curproc
  by_cases h0 : (s.cpus tp).noff = 0 <;> by_cases hi : s.intr tp = true <;>
    simp [h0, hi, bind, Except.bind, Function.update_idem]

/-- Inside a critical section the bracket of `myproc` changes nothing. -/
theorem bracketed_of_off {tp : Nat} {s : kernel} (h2 : s.intr tp = false)
    (h3 : 1 ≤ (s.cpus tp).noff) : bracketed tp s = s := by
  have h0 : (s.cpus tp).noff ≠ 0 := by omega
  have e : Function.update s.intr tp false = s.intr := by
    rw [← h2, Function.update_eq_self]
  unfold bracketed
  simp only [h0, if_false, decide_False, Bool.false_and, e]
  simp

theorem bracketed_locked {tp : Nat} {s : kernel} (h : locked tp s) : bracketed tp s = s :=
  bracketed_of_off h.2.1 h.2.2

theorem push_off_bracketed (tp : Nat) (s : kernel) :
    push_off tp (bracketed tp s) = push_off tp s := by
  unfold push_off bracketed
  by_cases h0 : (s.cpus tp).noff = 0 <;> simp [h0, Function.update_idem]

/-- An `acquire` right after `myproc()` is the `acquire` alone. -/
theorem acquire_bracketed (tp : Nat) (lk : lockid) (s : kernel) :
    acquire tp lk (bracketed tp s) = acquire tp lk s := by
  unfold acquire
  rw [push_off_bracketed]

theorem bracketed_idem (tp : Nat) (s : kernel) :
    bracketed tp (bracketed tp s) = bracketed tp s := by
  unfold bracketed
  by_cases h0 : (s.cpus tp).noff = 0 <;> simp [h0, Function.update_idem]

theorem holding_bracketed (tp : Nat) (s : kernel) (lk : lockid) (c : Nat) :
    holding (bracketed tp s) lk c = holding s lk c := rfl

/-- With one lock held the bracket of `myproc` leaves the interrupts of the
core off. -/
theorem bracketed_intr_off {tp : Nat} {s : kernel} (h : (s.cpus tp).noff ≠ 0) :
    (bracketed tp s).intr tp = false := by
  simp [bracketed, h]

theorem bracketed_intena_off {tp : Nat} {s : kernel} (h : (s.cpus tp).noff ≠ 0) :
    ((bracketed tp s).cpus tp).intena = (s.cpus tp).intena := by
  simp [bracketed, h]

theorem locked_bracketed {tp : Nat} {s : kernel} (h : locked tp s) :
    locked tp (bracketed tp s) := by
  rw [bracketed_locked h]
  exact h

theorem wake_next (me chan a : Ptr) (r : proc) : (wake me chan a r).next = r.next := by
  unfold wake; split <;> rfl

theorem wake_prev (me chan a : Ptr) (r : proc) : (wake me chan a r).prev = r.prev := by
  unfold wake; split <;> rfl

theorem table_woken {m : procmem} {L : List Ptr} (me chan : Ptr) (hT : table m L) :
    table (woken m L me chan) L := by
  obtain ⟨h0, hnd, hn, hp⟩ := hT
  refine ⟨?_, hnd, ?_, ?_⟩
  · simp [woken, h0]
  · refine chain_mono proc.next (fun a _ r hr => ?_) hn
    by_cases h : a ∈ L
    · exact ⟨wake me chan a r, by simp [woken, h, hr], wake_next ..⟩
    · exact ⟨r, by simp [woken, h, hr], rfl⟩
  · refine chain_mono proc.prev (fun a _ r hr => ?_) hp
    by_cases h : a ∈ L
    · exact ⟨wake me chan a r, by simp [woken, h, hr], wake_prev ..⟩
    · exact ⟨r, by simp [woken, h, hr], rfl⟩

theorem table_head {m : procmem} {L : List Ptr} (hT : table m L) :
    ∃ d, m dummyhead = some d ∧ chain proc.next m d.next L dummyhead ∧
      dummyhead ∉ L ∧ L.Nodup := by
  obtain ⟨_, hnd, hn, _⟩ := hT
  rw [chain_cons] at hn
  obtain ⟨_, d, hd, hc⟩ := hn
  exact ⟨d, hd, hc, (List.nodup_cons.1 hnd).1, (List.nodup_cons.1 hnd).2⟩

/-- The scan of `wakeup_nolock` over the rest `L` of a well-formed list: the
records are woken, and the state is the one `myproc()` leaves as soon as one
round has run. -/
theorem wakeup_scan_eq (tp : Nat) (chan : Ptr) (L : List Ptr) :
    ∀ (fuel : Nat) (p : Ptr) (s : kernel), chain proc.next s.procs p L dummyhead →
      dummyhead ∉ L → L.Nodup → L.length < fuel →
      wakeup_scan tp chan fuel p s =
        .ok { (if L = [] then s else bracketed tp s) with
              procs := (fun a => if a ∈ L then (s.procs a).map (wake (curproc s tp) chan a)
                else s.procs a) } := by
  induction L with
  | nil =>
    intro fuel p s hc _ _ hf
    obtain ⟨n, rfl⟩ : ∃ n, fuel = n + 1 := ⟨fuel - 1, by simp at hf; omega⟩
    have hp : p = dummyhead := by simpa [chain_nil] using hc
    simp [wakeup_scan, hp]
  | cons a L ih =>
    intro fuel p s hc hd hnd hf
    obtain ⟨n, rfl⟩ : ∃ n, fuel = n + 1 := ⟨fuel - 1, by simp at hf; omega⟩
    rw [chain_cons] at hc
    obtain ⟨rfl, r, hr, hc⟩ := hc
    have hpd : p ≠ dummyhead := fun h => hd (h ▸ List.mem_cons_self _ _)
    have hpL : p ∉ L := (List.nodup_cons.1 hnd).1
    set me := curproc s tp with hme
    set m1 : procmem := Function.update s.procs p (some (wake me chan p r)) with hm1
    set s1 : kernel := { bracketed tp s with procs := m1 } with hs1
    have hsame : ({ bracketed tp s with procs := Function.update s.procs p (some r) } : kernel) =
        bracketed tp s := by
      rw [← hr, Function.update_eq_self]
      rfl
    have hstep : (if p ≠ me then (do
          let r ← rd (bracketed tp s).procs p
          if r.state = .SLEEPING ∧ r.chan = chan then (do
            let procs ← upd (bracketed tp s).procs p (fun r => { r with state := .RUNNABLE })
            pure { bracketed tp s with procs := procs })
          else pure (bracketed tp s))
        else pure (bracketed tp s)) = (.ok s1 : Except fault kernel) := by
      by_cases h1 : p = me
      · simp only [h1, ne_eq, not_true_eq_false, if_false, hs1, hm1, wake, false_and, pure,
          Except.pure]
        rw [← h1, hsame]
      · by_cases h2 : r.state = .SLEEPING ∧ r.chan = chan
        · simp only [ne_eq, h1, not_false_eq_true, if_true, bind, Except.bind, bracketed_procs,
            rd_some hr, h2, and_self, upd_some _ hr, hs1, hm1, wake, pure, Except.pure]
        · simp only [ne_eq, h1, not_false_eq_true, if_true, bind, Except.bind, bracketed_procs,
            rd_some hr, h2, if_false, hs1, hm1, wake, true_and, pure, Except.pure]
          rw [hsame]
    have hr1 : s1.procs p = some (wake me chan p r) := by simp [hs1, hm1]
    have hnext : (wake me chan p r).next = r.next := by
      unfold wake; split <;> rfl
    have hc1 : chain proc.next s1.procs r.next L dummyhead :=
      chain_congr proc.next (fun b hb => by
        have : b ≠ p := fun h => hpL (h ▸ hb)
        simp [hs1, hm1, Function.update_apply, this]) hc
    have hrun := ih n r.next s1 hc1 (fun h => hd (List.mem_cons_of_mem _ h))
      (List.nodup_cons.1 hnd).2 (by simp at hf; omega)
    have hb : bracketed tp s1 = s1 := by
      show ({ bracketed tp (bracketed tp s) with procs := m1 } : kernel) = _
      rw [bracketed_idem]
    have hcur : curproc s1 tp = me := bracketed_curproc tp s tp
    simp only [bind, Except.bind] at hstep
    simp only [wakeup_scan, hpd, if_false, bind, Except.bind, myproc_eq]
    rw [← hme]
    simp only [hstep, rd_some hr1, hnext, hrun, hb, ite_self, hcur]
    refine congrArg (fun m => Except.ok ({ bracketed tp s with procs := m } : kernel)) ?_
    funext b
    by_cases hbp : b = p
    · subst hbp
      have hr1' : m1 b = some (wake me chan b r) := hr1
      simp [hpL, hr1', hr]
    · simp [hbp, hs1, hm1, Function.update_apply]

/-- The function `wakeup_nolock` on a well-formed table: the records are
woken; the rest of the state is as `myproc()` leaves it. -/
theorem wakeup_nolock_run {s : kernel} {L : List Ptr} (tp : Nat) (chan : Ptr) {fuel : Nat}
    (hT : table s.procs L) (hfuel : L.length < fuel) :
    wakeup_nolock tp chan fuel s =
      .ok { (if L = [] then s else bracketed tp s) with
            procs := woken s.procs L (curproc s tp) chan } := by
  obtain ⟨d, hd, hc, hdL, hnd⟩ := table_head hT
  simp only [wakeup_nolock, bind, Except.bind, rd_some hd,
    wakeup_scan_eq tp chan L fuel d.next s hc hdL hnd hfuel]
  rfl

/-- The function `wakeup_nolock` called inside a critical section. -/
theorem wakeup_nolock_eq {s : kernel} {L : List Ptr} (tp : Nat) (chan : Ptr) {fuel : Nat}
    (hT : table s.procs L) (hfuel : L.length < fuel) (hoff : s.intr tp = false)
    (hdepth : 1 ≤ (s.cpus tp).noff) :
    wakeup_nolock tp chan fuel s =
      .ok { s with procs := woken s.procs L (curproc s tp) chan } := by
  rw [wakeup_nolock_run tp chan hT hfuel, bracketed_of_off hoff hdepth, ite_self]

/-- C4: on a well-formed table, `wakeup_nolock(chan)` (and `wakeup(chan)`
when the lock is free) makes every record other than the caller that was
SLEEPING on `chan` RUNNABLE, changing nothing but its state, and leaves every
other record, the caller's own record and the list itself as they were.  The
locks, the pages, the user memory and the process of every core are as
before; called inside a critical section (interrupts off, nesting depth at
least 1) it leaves the cores and the interrupt bits untouched as well. -/
theorem wakeup_wakes_exactly_the_sleepers (s : kernel) (L : List Ptr) (tp : Nat) (chan : Ptr)
    (fuel : Nat) (hT : table s.procs L) (hfuel : L.length < fuel) :
    ∃ s', wakeup_nolock tp chan fuel s = .ok s' ∧
      (s.locks .list_lock = none →
        ∃ s'', wakeup tp chan fuel s = .ok s'' ∧ s''.procs = s'.procs ∧
          s''.locks .list_lock = none) ∧
      table s'.procs L ∧
      (∀ a ∈ L, ∀ r, s.procs a = some r → a ≠ curproc s tp → r.state = .SLEEPING →
        r.chan = chan → s'.procs a = some { r with state := .RUNNABLE }) ∧
      (∀ a r, s.procs a = some r → (a = curproc s tp ∨ r.state ≠ .SLEEPING ∨ r.chan ≠ chan) →
        s'.procs a = some r) ∧
      (∀ a, a ∉ L → s'.procs a = s.procs a) ∧
      s'.locks = s.locks ∧ s'.pages = s.pages ∧ s'.user = s.user ∧
      (∀ c, curproc s' c = curproc s c) ∧
      (s.intr tp = false → 1 ≤ (s.cpus tp).noff → s'.cpus = s.cpus ∧ s'.intr = s.intr) := by
  refine ⟨_, wakeup_nolock_run tp chan hT hfuel, ?_, table_woken _ _ hT, ?_, ?_, ?_,
    ?_, ?_, ?_, ?_, ?_⟩
  · intro hfree
    have hT' : table (acquired tp .list_lock s).procs L := hT
    have hl : locked tp { acquired tp .list_lock s with
        procs := woken s.procs L (curproc s tp) chan } := locked_acquired tp s
    have hla := locked_acquired tp s
    refine ⟨released tp .list_lock { acquired tp .list_lock s with
        procs := woken s.procs L (curproc s tp) chan }, ?_, rfl, by simp⟩
    simp only [wakeup, bind, Except.bind, acquire_eq hfree,
      wakeup_nolock_eq tp chan hT' hfuel hla.2.1 hla.2.2]
    rw [acquired_procs, acquired_curproc]
    exact release_locked hl
  · intro a ha r hr hme hst hch
    simp [woken, ha, hr, wake, hme, hst, hch]
  · intro a r hr h
    by_cases ha : a ∈ L
    · have : ¬ (a ≠ curproc s tp ∧ r.state = .SLEEPING ∧ r.chan = chan) := by
        rintro ⟨h1, h2, h3⟩
        rcases h with h | h | h
        · exact h1 h
        · exact h h2
        · exact h h3
      simp only [woken, ha, if_true, hr, Option.map_some', wake, this, if_false]
    · simp [woken, ha, hr]
  · intro a ha
    simp [woken, ha]
  · split <;> rfl
  · split <;> rfl
  · split <;> rfl
  · intro c
    split
    · rfl
    · exact bracketed_curproc tp s c
  · intro hoff hdepth
    rw [bracketed_of_off hoff hdepth, ite_self]
    exact ⟨rfl, rfl⟩

set_option maxRecDepth 4000 in
/-- Witness for C4: the child at `3` sleeps on channel `7` and the root at `2`
calls the wakeup. -/
theorem wakeup_wakes_exactly_the_sleepers_witness :
    table (ex_kernel ex_sleeper 2 2).procs [3, 2] ∧
    ∃ s', wakeup_nolock 0 7 3 (ex_kernel ex_sleeper 2 2) = .ok s' ∧
      s'.procs 3 = some { ex_proc 2 .SLEEPING 2 7 2 1 with state := .RUNNABLE } := by
  have hT : table (ex_kernel ex_sleeper 2 2).procs [3, 2] := by decide
  obtain ⟨s', h1, _, _, h2, _⟩ :=
    wakeup_wakes_exactly_the_sleepers (ex_kernel ex_sleeper 2 2) [3, 2] 0 7 3 hT (by decide)
  exact ⟨hT, s', h1, h2 3 (by decide) _ rfl (by decide) rfl rfl⟩

theorem table_mono {m m' : procmem} {L : List Ptr} (hT : table m L) (h0 : m' 0 = none)
    (hm : ∀ a ∈ dummyhead :: L, ∀ r, m a = some r →
      ∃ r', m' a = some r' ∧ r'.next = r.next ∧ r'.prev = r.prev) : table m' L := by
  obtain ⟨_, hnd, hn, hp⟩ := hT
  refine ⟨h0, hnd, ?_, ?_⟩
  · refine chain_mono proc.next (fun a ha r hr => ?_) hn
    obtain ⟨r', h1, h2, _⟩ := hm a ha r hr
    exact ⟨r', h1, h2⟩
  · refine chain_mono proc.prev (fun a ha r hr => ?_) hp
    have ha' : a ∈ dummyhead :: L := by
      rcases List.mem_cons.1 ha with h | h
      · exact h ▸ List.mem_cons_self _ _
      · exact List.mem_cons_of_mem _ (List.mem_reverse.1 h)
    obtain ⟨r', h1, _, h3⟩ := hm a ha' r hr
    exact ⟨r', h1, h3⟩

theorem table_alloc {m : procmem} {L : List Ptr} (hT : table m L) :
    ∀ a ∈ dummyhead :: L, ∃ r, m a = some r :=
  chain_alloc proc.next hT.2.2.1

theorem table_mem_ne_zero {m : procmem} {L : List Ptr} (hT : table m L) {a : Ptr}
    (ha : a ∈ dummyhead :: L) : a ≠ 0 := by
  intro h
  obtain ⟨r, hr⟩ := table_alloc hT a ha
  rw [h, hT.1] at hr
  cases hr

theorem split_not_mem {A : List Ptr} {c : Ptr} {B : List Ptr}
    (hnd : (dummyhead :: (A ++ c :: B)).Nodup) : c ∉ dummyhead :: (A ++ B) := by
  have h1 := List.nodup_cons.1 hnd
  have h2 := List.nodup_append.1 h1.2
  have h3 := List.nodup_cons.1 h2.2.1
  intro h
  rcases List.mem_cons.1 h with h | h
  · exact h1.1 (h ▸ by simp)
  · rcases List.mem_append.1 h with h | h
    · exact h2.2.2 h (List.mem_cons_self _ _)
    · exact h3.1 h

/-- The effect of `freeproc` on a record of a well-formed table. -/
theorem freeproc_table {s : kernel} {A : List Ptr} {c : Ptr} {B : List Ptr} {rc : proc}
    (hT : table s.procs (A ++ c :: B)) (hrc : s.procs c = some rc) :
    ∃ procs', freeproc c s = .ok
        { s with
          procs := procs'
          pages := (if rc.trapframe ≠ 0 then Function.update
              (if rc.kstack ≠ 0 then Function.update s.pages rc.kstack none else s.pages)
              rc.trapframe none
            else (if rc.kstack ≠ 0 then Function.update s.pages rc.kstack none else s.pages))
          user := (if rc.pagetable ≠ 0 then Function.update s.user rc.pagetable (fun _ => none)
            else s.user) } ∧
      table procs' (A ++ B) ∧ procs' c = none ∧
      (∀ a, a ≠ c → (procs' a).map data = (s.procs a).map data) := by
  set m1 : procmem := Function.update s.procs c (some { rc with kstack := 0 }) with hm1
  set m2 : procmem := Function.update m1 c (some { rc with kstack := 0, trapframe := 0 }) with hm2
  have hT2 : table m2 (A ++ c :: B) := by
    refine table_mono hT ?_ (fun a _ r hr => ?_)
    · have : (0 : Ptr) ≠ c := fun h =>
        table_mem_ne_zero hT (a := c) (by simp) h.symm
      simp [hm2, hm1, Function.update_apply, this, hT.1]
    · by_cases h : a = c
      · subst h
        rw [hrc] at hr; cases hr
        exact ⟨{ rc with kstack := 0, trapframe := 0 }, by simp [hm2], rfl, rfl⟩
      · exact ⟨r, by simp [hm2, hm1, Function.update_apply, h, hr], rfl, rfl⟩
  obtain ⟨m3, hrm, hT3, hdata, hm3c⟩ := proc_remove_table hT2
  have hcn : c ∉ dummyhead :: (A ++ B) := split_not_mem hT.2.1
  refine ⟨Function.update m3 c none, ?_, ?_, by simp, ?_⟩
  · have e1 : s.procs c = some rc := hrc
    simp only [freeproc, bind, Except.bind, rd_some hrc]
    have hk : ∀ t : kernel, t.procs = s.procs → upd t.procs c (fun r => { r with kstack := 0 })
        = .ok m1 := fun t ht => by rw [ht, upd_some _ hrc]
    have hm1c : m1 c = some { rc with kstack := 0 } := by simp [hm1]
    have hm2c : m2 c = some { rc with kstack := 0, trapframe := 0 } := by simp [hm2]
    have e2 : ∀ (b : Prop) [Decidable b] (a : Ptr) (t : kernel),
        (if b then kfree a t else t).procs = t.procs := fun b _ a t => by split <;> rfl
    have e3 : ∀ (b : Prop) [Decidable b] (a : Ptr) (z : Nat) (t : kernel),
        (if b then proc_freepagetable a z t else t).procs = t.procs :=
      fun b _ a z t => by split <;> rfl
    simp only [e2, e3, upd_some _ hrc, ← hm1, rd_some hm1c, upd_some _ hm1c, ← hm2,
      rd_some hm2c, hrm]
    by_cases h1 : rc.kstack = 0 <;> by_cases h2 : rc.trapframe = 0 <;>
      by_cases h3 : rc.pagetable = 0 <;>
      simp [h1, h2, h3, kfree, proc_freepagetable]
  · refine table_mono hT3 (by simp [Function.update_apply, hT3.1]) (fun a ha r hr => ?_)
    have : a ≠ c := fun h => hcn (h ▸ ha)
    exact ⟨r, by simp [Function.update_apply, this, hr], rfl, rfl⟩
  · intro a ha
    rw [Function.update_noteq ha, hdata a]
    simp [hm2, hm1, Function.update_apply, ha]

theorem kill_scan_eq (tp : Nat) (pid : Int) {s : kernel} {c : Ptr} {B : List Ptr} {rc : proc}
    (hl : locked tp s) (hrc : s.procs c = some rc) (hpid : rc.pid = pid) (A : List Ptr) :
    ∀ (fuel : Nat) (p : Ptr), chain proc.next s.procs p (A ++ c :: B) dummyhead →
      dummyhead ∉ A ++ c :: B → (∀ a ∈ A, has_pid s.procs pid a = false) →
      (A ++ c :: B).length < fuel →
      kill_scan tp pid fuel p s = .ok (0, released tp .list_lock
        { s with procs := Function.update s.procs c (some (kill_rec rc)) }) := by
  subst hpid
  induction A with
  | nil =>
    intro fuel p hc hd _ hf
    obtain ⟨n, rfl⟩ : ∃ n, fuel = n + 1 := ⟨fuel - 1, by simp at hf; omega⟩
    rw [List.nil_append, chain_cons] at hc
    obtain ⟨rfl, _, _, _⟩ := hc
    have hpd : p ≠ dummyhead := fun h => hd (h ▸ by simp)
    have hl' : locked tp { s with procs := Function.update s.procs p (some (kill_rec rc)) } := hl
    have hupd : ∀ m : procmem, m p = some { rc with killed := 1 } →
        (if rc.state = .SLEEPING then upd m p (fun r => { r with state := .RUNNABLE })
          else pure m) = .ok (Function.update m p (some (kill_rec rc))) := by
      intro m hm
      by_cases h : rc.state = .SLEEPING
      · simp [h, upd_some _ hm, kill_rec]
      · simp only [h, if_false, kill_rec]
        rw [← hm, Function.update_eq_self]; rfl
    simp only [kill_scan, hpd, if_false, bind, Except.bind, rd_some hrc, if_true,
      upd_some _ hrc, rd_some (Function.update_same p _ s.procs),
      hupd _ (Function.update_same p _ s.procs), Function.update_idem]
    rw [release_locked hl']
  | cons a A ih =>
    intro fuel p hc hd hA hf
    obtain ⟨n, rfl⟩ : ∃ n, fuel = n + 1 := ⟨fuel - 1, by simp at hf; omega⟩
    rw [List.cons_append, chain_cons] at hc
    obtain ⟨rfl, r, hr, hc⟩ := hc
    have hpd : p ≠ dummyhead := fun h => hd (h ▸ by simp)
    have hne : r.pid ≠ rc.pid := by
      have := hA p (List.mem_cons_self _ _)
      simpa [has_pid, hr] using this
    simp only [kill_scan, hpd, if_false, bind, Except.bind, rd_some hr, hne]
    exact ih n r.next hc (fun h => hd (List.mem_cons_of_mem _ h))
      (fun b hb => hA b (List.mem_cons_of_mem _ hb)) (by simp at hf ⊢; omega)

/-- C5: on a well-formed table whose first record with the given pid is `c`,
`kill(pid)` returns 0, sets `killed` at `c`, makes it RUNNABLE when it was
SLEEPING and leaves its state alone otherwise, keeps its `chan`, and changes
no other record. -/
theorem kill_wakes_sleeper_keeps_chan (s : kernel) (L : List Ptr) (tp : Nat) (pid : Int)
    (c : Ptr) (rc : proc) (fuel : Nat) (hT : table s.procs L)
    (hfree : s.locks .list_lock = none)
    (hfind : L.find? (has_pid s.procs pid) = some c) (hrc : s.procs c = some rc)
    (hfuel : L.length < fuel) :
    ∃ s', kill tp pid fuel s = .ok (0, s') ∧
      (rc.state = .SLEEPING →
        s'.procs c = some { rc with killed := 1, state := .RUNNABLE }) ∧
      (rc.state ≠ .SLEEPING → s'.procs c = some { rc with killed := 1 }) ∧
      (∃ r', s'.procs c = some r' ∧ r'.killed = 1 ∧ r'.chan = rc.chan ∧ r'.pid = pid) ∧
      (∀ a, a ≠ c → s'.procs a = s.procs a) ∧
      table s'.procs L ∧ s'.locks .list_lock = none := by
  obtain ⟨hp, A, B, rfl, hA⟩ := List.find?_eq_some.1 hfind
  have hpid : rc.pid = pid := by simpa [has_pid, hrc] using hp
  obtain ⟨d, hd, hc, hdL, _⟩ := table_head hT
  have hA' : ∀ a ∈ A, has_pid (acquired tp .list_lock s).procs pid a = false := by
    intro a ha
    simpa using hA a ha
  have hrun := kill_scan_eq tp pid (s := acquired tp .list_lock s) (B := B)
    (locked_acquired tp s) hrc hpid A fuel d.next hc hdL hA' hfuel
  refine ⟨released tp .list_lock { acquired tp .list_lock s with
      procs := Function.update s.procs c (some (kill_rec rc)) }, ?_, ?_, ?_, ?_, ?_, ?_, ?_⟩
  · simp only [kill, bind, Except.bind, acquire_eq hfree, acquired_procs, rd_some hd]
    exact hrun
  · intro h
    simp [kill_rec, h]
  · intro h
    simp [kill_rec, h]
  · exact ⟨kill_rec rc, by simp, rfl, rfl, hpid⟩
  · intro a ha
    simp [Function.update_apply, ha]
  · refine table_mono hT ?_ (fun a _ r hr => ?_)
    · have : (0 : Ptr) ≠ c := fun h => table_mem_ne_zero hT (a := c) (by simp) h.symm
      simp [Function.update_apply, this, hT.1]
    · by_cases h : a = c
      · subst h
        rw [hrc] at hr; cases hr
        exact ⟨kill_rec rc, by simp, rfl, rfl⟩
      · exact ⟨r, by simp [Function.update_apply, h, hr], rfl, rfl⟩
  · simp

set_option maxRecDepth 4000 in
/-- Witness for C5: the child with pid `2` sleeps on channel `7` and is killed. -/
theorem kill_wakes_sleeper_keeps_chan_witness :
    table (ex_kernel ex_sleeper 2 2).procs [3, 2] ∧
    ∃ s', kill 0 2 3 (ex_kernel ex_sleeper 2 2) = .ok (0, s') ∧
      s'.procs 3 = some { ex_proc 2 .SLEEPING 2 7 2 1 with killed := 1, state := .RUNNABLE } := by
  have hT : table (ex_kernel ex_sleeper 2 2).procs [3, 2] := by decide
  obtain ⟨s', h1, h2, _⟩ :=
    kill_wakes_sleeper_keeps_chan (ex_kernel ex_sleeper 2 2) [3, 2] 0 2 3
      (ex_proc 2 .SLEEPING 2 7 2 1) 3 hT rfl (by decide) rfl (by decide)
  exact ⟨hT, s', h1, h2 rfl⟩

/-- The scan of `wait` over a stretch of the list without ZOMBIE children. -/
theorem wait_scan_none (tp : Nat) (p : Ptr) (addr : Nat) (s : kernel) (L : List Ptr) :
    ∀ (fuel : Nat) (q : Ptr) (hk : Bool), chain proc.next s.procs q L dummyhead →
      dummyhead ∉ L → (∀ a ∈ L, zombie_child s.procs p a = false) → L.length < fuel →
      wait_scan tp p addr fuel q hk s = .ok (none, hk || L.any (is_child s.procs p), s) := by
  induction L with
  | nil =>
    intro fuel q hk hc _ _ hf
    obtain ⟨n, rfl⟩ : ∃ n, fuel = n + 1 := ⟨fuel - 1, by simp at hf; omega⟩
    have hq : q = dummyhead := by simpa [chain_nil] using hc
    simp [wait_scan, hq]
  | cons a L ih =>
    intro fuel q hk hc hd hz hf
    obtain ⟨n, rfl⟩ : ∃ n, fuel = n + 1 := ⟨fuel - 1, by simp at hf; omega⟩
    rw [chain_cons] at hc
    obtain ⟨rfl, r, hr, hc⟩ := hc
    have hqd : q ≠ dummyhead := fun h => hd (h ▸ by simp)
    have hz1 : ¬ (r.parent = p ∧ r.state = .ZOMBIE) := by
      have := hz q (List.mem_cons_self _ _)
      simpa [zombie_child, hr] using this
    have ih' := fun hk' => ih n r.next hk' hc (fun h => hd (List.mem_cons_of_mem _ h))
      (fun b hb => hz b (List.mem_cons_of_mem _ hb)) (by simp at hf ⊢; omega)
    simp only [wait_scan, hqd, if_false, bind, Except.bind, rd_some hr]
    by_cases h1 : r.parent = p
    · have h2 : r.state ≠ .ZOMBIE := fun h => hz1 ⟨h1, h⟩
      simp [h1, h2, ih', is_child, hr]
    · simp [h1, ih', is_child, hr]

/-- The scan of `wait` up to the first ZOMBIE child. -/
theorem wait_scan_found (tp : Nat) (p : Ptr) (addr : Nat) (s : kernel) {c : Ptr}
    {B : List Ptr} (hz : zombie_child s.procs p c = true) (A : List Ptr) :
    ∀ (fuel : Nat) (q : Ptr) (hk : Bool), chain proc.next s.procs q (A ++ c :: B) dummyhead →
      dummyhead ∉ A ++ c :: B → (∀ a ∈ A, zombie_child s.procs p a = false) →
      (A ++ c :: B).length < fuel →
      wait_scan tp p addr fuel q hk s =
        (wait_found tp p addr c s).bind (fun vs => .ok (some vs.1, true, vs.2)) := by
  induction A with
  | nil =>
    intro fuel q hk hc hd _ hf
    obtain ⟨n, rfl⟩ : ∃ n, fuel = n + 1 := ⟨fuel - 1, by simp at hf; omega⟩
    rw [List.nil_append, chain_cons] at hc
    obtain ⟨rfl, r, hr, _⟩ := hc
    have hqd : q ≠ dummyhead := fun h => hd (h ▸ by simp)
    have hz1 : r.parent = p ∧ r.state = .ZOMBIE := by
      simpa [zombie_child, hr] using hz
    simp only [wait_scan, hqd, if_false, bind, Except.bind, rd_some hr, hz1.1, hz1.2, if_true]
  | cons a A ih =>
    intro fuel q hk hc hd hA hf
    obtain ⟨n, rfl⟩ : ∃ n, fuel = n + 1 := ⟨fuel - 1, by simp at hf; omega⟩
    rw [List.cons_append, chain_cons] at hc
    obtain ⟨rfl, r, hr, hc⟩ := hc
    have hqd : q ≠ dummyhead := fun h => hd (h ▸ by simp)
    have hz1 : ¬ (r.parent = p ∧ r.state = .ZOMBIE) := by
      have := hA q (List.mem_cons_self _ _)
      simpa [zombie_child, hr] using this
    have ih' := fun hk' => ih n r.next hk' hc (fun h => hd (List.mem_cons_of_mem _ h))
      (fun b hb => hA b (List.mem_cons_of_mem _ hb)) (by simp at hf ⊢; omega)
    simp only [wait_scan, hqd, if_false, bind, Except.bind, rd_some hr]
    by_cases h1 : r.parent = p
    · have h2 : r.state ≠ .ZOMBIE := fun h => hz1 ⟨h1, h⟩
      simp only [h1, h2, if_true, if_false]
      exact ih' true
    · simp only [h1, if_false]
      exact ih' hk

theorem erase_split {A : List Ptr} {c : Ptr} {B : List Ptr}
    (hnd : (dummyhead :: (A ++ c :: B)).Nodup) : (A ++ c :: B).erase c = A ++ B := by
  have hcA : c ∉ A := fun h => split_not_mem hnd (List.mem_cons_of_mem _ (List.mem_append_left _ h))
  rw [List.erase_append_right _ hcA, List.erase_cons_head]

theorem locked_congr {tp : Nat} {s s' : kernel} (h : locked tp s) (h1 : s'.locks = s.locks)
    (h2 : s'.cpus = s.cpus) (h3 : s'.intr = s.intr) : locked tp s' := by
  unfold locked at h ⊢
  rw [h1, h2, h3]
  exact h

/-- The state `freeproc` leaves on a record of a well-formed table. -/
theorem freeproc_ok {s : kernel} {A : List Ptr} {c : Ptr} {B : List Ptr} {rc : proc}
    (hT : table s.procs (A ++ c :: B)) (hrc : s.procs c = some rc) :
    ∃ s', freeproc c s = .ok s' ∧ table s'.procs (A ++ B) ∧ s'.procs c = none ∧
      (∀ a, a ≠ c → (s'.procs a).map data = (s.procs a).map data) ∧
      s'.user = (if rc.pagetable ≠ 0 then Function.update s.user rc.pagetable (fun _ => none)
        else s.user) ∧
      s'.pages = (if rc.trapframe ≠ 0 then Function.update
              (if rc.kstack ≠ 0 then Function.update s.pages rc.kstack none else s.pages)
              rc.trapframe none
            else (if rc.kstack ≠ 0 then Function.update s.pages rc.kstack none else s.pages)) ∧
      s'.locks = s.locks ∧ s'.cpus = s.cpus ∧ s'.intr = s.intr ∧
      s'.initproc = s.initproc ∧ s'.nextpid = s.nextpid := by
  obtain ⟨procs', h1, h2, h3, h4⟩ := freeproc_table hT hrc
  exact ⟨_, h1, h2, h3, h4, rfl, rfl, rfl, rfl, rfl, rfl, rfl⟩

/-- The block of `wait` run on a ZOMBIE child when the status can be copied. -/
theorem wait_found_copies {s : kernel} (tp : Nat) {p : Ptr} {addr : Nat} {c : Ptr} {rc : proc}
    (hrc : s.procs c = some rc)
    (hcopy : addr = 0 ∨ ∃ pr, s.procs p = some pr ∧ s.user pr.pagetable addr ≠ none) :
    ∃ u, wait_found tp p addr c s =
        (freeproc c { s with user := u }).bind
          (fun t => (release tp .list_lock t).bind (fun t' => .ok (rc.pid, t'))) ∧
      (∀ pr, addr ≠ 0 → s.procs p = some pr → u pr.pagetable addr = some rc.xstate) := by
  by_cases h0 : addr = 0
  · refine ⟨s.user, ?_, fun _ h => absurd h0 h⟩
    simp only [wait_found, bind, Except.bind, rd_some hrc, h0, ne_eq, not_true_eq_false,
      if_false, pure, Except.pure]
  · rcases hcopy with h | ⟨pr, hpr, hmap⟩
    · exact absurd h h0
    · obtain ⟨v, hv⟩ := Option.ne_none_iff_exists'.1 hmap
      refine ⟨Function.update s.user pr.pagetable
        (Function.update (s.user pr.pagetable) addr (some rc.xstate)), ?_, ?_⟩
      · simp only [wait_found, bind, Except.bind, rd_some hrc, h0, ne_eq, not_false_eq_true,
          if_true, rd_some hpr, pure, Except.pure, copyout, hv]
      · intro pr' _ hpr'
        rw [hpr] at hpr'; cases hpr'
        simp

/-- A call of `wait` that finds a ZOMBIE child and can deliver its status. -/
theorem wait_reaps {s : kernel} {L : List Ptr} {tp : Nat} {addr : Nat} {c : Ptr} {rc : proc}
    {fuel : Nat} (hT : table s.procs L) (hfree : s.locks .list_lock = none)
    (hfind : L.find? (zombie_child s.procs (curproc s tp)) = some c)
    (hrc : s.procs c = some rc)
    (hcopy : addr = 0 ∨ ∃ pr, s.procs (curproc s tp) = some pr ∧ s.user pr.pagetable addr ≠ none)
    (hfuel : L.length < fuel) :
    ∃ s', wait tp addr fuel s = .ok (.ret rc.pid, s') ∧
      table s'.procs (L.erase c) ∧ c ∉ L.erase c ∧ s'.procs c = none ∧
      (∀ a, a ≠ c → (s'.procs a).map data = (s.procs a).map data) ∧
      (∀ pr, addr ≠ 0 → s.procs (curproc s tp) = some pr → rc.pagetable ≠ pr.pagetable →
        s'.user pr.pagetable addr = some rc.xstate) ∧
      s'.locks .list_lock = none := by
  obtain ⟨hz, A, B, rfl, hA⟩ := List.find?_eq_some.1 hfind
  obtain ⟨d, hd, hc, hdL, _⟩ := table_head hT
  rw [erase_split hT.2.1]
  set s1 := acquired tp .list_lock s with hs1
  have hA' : ∀ a ∈ A, zombie_child s1.procs (curproc s tp) a = false := by
    intro a ha
    simpa using hA a ha
  have hscan := wait_scan_found tp (curproc s tp) addr s1 (B := B) hz A fuel d.next false
    hc hdL hA' hfuel
  obtain ⟨u, hu, huser⟩ := wait_found_copies (s := s1) tp hrc hcopy
  obtain ⟨s3, hfree', hT', hcnone, hdata, huser3, _, hlk, hcpu, hintr, _, _⟩ :=
    freeproc_ok (s := { s1 with user := u }) hT hrc
  have hl : locked tp s3 := locked_congr (locked_acquired tp s) hlk hcpu hintr
  refine ⟨released tp .list_lock s3, ?_, hT', split_not_mem hT.2.1 ∘ List.mem_cons_of_mem _,
    hcnone, hdata, ?_, by simp⟩
  · have hd1 : rd s1.procs dummyhead = .ok d := rd_some hd
    simp only [wait, bind, Except.bind, myproc_eq, acquire_bracketed, acquire_eq hfree, ← hs1,
      wait_loop]
    rw [hs1, acquired_curproc, ← hs1, hd1]
    simp only [hscan, hu, Except.bind, hfree', release_locked hl]
  · intro pr h0 hpr hne
    have := huser pr h0 hpr
    rw [released_user, huser3]
    by_cases hpt : rc.pagetable = 0
    · simp [hpt, this]
    · simp [hpt, Function.update_apply, Ne.symm hne, this]

/-- C1: on a well-formed table in which `c` is the first ZOMBIE child of the
caller in list order, when the status can be copied out (or `addr` is 0),
`wait` returns the pid of `c`, the value copied to `addr` is the `xstate` of
`c`, and afterwards `c` is gone from the table (unlinked and freed) while the
other records keep their contents and their relative order. -/
theorem wait_reaps_first_zombie (s : kernel) (L : List Ptr) (tp : Nat) (addr : Nat) (c : Ptr)
    (rc : proc) (fuel : Nat) (hT : table s.procs L) (hfree : s.locks .list_lock = none)
    (hfind : L.find? (zombie_child s.procs (curproc s tp)) = some c)
    (hrc : s.procs c = some rc)
    (hcopy : addr = 0 ∨ ∃ pr, s.procs (curproc s tp) = some pr ∧ s.user pr.pagetable addr ≠ none)
    (hfuel : L.length < fuel) :
    ∃ s', wait tp addr fuel s = .ok (.ret rc.pid, s') ∧
      (∀ pr, addr ≠ 0 → s.procs (curproc s tp) = some pr → rc.pagetable ≠ pr.pagetable →
        s'.user pr.pagetable addr = some rc.xstate) ∧
      table s'.procs (L.erase c) ∧ c ∉ L.erase c ∧ s'.procs c = none ∧
      (∀ a, a ≠ c → (s'.procs a).map data = (s.procs a).map data) ∧
      s'.locks .list_lock = none := by
  obtain ⟨s', h1, h2, h3, h4, h5, h6, h7⟩ := wait_reaps hT hfree hfind hrc hcopy hfuel
  exact ⟨s', h1, h6, h2, h3, h4, h5, h7⟩

set_option maxRecDepth 4000 in
/-- Witness for C1: the root at `2` reaps its ZOMBIE child at `3`, whose pid is
`2` and whose exit status is `7`. -/
theorem wait_reaps_first_zombie_witness :
    table ex_zombie_kernel.procs [3, 2] ∧
    ∃ s', wait 0 5 3 ex_zombie_kernel = .ok (.ret 2, s') ∧
      s'.user 9 5 = some 7 ∧ table s'.procs [2] ∧ s'.procs 3 = none := by
  have hT : table ex_zombie_kernel.procs [3, 2] := by decide
  obtain ⟨s', h1, h2, h3, _, h4, _⟩ :=
    wait_reaps_first_zombie ex_zombie_kernel [3, 2] 0 5 3
      { ex_proc 2 .ZOMBIE 2 0 2 1 with xstate := 7 } 3 hT rfl (by decide) rfl
      (Or.inr ⟨{ ex_proc 1 .RUNNING 0 0 1 3 with pagetable := 9 }, rfl, by decide⟩) (by decide)
  exact ⟨hT, s', h1,
    h2 { ex_proc 1 .RUNNING 0 0 1 3 with pagetable := 9 } (by decide) rfl (by decide), h3, h4⟩

/-- C2: on a well-formed table in which no record has the caller as its
parent, `wait` returns -1 after its first scan, without going to sleep, and
leaves the process memory as it was. -/
theorem wait_no_children (s : kernel) (L : List Ptr) (tp : Nat) (addr : Nat) (fuel : Nat)
    (hT : table s.procs L) (hfree : s.locks .list_lock = none)
    (hnone : ∀ a ∈ L, is_child s.procs (curproc s tp) a = false) (hfuel : L.length < fuel) :
    ∃ s', wait tp addr fuel s = .ok (.ret (-1), s') ∧ s'.procs = s.procs ∧
      s'.pages = s.pages ∧ s'.user = s.user ∧ s'.locks .list_lock = none := by
  obtain ⟨d, hd, hc, hdL, _⟩ := table_head hT
  have hz : ∀ a ∈ L, zombie_child (acquired tp .list_lock s).procs (curproc s tp) a = false := by
    intro a ha
    have := hnone a ha
    simp only [acquired_procs]
    unfold is_child at this
    unfold zombie_child
    cases h : s.procs a with
    | none => rfl
    | some r =>
      rw [h] at this
      have : r.parent ≠ curproc s tp := by simpa using this
      simp [this]
  have hany : L.any (is_child (acquired tp .list_lock s).procs (curproc s tp)) = false := by
    rw [List.any_eq_false]
    intro a ha
    simpa using hnone a ha
  have hscan := wait_scan_none tp (curproc s tp) addr (acquired tp .list_lock s) L fuel d.next
    false hc hdL hz hfuel
  have hd1 : rd (acquired tp .list_lock s).procs dummyhead = .ok d := rd_some hd
  refine ⟨released tp .list_lock (acquired tp .list_lock s), ?_, rfl, rfl, rfl, by simp⟩
  simp only [wait, bind, Except.bind, myproc_eq, acquire_bracketed, acquire_eq hfree, wait_loop, acquired_curproc, hd1, hscan,
    hany, Bool.or_false, if_true, release_locked (locked_acquired tp s)]

set_option maxRecDepth 4000 in
/-- Witness for C2: the child at `3` of `ex_zombie` has no children. -/
theorem wait_no_children_witness :
    table (ex_kernel ex_zombie 2 3).procs [3, 2] ∧
    ∃ s', wait 0 5 3 (ex_kernel ex_zombie 2 3) = .ok (.ret (-1), s') ∧
      s'.procs = (ex_kernel ex_zombie 2 3).procs := by
  have hT : table (ex_kernel ex_zombie 2 3).procs [3, 2] := by decide
  obtain ⟨s', h1, h2, _⟩ :=
    wait_no_children (ex_kernel ex_zombie 2 3) [3, 2] 0 5 3 hT rfl (by decide) (by decide)
  exact ⟨hT, s', h1, h2⟩

/-- C3: on a well-formed table in which `c` is the first ZOMBIE child of the
caller and the destination `addr` is not 0 and not mapped, `wait` returns -1
and leaves the process memory, the pages and the user memory as they were,
with the lock released; a following `wait` with a mapped destination returns
the pid of `c` and copies its `xstate`. -/
theorem wait_copy_failure_keeps_child (s : kernel) (L : List Ptr) (tp : Nat) (addr : Nat)
    (c : Ptr) (rc pr : proc) (fuel : Nat) (hT : table s.procs L)
    (hfree : s.locks .list_lock = none)
    (hfind : L.find? (zombie_child s.procs (curproc s tp)) = some c)
    (hrc : s.procs c = some rc) (haddr : addr ≠ 0)
    (hpr : s.procs (curproc s tp) = some pr) (hbad : s.user pr.pagetable addr = none)
    (hfuel : L.length < fuel) :
    ∃ s', wait tp addr fuel s = .ok (.ret (-1), s') ∧ s'.procs = s.procs ∧
      s'.pages = s.pages ∧ s'.user = s.user ∧ s'.locks .list_lock = none ∧
      table s'.procs L ∧ c ∈ L ∧ s'.procs c = some rc ∧
      (∀ addr', addr' ≠ 0 → s.user pr.pagetable addr' ≠ none →
        ∃ s'', wait tp addr' fuel s' = .ok (.ret rc.pid, s'') ∧
          (rc.pagetable ≠ pr.pagetable → s''.user pr.pagetable addr' = some rc.xstate) ∧
          s''.procs c = none) := by
  have hmem : c ∈ L := List.mem_of_find?_eq_some hfind
  obtain ⟨hz, A, B, hL, hA⟩ := List.find?_eq_some.1 hfind
  obtain ⟨d, hd, hc, hdL, _⟩ := table_head hT
  set s1 := acquired tp .list_lock s with hs1
  have hA' : ∀ a ∈ A, zombie_child s1.procs (curproc s tp) a = false := by
    intro a ha
    simpa using hA a ha
  have hscan := wait_scan_found tp (curproc s tp) addr s1 (B := B) hz A fuel d.next false
    (hL ▸ hc) (hL ▸ hdL) hA' (hL ▸ hfuel)
  have hd1 : rd s1.procs dummyhead = .ok d := rd_some hd
  have hfound : wait_found tp (curproc s tp) addr c s1 = .ok (-1, released tp .list_lock s1) := by
    simp only [wait_found, bind, Except.bind, rd_some (show s1.procs c = some rc from hrc),
      ne_eq, haddr, not_false_eq_true, if_true,
      rd_some (show s1.procs (curproc s tp) = some pr from hpr), pure, Except.pure, copyout]
    rw [show s1.user pr.pagetable addr = none from hbad]
    simp only [release_locked (locked_acquired tp s)]
  refine ⟨released tp .list_lock s1, ?_, rfl, rfl, rfl, by simp, hT, hmem, hrc, ?_⟩
  · simp only [wait, bind, Except.bind, myproc_eq, acquire_bracketed, acquire_eq hfree, ← hs1, wait_loop]
    rw [hs1, acquired_curproc, ← hs1, hd1]
    simp only [hscan, hfound, Except.bind]
  · intro addr' h0 hmap
    have hmy : curproc (released tp .list_lock s1) tp = curproc s tp := by
      rw [released_curproc, hs1, acquired_curproc]
    obtain ⟨s'', h1, _, _, h4, _, h6, _⟩ :=
      @wait_reaps (released tp .list_lock s1) L tp addr' c rc fuel hT (by simp)
        (by rw [hmy]; exact hfind) hrc
        (Or.inr ⟨pr, by rw [hmy]; exact hpr, hmap⟩) hfuel
    exact ⟨s'', h1, fun hne => h6 pr h0 (by rw [hmy]; exact hpr) hne, h4⟩

set_option maxRecDepth 4000 in
/-- Witness for C3: the root at `2` waits with the unmapped destination `6`. -/
theorem wait_copy_failure_keeps_child_witness :
    table ex_zombie_kernel.procs [3, 2] ∧
    ∃ s', wait 0 6 3 ex_zombie_kernel = .ok (.ret (-1), s') ∧
      s'.procs = ex_zombie_kernel.procs ∧
      ∃ s'', wait 0 5 3 s' = .ok (.ret 2, s'') ∧ s''.user 9 5 = some 7 := by
  have hT : table ex_zombie_kernel.procs [3, 2] := by decide
  obtain ⟨s', h1, h2, _, _, _, _, _, _, h3⟩ :=
    wait_copy_failure_keeps_child ex_zombie_kernel [3, 2] 0 6 3
      { ex_proc 2 .ZOMBIE 2 0 2 1 with xstate := 7 }
      { ex_proc 1 .RUNNING 0 0 1 3 with pagetable := 9 } 3 hT rfl (by decide) rfl (by decide)
      rfl (by decide) (by decide)
  obtain ⟨s'', h4, h5, _⟩ := h3 5 (by decide) (by decide)
  exact ⟨hT, s', h1, h2, s'', h4, h5 (by decide)⟩

theorem wake_reparent_rec (me chan p init a : Ptr) (r : proc) :
    wake me chan a (reparent_rec p init r) = reparent_rec p init (wake me chan a r) := by
  unfold wake reparent_rec
  by_cases h1 : r.parent = p <;> by_cases h2 : a ≠ me ∧ r.state = .SLEEPING ∧ r.chan = chan <;>
    simp [h1, h2]

theorem wake_wake (me chan a : Ptr) (r : proc) :
    wake me chan a (wake me chan a r) = wake me chan a r := by
  unfold wake
  by_cases h2 : a ≠ me ∧ r.state = .SLEEPING ∧ r.chan = chan <;> simp [h2]

theorem reparented_woken (m : procmem) (L L2 : List Ptr) (me chan p init : Ptr) :
    reparented (woken m L me chan) L2 p init = woken (reparented m L2 p init) L me chan := by
  funext a
  unfold reparented woken
  by_cases h1 : a ∈ L <;> by_cases h2 : a ∈ L2 <;> cases h : m a <;>
    simp [h1, h2, h, wake_reparent_rec]

theorem woken_woken (m : procmem) (L : List Ptr) (me chan : Ptr) :
    woken (woken m L me chan) L me chan = woken m L me chan := by
  funext a
  unfold woken
  by_cases h1 : a ∈ L <;> cases h : m a <;> simp [h1, h, wake_wake]

theorem reparented_update {m : procmem} {a : Ptr} {r : proc} {L2 : List Ptr} (p init : Ptr)
    (hr : m a = some r) (ha : a ∉ L2) :
    reparented (Function.update m a (some (reparent_rec p init r))) L2 p init =
      reparented m (a :: L2) p init := by
  funext b
  unfold reparented
  by_cases hb : b = a
  · subst hb
    simp [ha, hr]
  · by_cases h2 : b ∈ L2 <;> simp [hb, h2, Function.update_apply]

theorem reparent_rec_next (p init : Ptr) (r : proc) : (reparent_rec p init r).next = r.next := by
  unfold reparent_rec; split <;> rfl

theorem reparent_rec_prev (p init : Ptr) (r : proc) : (reparent_rec p init r).prev = r.prev := by
  unfold reparent_rec; split <;> rfl

/-- The function `wakeup_nolock` on a well-formed table, in any state: the
records are woken, and the rest of the state is the one before or the one
`myproc()` leaves. -/
theorem wakeup_nolock_some {s : kernel} {L : List Ptr} (tp : Nat) (chan : Ptr) {fuel : Nat}
    (hT : table s.procs L) (hfuel : L.length < fuel) :
    ∃ t, (t = s ∨ t = bracketed tp s) ∧
      wakeup_nolock tp chan fuel s =
        .ok { t with procs := woken s.procs L (curproc s tp) chan } := by
  refine ⟨if L = [] then s else bracketed tp s, ?_, wakeup_nolock_run tp chan hT hfuel⟩
  split
  · exact Or.inl rfl
  · exact Or.inr rfl

/-- Two steps that each leave the state as it is or as `myproc()` leaves it,
apart from the process memory, do so together. -/
theorem settle_compose {tp : Nat} {s t1 t2 : kernel} {m1 m : procmem}
    (h1 : t1 = { s with procs := m1 } ∨ t1 = bracketed tp { s with procs := m1 })
    (h2 : t2 = { t1 with procs := m } ∨ t2 = bracketed tp { t1 with procs := m }) :
    ∃ t, (t = s ∨ t = bracketed tp s) ∧
      ∀ m' : procmem, ({ t2 with procs := m' } : kernel) = { t with procs := m' } := by
  rcases h1 with rfl | rfl <;> rcases h2 with rfl | rfl
  · exact ⟨s, Or.inl rfl, fun _ => rfl⟩
  · exact ⟨bracketed tp s, Or.inr rfl, fun _ => rfl⟩
  · exact ⟨bracketed tp s, Or.inr rfl, fun _ => rfl⟩
  · refine ⟨bracketed tp s, Or.inr rfl, fun m' => ?_⟩
    show ({ bracketed tp (bracketed tp s) with procs := m' } : kernel) = _
    rw [bracketed_idem]

theorem settled_initproc {tp : Nat} {s t : kernel} (h : t = s ∨ t = bracketed tp s) :
    t.initproc = s.initproc ∧ curproc t tp = curproc s tp := by
  rcases h with rfl | rfl
  · exact ⟨rfl, rfl⟩
  · exact ⟨rfl, bracketed_curproc tp s tp⟩

/-- The scan of `reparent` over the rest `L2` of a well-formed table `L`. -/
theorem reparent_scan_eq (tp : Nat) (p : Ptr) (L : List Ptr) (fuel : Nat)
    (hfuel : L.length < fuel) (L2 : List Ptr) :
    ∀ (n : Nat) (q : Ptr) (s : kernel), table s.procs L →
      chain proc.next s.procs q L2 dummyhead → dummyhead ∉ L2 → L2.Nodup → L2.length < n →
      ∃ t, (t = s ∨ t = bracketed tp s) ∧
      reparent_scan tp p fuel n q s = .ok { t with procs :=
        (if (L2.any (is_child s.procs p)) = true
          then (woken (reparented s.procs L2 p s.initproc) L (curproc s tp) s.initproc)
          else (reparented s.procs L2 p s.initproc)) } := by
  induction L2 with
  | nil =>
    intro n q s _ hc _ _ hn
    obtain ⟨n, rfl⟩ : ∃ k, n = k + 1 := ⟨n - 1, by simp at hn; omega⟩
    have hq : q = dummyhead := by simpa [chain_nil] using hc
    refine ⟨s, Or.inl rfl, ?_⟩
    simp only [reparent_scan, hq, if_true, List.any_nil]
    congr 1
  | cons a L2 ih =>
    intro n q s hT hc hd hnd hn
    obtain ⟨n, rfl⟩ : ∃ k, n = k + 1 := ⟨n - 1, by simp at hn; omega⟩
    rw [chain_cons] at hc
    obtain ⟨rfl, r, hr, hc⟩ := hc
    have hqd : q ≠ dummyhead := fun h => hd (h ▸ by simp)
    have hqL : q ∉ L2 := (List.nodup_cons.1 hnd).1
    have hn' : L2.length < n := by simp at hn; omega
    have hd' : dummyhead ∉ L2 := fun h => hd (List.mem_cons_of_mem _ h)
    simp only [reparent_scan, hqd, if_false, bind, Except.bind, rd_some hr]
    by_cases h1 : r.parent = p
    · set m1 : procmem := Function.update s.procs q (some (reparent_rec p s.initproc r)) with hm1
      have hrr : reparent_rec p s.initproc r = { r with parent := s.initproc } := by
        simp [reparent_rec, h1]
      have h0 : (0 : Ptr) ≠ q := fun h => by
        rw [← h, hT.1] at hr; cases hr
      have hT1 : table m1 L := by
        refine table_mono hT (by simp [hm1, Function.update_apply, h0, hT.1]) (fun b _ rb hb => ?_)
        by_cases hbq : b = q
        · subst hbq
          rw [hr] at hb; cases hb
          exact ⟨reparent_rec p s.initproc r, by simp [hm1], reparent_rec_next ..,
            reparent_rec_prev ..⟩
        · exact ⟨rb, by simp [hm1, Function.update_apply, hbq, hb], rfl, rfl⟩
      obtain ⟨t1, ht1, hwk'⟩ := wakeup_nolock_some (s := { s with procs := m1 }) tp s.initproc
        hT1 hfuel
      set s2 : kernel := { t1 with procs := woken m1 L (curproc s tp) s.initproc } with hs2
      have hwk : wakeup_nolock tp s.initproc fuel { s with procs := m1 } = .ok s2 := hwk'
      obtain ⟨hi2, hc2'⟩ : s2.initproc = s.initproc ∧ curproc s2 tp = curproc s tp := by
        rcases ht1 with e | e
        · rw [hs2, e]; exact ⟨rfl, rfl⟩
        · rw [hs2, e]; exact ⟨rfl, bracketed_curproc tp _ tp⟩
      have hT2 : table s2.procs L := table_woken _ _ hT1
      have hm1q : m1 q = some (reparent_rec p s.initproc r) := by simp [hm1]
      obtain ⟨r2, hr2, hr2n⟩ : ∃ r2, s2.procs q = some r2 ∧ r2.next = r.next := by
        by_cases hq : q ∈ L
        · exact ⟨wake (curproc s tp) s.initproc q (reparent_rec p s.initproc r),
            by simp [hs2, woken, hq, hm1q], by rw [wake_next, reparent_rec_next]⟩
        · exact ⟨reparent_rec p s.initproc r, by simp [hs2, woken, hq, hm1q],
            reparent_rec_next ..⟩
      have hc2 : chain proc.next s2.procs r.next L2 dummyhead := by
        refine chain_mono proc.next (fun b hb rb hrb => ?_) hc
        have hbq : b ≠ q := fun h => hqL (h ▸ hb)
        by_cases hbL : b ∈ L
        · exact ⟨wake (curproc s tp) s.initproc b rb,
            by simp [hs2, woken, hbL, hm1, Function.update_apply, hbq, hrb], wake_next ..⟩
        · exact ⟨rb, by simp [hs2, woken, hbL, hm1, Function.update_apply, hbq, hrb], rfl⟩
      obtain ⟨t2, ht2, this⟩ := ih n r.next s2 hT2 hc2 hd' (List.nodup_cons.1 hnd).2 hn'
      rw [hi2, hc2'] at this
      obtain ⟨t, ht, hcomp⟩ := settle_compose ht1 ht2
      refine ⟨t, ht, ?_⟩
      simp only [h1, if_true, upd_some _ hr, ← hrr, ← hm1, hwk, rd_some hr2, hr2n, this]
      rw [hcomp]
      have hany : (q :: L2).any (is_child s.procs p) = true := by
        simp [is_child, hr, h1]
      have hkey : woken (reparented s2.procs L2 p s.initproc) L (curproc s tp) s.initproc =
          woken (reparented s.procs (q :: L2) p s.initproc) L (curproc s tp) s.initproc := by
        show woken (reparented (woken m1 L (curproc s tp) s.initproc) L2 p s.initproc) L
          (curproc s tp) s.initproc = _
        rw [reparented_woken, woken_woken, hm1, reparented_update p s.initproc hr hqL]
      have hkey2 : reparented s2.procs L2 p s.initproc =
          woken (reparented s.procs (q :: L2) p s.initproc) L (curproc s tp) s.initproc := by
        show reparented (woken m1 L (curproc s tp) s.initproc) L2 p s.initproc = _
        rw [reparented_woken, hm1, reparented_update p s.initproc hr hqL]
      refine congrArg (fun m => Except.ok ({ t with procs := m } : kernel)) ?_
      rw [hany, if_pos rfl]
      by_cases hx : L2.any (is_child s2.procs p) = true
      · rw [if_pos hx]
        exact hkey
      · rw [if_neg hx]
        exact hkey2
    · obtain ⟨t, ht, this⟩ := ih n r.next s hT hc hd' (List.nodup_cons.1 hnd).2 hn'
      refine ⟨t, ht, ?_⟩
      simp only [h1, if_false, pure, Except.pure, rd_some hr, this]
      have hany : (q :: L2).any (is_child s.procs p) = L2.any (is_child s.procs p) := by
        simp [is_child, hr, h1]
      have hrep : reparented s.procs (q :: L2) p s.initproc = reparented s.procs L2 p s.initproc := by
        funext b
        unfold reparented
        by_cases hb : b = q
        · subst hb
          simp [hqL, hr, reparent_rec, h1]
        · simp [hb]
      rw [hany, hrep]

theorem table_reparented {m : procmem} {L : List Ptr} (L2 : List Ptr) (p init : Ptr)
    (hT : table m L) : table (reparented m L2 p init) L := by
  refine table_mono hT (by simp [reparented, hT.1]) (fun a _ r hr => ?_)
  by_cases h : a ∈ L2
  · exact ⟨reparent_rec p init r, by simp [reparented, h, hr], reparent_rec_next ..,
      reparent_rec_prev ..⟩
  · exact ⟨r, by simp [reparented, h, hr], rfl, rfl⟩

theorem wake_parent (me chan a : Ptr) (r : proc) : (wake me chan a r).parent = r.parent := by
  unfold wake; split <;> rfl

/-- The function `reparent` on a well-formed table, in any state. -/
theorem reparent_some {s : kernel} {L : List Ptr} (tp : Nat) (p : Ptr) {fuel : Nat}
    (hT : table s.procs L) (hfuel : L.length < fuel) :
    ∃ t, (t = s ∨ t = bracketed tp s) ∧
    reparent tp p fuel s = .ok { t with procs :=
        (if (L.any (is_child s.procs p)) = true
          then (woken (reparented s.procs L p s.initproc) L (curproc s tp) s.initproc)
          else (reparented s.procs L p s.initproc)) } := by
  obtain ⟨d, hd, hc, hdL, hnd⟩ := table_head hT
  obtain ⟨t, ht, h⟩ := reparent_scan_eq tp p L fuel hfuel L fuel d.next s hT hc hdL hnd hfuel
  refine ⟨t, ht, ?_⟩
  simp only [reparent, bind, Except.bind, rd_some hd]
  exact h

/-- The function `reparent` called inside a critical section. -/
theorem reparent_eq {s : kernel} {L : List Ptr} (tp : Nat) (p : Ptr) {fuel : Nat}
    (hT : table s.procs L) (hfuel : L.length < fuel) (hoff : s.intr tp = false)
    (hdepth : 1 ≤ (s.cpus tp).noff) :
    reparent tp p fuel s = .ok { s with procs :=
        (if (L.any (is_child s.procs p)) = true
          then (woken (reparented s.procs L p s.initproc) L (curproc s tp) s.initproc)
          else (reparented s.procs L p s.initproc)) } := by
  obtain ⟨t, ht, h⟩ := reparent_some tp p hT hfuel
  have : t = s := by
    rcases ht with e | e
    · exact e
    · rw [e, bracketed_of_off hoff hdepth]
  rw [h, this]

/-- What `reparent` leaves at each address: the record with its parent link
passed on, possibly woken. -/
theorem reparent_pointwise {s : kernel} {L : List Ptr} (tp : Nat) (p : Ptr) {fuel : Nat}
    (hT : table s.procs L) (hfuel : L.length < fuel) :
    ∃ s', reparent tp p fuel s = .ok s' ∧ table s'.procs L ∧ s'.initproc = s.initproc ∧
      (∀ a, s.procs a = none → s'.procs a = none) ∧
      (∀ a r, s.procs a = some r → ∃ r', s'.procs a = some r' ∧
        r'.parent = (if a ∈ L ∧ r.parent = p then s.initproc else r.parent) ∧
        ((L.any (is_child s.procs p)) = true → a ∈ L → a ≠ curproc s tp →
          r.state = .SLEEPING → r.chan = s.initproc → r'.state = .RUNNABLE)) := by
  obtain ⟨t, ht, hrun⟩ := reparent_some tp p hT hfuel
  refine ⟨_, hrun, ?_, (settled_initproc ht).1, ?_, ?_⟩
  · show table (if _ then _ else _) L
    split
    · exact table_woken _ _ (table_reparented _ _ _ hT)
    · exact table_reparented _ _ _ hT
  · intro a ha
    show (if _ then _ else _ : procmem) a = none
    split <;> by_cases h : a ∈ L <;> simp [woken, reparented, h, ha]
  · intro a r hr
    have hpar : (reparent_rec p s.initproc r).parent =
        if r.parent = p then s.initproc else r.parent := by
      unfold reparent_rec; split <;> rfl
    have hst : (reparent_rec p s.initproc r).state = r.state := by
      unfold reparent_rec; split <;> rfl
    have hch : (reparent_rec p s.initproc r).chan = r.chan := by
      unfold reparent_rec; split <;> rfl
    by_cases hany : (L.any (is_child s.procs p)) = true
    · by_cases h : a ∈ L
      · refine ⟨wake (curproc s tp) s.initproc a (reparent_rec p s.initproc r), ?_, ?_, ?_⟩
        · show (if _ then _ else _ : procmem) a = _
          rw [if_pos hany]
          simp [woken, reparented, h, hr]
        · rw [wake_parent, hpar]; simp [h]
        · intro _ _ hme hs hc
          simp [wake, hme, hst, hch, hs, hc]
      · refine ⟨r, ?_, by simp [h], fun _ h' => absurd h' h⟩
        show (if _ then _ else _ : procmem) a = _
        rw [if_pos hany]
        simp [woken, reparented, h, hr]
    · by_cases h : a ∈ L
      · refine ⟨reparent_rec p s.initproc r, ?_, ?_, fun h' => absurd h' hany⟩
        · show (if _ then _ else _ : procmem) a = _
          rw [if_neg hany]
          simp [reparented, h, hr]
        · rw [hpar]; simp [h]
      · refine ⟨r, ?_, by simp [h], fun h' => absurd h' hany⟩
        show (if _ then _ else _ : procmem) a = _
        rw [if_neg hany]
        simp [reparented, h, hr]

/-- C6: on a well-formed table, for a process `p` other than the root,
`reparent(p)` makes the root the parent of every record whose parent was `p`,
leaves no record of the table with parent `p`, keeps every other parent link,
and, when a record was reparented while the root (a record of the table, not
the caller) was SLEEPING on its own address, leaves the root RUNNABLE. -/
theorem reparent_passes_children_to_init (s : kernel) (L : List Ptr) (tp : Nat) (p : Ptr)
    (fuel : Nat) (hT : table s.procs L) (hp : p ≠ s.initproc) (hfuel : L.length < fuel) :
    ∃ s', reparent tp p fuel s = .ok s' ∧
      (∀ a ∈ L, ∀ r, s.procs a = some r → r.parent = p →
        ∃ r', s'.procs a = some r' ∧ r'.parent = s.initproc) ∧
      (∀ a ∈ L, ∀ r', s'.procs a = some r' → r'.parent ≠ p) ∧
      (∀ a r, s.procs a = some r → r.parent ≠ p →
        ∃ r', s'.procs a = some r' ∧ r'.parent = r.parent) ∧
      (∀ ri, (∃ a ∈ L, is_child s.procs p a = true) → s.initproc ∈ L →
        s.procs s.initproc = some ri → ri.state = .SLEEPING → ri.chan = s.initproc →
        curproc s tp ≠ s.initproc →
        ∃ r', s'.procs s.initproc = some r' ∧ r'.state = .RUNNABLE) ∧
      table s'.procs L ∧ s'.initproc = s.initproc := by
  obtain ⟨s', hrun, hT', hinit, hnone, hsome⟩ := reparent_pointwise tp p hT hfuel
  refine ⟨s', hrun, ?_, ?_, ?_, ?_, hT', hinit⟩
  · intro a ha r hr hpar
    obtain ⟨r', h1, h2, _⟩ := hsome a r hr
    exact ⟨r', h1, by rw [h2, if_pos ⟨ha, hpar⟩]⟩
  · intro a ha r' hr'
    cases h : s.procs a with
    | none => rw [hnone a h] at hr'; cases hr'
    | some r =>
      obtain ⟨r'', h1, h2, _⟩ := hsome a r h
      rw [hr'] at h1; cases h1
      rw [h2]
      by_cases hpar : r.parent = p
      · rw [if_pos ⟨ha, hpar⟩]; exact fun h => hp h.symm
      · rw [if_neg (fun h => hpar h.2)]; exact hpar
  · intro a r hr hpar
    obtain ⟨r', h1, h2, _⟩ := hsome a r hr
    exact ⟨r', h1, by rw [h2, if_neg (fun h => hpar h.2)]⟩
  · intro ri hex hmem hri hst hch hme
    obtain ⟨r', h1, _, h3⟩ := hsome s.initproc ri hri
    refine ⟨r', h1, h3 ?_ hmem (Ne.symm hme) hst hch⟩
    rw [List.any_eq_true]
    exact hex

set_option maxRecDepth 4000 in
/-- Witness for C6: the process at `3` passes its child at `4` to the root at
`2`, which sleeps in `wait`. -/
theorem reparent_passes_children_to_init_witness :
    table (ex_kernel ex_family 2 3).procs [4, 3, 2] ∧
    ∃ s', reparent 0 3 4 (ex_kernel ex_family 2 3) = .ok s' ∧
      (∃ r', s'.procs 4 = some r' ∧ r'.parent = 2) ∧
      (∃ r', s'.procs 2 = some r' ∧ r'.state = .RUNNABLE) := by
  have hT : table (ex_kernel ex_family 2 3).procs [4, 3, 2] := by decide
  obtain ⟨s', h1, h2, _, _, h3, _⟩ :=
    reparent_passes_children_to_init (ex_kernel ex_family 2 3) [4, 3, 2] 0 3 4 hT
      (by decide) (by decide)
  exact ⟨hT, s', h1, h2 4 (by decide) _ rfl rfl,
    h3 _ ⟨4, by decide, by decide⟩ (by decide) rfl rfl rfl (by decide)⟩

/-- Linking a record that is not in the table right after the sentinel. -/
theorem proc_push_table {m : procmem} {L : List Ptr} {p : Ptr} {r : proc}
    (hT : table m L) (hr : m p = some r) (hp : p ∉ dummyhead :: L) :
    ∃ m', proc_push m dummyhead p = .ok m' ∧ table m' (p :: L) ∧
      (∀ a, (m' a).map data = (m a).map data) ∧
      m' p = some { r with next := headOr dummyhead L, prev := dummyhead } := by
  obtain ⟨d, hd, hc, hdL, hndL⟩ := table_head hT
  obtain ⟨h0, hnd, hn, hpv⟩ := hT
  have hdn : d.next = headOr dummyhead L := chain_head proc.next hc
  set h := headOr dummyhead L with hh
  have hpd : p ≠ dummyhead := fun e => hp (e ▸ List.mem_cons_self _ _)
  have hp0 : p ≠ 0 := by
    intro e; rw [e, h0] at hr; cases hr
  have hhmem : h ∈ dummyhead :: L := by
    cases L with
    | nil => simp [hh, headOr]
    | cons b L => simp [hh, headOr]
  have hhp : h ≠ p := fun e => hp (e ▸ hhmem)
  obtain ⟨rh, hrh⟩ := chain_alloc proc.next hn h hhmem
  set m2 : procmem := Function.update m p (some { r with next := h, prev := dummyhead }) with hm2
  set m3 : procmem := Function.update m2 h (some { rh with prev := p }) with hm3
  obtain ⟨d3, hd3, hd3p, hd3d⟩ : ∃ d3, m3 dummyhead = some d3 ∧
      (h = dummyhead → d3.prev = p) ∧ data d3 = data d := by
    by_cases e : h = dummyhead
    · refine ⟨{ rh with prev := p }, by simp [hm3, e], fun _ => rfl, ?_⟩
      have : rh = d := by rw [e, hd] at hrh; cases hrh; rfl
      rw [this]; rfl
    · refine ⟨d, ?_, fun e' => absurd e' e, rfl⟩
      simp [hm3, hm2, Function.update_apply, Ne.symm e, Ne.symm hpd, hd]
  set m4 : procmem := Function.update m3 dummyhead (some { d3 with next := p }) with hm4
  have hrun : proc_push m dummyhead p = .ok m4 := by
    have e1 : Function.update (Function.update m p (some { r with next := d.next })) p
        (some { r with next := d.next, prev := dummyhead }) = m2 := by
      rw [Function.update_idem, hm2, hdn]
    have e2 : m2 dummyhead = some d := by
      simp [hm2, Function.update_apply, Ne.symm hpd, hd]
    have e3 : m2 h = some rh := by
      simp [hm2, Function.update_apply, hhp, hrh]
    simp only [proc_push, bind, Except.bind, rd_some hd, upd_some _ hr,
      upd_some _ (Function.update_same p _ m), e1, rd_some e2]
    rw [hdn, upd_some _ e3, ← hm3]
    simp only [upd_some _ hd3, hm4]
  have hm4p : m4 p = some { r with next := h, prev := dummyhead } := by
    simp [hm4, hm3, hm2, Function.update_apply, hpd, Ne.symm hhp]
  have hm4d : m4 dummyhead = some { d3 with next := p } := by simp [hm4]
  have hm4o : ∀ a, a ≠ p → a ≠ dummyhead → a ≠ h → m4 a = m a := by
    intro a h1 h2 h3
    simp [hm4, hm3, hm2, Function.update_apply, h1, h2, h3]
  have hm4h : h ≠ dummyhead → m4 h = some { rh with prev := p } := by
    intro e
    simp [hm4, hm3, Function.update_apply, e]
  have hnd' : (dummyhead :: p :: L).Nodup := by
    refine List.nodup_cons.2 ⟨?_, List.nodup_cons.2 ⟨fun e => hp (List.mem_cons_of_mem _ e), hndL⟩⟩
    intro e
    rcases List.mem_cons.1 e with e | e
    · exact hpd e.symm
    · exact hdL e
  refine ⟨m4, hrun, ⟨?_, hnd', ?_, ?_⟩, ?_, hm4p⟩
  · have hh0 : h ≠ 0 := by
      intro e; rw [e, h0] at hrh; cases hrh
    have hd0 : dummyhead ≠ 0 := by decide
    simp [hm4, hm3, hm2, Function.update_apply, Ne.symm hp0, Ne.symm hh0, Ne.symm hd0, h0]
  · refine chain_insert proc.next (A := []) (B := L) ⟨_, hm4p, rfl⟩ hnd' hn
      ⟨_, hm4d, rfl⟩ (fun a ha hne rr hrr => ?_)
    have hap : a ≠ p := fun e => hp (e ▸ ha)
    have had : a ≠ dummyhead := by simpa [lastOr] using hne
    by_cases e : a = h
    · subst e
      rw [hrh] at hrr; cases hrr
      exact ⟨_, hm4h had, rfl⟩
    · exact ⟨rr, by rw [hm4o a hap had e, hrr], rfl⟩
  · have hlast : lastOr dummyhead L.reverse = h := by
      have := headOr_reverse dummyhead L.reverse
      rw [List.reverse_reverse] at this
      exact this.symm
    have hndr : (dummyhead :: (L.reverse ++ p :: [])).Nodup := by
      have hperm : (dummyhead :: (L.reverse ++ p :: [])).Perm (dummyhead :: p :: L) := by
        refine List.Perm.cons _ ?_
        have : L.reverse ++ [p] = (p :: L).reverse := by simp
        rw [this]
        exact List.reverse_perm _
      exact hperm.nodup_iff.2 hnd'
    have hpv' : chain proc.prev m dummyhead (dummyhead :: (L.reverse ++ [])) dummyhead := by
      simpa using hpv
    have hmain := chain_insert proc.prev (A := L.reverse) (B := []) (p := p)
      ⟨_, hm4p, rfl⟩ hndr hpv' (by
        rw [hlast]
        by_cases e : h = dummyhead
        · rw [e, hm4d]
          exact ⟨_, rfl, hd3p e⟩
        · exact ⟨_, hm4h e, rfl⟩) (fun a ha hne rr hrr => by
        rw [hlast] at hne
        have ha' : a ∈ dummyhead :: L := by simpa using ha
        have hap : a ≠ p := fun e => hp (e ▸ ha')
        by_cases e : a = dummyhead
        · subst e
          rw [hd] at hrr; cases hrr
          refine ⟨_, hm4d, ?_⟩
          have hx : d3.prev = d.prev := by
            by_cases e' : h = dummyhead
            · exact absurd e'.symm hne
            · have : m3 dummyhead = some d := by
                simp [hm3, hm2, Function.update_apply, Ne.symm e', Ne.symm hpd, hd]
              rw [hd3] at this; cases this; rfl
          exact hx
        · exact ⟨rr, by rw [hm4o a hap e hne, hrr], rfl⟩)
    simpa using hmain
  · intro a
    by_cases e1 : a = dummyhead
    · subst e1
      rw [hm4d, hd]
      simp only [Option.map_some']
      rw [data_link_next, hd3d]
    · by_cases e2 : a = h
      · subst e2
        rw [hm4h e1, hrh]; rfl
      · by_cases e3 : a = p
        · subst e3
          rw [hm4p, hr]; rfl
        · rw [hm4o a e3 e1 e2]

theorem allocpid_eq {tp : Nat} {s : kernel} (h : s.locks .pid_lock = none) :
    allocpid tp s = .ok (s.nextpid, released tp .pid_lock
      { acquired tp .pid_lock s with nextpid := wrap32 (s.nextpid + 1) }) := by
  have hrel : release tp .pid_lock
      { acquired tp .pid_lock s with nextpid := wrap32 (s.nextpid + 1) } = .ok (released tp .pid_lock
      { acquired tp .pid_lock s with nextpid := wrap32 (s.nextpid + 1) }) :=
    release_eq (by simp [acquired]) (by simp [acquired, push_off]) (by simp [acquired, push_off])
  simp only [allocpid, bind, Except.bind, acquire_eq h, acquired_nextpid, hrel]

/-- The state after `allocpid`, as far as the rest of `allocproc` needs it. -/
theorem allocpid_ok (tp : Nat) {s : kernel} (h : s.locks .pid_lock = none) :
    ∃ s', allocpid tp s = .ok (s.nextpid, s') ∧ s'.procs = s.procs ∧ s'.pages = s.pages ∧
      s'.user = s.user ∧ s'.initproc = s.initproc ∧ s'.nextpid = wrap32 (s.nextpid + 1) ∧
      s'.locks .list_lock = s.locks .list_lock ∧ curproc s' tp = curproc s tp ∧
      (∀ c, c ≠ tp → s'.cpus c = s.cpus c ∧ s'.intr c = s.intr c) ∧
      (s'.cpus tp).noff = (s.cpus tp).noff ∧ s'.locks .pid_lock = none := by
  refine ⟨_, allocpid_eq h, rfl, rfl, rfl, rfl, rfl, ?_, ?_, ?_, ?_, ?_⟩
  · simp [released, acquired, push_off, Function.update_apply]
  · simp [curproc, released, acquired, push_off]
  · intro c hc
    constructor
    · simp [released, acquired, push_off, Function.update_apply, hc]
    · simp only [released, acquired, push_off]
      split <;> split <;> simp [Function.update_apply, hc]
  · simp [released, acquired, push_off]
  · simp [released, acquired]

/-- A successful `allocproc`: the new record is linked at the head of the
list and the lock is held. -/
theorem allocproc_ok {s : kernel} {L : List Ptr} (tp : Nat) {env : allocenv}
    (hT : table s.procs L) (hpid : s.locks .pid_lock = none)
    (hfree : s.locks .list_lock = none) (hnp : env.bd_malloc ≠ 0)
    (hfresh : s.procs env.bd_malloc = none) (hk : env.kalloc_kstack ≠ 0)
    (ht : env.kalloc_trapframe ≠ 0) (hpt : proc_pagetable env ≠ 0) :
    ∃ s', allocproc tp env s = .ok (env.bd_malloc, s') ∧ table s'.procs (env.bd_malloc :: L) ∧
      s'.procs env.bd_malloc = some (new_proc env s.nextpid (headOr dummyhead L)) ∧
      (∀ a, a ≠ env.bd_malloc → (s'.procs a).map data = (s.procs a).map data) ∧
      locked tp s' ∧
      s'.pages = Function.update (Function.update s.pages env.kalloc_kstack (some env.junk))
        env.kalloc_trapframe (some env.junk) ∧
      s'.user = s.user ∧ s'.initproc = s.initproc ∧ s'.nextpid = wrap32 (s.nextpid + 1) ∧
      curproc s' tp = curproc s tp ∧
      (∀ c, c ≠ tp → s'.cpus c = s.cpus c ∧ s'.intr c = s.intr c) ∧
      (s'.cpus tp).noff = (s.cpus tp).noff + 1 ∧ s'.locks .pid_lock = none := by
  set np := env.bd_malloc with hnpdef
  set s0 : kernel := { s with procs := Function.update s.procs np (some (zeroproc env.NOFILE)) }
    with hs0
  obtain ⟨s1, hap, h1p, h1g, h1u, h1i, h1n, h1l, h1m, h1c, h1f, h1k⟩ :=
    allocpid_ok tp (s := s0) hpid
  set r5 : proc := { zeroproc env.NOFILE with
    pid := s.nextpid, state := .USED, kstack := env.kalloc_kstack,
    trapframe := env.kalloc_trapframe, pagetable := proc_pagetable env,
    ctx := { ra := env.forkret, sp := (env.kalloc_kstack + env.PGSIZE) % 2 ^ 64 } } with hr5
  set m5 : procmem := Function.update s.procs np (some r5) with hm5
  have hnpL : np ∉ dummyhead :: L := by
    intro h
    obtain ⟨r, hr⟩ := table_alloc hT np h
    rw [hfresh] at hr; cases hr
  have hT5 : table m5 L := by
    refine table_mono hT (by simp [hm5, Function.update_apply, Ne.symm hnp, hT.1])
      (fun a ha r hr => ?_)
    have : a ≠ np := fun h => hnpL (h ▸ ha)
    exact ⟨r, by simp [hm5, Function.update_apply, this, hr], rfl, rfl⟩
  obtain ⟨m6, hpush, hT6, hdata6, hm6⟩ :=
    proc_push_table hT5 (Function.update_same np _ s.procs) hnpL
  set sa : kernel := { s1 with procs := m5, pages := (Function.update
      (Function.update s.pages env.kalloc_kstack (some env.junk))
      env.kalloc_trapframe (some env.junk)) } with hsa
  have hsal : sa.locks .list_lock = none := by rw [← hfree, ← h1l]
  refine ⟨{ acquired tp .list_lock sa with procs := m6 }, ?_, hT6, ?_, ?_,
    locked_acquired tp sa, rfl, ?_, ?_, ?_, ?_, ?_, ?_, ?_⟩
  · have e1 : s1.procs np = some (zeroproc env.NOFILE) := by
      rw [h1p]; simp [hs0]
    have e2 : ∀ (f : proc → proc) (m : procmem) (r : proc), m np = some r →
        upd m np f = .ok (Function.update m np (some (f r))) := fun f m r h => upd_some f h
    simp only [allocproc, ← hnpdef, hnp, if_false, bind, Except.bind, ← hs0, hap]
    simp only [upd_some _ e1, upd_some _ (Function.update_same np _ _), Function.update_idem,
      kalloc, hk, ht, hpt, if_false, rd_some (Function.update_same np _ _), h1p, h1g, hs0]
    have e3 : acquire tp .list_lock sa = .ok (acquired tp .list_lock sa) := acquire_eq hsal
    simp only [hsa, hm5, hr5, zeroproc] at e3 hpush ⊢
    rw [e3]
    simp only [acquired_procs, hpush]
  · show m6 np = _
    rw [hm6]; rfl
  · intro a ha
    show (m6 a).map data = _
    rw [hdata6 a]
    simp [hm5, Function.update_apply, ha]
  · show s1.user = s.user
    rw [h1u]
  · show s1.initproc = s.initproc
    rw [h1i]
  · show s1.nextpid = _
    rw [h1n]
  · show curproc (acquired tp .list_lock sa) tp = _
    rw [acquired_curproc]
    show curproc sa tp = _
    have : curproc sa tp = curproc s1 tp := rfl
    rw [this, h1m]; rfl
  · intro c hc
    obtain ⟨e1, e2⟩ := h1c c hc
    constructor
    · show (acquired tp .list_lock sa).cpus c = _
      simp only [acquired, push_off, Function.update_apply, hc, if_false]
      exact e1
    · show (acquired tp .list_lock sa).intr c = _
      simp only [acquired, push_off, Function.update_apply, hc, if_false]
      exact e2
  · show ((acquired tp .list_lock sa).cpus tp).noff = _
    simp only [acquired, push_off, Function.update_same]
    show (s1.cpus tp).noff + 1 = _
    rw [h1f]
  · show (acquired tp .list_lock sa).locks .pid_lock = none
    simp only [acquired, Function.update_apply]
    simpa using h1k

/-- An `allocproc` right after `myproc()` is the `allocproc` alone, when
`bd_malloc` hands out a record: the `acquire` in `allocpid` absorbs the
bracket. -/
theorem allocproc_bracketed (tp : Nat) (env : allocenv) (s : kernel)
    (hnp : env.bd_malloc ≠ 0) : allocproc tp env (bracketed tp s) = allocproc tp env s := by
  have h : ∀ m : procmem, allocpid tp { bracketed tp s with procs := m } =
      allocpid tp { s with procs := m } := by
    intro m
    unfold allocpid
    have := acquire_bracketed tp .pid_lock { s with procs := m }
    show (acquire tp .pid_lock (bracketed tp { s with procs := m })).bind _ = _
    rw [this]
    rfl
  unfold allocproc
  simp only [hnp, if_false, bracketed_procs]
  rw [h]

theorem data_fields {r r' : proc} (h : data r' = data r) :
    r'.pid = r.pid ∧ r'.state = r.state ∧ r'.parent = r.parent ∧ r'.pagetable = r.pagetable ∧
      r'.sz = r.sz ∧ r'.trapframe = r.trapframe ∧ r'.ofile = r.ofile ∧ r'.cwd = r.cwd ∧
      r'.name = r.name ∧ r'.xstate = r.xstate ∧ r'.killed = r.killed ∧ r'.chan = r.chan := by
  have h1 := congrArg proc.pid h
  have h2 := congrArg proc.state h
  have h3 := congrArg proc.parent h
  have h4 := congrArg proc.pagetable h
  have h5 := congrArg proc.sz h
  have h6 := congrArg proc.trapframe h
  have h7 := congrArg proc.ofile h
  have h8 := congrArg proc.cwd h
  have h9 := congrArg proc.name h
  have h10 := congrArg proc.xstate h
  have h11 := congrArg proc.killed h
  have h12 := congrArg proc.chan h
  exact ⟨h1, h2, h3, h4, h5, h6, h7, h8, h9, h10, h11, h12⟩

theorem data_of_map {m m' : procmem} {a : Ptr} {r : proc}
    (h : (m' a).map data = (m a).map data) (hr : m a = some r) :
    ∃ r', m' a = some r' ∧ data r' = data r := by
  rw [hr] at h
  cases h' : m' a with
  | none => rw [h'] at h; cases h
  | some r' =>
    rw [h'] at h
    exact ⟨r', rfl, by simpa using h⟩

theorem rd_update_same {α : Type} (m : Ptr → Option α) (a : Ptr) (r : α) :
    rd (Function.update m a (some r)) a = .ok r := by
  simp [rd]

theorem rd_update_ne {α : Type} (m : Ptr → Option α) {a b : Ptr} (v : Option α) (h : a ≠ b) :
    rd (Function.update m b v) a = rd m a := by
  simp [rd, Function.update_apply, h]

theorem upd_update_same {α : Type} (m : Ptr → Option α) (a : Ptr) (r : α) (f : α → α) :
    upd (Function.update m a (some r)) a f = .ok (Function.update m a (some (f r))) := by
  simp [upd]

theorem released_cpus_ne (tp : Nat) (lk : lockid) (s : kernel) {c : Nat} (h : c ≠ tp) :
    (released tp lk s).cpus c = s.cpus c ∧ (released tp lk s).intr c = s.intr c := by
  constructor
  · simp [released, Function.update_apply, h]
  · simp only [released]
    split <;> simp [Function.update_apply, h]

theorem acquired_cpus_ne (tp : Nat) (lk : lockid) (s : kernel) {c : Nat} (h : c ≠ tp) :
    (acquired tp lk s).cpus c = s.cpus c ∧ (acquired tp lk s).intr c = s.intr c := by
  constructor <;> simp [acquired, push_off, Function.update_apply, h]

/-- A successful `fork`, with the child's record spelled out. -/
theorem fork_ok {s : kernel} {L : List Ptr} (tp : Nat) {env : allocenv} {pr : proc}
    {tf : trapframe} (hT : table s.procs L) (hpid : s.locks .pid_lock = none)
    (hfree : s.locks .list_lock = none) (hnp : env.bd_malloc ≠ 0)
    (hfresh : s.procs env.bd_malloc = none) (hk : env.kalloc_kstack ≠ 0)
    (hkf : s.pages env.kalloc_kstack = none) (ht : env.kalloc_trapframe ≠ 0)
    (htf : s.pages env.kalloc_trapframe = none) (hpt : proc_pagetable env ≠ 0)
    (hcopy : 0 ≤ env.uvmcopy) (hpr : s.procs (curproc s tp) = some pr)
    (hframe : s.pages pr.trapframe = some tf) :
    ∃ s', fork tp env s = .ok (s.nextpid, s') ∧ table s'.procs (env.bd_malloc :: L) ∧
      s'.procs env.bd_malloc = some
        { new_proc env s.nextpid (headOr dummyhead L) with
          sz := pr.sz
          ofile := fork_ofile env.NOFILE pr.ofile (List.replicate env.NOFILE 0)
          cwd := pr.cwd
          name := safestrcpy [] pr.name env.NAMESZ
          parent := curproc s tp
          state := .RUNNABLE } ∧
      (∀ a, a ≠ env.bd_malloc → (s'.procs a).map data = (s.procs a).map data) ∧
      s'.pages = Function.update (Function.update (Function.update s.pages env.kalloc_kstack
          (some env.junk)) env.kalloc_trapframe (some env.junk)) env.kalloc_trapframe
          (some { tf with a0 := 0 }) ∧
      s'.user = Function.update s.user (proc_pagetable env) (s.user pr.pagetable) ∧
      s'.locks .list_lock = none ∧ s'.initproc = s.initproc ∧
      s'.nextpid = wrap32 (s.nextpid + 1) ∧
      (∀ c, c ≠ tp → s'.cpus c = s.cpus c ∧ s'.intr c = s.intr c) ∧
      (s'.cpus tp).noff = (s.cpus tp).noff ∧ curproc s' tp = curproc s tp ∧
      s'.locks .pid_lock = none := by
  obtain ⟨s1, hap, hT1, hnr, hdata1, hl1, hpg1, hu1, hi1, hn1, hm1, hc1, hf1, hk1⟩ :=
    allocproc_ok tp hT hpid hfree hnp hfresh hk ht hpt
  set np := env.bd_malloc with hnpdef
  set p := curproc s tp with hpdef
  have hpne : p ≠ np := by
    intro h; rw [h, hfresh] at hpr; cases hpr
  obtain ⟨pr1, hpr1, hd1⟩ := data_of_map (hdata1 p hpne) hpr
  obtain ⟨_, _, _, e4, e5, e6, e7, e8, e9, _, _, _⟩ := data_fields hd1
  have hptf : pr.trapframe ≠ env.kalloc_trapframe := by
    intro h; rw [h, htf] at hframe; cases hframe
  have hpks : pr.trapframe ≠ env.kalloc_kstack := by
    intro h; rw [h, hkf] at hframe; cases hframe
  have hpg1' : s1.pages pr.trapframe = some tf := by
    rw [hpg1]
    simp [Function.update_apply, hptf, hpks, hframe]
  have hpg2 : s1.pages env.kalloc_trapframe = some env.junk := by
    rw [hpg1]; simp
  have hcopy' : ¬ env.uvmcopy < 0 := by omega
  set recF : proc := { new_proc env s.nextpid (headOr dummyhead L) with
      sz := pr.sz
      ofile := fork_ofile env.NOFILE pr.ofile (List.replicate env.NOFILE 0)
      cwd := pr.cwd
      name := safestrcpy [] pr.name env.NAMESZ
      parent := p
      state := .RUNNABLE } with hrecF
  set sF : kernel := { s1 with
      user := (Function.update s1.user (proc_pagetable env) (s1.user pr.pagetable))
      pages := (Function.update s1.pages env.kalloc_trapframe (some { tf with a0 := 0 }))
      procs := (Function.update s1.procs np (some recF)) } with hsF
  have hlF : locked tp sF := locked_congr hl1 rfl rfl rfl
  refine ⟨released tp .list_lock sF, ?_, ?_, ?_, ?_, ?_, ?_, by simp, ?_, ?_, ?_, ?_, ?_, ?_⟩
  · simp only [fork, myproc_eq, ← hpdef, bind, Except.bind, allocproc_bracketed tp env s hnp,
      hap, hnp, if_false, rd_some hpr1,
      rd_some hnr, hcopy', upd_some _ hnr, rd_update_ne _ _ hpne, rd_update_same,
      upd_update_same, Function.update_idem, e4, e5, e6, e7, e8, e9, rd_some hpg1',
      upd_some _ hpg2, new_proc, zeroproc]
    have hrel := release_locked hlF
    simp only [hsF, hrecF, new_proc, zeroproc] at hrel ⊢
    rw [hrel]
  · refine table_mono hT1 ?_ (fun a _ r hr => ?_)
    · show (Function.update s1.procs np (some recF)) 0 = none
      simp [Function.update_apply, Ne.symm hnp, hT1.1]
    · by_cases h : a = np
      · subst h
        rw [hnr] at hr; cases hr
        exact ⟨recF, by simp [hsF], rfl, rfl⟩
      · exact ⟨r, by simp [hsF, Function.update_apply, h, hr], rfl, rfl⟩
  · simp [hsF]
  · intro a ha
    rw [← hdata1 a ha]
    simp [hsF, Function.update_apply, ha]
  · simp only [released_pages, hsF, hpg1]
  · simp only [released_user, hsF, hu1]
  · simp only [released_initproc, hsF, hi1]
  · simp only [released_nextpid, hsF, hn1]
  · intro c hc
    obtain ⟨e1, e2⟩ := released_cpus_ne tp .list_lock sF hc
    obtain ⟨e3, e4⟩ := hc1 c hc
    exact ⟨e1.trans e3, e2.trans e4⟩
  · simp only [released, Function.update_same]
    show (s1.cpus tp).noff - 1 = _
    rw [hf1]; omega
  · rw [released_curproc]
    exact hm1
  · simp only [released, Function.update_apply]
    simpa using hk1

/-- C9 (amended): a successful `fork` on a well-formed table (fresh record and
pages), made while the pid counter is positive and above every pid in the
table, links a new record
at the head of the list with parent the caller, state RUNNABLE, the caller's
`sz` and name, and a register frame equal to the caller's except `a0 = 0`;
it returns the new record's pid, which is positive and differs from every
other pid in the table; the records that were there keep their contents. -/
theorem fork_creates_runnable_child (s : kernel) (L : List Ptr) (tp : Nat) (env : allocenv)
    (pr : proc) (tf : trapframe) (hT : table s.procs L) (hpid : s.locks .pid_lock = none)
    (hfree : s.locks .list_lock = none) (hnp : env.bd_malloc ≠ 0)
    (hfresh : s.procs env.bd_malloc = none) (hk : env.kalloc_kstack ≠ 0)
    (hkf : s.pages env.kalloc_kstack = none) (ht : env.kalloc_trapframe ≠ 0)
    (htf : s.pages env.kalloc_trapframe = none) (hpt : proc_pagetable env ≠ 0)
    (hcopy : 0 ≤ env.uvmcopy) (hpr : s.procs (curproc s tp) = some pr)
    (hframe : s.pages pr.trapframe = some tf) (hname : pr.name.length < env.NAMESZ)
    (hpos : 0 < s.nextpid) (hpids : ∀ a ∈ L, ∀ r, s.procs a = some r → r.pid < s.nextpid) :
    ∃ s' child, fork tp env s = .ok (child.pid, s') ∧
      table s'.procs (env.bd_malloc :: L) ∧ s'.procs env.bd_malloc = some child ∧
      child.parent = curproc s tp ∧ child.state = .RUNNABLE ∧ child.sz = pr.sz ∧
      child.name = pr.name ∧ s'.pages child.trapframe = some { tf with a0 := 0 } ∧
      0 < child.pid ∧ (∀ a ∈ L, ∀ r, s'.procs a = some r → r.pid ≠ child.pid) ∧
      (∀ a, a ≠ env.bd_malloc → (s'.procs a).map data = (s.procs a).map data) ∧
      s'.pages pr.trapframe = some tf ∧ s'.locks .list_lock = none := by
  obtain ⟨s', hrun, hT', hchild, hdata, hpages, _, hlock, _⟩ :=
    fork_ok tp hT hpid hfree hnp hfresh hk hkf ht htf hpt hcopy hpr hframe
  have hptf : pr.trapframe ≠ env.kalloc_trapframe := by
    intro h; rw [h, htf] at hframe; cases hframe
  have hpks : pr.trapframe ≠ env.kalloc_kstack := by
    intro h; rw [h, hkf] at hframe; cases hframe
  refine ⟨s', _, hrun, hT', hchild, rfl, rfl, rfl, ?_, ?_, hpos, ?_, hdata, ?_, hlock⟩
  · show safestrcpy [] pr.name env.NAMESZ = pr.name
    have h0 : env.NAMESZ ≠ 0 := by omega
    simp only [safestrcpy, h0, if_false]
    exact List.take_of_length_le (by omega)
  · show s'.pages env.kalloc_trapframe = _
    rw [hpages]; simp
  · intro a ha r hr
    have hane : a ≠ env.bd_malloc := by
      intro h
      obtain ⟨r0, hr0⟩ := table_alloc hT a (List.mem_cons_of_mem _ ha)
      rw [h, hfresh] at hr0; cases hr0
    obtain ⟨r0, hr0⟩ := table_alloc hT a (List.mem_cons_of_mem _ ha)
    obtain ⟨r1, hr1, hd⟩ := data_of_map (hdata a hane) hr0
    rw [hr] at hr1; cases hr1
    have := hpids a ha r0 hr0
    rw [(data_fields hd).1]
    show r0.pid ≠ s.nextpid
    omega
  · rw [hpages]
    simp [Function.update_apply, hptf, hpks, hframe]

set_option maxRecDepth 4000 in
/-- Witness for C9: the root at `2` forks; the child is the record at `3`
with pid `10`. -/
theorem fork_creates_runnable_child_witness :
    table ex_root_kernel.procs [2] ∧
    ∃ s' child, fork 0 ex_env ex_root_kernel = .ok (child.pid, s') ∧
      table s'.procs [3, 2] ∧ s'.procs 3 = some child ∧ child.parent = 2 ∧
      child.state = .RUNNABLE ∧ child.sz = 4096 ∧
      s'.pages child.trapframe = some { ex_frame with a0 := 0 } ∧ 0 < child.pid := by
  have hT : table ex_root_kernel.procs [2] := by decide
  obtain ⟨s', child, h1, h2, h3, h4, h5, h6, _, h8, h9, _⟩ :=
    fork_creates_runnable_child ex_root_kernel [2] 0 ex_env
      { ex_proc 1 .RUNNING 0 0 1 1 with pagetable := 9, trapframe := 8, sz := 4096,
                                        name := ['i', 'n', 'i', 't'] }
      ex_frame hT rfl rfl (by decide) rfl (by decide) rfl (by decide) rfl (by decide)
      (by decide) rfl rfl (by decide) (by decide)
      (fun a ha r hr => by
        have ha2 : a = 2 := by simpa using ha
        subst ha2
        have : r = { ex_proc 1 .RUNNING 0 0 1 1 with pagetable := 9, trapframe := 8, sz := 4096,
                                                     name := ['i', 'n', 'i', 't'] } := by
          have h : ex_root_kernel.procs 2 = some _ := rfl
          rw [h] at hr
          exact (Option.some.inj hr).symm
        subst this
        decide)
  exact ⟨hT, s', child, h1, h2, h3, h4, h5, h6, h8, h9⟩

set_option maxRecDepth 4000 in
/-- C9, counterexample: when the pid counter has come round to 1, a
successful `fork` by the root process returns 1, the root's own pid, so the
child's pid is not different from the pid of every other record. -/
theorem fork_returns_pid_in_use :
    table ex_root_wrapped.procs [2] ∧
    ∃ s' child root, fork 0 ex_env ex_root_wrapped = .ok (child.pid, s') ∧
      table s'.procs [3, 2] ∧ s'.procs 3 = some child ∧ s'.procs 2 = some root ∧
      child.pid = 1 ∧ root.pid = 1 := by
  have hT : table ex_root_wrapped.procs [2] := by decide
  have hroot : ex_root_wrapped.procs (curproc ex_root_wrapped 0) =
      some { ex_proc 1 .RUNNING 0 0 1 1 with pagetable := 9, trapframe := 8, sz := 4096,
                                             name := ['i', 'n', 'i', 't'] } := rfl
  obtain ⟨s', hrun, hT', hchild, hdata, _⟩ :=
    @fork_ok ex_root_wrapped [2] 0 ex_env _ ex_frame hT rfl rfl
      (by decide) rfl (by decide) rfl (by decide) rfl (by decide) (by decide) hroot rfl
  obtain ⟨r1, hr1, hd⟩ := data_of_map (hdata 2 (by decide)) hroot
  exact ⟨hT, s', _, r1, hrun, hT', hchild, hr1, rfl, (data_fields hd).1⟩

/-- The function `freeproc` on a record that was never linked (its `prev` is
still the zero left by `memset`) dereferences a null pointer in
`proc_remove`. -/
theorem freeproc_unlinked_faults {s : kernel} {p : Ptr} {r : proc} (hr : s.procs p = some r)
    (hprev : r.prev = 0) (h0 : s.procs 0 = none) (hp : p ≠ 0) :
    freeproc p s = .error .badptr := by
  have e2 : ∀ (b : Prop) [Decidable b] (a : Ptr) (t : kernel),
      (if b then kfree a t else t).procs = t.procs := fun b _ a t => by split <;> rfl
  have e3 : ∀ (b : Prop) [Decidable b] (a : Ptr) (z : Nat) (t : kernel),
      (if b then proc_freepagetable a z t else t).procs = t.procs :=
    fun b _ a z t => by split <;> rfl
  have e4 : ∀ (m : procmem) (v : Option proc), m 0 = none →
      upd (Function.update m p v) 0 (fun q => { q with next := r.next }) = .error .badptr := by
    intro m v hm
    simp [upd, Function.update_apply, Ne.symm hp, hm]
  simp only [freeproc, bind, Except.bind, rd_some hr, e2, e3, upd_some _ hr, rd_update_same,
    upd_update_same, Function.update_idem, proc_remove, hprev, e4 _ _ h0]

/-- Every failure path of `allocproc` after the record has been obtained
calls `freeproc` on the unlinked record and stops in a null dereference. -/
theorem allocproc_failure_faults (tp : Nat) (env : allocenv) (s : kernel)
    (h0 : s.procs 0 = none) (hpid : s.locks .pid_lock = none) (hnp : env.bd_malloc ≠ 0)
    (hfail : env.kalloc_kstack = 0 ∨ env.kalloc_trapframe = 0 ∨ proc_pagetable env = 0) :
    allocproc tp env s = .error .badptr := by
  set np := env.bd_malloc with hnpdef
  set s0 : kernel := { s with procs := Function.update s.procs np (some (zeroproc env.NOFILE)) }
    with hs0
  obtain ⟨s1, hap, h1p, _⟩ := allocpid_ok tp (s := s0) hpid
  have e1 : s1.procs np = some (zeroproc env.NOFILE) := by
    rw [h1p]; simp [hs0]
  have e0 : s1.procs 0 = none := by
    rw [h1p]; simp [hs0, Function.update_apply, Ne.symm hnp, h0]
  have hfp : ∀ (t : kernel) (r : proc), t.procs = Function.update s1.procs np (some r) →
      r.prev = 0 → freeproc np t = .error .badptr := by
    intro t r ht hr
    refine freeproc_unlinked_faults (r := r) (by rw [ht]; simp) hr ?_ hnp
    rw [ht]; simp [Function.update_apply, Ne.symm hnp, e0]
  simp only [allocproc, ← hnpdef, hnp, if_false, bind, Except.bind, ← hs0, hap]
  simp only [upd_some _ e1, upd_update_same, Function.update_idem]
  by_cases hk : env.kalloc_kstack = 0
  · simp only [hk, kalloc, if_true, upd_update_same, Function.update_idem]
    rw [hfp _ _ rfl rfl]
  · by_cases ht : env.kalloc_trapframe = 0
    · simp only [hk, ht, kalloc, if_true, if_false, upd_update_same, Function.update_idem]
      rw [hfp _ _ rfl rfl]
    · have hpt : proc_pagetable env = 0 := by
        rcases hfail with h | h | h
        · exact absurd h hk
        · exact absurd h ht
        · exact h
      simp only [hk, ht, hpt, kalloc, if_true, if_false, upd_update_same, Function.update_idem]
      rw [hfp _ _ rfl rfl]

/-- C10 (the code at the failing inputs): when `bd_malloc` succeeds and the
kernel stack, the trapframe page or the page table cannot be obtained,
`allocproc` does not return 0: `freeproc` runs without `list_lock` on a record
that is not linked, and `proc_remove` dereferences its null `prev`. -/
theorem allocproc_failure_null_deref :
    ex_root_kernel.locks .list_lock = none ∧
    allocproc 0 { ex_env with kalloc_kstack := 0 } ex_root_kernel = .error .badptr ∧
    allocproc 0 { ex_env with kalloc_trapframe := 0 } ex_root_kernel = .error .badptr ∧
    allocproc 0 { ex_env with uvmcreate := 0 } ex_root_kernel = .error .badptr :=
  ⟨rfl,
   allocproc_failure_faults 0 _ ex_root_kernel rfl rfl (by decide) (Or.inl rfl),
   allocproc_failure_faults 0 _ ex_root_kernel rfl rfl (by decide) (Or.inr (Or.inl rfl)),
   allocproc_failure_faults 0 _ ex_root_kernel rfl rfl (by decide) (Or.inr (Or.inr rfl))⟩

/-- The scan of `scheduler` over a stretch of the list without RUNNABLE
records ends the pass and releases the lock. -/
theorem scheduler_scan_idle (tp : Nat) {s : kernel} (hl : locked tp s) (L : List Ptr) :
    ∀ (fuel : Nat) (q : Ptr), chain proc.next s.procs q L dummyhead → dummyhead ∉ L →
      (∀ a ∈ L, is_runnable s.procs a = false) → L.length < fuel →
      scheduler_scan tp fuel q s = .ok (none, released tp .list_lock s) := by
  induction L with
  | nil =>
    intro fuel q hc _ _ hf
    obtain ⟨n, rfl⟩ : ∃ n, fuel = n + 1 := ⟨fuel - 1, by simp at hf; omega⟩
    have hq : q = dummyhead := by simpa [chain_nil] using hc
    simp only [scheduler_scan, hq, if_true, bind, Except.bind, release_locked hl]
  | cons a L ih =>
    intro fuel q hc hd hz hf
    obtain ⟨n, rfl⟩ : ∃ n, fuel = n + 1 := ⟨fuel - 1, by simp at hf; omega⟩
    rw [chain_cons] at hc
    obtain ⟨rfl, r, hr, hc⟩ := hc
    have hqd : q ≠ dummyhead := fun h => hd (h ▸ by simp)
    have hz1 : r.state ≠ .RUNNABLE := by
      have := hz q (List.mem_cons_self _ _)
      simpa [is_runnable, hr] using this
    simp only [scheduler_scan, hqd, if_false, bind, Except.bind, rd_some hr, hz1]
    exact ih n r.next hc (fun h => hd (List.mem_cons_of_mem _ h))
      (fun b hb => hz b (List.mem_cons_of_mem _ hb)) (by simp at hf ⊢; omega)

/-- The scan of `scheduler` up to the first RUNNABLE record, which it marks
RUNNING and makes the core's process. -/
theorem scheduler_scan_dispatch (tp : Nat) {s : kernel} {c : Ptr} {B : List Ptr} {rc : proc}
    (hrc : s.procs c = some rc) (hst : rc.state = .RUNNABLE) (A : List Ptr) :
    ∀ (fuel : Nat) (q : Ptr), chain proc.next s.procs q (A ++ c :: B) dummyhead →
      dummyhead ∉ A ++ c :: B → (∀ a ∈ A, is_runnable s.procs a = false) →
      (A ++ c :: B).length < fuel →
      scheduler_scan tp fuel q s = .ok (some c,
        { s with procs := Function.update s.procs c (some { rc with state := .RUNNING })
                 cpus := Function.update s.cpus tp { s.cpus tp with proc := c } }) := by
  induction A with
  | nil =>
    intro fuel q hc hd _ hf
    obtain ⟨n, rfl⟩ : ∃ n, fuel = n + 1 := ⟨fuel - 1, by simp at hf; omega⟩
    rw [List.nil_append, chain_cons] at hc
    obtain ⟨rfl, _, _, _⟩ := hc
    have hqd : q ≠ dummyhead := fun h => hd (h ▸ by simp)
    simp only [scheduler_scan, hqd, if_false, bind, Except.bind, rd_some hrc, hst, if_true,
      upd_some _ hrc]
  | cons a A ih =>
    intro fuel q hc hd hA hf
    obtain ⟨n, rfl⟩ : ∃ n, fuel = n + 1 := ⟨fuel - 1, by simp at hf; omega⟩
    rw [List.cons_append, chain_cons] at hc
    obtain ⟨rfl, r, hr, hc⟩ := hc
    have hqd : q ≠ dummyhead := fun h => hd (h ▸ by simp)
    have hz1 : r.state ≠ .RUNNABLE := by
      have := hA q (List.mem_cons_self _ _)
      simpa [is_runnable, hr] using this
    simp only [scheduler_scan, hqd, if_false, bind, Except.bind, rd_some hr, hz1]
    exact ih n r.next hc (fun h => hd (List.mem_cons_of_mem _ h))
      (fun b hb => hA b (List.mem_cons_of_mem _ hb)) (by simp at hf ⊢; omega)

/-- A pass of `scheduler` that finds `c` as the first RUNNABLE record. -/
theorem scheduler_pass_dispatch {s : kernel} {L : List Ptr} (tp : Nat) {c : Ptr} {rc : proc}
    {fuel : Nat} (hT : table s.procs L) (hfree : s.locks .list_lock = none)
    (hfind : L.find? (is_runnable s.procs) = some c) (hrc : s.procs c = some rc)
    (hfuel : L.length < fuel) :
    ∃ s', scheduler_pass tp fuel s = .ok (some c, s') ∧
      s'.procs = Function.update s.procs c (some { rc with state := .RUNNING }) ∧
      locked tp s' ∧ curproc s' tp = c ∧ (s'.cpus tp).noff = (s.cpus tp).noff + 1 ∧
      (∀ k, k ≠ tp → s'.cpus k = s.cpus k ∧ s'.intr k = s.intr k) ∧
      s'.pages = s.pages ∧ s'.user = s.user ∧ s'.initproc = s.initproc ∧
      s'.nextpid = s.nextpid ∧ s'.locks .pid_lock = s.locks .pid_lock := by
  obtain ⟨hz, A, B, rfl, hA⟩ := List.find?_eq_some.1 hfind
  obtain ⟨d, hd, hc, hdL, _⟩ := table_head hT
  have hst : rc.state = .RUNNABLE := by simpa [is_runnable, hrc] using hz
  set s0 : kernel := { s with intr := Function.update s.intr tp true } with hs0
  set s1 := acquired tp .list_lock s0 with hs1
  have hA' : ∀ a ∈ A, is_runnable s1.procs a = false := by
    intro a ha
    simpa using hA a ha
  have hscan := scheduler_scan_dispatch tp (s := s1) (B := B) hrc hst A fuel d.next hc hdL hA'
    hfuel
  have hd1 : rd s1.procs dummyhead = .ok d := rd_some hd
  have hacq : acquire tp .list_lock s0 = .ok s1 := acquire_eq hfree
  refine ⟨{ s1 with procs := Function.update s1.procs c (some { rc with state := .RUNNING })
                    cpus := Function.update s1.cpus tp { s1.cpus tp with proc := c } },
    ?_, rfl, ?_, ?_, ?_, ?_, rfl, rfl, rfl, rfl, ?_⟩
  · simp only [scheduler_pass, bind, Except.bind, ← hs0, hacq, hd1, hscan]
  · have := locked_acquired tp s0
    simp only [locked, hs1, acquired, push_off, Function.update_same] at this ⊢
    simp
  · simp [curproc]
  · simp [hs1, acquired, push_off, Function.update_apply]
  · intro k hk
    constructor
    · simp [hs1, hs0, acquired, push_off, Function.update_apply, hk]
    · simp [hs1, hs0, acquired, push_off, Function.update_apply, hk]
  · simp [hs1, hs0, acquired, Function.update_apply]

/-- The scheduler taking the core back from the process `c` when no record
after `c` is RUNNABLE: it clears the core's process, finishes the pass and
releases the lock. -/
theorem scheduler_resume_idle {s : kernel} {A : List Ptr} {c : Ptr} {B : List Ptr} (tp : Nat)
    {fuel : Nat} (hT : table s.procs (A ++ c :: B)) (hl : locked tp s)
    (hcur : (s.cpus tp).proc = c) (hB : ∀ a ∈ B, is_runnable s.procs a = false)
    (hfuel : (A ++ c :: B).length < fuel) :
    ∃ s', scheduler_resume tp fuel s = .ok (none, s') ∧ s'.procs = s.procs ∧
      s'.locks .list_lock = none ∧ curproc s' tp = 0 ∧
      (s'.cpus tp).noff = (s.cpus tp).noff - 1 ∧
      (∀ k, k ≠ tp → s'.cpus k = s.cpus k ∧ s'.intr k = s.intr k) ∧
      s'.pages = s.pages ∧ s'.user = s.user ∧ s'.initproc = s.initproc ∧
      s'.nextpid = s.nextpid ∧ s'.locks .pid_lock = s.locks .pid_lock := by
  obtain ⟨d, hd, hc, hdL, _⟩ := table_head hT
  obtain ⟨_, rc, hrc, hcB⟩ := chain_split proc.next hc
  set s1 : kernel := { s with cpus := Function.update s.cpus tp { s.cpus tp with proc := 0 } }
    with hs1
  have hl1 : locked tp s1 := by
    obtain ⟨h1, h2, h3⟩ := hl
    exact ⟨h1, h2, by simpa [hs1] using h3⟩
  have hdB : dummyhead ∉ B := fun h => hdL (List.mem_append_right _ (List.mem_cons_of_mem _ h))
  have hscan := scheduler_scan_idle tp hl1 B fuel rc.next hcB hdB hB
    (by simp at hfuel ⊢; omega)
  refine ⟨released tp .list_lock s1, ?_, rfl, by simp, ?_, ?_, ?_, rfl, rfl, rfl, rfl, ?_⟩
  · simp only [scheduler_resume, bind, Except.bind, hcur, ← hs1,
      rd_some (show s1.procs c = some rc from hrc), hscan]
  · simp [curproc, released, hs1]
  · simp [released, hs1]
  · intro k hk
    obtain ⟨e1, e2⟩ := released_cpus_ne tp .list_lock s1 hk
    refine ⟨e1.trans ?_, e2⟩
    simp [hs1, Function.update_apply, hk]
  · have hne : lockid.pid_lock ≠ lockid.list_lock := by decide
    simp [released, hs1, Function.update_apply, hne]

/-- The function `forkret` run by a process the scheduler has just switched
into. -/
theorem forkret_ok {s : kernel} (tp : Nat) (hl : locked tp s) :
    ∃ s', forkret tp s = .ok s' ∧ s'.procs = s.procs ∧ s'.locks .list_lock = none ∧
      curproc s' tp = curproc s tp ∧ (s'.cpus tp).noff = (s.cpus tp).noff - 1 ∧
      (∀ k, k ≠ tp → s'.cpus k = s.cpus k ∧ s'.intr k = s.intr k) ∧
      s'.pages = s.pages ∧ s'.user = s.user ∧ s'.initproc = s.initproc ∧
      s'.nextpid = s.nextpid ∧ s'.locks .pid_lock = s.locks .pid_lock := by
  refine ⟨released tp .list_lock s, release_locked hl, rfl, by simp, by simp, ?_,
    fun k hk => released_cpus_ne tp .list_lock s hk, rfl, rfl, rfl, rfl, ?_⟩
  · simp [released]
  · have hne : lockid.pid_lock ≠ lockid.list_lock := by decide
    simp [released, Function.update_apply, hne]

theorem wake_self (me chan : Ptr) (r : proc) : wake me chan me r = r := by
  simp [wake]

theorem wake_awake (me chan a : Ptr) {r : proc} (h : r.state ≠ .SLEEPING) :
    wake me chan a r = r := by
  simp [wake, h]

theorem reparent_rec_other (p init : Ptr) {r : proc} (h : r.parent ≠ p) :
    reparent_rec p init r = r := by
  simp [reparent_rec, h]

theorem sched_ok {tp : Nat} {s : kernel} {r : proc} (hl : locked tp s)
    (hn : (s.cpus tp).noff = 1) (hr : s.procs (curproc s tp) = some r)
    (hst : r.state ≠ .RUNNING) : sched tp s = .ok ((s.cpus tp).intena, s) := by
  have h1 : holding s .list_lock tp = true := by
    unfold holding; rw [hl.1]; simp
  simp only [sched, myproc_eq, bracketed_locked hl, h1, hn, rd_some hr, hl.2.1, bind,
    Except.bind, hst]
  simp

/-- The function `exit` up to its switch into the scheduler: the caller is a
ZOMBIE with the given status, and every other record that is neither its
child nor asleep is as before. -/
theorem exit_ok {s : kernel} {L : List Ptr} (tp : Nat) (status : Int) {pr : proc} {fuel : Nat}
    (hT : table s.procs L) (hinit : curproc s tp ≠ s.initproc)
    (hpr : s.procs (curproc s tp) = some pr) (hself : pr.parent ≠ curproc s tp)
    (hfree : s.locks .list_lock = none) (hnoff : (s.cpus tp).noff = 0)
    (hfuel : L.length < fuel) :
    ∃ i s', exit tp status fuel s = .ok (i, s') ∧ table s'.procs L ∧
      s'.procs (curproc s tp) = some
        { pr with ofile := pr.ofile.map (fun _ => 0), cwd := 0, xstate := status,
                  state := .ZOMBIE } ∧
      (∀ a r, a ≠ curproc s tp → s.procs a = some r → r.parent ≠ curproc s tp →
        r.state ≠ .SLEEPING → s'.procs a = some r) ∧
      (∀ a, s.procs a = none → s'.procs a = none) ∧
      locked tp s' ∧ (s'.cpus tp).proc = curproc s tp ∧
      (∀ k, k ≠ tp → s'.cpus k = s.cpus k ∧ s'.intr k = s.intr k) ∧
      s'.pages = s.pages ∧ s'.user = s.user ∧ s'.initproc = s.initproc ∧
      s'.nextpid = s.nextpid ∧ s'.locks .pid_lock = s.locks .pid_lock := by
  set p := curproc s tp with hp
  set pr1 : proc := { pr with ofile := pr.ofile.map (fun _ => 0), cwd := 0 } with hpr1
  set m1 : procmem := Function.update s.procs p (some pr1) with hm1
  have hp0 : p ≠ 0 := by
    intro h; rw [h, hT.1] at hpr; cases hpr
  have hT1 : table m1 L := by
    refine table_mono hT (by simp [hm1, Function.update_apply, Ne.symm hp0, hT.1])
      (fun a _ r hr => ?_)
    by_cases h : a = p
    · subst h
      rw [hpr] at hr; cases hr
      exact ⟨pr1, by simp [hm1], rfl, rfl⟩
    · exact ⟨r, by simp [hm1, Function.update_apply, h, hr], rfl, rfl⟩
  set sa := acquired tp .list_lock { s with procs := m1 } with hsa
  have hmy : curproc sa tp = p := by rw [hsa, acquired_curproc]; rfl
  have hla : locked tp sa := locked_acquired tp { s with procs := m1 }
  have hTa : table sa.procs L := hT1
  set R : procmem := (if (L.any (is_child sa.procs p)) = true
          then (woken (reparented sa.procs L p sa.initproc) L (curproc sa tp) sa.initproc)
          else (reparented sa.procs L p sa.initproc)) with hR
  have hrep : reparent tp p fuel sa = .ok { sa with procs := R } :=
    reparent_eq tp p hTa hfuel hla.2.1 hla.2.2
  have hTR : table R L := by
    rw [hR]
    split
    · exact table_woken _ _ (table_reparented _ _ _ hTa)
    · exact table_reparented _ _ _ hTa
  have hRval : ∀ a r, m1 a = some r → r.parent ≠ p → (a = p ∨ r.state ≠ .SLEEPING) →
      R a = some r := by
    intro a r hr hpar hor
    have hw : wake p sa.initproc a r = r := by
      rcases hor with h | h
      · rw [h]; exact wake_self ..
      · exact wake_awake _ _ _ h
    have hsap : sa.procs a = some r := hr
    rw [hR]
    split <;> by_cases hL : a ∈ L <;>
      simp [woken, reparented, hL, hsap, reparent_rec_other _ _ hpar, hmy, hw]
  have hRnone : ∀ a, m1 a = none → R a = none := by
    intro a ha
    have hsap : sa.procs a = none := ha
    rw [hR]
    split <;> by_cases hL : a ∈ L <;> simp [woken, reparented, hL, hsap]
  have hRp : R p = some pr1 := hRval p pr1 (by simp [hm1]) hself (Or.inl rfl)
  set sb : kernel := { sa with procs := R } with hsb
  have hmyb : curproc sb tp = p := hmy
  set W : procmem := woken R L p pr.parent with hW
  have hwk : wakeup_nolock tp pr1.parent fuel sb = .ok { sb with procs := W } := by
    have := wakeup_nolock_eq (s := sb) tp pr1.parent hTR hfuel hla.2.1 hla.2.2
    rw [hmyb] at this
    exact this
  have hWval : ∀ a r, R a = some r → (a = p ∨ r.state ≠ .SLEEPING) → W a = some r := by
    intro a r hr hor
    have hw : wake p pr.parent a r = r := by
      rcases hor with h | h
      · rw [h]; exact wake_self ..
      · exact wake_awake _ _ _ h
    by_cases hL : a ∈ L <;> simp [hW, woken, hL, hr, hw]
  have hWnone : ∀ a, R a = none → W a = none := by
    intro a ha
    by_cases hL : a ∈ L <;> simp [hW, woken, hL, ha]
  have hWp : W p = some pr1 := hWval p pr1 hRp (Or.inl rfl)
  set recF : proc := { pr with ofile := pr.ofile.map (fun _ => 0), cwd := 0, xstate := status,
                               state := .ZOMBIE } with hrecF
  set sF : kernel := { sb with procs := Function.update W p (some recF) } with hsF
  have hlF : locked tp sF := locked_acquired tp { s with procs := m1 }
  have hnoffF : (sF.cpus tp).noff = 1 := by
    show ((acquired tp .list_lock { s with procs := m1 }).cpus tp).noff = 1
    simp [acquired, push_off, hnoff]
  have hsched : sched tp sF = .ok ((sF.cpus tp).intena, sF) := by
    have h2 : sF.procs (curproc sF tp) = some recF := by
      show Function.update W p (some recF) (curproc sa tp) = _
      rw [hmy]; simp
    exact sched_ok hlF hnoffF h2 (by simp [hrecF])
  have hTF : table sF.procs L := by
    refine table_mono (table_woken p pr.parent hTR)
      (by show Function.update W p (some recF) 0 = none
          simp [Function.update_apply, Ne.symm hp0, hWnone 0 (hRnone 0 (by
            simp [hm1, Function.update_apply, Ne.symm hp0, hT.1]))])
      (fun a _ r hr => ?_)
    by_cases h : a = p
    · rw [h] at hr ⊢
      have : W p = some r := hr
      rw [hWp] at this; cases this
      exact ⟨recF, by simp [hsF], rfl, rfl⟩
    · exact ⟨r, by
        show Function.update W p (some recF) a = some r
        rw [Function.update_noteq h]; exact hr, rfl, rfl⟩
  refine ⟨(sF.cpus tp).intena, sF, ?_, hTF, by simp [hsF], ?_, ?_, hlF, hmy, ?_, rfl, rfl, rfl,
    rfl, ?_⟩
  · have hne : ¬ p = s.initproc := hinit
    simp only [exit, myproc_eq, bracketed_initproc, bracketed_procs, ← hp, hne, if_false, bind,
      Except.bind, upd_some _ hpr, upd_update_same, Function.update_idem]
    have hacq : acquire tp .list_lock
        { procs := m1, pages := (bracketed tp s).pages, user := (bracketed tp s).user,
          initproc := s.initproc, nextpid := (bracketed tp s).nextpid,
          locks := (bracketed tp s).locks, cpus := (bracketed tp s).cpus,
          intr := (bracketed tp s).intr } = .ok sa := by
      show acquire tp .list_lock (bracketed tp { s with procs := m1 }) = _
      rw [acquire_bracketed]; exact acquire_eq hfree
    simp only [← hpr1, ← hm1, hacq, hrep, rd_some (show sb.procs p = some pr1 from hRp), hwk,
      upd_some _ (show ({ sb with procs := W } : kernel).procs p = some pr1 from hWp),
      upd_update_same, Function.update_idem]
    exact hsched
  · intro a r hne hr hpar hst
    show Function.update W p (some recF) a = some r
    rw [Function.update_noteq hne]
    refine hWval a r (hRval a r ?_ hpar (Or.inr hst)) (Or.inr hst)
    simp [hm1, Function.update_apply, hne, hr]
  · intro a ha
    have hne : a ≠ p := by
      intro h; rw [h, hpr] at ha; cases ha
    show Function.update W p (some recF) a = none
    rw [Function.update_noteq hne]
    exact hWnone a (hRnone a (by simp [hm1, Function.update_apply, hne, ha]))
  · intro k hk
    exact acquired_cpus_ne tp .list_lock { s with procs := m1 } hk
  · have hne : lockid.pid_lock ≠ lockid.list_lock := by decide
    show (acquired tp .list_lock { s with procs := m1 }).locks .pid_lock = _
    simp [acquired, Function.update_apply, hne]

/-- C8: from a well-formed table holding only the root process, which runs
on core `tp0` while core `tp1` idles in its scheduler: the root forks, the
scheduler of `tp1` dispatches the child, the child calls `exit(status)`,
the scheduler of `tp1` takes the core back, and the root calls `wait` with a
mapped destination.  Then `wait` returns the pid `fork` returned, the value
written at the destination is `status`, and the table again holds only the
root process. -/
theorem fork_exit_wait_roundtrip (s0 : kernel) (env : allocenv) (tp0 tp1 : Nat) (root : Ptr)
    (pr : proc) (tf : trapframe) (addr : Nat) (status : Int) (fuel : Nat)
    (hT : table s0.procs [root]) (hroot : s0.initproc = root) (hcur : curproc s0 tp0 = root)
    (hpr : s0.procs root = some pr) (hrun : pr.state = .RUNNING) (hpar : pr.parent = 0)
    (hpid : s0.locks .pid_lock = none) (hfree : s0.locks .list_lock = none)
    (hcpu : tp1 ≠ tp0) (hidle : (s0.cpus tp1).noff = 0)
    (hnp : env.bd_malloc ≠ 0) (hfresh : s0.procs env.bd_malloc = none)
    (hk : env.kalloc_kstack ≠ 0) (hkf : s0.pages env.kalloc_kstack = none)
    (ht : env.kalloc_trapframe ≠ 0) (htf : s0.pages env.kalloc_trapframe = none)
    (hpt : proc_pagetable env ≠ 0) (hown : proc_pagetable env ≠ pr.pagetable)
    (hcopy : 0 ≤ env.uvmcopy) (hframe : s0.pages pr.trapframe = some tf)
    (haddr : addr ≠ 0) (hmap : s0.user pr.pagetable addr ≠ none) (hfuel : 2 < fuel) :
    ∃ pid s1 s2 s3 i s4 s5 s6,
      fork tp0 env s0 = .ok (pid, s1) ∧
      scheduler_pass tp1 fuel s1 = .ok (some env.bd_malloc, s2) ∧
      forkret tp1 s2 = .ok s3 ∧
      exit tp1 status fuel s3 = .ok (i, s4) ∧
      scheduler_resume tp1 fuel s4 = .ok (none, s5) ∧
      wait tp0 addr fuel s5 = .ok (.ret pid, s6) ∧
      s6.user pr.pagetable addr = some status ∧
      table s6.procs [root] ∧ s6.procs env.bd_malloc = none := by
  set np := env.bd_malloc with hnpdef
  have hrn : root ≠ np := by
    intro h; rw [h, hfresh] at hpr; cases hpr
  have hpr0 : s0.procs (curproc s0 tp0) = some pr := by rw [hcur]; exact hpr
  -- fork
  obtain ⟨s1, hfork, hT1, hchild, hdata1, _, huser1, hlock1, hinit1, _, hcpus1, _, hmy1, _⟩ :=
    fork_ok tp0 hT hpid hfree hnp hfresh hk hkf ht htf hpt hcopy hpr0 hframe
  rw [hcur] at hchild hmy1
  simp only [headOr] at hchild
  set child : proc := { new_proc env s0.nextpid root with
          sz := pr.sz
          ofile := fork_ofile env.NOFILE pr.ofile (List.replicate env.NOFILE 0)
          cwd := pr.cwd
          name := safestrcpy [] pr.name env.NAMESZ
          parent := root
          state := .RUNNABLE } with hchilddef
  obtain ⟨pr1, hpr1, hd1⟩ := data_of_map (hdata1 root hrn) hpr
  obtain ⟨_, e2, e3, e4, _⟩ := data_fields hd1
  -- the scheduler of the idle core dispatches the child
  have hfind1 : [np, root].find? (is_runnable s1.procs) = some np := by
    have : is_runnable s1.procs np = true := by simp [is_runnable, hchild, hchilddef]
    simp [List.find?, this]
  obtain ⟨s2, hdisp, hprocs2, hl2, hmy2, hnoff2, hcpus2, _, huser2, hinit2, _, _⟩ :=
    @scheduler_pass_dispatch s1 [np, root] tp1 np child fuel hT1 hlock1 hfind1 hchild
      (by simp; omega)
  -- the child starts in forkret
  obtain ⟨s3, hfr, hprocs3, hlock3, hmy3, hnoff3, hcpus3, _, huser3, hinit3, _, _⟩ :=
    forkret_ok tp1 hl2
  set childR : proc := { child with state := .RUNNING } with hchildR
  have hnp3 : s3.procs np = some childR := by
    rw [hprocs3, hprocs2]; simp
  have hroot3 : s3.procs root = some pr1 := by
    rw [hprocs3, hprocs2]; simp [Function.update_apply, hrn, hpr1]
  have hT3 : table s3.procs [np, root] := by
    refine table_mono hT1 (by rw [hprocs3, hprocs2]; simp [Function.update_apply, Ne.symm hnp,
      hT1.1]) (fun a _ r hr => ?_)
    by_cases h : a = np
    · rw [h] at hr ⊢
      rw [hchild] at hr; cases hr
      exact ⟨childR, hnp3, rfl, rfl⟩
    · exact ⟨r, by rw [hprocs3, hprocs2]; simp [Function.update_apply, h, hr], rfl, rfl⟩
  have hmy3' : curproc s3 tp1 = np := by rw [hmy3, hmy2]
  have hnoff3' : (s3.cpus tp1).noff = 0 := by
    rw [hnoff3, hnoff2, (hcpus1 tp1 hcpu).1, hidle]
  -- the child exits
  have hinit3' : curproc s3 tp1 ≠ s3.initproc := by
    rw [hmy3', hinit3, hinit2, hinit1, hroot]; exact Ne.symm hrn
  obtain ⟨i, s4, hexit, hT4, hnp4, hother4, _, hl4, hcur4, hcpus4, _, huser4, _, _, _⟩ :=
    @exit_ok s3 [np, root] tp1 status childR fuel hT3 hinit3' (by rw [hmy3']; exact hnp3)
      (by rw [hmy3']; exact hrn) hlock3 hnoff3' (by simp; omega)
  rw [hmy3'] at hnp4 hother4 hcur4
  have hroot4 : s4.procs root = some pr1 :=
    hother4 root pr1 hrn hroot3 (by rw [e3, hpar]; exact Ne.symm hnp) (by rw [e2, hrun]; decide)
  -- the scheduler takes the core back
  obtain ⟨s5, hres, hprocs5, hlock5, _, _, hcpus5, _, huser5, _, _, _⟩ :=
    @scheduler_resume_idle s4 [] np [root] tp1 fuel hT4 hl4 hcur4
      (fun a ha => by
        have : a = root := by simpa using ha
        rw [this]
        simp [is_runnable, hroot4, e2, hrun]) (by simp; omega)
  -- the root waits
  have hmy5 : curproc s5 tp0 = root := by
    have h5 := (hcpus5 tp0 (Ne.symm hcpu)).1
    have h4 := (hcpus4 tp0 (Ne.symm hcpu)).1
    have h3 := (hcpus3 tp0 (Ne.symm hcpu)).1
    have h2 := (hcpus2 tp0 (Ne.symm hcpu)).1
    unfold curproc at hmy1 ⊢
    rw [h5, h4, h3, h2]
    exact hmy1
  set zrec : proc := { childR with ofile := childR.ofile.map (fun _ => 0), cwd := 0,
                                   xstate := status, state := .ZOMBIE } with hzrec
  have hT5 : table s5.procs [np, root] := by rw [hprocs5]; exact hT4
  have hnp5 : s5.procs np = some zrec := by rw [hprocs5]; exact hnp4
  have hroot5 : s5.procs root = some pr1 := by rw [hprocs5]; exact hroot4
  have huser5' : s5.user = Function.update s0.user (proc_pagetable env) (s0.user pr.pagetable) := by
    rw [huser5, huser4, huser3, huser2, huser1]
  have hfind5 : [np, root].find? (zombie_child s5.procs (curproc s5 tp0)) = some np := by
    have : zombie_child s5.procs root np = true := by
      simp [zombie_child, hnp5, hzrec, hchildR, hchilddef]
    rw [hmy5]
    simp [List.find?, this]
  have hmap5 : s5.user pr1.pagetable addr ≠ none := by
    rw [huser5', e4]
    simp only [Function.update_apply, Ne.symm hown, if_false]
    exact hmap
  obtain ⟨s6, hwait, hT6, _, hnone6, _, hval6, _⟩ :=
    @wait_reaps s5 [np, root] tp0 addr np zrec fuel hT5 hlock5 hfind5 hnp5
      (Or.inr ⟨pr1, by rw [hmy5]; exact hroot5, hmap5⟩) (by simp; omega)
  refine ⟨s0.nextpid, s1, s2, s3, i, s4, s5, s6, hfork, hdisp, hfr, hexit, hres, hwait, ?_, ?_,
    hnone6⟩
  · have := hval6 pr1 haddr (by rw [hmy5]; exact hroot5) (by
      show proc_pagetable env ≠ pr1.pagetable
      rw [e4]; exact hown)
    rw [e4] at this
    exact this
  · have he : [np, root].erase np = [root] := by simp
    rw [he] at hT6
    exact hT6

set_option maxRecDepth 4000 in
/-- Witness for C8: the root at `2` forks the child at `3` (pid `10`), which
exits with status `7`. -/
theorem fork_exit_wait_roundtrip_witness :
    table ex_root_kernel.procs [2] ∧
    ∃ pid s1 s2 s3 i s4 s5 s6,
      fork 0 ex_env ex_root_kernel = .ok (pid, s1) ∧
      scheduler_pass 1 3 s1 = .ok (some 3, s2) ∧
      forkret 1 s2 = .ok s3 ∧
      exit 1 7 3 s3 = .ok (i, s4) ∧
      scheduler_resume 1 3 s4 = .ok (none, s5) ∧
      wait 0 5 3 s5 = .ok (.ret pid, s6) ∧
      s6.user 9 5 = some 7 ∧ table s6.procs [2] ∧ s6.procs 3 = none :=
  ⟨by decide,
   fork_exit_wait_roundtrip ex_root_kernel ex_env 0 1 2
    { ex_proc 1 .RUNNING 0 0 1 1 with pagetable := 9, trapframe := 8, sz := 4096,
                                      name := ['i', 'n', 'i', 't'] }
    ex_frame 5 7 3 (by decide) rfl rfl rfl rfl rfl rfl rfl (by decide) rfl (by decide) rfl
    (by decide) rfl (by decide) rfl (by decide) (by decide) (by decide) rfl (by decide)
    (by decide) (by decide)⟩

theorem bind_ok {α β : Type} {x : Except fault α} {f : α → Except fault β} {r : β}
    (h : x.bind f = .ok r) : ∃ v, x = .ok v ∧ f v = .ok r := by
  cases x with
  | error e => simp [Except.bind] at h
  | ok v => exact ⟨v, rfl, h⟩

theorem rd_ok {α : Type} {m : Ptr → Option α} {a : Ptr} {r : α} (h : rd m a = .ok r) :
    m a = some r := by
  unfold rd at h
  cases h' : m a with
  | none => rw [h'] at h; cases h
  | some v => rw [h'] at h; cases h; rfl

theorem upd_ok {α : Type} {m m' : Ptr → Option α} {a : Ptr} {f : α → α}
    (h : upd m a f = .ok m') : ∃ r, m a = some r ∧ m' = Function.update m a (some (f r)) := by
  unfold upd at h
  cases h' : m a with
  | none => rw [h'] at h; cases h
  | some v => rw [h'] at h; cases h; exact ⟨v, rfl, rfl⟩

theorem quiet_refl (m : procmem) : quiet m m := ⟨fun _ => rfl, id⟩

theorem quiet_trans {m1 m2 m3 : procmem} (h1 : quiet m1 m2) (h2 : quiet m2 m3) :
    quiet m1 m3 :=
  ⟨fun a => (h2.1 a).trans (h1.1 a), fun h => h2.2 (h1.2 h)⟩

theorem quiet_update {m : procmem} {a : Ptr} {r r' : proc} (hr : m a = some r)
    (hst : (r'.state = .RUNNING) = (r.state = .RUNNING)) :
    quiet m (Function.update m a (some r')) := by
  refine ⟨fun b => ?_, fun h0 => ?_⟩
  · by_cases h : b = a
    · subst h
      simp [is_running, hr, hst]
    · simp [is_running, Function.update_apply, h]
  · have : (0 : Ptr) ≠ a := by
      intro h; rw [← h, h0] at hr; cases hr
    simp [Function.update_apply, this, h0]

theorem upd_quiet {m m' : procmem} {a : Ptr} {f : proc → proc} (h : upd m a f = .ok m')
    (hf : ∀ r, (f r).state = r.state) : quiet m m' := by
  obtain ⟨r, hr, rfl⟩ := upd_ok h
  exact quiet_update hr (by rw [hf])

theorem quiet_free {m : procmem} {a : Ptr} (h : is_running m a = false) :
    quiet m (Function.update m a none) := by
  refine ⟨fun b => ?_, fun h0 => ?_⟩
  · by_cases hb : b = a
    · subst hb
      simp [is_running] at h ⊢
      cases hm : m b with
      | none => simp
      | some r => simpa [hm] using h
    · simp [is_running, Function.update_apply, hb]
  · by_cases hb : (0 : Ptr) = a <;> simp [Function.update_apply, hb, h0]

theorem acquire_ok_inv {tp : Nat} {lk : lockid} {s s' : kernel}
    (h : acquire tp lk s = .ok s') : s.locks lk = none ∧ s' = acquired tp lk s := by
  cases hl : s.locks lk with
  | none =>
    rw [acquire_eq hl] at h
    cases h
    exact ⟨rfl, rfl⟩
  | some c =>
    unfold acquire holding push_off at h
    by_cases hc : c = tp <;> simp [hl, hc] at h

theorem release_ok_inv {tp : Nat} {lk : lockid} {s s' : kernel}
    (h : release tp lk s = .ok s') :
    s.locks lk = some tp ∧ s' = released tp lk s := by
  have hh : s.locks lk = some tp := by
    unfold release holding at h
    by_cases h1 : s.locks lk = some tp
    · exact h1
    · simp [h1] at h
  have h2 : s.intr tp = false := by
    unfold release pop_off at h
    cases hi : s.intr tp with
    | false => rfl
    | true => simp [holding, hh, hi] at h
  have h3 : 1 ≤ (s.cpus tp).noff := by
    unfold release pop_off at h
    by_contra hn
    have : (s.cpus tp).noff < 1 := by omega
    simp [holding, hh, h2, this] at h
  rw [release_eq hh h2 h3] at h
  cases h
  exact ⟨hh, rfl⟩

theorem myproc_ok_inv {tp : Nat} {s t : kernel} {p : Ptr} (h : myproc tp s = .ok (p, t)) :
    p = curproc s tp ∧ t = bracketed tp s := by
  rw [myproc_eq] at h
  cases h
  exact ⟨rfl, rfl⟩

theorem bracketed_inside (tp : Nat) (s : kernel) : inside s (bracketed tp s) :=
  ⟨quiet_refl _, rfl, fun c => bracketed_curproc tp s c⟩

theorem wakeup_scan_quiet (tp : Nat) (chan : Ptr) :
    ∀ (n : Nat) (p : Ptr) (s s' : kernel), wakeup_scan tp chan n p s = .ok s' → inside s s' := by
  intro n
  induction n with
  | zero => intro p s s' h; simp [wakeup_scan] at h
  | succ n ih =>
    intro p s s' h
    unfold wakeup_scan at h
    by_cases hp : p = dummyhead
    · simp only [hp, if_true] at h
      cases h
      exact ⟨quiet_refl _, rfl, fun _ => rfl⟩
    · simp only [hp, if_false, bind] at h
      obtain ⟨⟨me, t⟩, hmy, h⟩ := bind_ok h
      obtain ⟨hme, rfl⟩ := myproc_ok_inv hmy
      obtain ⟨s1, hs1, h⟩ := bind_ok h
      obtain ⟨r1, _, h⟩ := bind_ok h
      have hq1 : inside (bracketed tp s) s1 := by
        by_cases h1 : p ≠ me
        · simp only [if_pos h1] at hs1
          obtain ⟨r, hr, hs1⟩ := bind_ok hs1
          by_cases h2 : r.state = .SLEEPING ∧ r.chan = chan
          · rw [if_pos h2] at hs1
            obtain ⟨m1, hm1, hs1⟩ := bind_ok hs1
            cases hs1
            obtain ⟨r0, hr0, rfl⟩ := upd_ok hm1
            have : r0 = r := by rw [rd_ok hr] at hr0; cases hr0; rfl
            subst this
            exact ⟨quiet_update hr0 (by simp [h2.1]), rfl, fun _ => rfl⟩
          · rw [if_neg h2] at hs1
            cases hs1
            exact ⟨quiet_refl _, rfl, fun _ => rfl⟩
        · simp only [if_neg h1] at hs1
          cases hs1
          exact ⟨quiet_refl _, rfl, fun _ => rfl⟩
      have hq2 := ih _ _ _ h
      have hq0 := bracketed_inside tp s
      exact ⟨quiet_trans (quiet_trans hq0.1 hq1.1) hq2.1,
        hq2.2.1.trans (hq1.2.1.trans hq0.2.1),
        fun c => (hq2.2.2 c).trans ((hq1.2.2 c).trans (hq0.2.2 c))⟩

theorem wakeup_nolock_quiet {tp : Nat} {chan : Ptr} {fuel : Nat} {s s' : kernel}
    (h : wakeup_nolock tp chan fuel s = .ok s') : inside s s' := by
  unfold wakeup_nolock at h
  simp only [bind] at h
  obtain ⟨d, _, h⟩ := bind_ok h
  exact wakeup_scan_quiet _ _ _ _ _ _ h

theorem quiet_except_of_quiet {a : Ptr} {m m' : procmem} (h : quiet m m') :
    quiet_except a m m' :=
  ⟨fun b _ => h.1 b, h.2⟩

theorem quiet_except_trans {a : Ptr} {m1 m2 m3 : procmem} (h1 : quiet_except a m1 m2)
    (h2 : quiet_except a m2 m3) : quiet_except a m1 m3 :=
  ⟨fun b hb => (h2.1 b hb).trans (h1.1 b hb), fun h => h2.2 (h1.2 h)⟩

theorem quiet_of_except {a : Ptr} {m m' : procmem} (h : quiet_except a m m')
    (h1 : is_running m a = false) (h2 : is_running m' a = false) : quiet m m' := by
  refine ⟨fun b => ?_, h.2⟩
  by_cases hb : b = a
  · rw [hb, h1, h2]
  · exact h.1 b hb

theorem upd_quiet_except {m m' : procmem} {a : Ptr} {f : proc → proc}
    (h : upd m a f = .ok m') : quiet_except a m m' := by
  obtain ⟨r, hr, rfl⟩ := upd_ok h
  refine ⟨fun b hb => by simp [is_running, Function.update_apply, hb], fun h0 => ?_⟩
  have : (0 : Ptr) ≠ a := by
    intro h; rw [← h, h0] at hr; cases hr
  simp [Function.update_apply, this, h0]

theorem calm_refl (s : kernel) : calm s s := ⟨quiet_refl _, fun _ => rfl⟩

theorem calm_trans {s1 s2 s3 : kernel} (h1 : calm s1 s2) (h2 : calm s2 s3) : calm s1 s3 :=
  ⟨quiet_trans h1.1 h2.1, fun c => (h2.2 c).trans (h1.2 c)⟩

theorem acquired_proc (tp : Nat) (lk : lockid) (s : kernel) (c : Nat) :
    ((acquired tp lk s).cpus c).proc = (s.cpus c).proc := by
  by_cases h : c = tp
  · subst h; simp [acquired, push_off]
  · simp [acquired, push_off, Function.update_apply, h]

theorem released_proc (tp : Nat) (lk : lockid) (s : kernel) (c : Nat) :
    ((released tp lk s).cpus c).proc = (s.cpus c).proc := by
  by_cases h : c = tp
  · subst h; simp [released]
  · simp [released, Function.update_apply, h]

theorem calm_acquired (tp : Nat) (lk : lockid) (s : kernel) : calm s (acquired tp lk s) :=
  ⟨quiet_refl _, acquired_proc tp lk s⟩

theorem calm_released (tp : Nat) (lk : lockid) (s : kernel) : calm s (released tp lk s) :=
  ⟨quiet_refl _, released_proc tp lk s⟩

theorem calm_of_same {s s' : kernel} (h1 : quiet s.procs s'.procs) (h2 : same_cores s s') :
    calm s s' :=
  ⟨h1, fun c => by rw [h2.2.1]⟩

theorem same_cores_refl (s : kernel) : same_cores s s := ⟨rfl, rfl, rfl⟩

theorem same_cores_trans {s1 s2 s3 : kernel} (h1 : same_cores s1 s2) (h2 : same_cores s2 s3) :
    same_cores s1 s3 :=
  ⟨h2.1.trans h1.1, h2.2.1.trans h1.2.1, h2.2.2.trans h1.2.2⟩

theorem proc_remove_quiet {m m' : procmem} {p : Ptr} (h : proc_remove m p = .ok m') :
    quiet m m' := by
  unfold proc_remove at h
  simp only [bind] at h
  obtain ⟨r, _, h⟩ := bind_ok h
  obtain ⟨m1, h1, h⟩ := bind_ok h
  obtain ⟨r1, _, h⟩ := bind_ok h
  exact quiet_trans (upd_quiet h1 (fun _ => rfl)) (upd_quiet h (fun _ => rfl))

theorem proc_push_quiet {m m' : procmem} {head p : Ptr} (h : proc_push m head p = .ok m') :
    quiet m m' := by
  unfold proc_push at h
  simp only [bind] at h
  obtain ⟨r, _, h⟩ := bind_ok h
  obtain ⟨m1, h1, h⟩ := bind_ok h
  obtain ⟨m2, h2, h⟩ := bind_ok h
  obtain ⟨r1, _, h⟩ := bind_ok h
  obtain ⟨m3, h3, h⟩ := bind_ok h
  exact quiet_trans (quiet_trans (quiet_trans (upd_quiet h1 (fun _ => rfl))
    (upd_quiet h2 (fun _ => rfl))) (upd_quiet h3 (fun _ => rfl))) (upd_quiet h (fun _ => rfl))

theorem kfree_if_same (b : Prop) [Decidable b] (a : Ptr) (t : kernel) :
    (if b then kfree a t else t).procs = t.procs ∧ same_cores t (if b then kfree a t else t) := by
  split <;> exact ⟨rfl, rfl, rfl, rfl⟩

theorem freept_if_same (b : Prop) [Decidable b] (a : Ptr) (z : Nat) (t : kernel) :
    (if b then proc_freepagetable a z t else t).procs = t.procs ∧
      same_cores t (if b then proc_freepagetable a z t else t) := by
  split <;> exact ⟨rfl, rfl, rfl, rfl⟩

/-- Whatever `freeproc` does to a record that is not RUNNING is quiet. -/
theorem freeproc_quiet {p : Ptr} {s s' : kernel} (h : freeproc p s = .ok s')
    (hp : is_running s.procs p = false) : quiet s.procs s'.procs ∧ same_cores s s' := by
  unfold freeproc at h
  simp only [bind] at h
  obtain ⟨r, _, h⟩ := bind_ok h
  obtain ⟨m1, h1, h⟩ := bind_ok h
  obtain ⟨r1, _, h⟩ := bind_ok h
  obtain ⟨m2, h2, h⟩ := bind_ok h
  obtain ⟨r2, _, h⟩ := bind_ok h
  obtain ⟨m3, h3, h⟩ := bind_ok h
  cases h
  rw [(kfree_if_same _ _ _).1] at h1
  have q1 : quiet s.procs m1 := upd_quiet h1 (fun _ => rfl)
  simp only [(kfree_if_same _ _ _).1] at h2
  have q2 : quiet m1 m2 := upd_quiet h2 (fun _ => rfl)
  simp only [(freept_if_same _ _ _ _).1] at h3
  have q3 : quiet m2 m3 := proc_remove_quiet h3
  have q123 := quiet_trans (quiet_trans q1 q2) q3
  have hp3 : is_running m3 p = false := by rw [q123.1 p, hp]
  refine ⟨quiet_trans q123 (quiet_free hp3), ?_⟩
  refine ⟨?_, ?_, ?_⟩
  · show (if _ then _ else _ : kernel).locks = _
    split <;> split <;> split <;> rfl
  · show (if _ then _ else _ : kernel).cpus = _
    split <;> split <;> split <;> rfl
  · show (if _ then _ else _ : kernel).intr = _
    split <;> split <;> split <;> rfl

theorem inside_refl (s : kernel) : inside s s := ⟨quiet_refl _, rfl, fun _ => rfl⟩

theorem inside_trans {s1 s2 s3 : kernel} (h1 : inside s1 s2) (h2 : inside s2 s3) :
    inside s1 s3 :=
  ⟨quiet_trans h1.1 h2.1, h2.2.1.trans h1.2.1, fun c => (h2.2.2 c).trans (h1.2.2 c)⟩

theorem inside_of_same {s t : kernel} (h1 : quiet s.procs t.procs) (h2 : same_cores s t) :
    inside s t :=
  ⟨h1, h2.1, fun c => by rw [h2.2.1]⟩

theorem inside_procs {s : kernel} {m : procmem} (h : quiet s.procs m) :
    inside s { s with procs := m } :=
  ⟨h, rfl, fun _ => rfl⟩

theorem closes_of_release {tp : Nat} {s t s' : kernel} (h1 : inside s t)
    (h2 : release tp .list_lock t = .ok s') : closes tp s s' := by
  obtain ⟨e1, e2⟩ := release_ok_inv h2
  exact ⟨t, h1, e1, e2⟩

theorem closes_calm {tp : Nat} {s s' : kernel} (h : closes tp s s') :
    calm s s' ∧ s.locks .list_lock = some tp ∧ s'.locks .list_lock = none := by
  obtain ⟨t, ⟨q, hl, hc⟩, ht, rfl⟩ := h
  refine ⟨⟨q, fun c => ?_⟩, by rw [← hl]; exact ht, by simp⟩
  rw [released_proc, hc]

/-- The loop of `kill` and the return behind it. -/
theorem kill_scan_inv (tp : Nat) (pid : Int) :
    ∀ (n : Nat) (p : Ptr) (s : kernel) (v : Int) (s' : kernel),
      kill_scan tp pid n p s = .ok (v, s') → closes tp s s' := by
  intro n
  induction n with
  | zero => intro p s v s' h; simp [kill_scan] at h
  | succ n ih =>
    intro p s v s' h
    unfold kill_scan at h
    by_cases hp : p = dummyhead
    · rw [if_pos hp] at h
      simp only [bind] at h
      obtain ⟨t, ht, h⟩ := bind_ok h
      cases h
      exact closes_of_release (inside_refl s) ht
    · rw [if_neg hp] at h
      simp only [bind] at h
      obtain ⟨r, hr, h⟩ := bind_ok h
      by_cases hpid : r.pid = pid
      · rw [if_pos hpid] at h
        obtain ⟨m1, h1, h⟩ := bind_ok h
        obtain ⟨r1, hr1, h⟩ := bind_ok h
        obtain ⟨m2, h2, h⟩ := bind_ok h
        obtain ⟨t, ht, h⟩ := bind_ok h
        cases h
        have q1 : quiet s.procs m1 := upd_quiet h1 (fun _ => rfl)
        have q2 : quiet m1 m2 := by
          by_cases hs : r1.state = .SLEEPING
          · rw [if_pos hs] at h2
            obtain ⟨r0, hr0, rfl⟩ := upd_ok h2
            have : r0 = r1 := by rw [rd_ok hr1] at hr0; cases hr0; rfl
            subst this
            exact quiet_update hr0 (by simp [hs])
          · rw [if_neg hs] at h2
            cases h2
            exact quiet_refl _
        exact closes_of_release (inside_procs (quiet_trans q1 q2)) ht
      · rw [if_neg hpid] at h
        exact ih _ _ _ _ h

theorem closes_after_acquire {tp : Nat} {s s1 s' : kernel}
    (h1 : acquire tp .list_lock s = .ok s1) (h2 : closes tp s1 s') :
    calm s s' ∧ s.locks .list_lock = none ∧ s'.locks .list_lock = none := by
  obtain ⟨e1, rfl⟩ := acquire_ok_inv h1
  obtain ⟨c1, _, c3⟩ := closes_calm h2
  exact ⟨calm_trans (calm_acquired tp _ s) c1, e1, c3⟩

theorem kill_inv {tp : Nat} {pid : Int} {fuel : Nat} {s s' : kernel} {v : Int}
    (h : kill tp pid fuel s = .ok (v, s')) :
    calm s s' ∧ s.locks .list_lock = none ∧ s'.locks .list_lock = none := by
  unfold kill at h
  simp only [bind] at h
  obtain ⟨s1, h1, h⟩ := bind_ok h
  obtain ⟨d, _, h⟩ := bind_ok h
  exact closes_after_acquire h1 (kill_scan_inv _ _ _ _ _ _ _ h)

theorem setkilled_inv {tp : Nat} {p : Ptr} {s s' : kernel} (h : setkilled tp p s = .ok s') :
    calm s s' ∧ s.locks .list_lock = none ∧ s'.locks .list_lock = none := by
  unfold setkilled at h
  simp only [bind] at h
  obtain ⟨s1, h1, h⟩ := bind_ok h
  obtain ⟨m, hm, h⟩ := bind_ok h
  exact closes_after_acquire h1
    (closes_of_release (inside_procs (upd_quiet hm (fun _ => rfl))) h)

theorem killed_inv {tp : Nat} {p : Ptr} {s s' : kernel} {v : Int}
    (h : killed tp p s = .ok (v, s')) :
    calm s s' ∧ s.locks .list_lock = none ∧ s'.locks .list_lock = none := by
  unfold killed at h
  simp only [bind] at h
  obtain ⟨s1, h1, h⟩ := bind_ok h
  obtain ⟨r, _, h⟩ := bind_ok h
  obtain ⟨t, ht, h⟩ := bind_ok h
  cases h
  exact closes_after_acquire h1 (closes_of_release (inside_refl _) ht)

theorem wakeup_nolock_inside {tp : Nat} {chan : Ptr} {fuel : Nat} {s s' : kernel}
    (h : wakeup_nolock tp chan fuel s = .ok s') : inside s s' :=
  wakeup_nolock_quiet h

theorem wakeup_inv {tp : Nat} {chan : Ptr} {fuel : Nat} {s s' : kernel}
    (h : wakeup tp chan fuel s = .ok s') :
    calm s s' ∧ s.locks .list_lock = none ∧ s'.locks .list_lock = none := by
  unfold wakeup at h
  simp only [bind] at h
  obtain ⟨s1, h1, h⟩ := bind_ok h
  obtain ⟨s2, h2, h⟩ := bind_ok h
  exact closes_after_acquire h1 (closes_of_release (wakeup_nolock_inside h2) h)

/-- The checks of `sched`: it switches only with the lock held and the
caller no longer RUNNING, and leaves the state `myproc()` left. -/
theorem sched_inv {tp : Nat} {s s' : kernel} {i : Bool} (h : sched tp s = .ok (i, s')) :
    s' = bracketed tp s ∧ s.locks .list_lock = some tp ∧
      is_running s.procs (curproc s tp) = false := by
  unfold sched at h
  simp only [myproc_eq, bind, Except.bind, holding_bracketed, bracketed_noff,
    bracketed_procs] at h
  by_cases h1 : holding s .list_lock tp = true
  · have hl : s.locks .list_lock = some tp := by
      simpa [holding] using h1
    by_cases h2 : (s.cpus tp).noff = 1
    · simp only [h1, not_true_eq_false, if_false, h2, ne_eq] at h
      cases hr : rd s.procs (curproc s tp) with
      | error e => rw [hr] at h; cases h
      | ok r =>
        rw [hr] at h
        by_cases h3 : r.state = .RUNNING
        · simp [h3] at h
        · by_cases h4 : (bracketed tp s).intr tp = true
          · simp [h3, h4] at h
          · simp only [h3, h4, if_false] at h
            cases h
            exact ⟨rfl, hl, by simp [is_running, rd_ok hr, h3]⟩
    · simp [h1, h2] at h
  · simp [h1] at h

theorem retires_of_sched {tp : Nat} {s t s' : kernel} {i : Bool}
    (h1 : quiet_except (curproc s tp) s.procs t.procs)
    (h2 : ∀ c, (t.cpus c).proc = (s.cpus c).proc) (h3 : sched tp t = .ok (i, s')) :
    retires tp s s' := by
  obtain ⟨rfl, e2, e3⟩ := sched_inv h3
  have hmy : curproc t tp = curproc s tp := h2 tp
  rw [hmy] at e3
  exact ⟨h1, e3, fun c => (bracketed_proc tp t c).trans (h2 c), e2⟩

theorem yield_inv {tp : Nat} {s s' : kernel} {i : Bool} (h : yield tp s = .ok (i, s')) :
    retires tp s s' ∧ s.locks .list_lock = none := by
  unfold yield at h
  simp only [bind] at h
  obtain ⟨⟨p, s0⟩, h0, h⟩ := bind_ok h
  obtain ⟨rfl, rfl⟩ := myproc_ok_inv h0
  dsimp only at h
  obtain ⟨s1, h1, h⟩ := bind_ok h
  rw [acquire_bracketed] at h1
  obtain ⟨m, hm, h⟩ := bind_ok h
  obtain ⟨e1, rfl⟩ := acquire_ok_inv h1
  exact ⟨retires_of_sched (t := { acquired tp .list_lock s with procs := m })
    (upd_quiet_except hm) (acquired_proc tp .list_lock s) h, e1⟩

theorem forkret_inv {tp : Nat} {s s' : kernel} (h : forkret tp s = .ok s') : closes tp s s' :=
  closes_of_release (inside_refl s) h

theorem sched_resume_inside (tp : Nat) (i : Bool) (s : kernel) :
    inside s (sched_resume tp i s) := by
  refine ⟨quiet_refl _, rfl, fun c => ?_⟩
  by_cases h : c = tp
  · subst h; simp [sched_resume]
  · simp [sched_resume, Function.update_apply, h]

theorem yield_resume_inv {tp : Nat} {i : Bool} {s s' : kernel}
    (h : yield_resume tp i s = .ok s') : closes tp s s' :=
  closes_of_release (sched_resume_inside tp i s) h

theorem released_locks_ne (tp : Nat) {lk lk' : lockid} (s : kernel) (h : lk' ≠ lk) :
    (released tp lk s).locks lk' = s.locks lk' := by
  simp [released, Function.update_apply, h]

theorem acquired_locks_ne (tp : Nat) {lk lk' : lockid} (s : kernel) (h : lk' ≠ lk) :
    (acquired tp lk s).locks lk' = s.locks lk' := by
  simp [acquired, Function.update_apply, h]

theorem sleep_inv {tp : Nat} {chan : Ptr} {lk : lockid} {s s' : kernel} {i : Bool}
    (h : sleep tp chan lk s = .ok (i, s')) :
    retires tp s s' ∧ (lk ≠ .list_lock → s.locks .list_lock = none) ∧
      (lk = .list_lock → s.locks .list_lock = some tp) := by
  unfold sleep at h
  try simp only [bind] at h
  obtain ⟨⟨p, s0⟩, h0, h⟩ := bind_ok h
  obtain ⟨rfl, rfl⟩ := myproc_ok_inv h0
  dsimp only at h
  obtain ⟨s1, h1, h⟩ := bind_ok h
  obtain ⟨m1, hm1, h⟩ := bind_ok h
  obtain ⟨m2, hm2, h⟩ := bind_ok h
  have hq : quiet_except (curproc s tp) s1.procs m2 :=
    quiet_except_trans (upd_quiet_except hm1) (upd_quiet_except hm2)
  by_cases hlk : lk = .list_lock
  · rw [if_neg (by simpa using hlk)] at h1
    cases h1
    have hr := retires_of_sched (s := s) (t := { bracketed tp s with procs := m2 }) hq
      (fun c => bracketed_proc tp s c) h
    exact ⟨hr, fun hne => absurd hlk hne, fun _ => (sched_inv h).2.1⟩
  · rw [if_pos hlk] at h1
    try simp only [bind] at h1
    obtain ⟨sa, ha, h1⟩ := bind_ok h1
    rw [acquire_bracketed] at ha
    obtain ⟨e1, rfl⟩ := acquire_ok_inv ha
    obtain ⟨_, rfl⟩ := release_ok_inv h1
    have hpr : ∀ c, (({ released tp lk (acquired tp .list_lock s) with procs := m2 } :
        kernel).cpus c).proc = (s.cpus c).proc := by
      intro c
      show ((released tp lk (acquired tp .list_lock s)).cpus c).proc = _
      rw [released_proc, acquired_proc]
    have hq' : quiet_except (curproc s tp) s.procs m2 := hq
    exact ⟨retires_of_sched (s := s)
      (t := { released tp lk (acquired tp .list_lock s) with procs := m2 }) hq' hpr h,
      fun _ => e1, fun he => absurd he hlk⟩

theorem sleep_resume_inv {tp : Nat} {i : Bool} {lk : lockid} {s s' : kernel}
    (h : sleep_resume tp i lk s = .ok s') :
    (lk = .list_lock → inside s s') ∧
      (lk ≠ .list_lock →
        calm s s' ∧ s.locks .list_lock = some tp ∧ s'.locks .list_lock = none) := by
  unfold sleep_resume at h
  try simp only [bind] at h
  obtain ⟨m, hm, h⟩ := bind_ok h
  have hin : inside s { sched_resume tp i s with procs := m } := by
    have h1 := sched_resume_inside tp i s
    exact inside_trans h1 (inside_procs (upd_quiet hm (fun _ => rfl)))
  by_cases hlk : lk = .list_lock
  · rw [if_neg (by simpa using hlk)] at h
    cases h
    exact ⟨fun _ => hin, fun hne => absurd hlk hne⟩
  · rw [if_pos hlk] at h
    try simp only [bind] at h
    obtain ⟨t, ht, h⟩ := bind_ok h
    obtain ⟨c1, c2, c3⟩ := closes_calm (closes_of_release hin ht)
    obtain ⟨_, rfl⟩ := acquire_ok_inv h
    refine ⟨fun he => absurd he hlk, fun _ => ⟨calm_trans c1 (calm_acquired tp lk t), c2, ?_⟩⟩
    rw [acquired_locks_ne tp t (Ne.symm hlk)]
    exact c3

theorem reparent_scan_inside (tp : Nat) (p : Ptr) (fuel : Nat) :
    ∀ (n : Nat) (pp : Ptr) (s s' : kernel),
      reparent_scan tp p fuel n pp s = .ok s' → inside s s' := by
  intro n
  induction n with
  | zero => intro pp s s' h; simp [reparent_scan] at h
  | succ n ih =>
    intro pp s s' h
    unfold reparent_scan at h
    by_cases hp : pp = dummyhead
    · rw [if_pos hp] at h
      cases h
      exact inside_refl _
    · rw [if_neg hp] at h
      try simp only [bind] at h
      obtain ⟨r, hr, h⟩ := bind_ok h
      obtain ⟨s1, h1, h⟩ := bind_ok h
      obtain ⟨r1, _, h⟩ := bind_ok h
      have hi1 : inside s s1 := by
        by_cases hpar : r.parent = p
        · rw [if_pos hpar] at h1
          try simp only [bind] at h1
          obtain ⟨m, hm, h1⟩ := bind_ok h1
          exact inside_trans (inside_procs (upd_quiet hm (fun _ => rfl)))
            (wakeup_nolock_inside h1)
        · rw [if_neg hpar] at h1
          cases h1
          exact inside_refl _
      exact inside_trans hi1 (ih _ _ _ h)

theorem reparent_inside {tp : Nat} {p : Ptr} {fuel : Nat} {s s' : kernel}
    (h : reparent tp p fuel s = .ok s') : inside s s' := by
  unfold reparent at h
  try simp only [bind] at h
  obtain ⟨d, _, h⟩ := bind_ok h
  exact reparent_scan_inside _ _ _ _ _ _ _ h

theorem exit_inv {tp : Nat} {status : Int} {fuel : Nat} {s s' : kernel} {i : Bool}
    (h : exit tp status fuel s = .ok (i, s')) :
    retires tp s s' ∧ s.locks .list_lock = none := by
  unfold exit at h
  simp only [bind] at h
  obtain ⟨⟨p, s0⟩, h0, h⟩ := bind_ok h
  obtain ⟨rfl, rfl⟩ := myproc_ok_inv h0
  dsimp only at h
  by_cases hinit : curproc s tp = s.initproc
  · simp [hinit] at h
  · simp only [bracketed_initproc, hinit, if_false, bind] at h
    obtain ⟨m1, hm1, g1⟩ := bind_ok h
    obtain ⟨m2, hm2, g2⟩ := bind_ok g1
    obtain ⟨sa, ha, g3⟩ := bind_ok g2
    have ha : acquire tp .list_lock { s with procs := m2 } = .ok sa := by
      rw [← acquire_bracketed]; exact ha
    obtain ⟨sb, hb, g4⟩ := bind_ok g3
    obtain ⟨r, _, g5⟩ := bind_ok g4
    obtain ⟨sc, hc, g6⟩ := bind_ok g5
    obtain ⟨m3, hm3, g7⟩ := bind_ok g6
    obtain ⟨m4, hm4, g8⟩ := bind_ok g7
    obtain ⟨e1, esa⟩ := acquire_ok_inv ha
    have q12 : quiet s.procs m2 :=
      quiet_trans (upd_quiet hm1 (fun _ => rfl)) (upd_quiet hm2 (fun _ => rfl))
    have hib := reparent_inside hb
    have hic := wakeup_nolock_inside hc
    have hbc := inside_trans hib hic
    have q3 : quiet sc.procs m3 := upd_quiet hm3 (fun _ => rfl)
    have hsa : sa.procs = m2 := by rw [esa]; rfl
    have hq : quiet_except (curproc s tp) s.procs m4 := by
      have := hbc.1
      rw [hsa] at this
      exact quiet_except_trans (quiet_except_of_quiet (quiet_trans (quiet_trans q12 this) q3))
        (upd_quiet_except hm4)
    have hpr : ∀ c, (({ sc with procs := m4 } : kernel).cpus c).proc = (s.cpus c).proc := by
      intro c
      show (sc.cpus c).proc = _
      rw [hbc.2.2 c, esa]
      exact acquired_proc tp .list_lock _ c
    exact ⟨retires_of_sched (s := s) hq hpr g8, e1⟩

theorem wait_found_inv {tp : Nat} {p : Ptr} {addr : Nat} {pp : Ptr} {s s' : kernel} {v : Int}
    (h : wait_found tp p addr pp s = .ok (v, s')) (hpp : is_running s.procs pp = false) :
    closes tp s s' := by
  unfold wait_found at h
  try simp only [bind] at h
  obtain ⟨c, _, h⟩ := bind_ok h
  obtain ⟨copied, _, h⟩ := bind_ok h
  cases copied with
  | none =>
    try simp only [bind] at h
    obtain ⟨t, ht, h⟩ := bind_ok h
    cases h
    exact closes_of_release (inside_refl s) ht
  | some u =>
    try simp only [bind] at h
    obtain ⟨t1, h1, h⟩ := bind_ok h
    obtain ⟨t, ht, h⟩ := bind_ok h
    cases h
    obtain ⟨q, c⟩ := freeproc_quiet (s := { s with user := u }) h1 hpp
    exact closes_of_release (inside_of_same (s := s) q c) ht

theorem wait_scan_inv (tp : Nat) (p : Ptr) (addr : Nat) :
    ∀ (n : Nat) (pp : Ptr) (hk : Bool) (s : kernel) (res : Option Int) (hk' : Bool)
      (s' : kernel), wait_scan tp p addr n pp hk s = .ok (res, hk', s') →
      (res = none ∧ s' = s) ∨ (∃ v, res = some v ∧ closes tp s s') := by
  intro n
  induction n with
  | zero => intro pp hk s res hk' s' h; simp [wait_scan] at h
  | succ n ih =>
    intro pp hk s res hk' s' h
    unfold wait_scan at h
    by_cases hp : pp = dummyhead
    · rw [if_pos hp] at h
      cases h
      exact Or.inl ⟨rfl, rfl⟩
    · rw [if_neg hp] at h
      try simp only [bind] at h
      obtain ⟨c, hc, h⟩ := bind_ok h
      by_cases hpar : c.parent = p
      · rw [if_pos hpar] at h
        by_cases hz : c.state = .ZOMBIE
        · rw [if_pos hz] at h
          try simp only [bind] at h
          obtain ⟨⟨v, t⟩, hf, h⟩ := bind_ok h
          cases h
          refine Or.inr ⟨v, rfl, wait_found_inv hf ?_⟩
          simp [is_running, rd_ok hc, hz]
        · rw [if_neg hz] at h
          exact ih _ _ _ _ _ _ h
      · rw [if_neg hpar] at h
        exact ih _ _ _ _ _ _ h

theorem wait_loop_inv {tp : Nat} {addr fuel : Nat} {s s' : kernel} {out : waitout}
    (h : wait_loop tp addr fuel s = .ok (out, s')) :
    (∃ v, out = .ret v ∧ closes tp s s') ∨
      (∃ j, out = .asleep j ∧ retires tp s s' ∧ s.locks .list_lock = some tp) := by
  unfold wait_loop at h
  try simp only [bind] at h
  obtain ⟨d, _, h⟩ := bind_ok h
  obtain ⟨⟨res, hk, t⟩, hscan, h⟩ := bind_ok h
  rcases wait_scan_inv _ _ _ _ _ _ _ _ _ _ hscan with ⟨rfl, rfl⟩ | ⟨v, rfl, hcl⟩
  · simp only at h
    by_cases hkf : hk = false
    · rw [if_pos hkf] at h
      try simp only [bind] at h
      obtain ⟨t', ht', h⟩ := bind_ok h
      cases h
      exact Or.inl ⟨-1, rfl, closes_of_release (inside_refl _) ht'⟩
    · rw [if_neg hkf] at h
      try simp only [bind] at h
      obtain ⟨me, _, h⟩ := bind_ok h
      by_cases hkill : me.killed ≠ 0
      · rw [if_pos hkill] at h
        try simp only [bind] at h
        obtain ⟨t', ht', h⟩ := bind_ok h
        cases h
        exact Or.inl ⟨-1, rfl, closes_of_release (inside_refl _) ht'⟩
      · rw [if_neg hkill] at h
        try simp only [bind] at h
        obtain ⟨⟨j, t'⟩, hs, h⟩ := bind_ok h
        cases h
        obtain ⟨e1, _, e3⟩ := sleep_inv hs
        exact Or.inr ⟨j, rfl, e1, e3 rfl⟩
  · simp only at h
    cases h
    exact Or.inl ⟨v, rfl, hcl⟩

theorem retires_after_inside {tp : Nat} {s s1 s' : kernel} (h1 : inside s s1)
    (h2 : retires tp s1 s') : retires tp s s' := by
  have hmy : curproc s1 tp = curproc s tp := h1.2.2 tp
  obtain ⟨q, r, c, l⟩ := h2
  rw [hmy] at q r
  exact ⟨quiet_except_trans (quiet_except_of_quiet h1.1) q, r,
    fun k => (c k).trans (h1.2.2 k), l⟩

theorem wait_inv {tp : Nat} {addr fuel : Nat} {s s' : kernel} {out : waitout}
    (h : wait tp addr fuel s = .ok (out, s')) :
    s.locks .list_lock = none ∧
      ((∃ v, out = .ret v ∧ calm s s' ∧ s'.locks .list_lock = none) ∨
        (∃ j, out = .asleep j ∧ retires tp s s')) := by
  unfold wait at h
  try simp only [bind] at h
  obtain ⟨⟨p, s0⟩, h0, h⟩ := bind_ok h
  obtain ⟨rfl, rfl⟩ := myproc_ok_inv h0
  dsimp only at h
  obtain ⟨s1, h1, h⟩ := bind_ok h
  rw [acquire_bracketed] at h1
  obtain ⟨e1, rfl⟩ := acquire_ok_inv h1
  refine ⟨e1, ?_⟩
  rcases wait_loop_inv h with ⟨v, rfl, hcl⟩ | ⟨j, rfl, hr, _⟩
  · obtain ⟨c1, _, c3⟩ := closes_calm hcl
    exact Or.inl ⟨v, rfl, calm_trans (calm_acquired tp _ s) c1, c3⟩
  · obtain ⟨q, r, c, l⟩ := hr
    rw [acquired_curproc] at q r
    exact Or.inr ⟨j, rfl, q, r, fun k => (c k).trans (acquired_proc tp _ s k), l⟩

theorem closes_after_inside {tp : Nat} {s s1 s' : kernel} (h1 : inside s s1)
    (h2 : closes tp s1 s') : closes tp s s' := by
  obtain ⟨t, ht, hl, e⟩ := h2
  exact ⟨t, inside_trans h1 ht, hl, e⟩

theorem wait_resume_inv {tp : Nat} {i : Bool} {addr fuel : Nat} {s s' : kernel}
    {out : waitout} (h : wait_resume tp i addr fuel s = .ok (out, s')) :
    s.locks .list_lock = some tp ∧
      ((∃ v, out = .ret v ∧ calm s s' ∧ s'.locks .list_lock = none) ∨
        (∃ j, out = .asleep j ∧ retires tp s s')) := by
  unfold wait_resume at h
  simp only [bind] at h
  obtain ⟨s1, h1, g1⟩ := bind_ok h
  have hin : inside s s1 := (sleep_resume_inv h1).1 rfl
  rcases wait_loop_inv g1 with ⟨v, rfl, hcl⟩ | ⟨j, rfl, hr, hl⟩
  · obtain ⟨c1, c2, c3⟩ := closes_calm (closes_after_inside hin hcl)
    exact ⟨c2, Or.inl ⟨v, rfl, c1, c3⟩⟩
  · refine ⟨?_, Or.inr ⟨j, rfl, retires_after_inside hin hr⟩⟩
    rw [← hin.2.1]
    exact hl

theorem allocpid_inv {tp : Nat} {s s' : kernel} {pid : Int}
    (h : allocpid tp s = .ok (pid, s')) :
    s'.procs = s.procs ∧ (∀ c, (s'.cpus c).proc = (s.cpus c).proc) ∧
      s'.locks .list_lock = s.locks .list_lock ∧ s.locks .pid_lock = none := by
  unfold allocpid at h
  simp only [bind] at h
  obtain ⟨s1, h1, g1⟩ := bind_ok h
  obtain ⟨s2, h2, g2⟩ := bind_ok g1
  cases g2
  obtain ⟨e1, rfl⟩ := acquire_ok_inv h1
  obtain ⟨_, rfl⟩ := release_ok_inv h2
  have hne : lockid.list_lock ≠ lockid.pid_lock := by decide
  refine ⟨rfl, fun c => ?_, ?_, e1⟩
  · rw [released_proc]
    exact acquired_proc tp .pid_lock s c
  · rw [released_locks_ne tp _ hne]
    exact acquired_locks_ne tp s hne

/-- What a successful `allocproc` does, whatever the shape of the list. -/
theorem allocproc_inv {tp : Nat} {env : allocenv} {s s' : kernel} {p : Ptr}
    (h : allocproc tp env s = .ok (p, s')) (h0 : s.procs 0 = none)
    (hfresh : s.procs env.bd_malloc = none) :
    (p = 0 ∧ s' = s) ∨
      (p = env.bd_malloc ∧ calm s s' ∧ s.locks .list_lock = none ∧
        s'.locks .list_lock = some tp ∧ is_running s'.procs p = false) := by
  by_cases hnp : env.bd_malloc = 0
  · unfold allocproc at h
    simp only [hnp, if_true] at h
    cases h
    exact Or.inl ⟨rfl, rfl⟩
  · right
    have hpidl : s.locks .pid_lock = none := by
      unfold allocproc at h
      simp only [hnp, if_false, bind] at h
      obtain ⟨⟨pid, s1⟩, h1, _⟩ := bind_ok h
      exact (allocpid_inv h1).2.2.2
    by_cases hfail : env.kalloc_kstack = 0 ∨ env.kalloc_trapframe = 0 ∨ proc_pagetable env = 0
    · rw [allocproc_failure_faults tp env s h0 hpidl hnp hfail] at h
      cases h
    · have hk : env.kalloc_kstack ≠ 0 := fun e => hfail (Or.inl e)
      have ht : env.kalloc_trapframe ≠ 0 := fun e => hfail (Or.inr (Or.inl e))
      have hpt : proc_pagetable env ≠ 0 := fun e => hfail (Or.inr (Or.inr e))
      unfold allocproc at h
      simp only [hnp, if_false, bind, hk, ht, hpt] at h
      obtain ⟨⟨pid, s1⟩, h1, g1⟩ := bind_ok h
      obtain ⟨m1, hm1, g2⟩ := bind_ok g1
      obtain ⟨m2, hm2, g3⟩ := bind_ok g2
      obtain ⟨m3, hm3, g4⟩ := bind_ok g3
      obtain ⟨m4, hm4, g5⟩ := bind_ok g4
      obtain ⟨m5, hm5, g6⟩ := bind_ok g5
      obtain ⟨r5, _, g7⟩ := bind_ok g6
      obtain ⟨m6, hm6, g8⟩ := bind_ok g7
      obtain ⟨sa, ha, g9⟩ := bind_ok g8
      obtain ⟨m7, hm7, g10⟩ := bind_ok g9
      cases g10
      obtain ⟨e1, e2, e3, _⟩ := allocpid_inv h1
      obtain ⟨el, esa⟩ := acquire_ok_inv ha
      set np := env.bd_malloc with hnpdef
      -- the zeroed record is not RUNNING, and stays so
      have qz : quiet_except np s.procs s1.procs := by
        rw [e1]
        refine ⟨fun b hb => by simp [is_running, Function.update_apply, hb], fun _ => ?_⟩
        simp [Function.update_apply, Ne.symm hnp, h0]
      have q1 : quiet_except np s1.procs m2 :=
        quiet_except_trans (upd_quiet_except hm1) (upd_quiet_except hm2)
      have hm2np : is_running m2 np = false := by
        obtain ⟨r, _, rfl⟩ := upd_ok hm2
        simp [is_running]
      have hm3' : upd m2 np (fun r => { r with kstack := env.kalloc_kstack }) = .ok m3 := by
        simpa [kalloc, hk] using hm3
      have hm4' : upd m3 np (fun r => { r with trapframe := env.kalloc_trapframe }) = .ok m4 := by
        simpa [kalloc, ht] using hm4
      have q3 : quiet m2 m3 := upd_quiet hm3' (fun _ => rfl)
      have q4 : quiet m3 m4 := upd_quiet hm4' (fun _ => rfl)
      have q5 : quiet m4 m5 := upd_quiet hm5 (fun _ => rfl)
      have q6 : quiet m5 m6 := upd_quiet hm6 (fun _ => rfl)
      have hsam6 : sa.procs = m6 := by rw [esa]; rfl
      have q7 : quiet m6 m7 := by
        rw [hsam6] at hm7
        exact proc_push_quiet hm7
      have q27 : quiet m2 m7 := quiet_trans (quiet_trans (quiet_trans (quiet_trans q3 q4) q5) q6) q7
      have hm7np : is_running m7 np = false := by rw [q27.1, hm2np]
      have hsnp : is_running s.procs np = false := by simp [is_running, hfresh]
      have qall : quiet s.procs m7 :=
        quiet_of_except (quiet_except_trans (quiet_except_trans qz q1)
          (quiet_except_of_quiet q27)) hsnp hm7np
      refine ⟨rfl, ⟨qall, fun c => ?_⟩, ?_, ?_, hm7np⟩
      · show (sa.cpus c).proc = _
        rw [esa, acquired_proc]
        show ((kalloc env.kalloc_trapframe env.junk
          { kalloc env.kalloc_kstack env.junk { s1 with procs := m2 } with procs := m3 }).cpus
            c).proc = _
        simp only [kalloc, hk, ht, if_false]
        exact e2 c
      · have : sa.locks .list_lock = some tp := by rw [esa]; simp [acquired]
        have hbefore : s1.locks .list_lock = none := by
          have := el
          simpa [kalloc, hk, ht] using this
        rw [← e3]
        exact hbefore
      · show sa.locks .list_lock = some tp
        rw [esa]; simp [acquired]

/-- What a successful call of `fork` does, whatever the shape of the list:
it is a complete critical section, or no section at all when `bd_malloc`
fails. -/
theorem fork_inv {tp : Nat} {env : allocenv} {s s' : kernel} {v : Int}
    (h : fork tp env s = .ok (v, s')) (h0 : s.procs 0 = none)
    (hfresh : s.procs env.bd_malloc = none) :
    calm s s' ∧ s'.locks .list_lock = s.locks .list_lock := by
  unfold fork at h
  simp only [bind] at h
  obtain ⟨⟨p, s0⟩, hmy, h⟩ := bind_ok h
  obtain ⟨rfl, rfl⟩ := myproc_ok_inv hmy
  dsimp only at h
  obtain ⟨⟨np, s1⟩, h1, g1⟩ := bind_ok h
  have hb : calm s (bracketed tp s) :=
    ⟨(bracketed_inside tp s).1, (bracketed_inside tp s).2.2⟩
  rcases allocproc_inv h1 h0 hfresh with ⟨rfl, rfl⟩ | ⟨hnp, hcalm, hl0, hl1, hrun⟩
  · simp only [if_true] at g1
    cases g1
    exact ⟨hb, rfl⟩
  · replace hcalm := calm_trans hb hcalm
    replace hl0 : s.locks .list_lock = none := hl0
    by_cases hz : np = 0
    · rw [if_pos hz] at g1
      cases g1
      -- `allocproc` returned the null pointer although `bd_malloc` did not
      rw [hz] at hnp
      unfold allocproc at h1
      rw [if_pos hnp.symm] at h1
      cases h1
      exact ⟨hb, rfl⟩
    · rw [if_neg hz] at g1
      simp only [bind] at g1
      obtain ⟨pr, _, g2⟩ := bind_ok g1
      obtain ⟨nr, _, g3⟩ := bind_ok g2
      by_cases hcopy : env.uvmcopy < 0
      · rw [if_pos hcopy] at g3
        try simp only [bind] at g3
        obtain ⟨t1, hf, g4⟩ := bind_ok g3
        obtain ⟨t2, hr, g5⟩ := bind_ok g4
        cases g5
        obtain ⟨q, c⟩ := freeproc_quiet hf hrun
        obtain ⟨c1, _, c3⟩ := closes_calm (closes_of_release (inside_of_same q c) hr)
        exact ⟨calm_trans hcalm c1, by rw [c3, hl0]⟩
      · rw [if_neg hcopy] at g3
        try simp only [bind] at g3
        obtain ⟨m1, hm1, g4⟩ := bind_ok g3
        obtain ⟨pr2, _, g5⟩ := bind_ok g4
        obtain ⟨nr2, _, g6⟩ := bind_ok g5
        obtain ⟨tf, _, g7⟩ := bind_ok g6
        obtain ⟨pg1, _, g8⟩ := bind_ok g7
        obtain ⟨pg2, _, g9⟩ := bind_ok g8
        obtain ⟨m2, hm2, g10⟩ := bind_ok g9
        obtain ⟨pr3, _, g11⟩ := bind_ok g10
        obtain ⟨m3, hm3, g12⟩ := bind_ok g11
        obtain ⟨pr4, _, g13⟩ := bind_ok g12
        obtain ⟨m4, hm4, g14⟩ := bind_ok g13
        obtain ⟨nr3, _, g15⟩ := bind_ok g14
        obtain ⟨m5, hm5, g16⟩ := bind_ok g15
        obtain ⟨m6, hm6, g17⟩ := bind_ok g16
        obtain ⟨t, hr, g18⟩ := bind_ok g17
        cases g18
        have q1 : quiet s1.procs m1 := upd_quiet hm1 (fun _ => rfl)
        have q2 : quiet m1 m2 := upd_quiet hm2 (fun _ => rfl)
        have q3 : quiet m2 m3 := upd_quiet hm3 (fun _ => rfl)
        have q4 : quiet m3 m4 := upd_quiet hm4 (fun _ => rfl)
        have q5 : quiet m4 m5 := upd_quiet hm5 (fun _ => rfl)
        have q15 := quiet_trans (quiet_trans (quiet_trans (quiet_trans q1 q2) q3) q4) q5
        have hm5np : is_running m5 np = false := by rw [q15.1, hrun]
        have hm6np : is_running m6 np = false := by
          obtain ⟨r, _, rfl⟩ := upd_ok hm6
          simp [is_running]
        have q6 : quiet m5 m6 := quiet_of_except (upd_quiet_except hm6) hm5np hm6np
        have hin : inside s1 { s1 with
            user := (Function.update s1.user nr.pagetable (s1.user pr.pagetable))
            pages := pg2
            procs := m6 } :=
          ⟨quiet_trans q15 q6, rfl, fun _ => rfl⟩
        obtain ⟨c1, _, c3⟩ := closes_calm (closes_of_release hin hr)
        exact ⟨calm_trans hcalm c1, by rw [c3, hl0]⟩

/-- The inner loop of `scheduler`: it ends the pass with a `release`, or it
switches into a record that was RUNNABLE, now RUNNING and the core's
process. -/
theorem scheduler_scan_inv (tp : Nat) :
    ∀ (n : Nat) (p : Ptr) (s : kernel) (res : Option Ptr) (s' : kernel),
      scheduler_scan tp n p s = .ok (res, s') →
      (res = none ∧ closes tp s s') ∨
        (∃ q, res = some q ∧ is_runnable s.procs q = true ∧
          quiet_except q s.procs s'.procs ∧ is_running s'.procs q = true ∧
          (s'.cpus tp).proc = q ∧ (∀ c, c ≠ tp → (s'.cpus c).proc = (s.cpus c).proc) ∧
          s'.locks = s.locks) := by
  intro n
  induction n with
  | zero => intro p s res s' h; simp [scheduler_scan] at h
  | succ n ih =>
    intro p s res s' h
    unfold scheduler_scan at h
    by_cases hp : p = dummyhead
    · rw [if_pos hp] at h
      simp only [bind] at h
      obtain ⟨t, ht, g⟩ := bind_ok h
      cases g
      exact Or.inl ⟨rfl, closes_of_release (inside_refl s) ht⟩
    · rw [if_neg hp] at h
      simp only [bind] at h
      obtain ⟨r, hr, g⟩ := bind_ok h
      by_cases hst : r.state = .RUNNABLE
      · rw [if_pos hst] at g
        obtain ⟨m, hm, g2⟩ := bind_ok g
        cases g2
        refine Or.inr ⟨p, rfl, by simp [is_runnable, rd_ok hr, hst], upd_quiet_except hm, ?_,
          by simp, fun c hc => by simp [Function.update_apply, hc], rfl⟩
        obtain ⟨r0, _, rfl⟩ := upd_ok hm
        simp [is_running]
      · rw [if_neg hst] at g
        exact ih _ _ _ _ g

theorem scheduler_pass_inv {tp : Nat} {fuel : Nat} {s s' : kernel} {res : Option Ptr}
    (h : scheduler_pass tp fuel s = .ok (res, s')) :
    s.locks .list_lock = none ∧
      ((res = none ∧ calm s s' ∧ s'.locks .list_lock = none) ∨
        (∃ q, res = some q ∧ is_runnable s.procs q = true ∧
          quiet_except q s.procs s'.procs ∧ is_running s'.procs q = true ∧
          (s'.cpus tp).proc = q ∧ (∀ c, c ≠ tp → (s'.cpus c).proc = (s.cpus c).proc) ∧
          s'.locks .list_lock = some tp)) := by
  unfold scheduler_pass at h
  simp only [bind] at h
  obtain ⟨s1, h1, g1⟩ := bind_ok h
  obtain ⟨d, _, g2⟩ := bind_ok g1
  obtain ⟨e1, es1⟩ := acquire_ok_inv h1
  have hpr : ∀ c, (s1.cpus c).proc = (s.cpus c).proc := by
    intro c
    rw [es1, acquired_proc]
  have hprocs : s1.procs = s.procs := by rw [es1]; rfl
  have hlk : s1.locks .list_lock = some tp := by rw [es1]; simp [acquired]
  refine ⟨e1, ?_⟩
  rcases scheduler_scan_inv _ _ _ _ _ _ g2 with ⟨rfl, hcl⟩ | ⟨q, rfl, a1, a2, a3, a4, a5, a6⟩
  · obtain ⟨c1, _, c3⟩ := closes_calm hcl
    refine Or.inl ⟨rfl, ⟨?_, fun c => (c1.2 c).trans (hpr c)⟩, c3⟩
    have := c1.1
    rw [hprocs] at this
    exact this
  · rw [hprocs] at a1 a2
    exact Or.inr ⟨q, rfl, a1, a2, a3, a4, fun c hc => (a5 c hc).trans (hpr c), by rw [a6, hlk]⟩

theorem scheduler_resume_inv {tp : Nat} {fuel : Nat} {s s' : kernel} {res : Option Ptr}
    (h : scheduler_resume tp fuel s = .ok (res, s')) :
    (res = none ∧ quiet s.procs s'.procs ∧ (s'.cpus tp).proc = 0 ∧
        (∀ c, c ≠ tp → (s'.cpus c).proc = (s.cpus c).proc) ∧
        s.locks .list_lock = some tp ∧ s'.locks .list_lock = none) ∨
      (∃ q, res = some q ∧ is_runnable s.procs q = true ∧
        quiet_except q s.procs s'.procs ∧ is_running s'.procs q = true ∧
        (s'.cpus tp).proc = q ∧ (∀ c, c ≠ tp → (s'.cpus c).proc = (s.cpus c).proc) ∧
        s'.locks = s.locks) := by
  unfold scheduler_resume at h
  simp only [bind] at h
  obtain ⟨r, _, g1⟩ := bind_ok h
  set s1 : kernel := { s with cpus := Function.update s.cpus tp { s.cpus tp with proc := 0 } }
    with hs1
  have hne : ∀ c, c ≠ tp → (s1.cpus c).proc = (s.cpus c).proc := by
    intro c hc
    simp [hs1, Function.update_apply, hc]
  rcases scheduler_scan_inv _ _ _ _ _ _ g1 with ⟨rfl, hcl⟩ | ⟨q, rfl, a1, a2, a3, a4, a5, a6⟩
  · obtain ⟨c1, c2, c3⟩ := closes_calm hcl
    refine Or.inl ⟨rfl, c1.1, ?_, fun c hc => (c1.2 c).trans (hne c hc), c2, c3⟩
    rw [c1.2 tp]
    simp [hs1]
  · exact Or.inr ⟨q, rfl, a1, a2, a3, a4, fun c hc => (a5 c hc).trans (hne c hc), a6⟩

theorem running_ne_zero {m : procmem} {a : Ptr} (h0 : m 0 = none)
    (h : is_running m a = true) : a ≠ 0 := by
  intro e
  rw [e] at h
  simp [is_running, h0] at h

theorem runnable_not_running {m : procmem} {a : Ptr} (h : is_runnable m a = true) :
    is_running m a = false := by
  unfold is_runnable at h
  unfold is_running
  cases hm : m a with
  | none => rfl
  | some r =>
    rw [hm] at h
    have : r.state = .RUNNABLE := by simpa using h
    simp [this]

theorem runnable_ne_zero {m : procmem} {a : Ptr} (h0 : m 0 = none)
    (h : is_runnable m a = true) : a ≠ 0 := by
  intro e
  rw [e] at h
  simp [is_runnable, h0] at h

/-- A complete critical section run by a core between two of its phases
that hold no lock keeps the invariant. -/
theorem inv_calm {σ : sys} {k' : kernel} (hi : inv σ) (hc : calm σ.k k')
    (hl : k'.locks .list_lock = σ.k.locks .list_lock) : inv { k := k', pc := σ.pc } := by
  obtain ⟨i0, i1, i2, i3, i4, i5, i6⟩ := hi
  obtain ⟨⟨q1, q2⟩, hp⟩ := hc
  refine ⟨q2 i0, ?_, ?_, ?_, ?_, ?_, ?_⟩
  · intro c h; show (k'.cpus c).proc = 0; rw [hp]; exact i1 c h
  · intro c h; show is_running k'.procs (k'.cpus c).proc = true; rw [hp, q1]; exact i2 c h
  · intro c h; show is_running k'.procs (k'.cpus c).proc = false; rw [hp, q1]; exact i3 c h
  · intro c; show _ ↔ k'.locks .list_lock = some c; rw [hl]; exact i4 c
  · intro a h
    have h' : is_running k'.procs a = true := h
    rw [q1] at h'
    obtain ⟨c, e⟩ := i5 a h'
    exact ⟨c, by show (k'.cpus c).proc = a; rw [hp]; exact e⟩
  · intro c1 c2 h hne
    have h' : (k'.cpus c1).proc = (k'.cpus c2).proc := h
    have hne' : (k'.cpus c1).proc ≠ 0 := hne
    rw [hp, hp] at h'
    rw [hp] at hne'
    exact i6 c1 c2 h' hne'

/-- The end of a critical section by a `release` in the process the core was
switched into keeps the invariant. -/
theorem inv_closes {σ : sys} {k' : kernel} {c : Nat} (hi : inv σ) (hpc : σ.pc c = .dispatched)
    (hc : calm σ.k k') (hl : k'.locks .list_lock = none) :
    inv { k := k', pc := Function.update σ.pc c .running } := by
  obtain ⟨i0, i1, i2, i3, i4, i5, i6⟩ := hi
  obtain ⟨⟨q1, q2⟩, hp⟩ := hc
  have hlock : σ.k.locks .list_lock = some c := (i4 c).1 (Or.inl hpc)
  have hother : ∀ c', c' ≠ c → σ.pc c' ≠ .dispatched ∧ σ.pc c' ≠ .switching := by
    intro c' hne
    constructor <;> intro h
    · have := (i4 c').1 (Or.inl h); rw [hlock] at this; exact hne (Option.some.inj this).symm
    · have := (i4 c').1 (Or.inr h); rw [hlock] at this; exact hne (Option.some.inj this).symm
  refine ⟨q2 i0, ?_, ?_, ?_, ?_, ?_, ?_⟩
  · intro c' h
    by_cases e : c' = c
    · subst e; simp at h
    · simp only [Function.update_apply, e, if_false] at h
      show (k'.cpus c').proc = 0; rw [hp]; exact i1 c' h
  · intro c' h
    show is_running k'.procs (k'.cpus c').proc = true
    rw [hp, q1]
    by_cases e : c' = c
    · subst e; exact i2 c' (Or.inr hpc)
    · simp only [Function.update_apply, e, if_false] at h
      exact i2 c' h
  · intro c' h
    by_cases e : c' = c
    · subst e; simp at h
    · simp only [Function.update_apply, e, if_false] at h
      exact absurd h (hother c' e).2
  · intro c'
    show _ ↔ k'.locks .list_lock = some c'
    rw [hl]
    constructor
    · intro h
      by_cases e : c' = c
      · subst e; simp at h
      · simp only [Function.update_apply, e, if_false] at h
        rcases h with h | h
        · exact absurd h (hother c' e).1
        · exact absurd h (hother c' e).2
    · intro h; cases h
  · intro a h
    have h' : is_running k'.procs a = true := h
    rw [q1] at h'
    obtain ⟨c0, e⟩ := i5 a h'
    exact ⟨c0, by show (k'.cpus c0).proc = a; rw [hp]; exact e⟩
  · intro c1 c2 h hne
    have h' : (k'.cpus c1).proc = (k'.cpus c2).proc := h
    have hne' : (k'.cpus c1).proc ≠ 0 := hne
    rw [hp, hp] at h'
    rw [hp] at hne'
    exact i6 c1 c2 h' hne'

/-- The first half of a switch out of the process of a core keeps the
invariant. -/
theorem inv_retires {σ : sys} {k' : kernel} {c : Nat} (hi : inv σ)
    (hpc : σ.pc c = .running ∨ σ.pc c = .dispatched) (hr : retires c σ.k k')
    (hlock : σ.k.locks .list_lock = none ∨ σ.k.locks .list_lock = some c) :
    inv { k := k', pc := Function.update σ.pc c .switching } := by
  obtain ⟨i0, i1, i2, i3, i4, i5, i6⟩ := hi
  obtain ⟨⟨q1, q2⟩, hrun, hp, hl⟩ := hr
  have hother : ∀ c', c' ≠ c → σ.pc c' ≠ .dispatched ∧ σ.pc c' ≠ .switching := by
    intro c' hne
    constructor <;> intro h
    · have := (i4 c').1 (Or.inl h)
      rcases hlock with h' | h' <;> rw [h'] at this
      · cases this
      · exact hne (Option.some.inj this).symm
    · have := (i4 c').1 (Or.inr h)
      rcases hlock with h' | h' <;> rw [h'] at this
      · cases this
      · exact hne (Option.some.inj this).symm
  have hme : is_running σ.k.procs (curproc σ.k c) = true := i2 c hpc
  have hme0 : curproc σ.k c ≠ 0 := running_ne_zero i0 hme
  refine ⟨q2 i0, ?_, ?_, ?_, ?_, ?_, ?_⟩
  · intro c' h
    by_cases e : c' = c
    · subst e; simp at h
    · simp only [Function.update_apply, e, if_false] at h
      show (k'.cpus c').proc = 0; rw [hp]; exact i1 c' h
  · intro c' h
    by_cases e : c' = c
    · subst e; simp at h
    · simp only [Function.update_apply, e, if_false] at h
      show is_running k'.procs (k'.cpus c').proc = true
      rw [hp]
      have hne : (σ.k.cpus c').proc ≠ curproc σ.k c := by
        intro heq
        exact e (i6 c' c heq (by rw [heq]; exact hme0))
      rw [q1 _ hne]
      exact i2 c' h
  · intro c' h
    by_cases e : c' = c
    · subst e
      show is_running k'.procs (k'.cpus c').proc = false
      rw [hp]; exact hrun
    · simp only [Function.update_apply, e, if_false] at h
      exact absurd h (hother c' e).2
  · intro c'
    show _ ↔ k'.locks .list_lock = some c'
    rw [hl]
    constructor
    · intro h
      by_cases e : c' = c
      · rw [e]
      · simp only [Function.update_apply, e, if_false] at h
        rcases h with h | h
        · exact absurd h (hother c' e).1
        · exact absurd h (hother c' e).2
    · intro h
      have : c' = c := (Option.some.inj h).symm
      subst this
      simp
  · intro a h
    have h' : is_running k'.procs a = true := h
    have hane : a ≠ curproc σ.k c := by
      intro e; rw [e, hrun] at h'; cases h'
    rw [q1 a hane] at h'
    obtain ⟨c0, e⟩ := i5 a h'
    exact ⟨c0, by show (k'.cpus c0).proc = a; rw [hp]; exact e⟩
  · intro c1 c2 h hne
    have h' : (k'.cpus c1).proc = (k'.cpus c2).proc := h
    have hne' : (k'.cpus c1).proc ≠ 0 := hne
    rw [hp, hp] at h'
    rw [hp] at hne'
    exact i6 c1 c2 h' hne'

/-- A switch of the scheduler of core `c` into the RUNNABLE record `q` keeps
the invariant. -/
theorem inv_dispatch {σ : sys} {k' : kernel} {c : Nat} {q : Ptr} (hi : inv σ)
    (hpc : (σ.pc c = .idle ∧ σ.k.locks .list_lock = none) ∨
      (σ.pc c = .switching ∧ σ.k.locks .list_lock = some c))
    (hq : is_runnable σ.k.procs q = true) (hqe : quiet_except q σ.k.procs k'.procs)
    (hrun : is_running k'.procs q = true) (hcur : (k'.cpus c).proc = q)
    (hp : ∀ c', c' ≠ c → (k'.cpus c').proc = (σ.k.cpus c').proc)
    (hl : k'.locks .list_lock = some c) :
    inv { k := k', pc := Function.update σ.pc c .dispatched } := by
  obtain ⟨i0, i1, i2, i3, i4, i5, i6⟩ := hi
  obtain ⟨q1, q2⟩ := hqe
  have hq0 : q ≠ 0 := runnable_ne_zero i0 hq
  have hqn : is_running σ.k.procs q = false := runnable_not_running hq
  have hother : ∀ c', c' ≠ c → σ.pc c' ≠ .dispatched ∧ σ.pc c' ≠ .switching := by
    intro c' hne
    constructor <;> intro h
    · have := (i4 c').1 (Or.inl h)
      rcases hpc with ⟨_, h'⟩ | ⟨_, h'⟩ <;> rw [h'] at this
      · cases this
      · exact hne (Option.some.inj this).symm
    · have := (i4 c').1 (Or.inr h)
      rcases hpc with ⟨_, h'⟩ | ⟨_, h'⟩ <;> rw [h'] at this
      · cases this
      · exact hne (Option.some.inj this).symm
  -- the old process of `c` is not RUNNING
  have hold : is_running σ.k.procs (σ.k.cpus c).proc = false := by
    rcases hpc with ⟨h, _⟩ | ⟨h, _⟩
    · rw [i1 c h]; simp [is_running, i0]
    · exact i3 c h
  -- no other core has `q`
  have hnoq : ∀ c', c' ≠ c → (σ.k.cpus c').proc ≠ q := by
    intro c' hne heq
    have hph : σ.pc c' = .idle ∨ σ.pc c' = .running := by
      cases hc' : σ.pc c' with
      | idle => exact Or.inl rfl
      | running => exact Or.inr rfl
      | dispatched => exact absurd hc' (hother c' hne).1
      | switching => exact absurd hc' (hother c' hne).2
    rcases hph with h | h
    · rw [i1 c' h] at heq; exact hq0 heq.symm
    · have := i2 c' (Or.inl h)
      rw [heq, hqn] at this
      cases this
  refine ⟨q2 i0, ?_, ?_, ?_, ?_, ?_, ?_⟩
  · intro c' h
    by_cases e : c' = c
    · subst e; simp at h
    · simp only [Function.update_apply, e, if_false] at h
      show (k'.cpus c').proc = 0; rw [hp c' e]; exact i1 c' h
  · intro c' h
    show is_running k'.procs (k'.cpus c').proc = true
    by_cases e : c' = c
    · subst e; rw [hcur]; exact hrun
    · simp only [Function.update_apply, e, if_false] at h
      rw [hp c' e, q1 _ (hnoq c' e)]
      exact i2 c' h
  · intro c' h
    by_cases e : c' = c
    · subst e; simp at h
    · simp only [Function.update_apply, e, if_false] at h
      exact absurd h (hother c' e).2
  · intro c'
    show _ ↔ k'.locks .list_lock = some c'
    rw [hl]
    constructor
    · intro h
      by_cases e : c' = c
      · rw [e]
      · simp only [Function.update_apply, e, if_false] at h
        rcases h with h | h
        · exact absurd h (hother c' e).1
        · exact absurd h (hother c' e).2
    · intro h
      have : c' = c := (Option.some.inj h).symm
      subst this
      simp
  · intro a h
    have h' : is_running k'.procs a = true := h
    by_cases e : a = q
    · exact ⟨c, by rw [e]; exact hcur⟩
    · rw [q1 a e] at h'
      obtain ⟨c0, e0⟩ := i5 a h'
      have hc0 : c0 ≠ c := by
        intro hc
        rw [hc] at e0
        rw [e0, h'] at hold
        cases hold
      exact ⟨c0, by show (k'.cpus c0).proc = a; rw [hp c0 hc0]; exact e0⟩
  · intro c1 c2 h hne
    have h' : (k'.cpus c1).proc = (k'.cpus c2).proc := h
    have hne' : (k'.cpus c1).proc ≠ 0 := hne
    by_cases e1 : c1 = c
    · by_cases e2 : c2 = c
      · rw [e1, e2]
      · rw [e1, hcur, hp c2 e2] at h'
        exact absurd h'.symm (hnoq c2 e2)
    · by_cases e2 : c2 = c
      · rw [e2, hcur, hp c1 e1] at h'
        exact absurd h' (hnoq c1 e1)
      · rw [hp c1 e1, hp c2 e2] at h'
        rw [hp c1 e1] at hne'
        exact i6 c1 c2 h' hne'

/-- The scheduler of core `c` taking the core back and ending its pass keeps
the invariant. -/
theorem inv_resume_idle {σ : sys} {k' : kernel} {c : Nat} (hi : inv σ)
    (hpc : σ.pc c = .switching) (hq : quiet σ.k.procs k'.procs) (hcur : (k'.cpus c).proc = 0)
    (hp : ∀ c', c' ≠ c → (k'.cpus c').proc = (σ.k.cpus c').proc)
    (hl : k'.locks .list_lock = none) :
    inv { k := k', pc := Function.update σ.pc c .idle } := by
  obtain ⟨i0, i1, i2, i3, i4, i5, i6⟩ := hi
  obtain ⟨q1, q2⟩ := hq
  have hlock : σ.k.locks .list_lock = some c := (i4 c).1 (Or.inr hpc)
  have hother : ∀ c', c' ≠ c → σ.pc c' ≠ .dispatched ∧ σ.pc c' ≠ .switching := by
    intro c' hne
    constructor <;> intro h
    · have := (i4 c').1 (Or.inl h); rw [hlock] at this; exact hne (Option.some.inj this).symm
    · have := (i4 c').1 (Or.inr h); rw [hlock] at this; exact hne (Option.some.inj this).symm
  refine ⟨q2 i0, ?_, ?_, ?_, ?_, ?_, ?_⟩
  · intro c' h
    by_cases e : c' = c
    · rw [e]; exact hcur
    · simp only [Function.update_apply, e, if_false] at h
      show (k'.cpus c').proc = 0; rw [hp c' e]; exact i1 c' h
  · intro c' h
    by_cases e : c' = c
    · subst e; simp at h
    · simp only [Function.update_apply, e, if_false] at h
      show is_running k'.procs (k'.cpus c').proc = true
      rw [hp c' e, q1]
      exact i2 c' h
  · intro c' h
    by_cases e : c' = c
    · subst e; simp at h
    · simp only [Function.update_apply, e, if_false] at h
      exact absurd h (hother c' e).2
  · intro c'
    show _ ↔ k'.locks .list_lock = some c'
    rw [hl]
    constructor
    · intro h
      by_cases e : c' = c
      · subst e; simp at h
      · simp only [Function.update_apply, e, if_false] at h
        rcases h with h | h
        · exact absurd h (hother c' e).1
        · exact absurd h (hother c' e).2
    · intro h; cases h
  · intro a h
    have h' : is_running k'.procs a = true := h
    rw [q1] at h'
    obtain ⟨c0, e0⟩ := i5 a h'
    have hc0 : c0 ≠ c := by
      intro hc
      rw [hc] at e0
      have := i3 c hpc
      rw [e0, h'] at this
      cases this
    exact ⟨c0, by show (k'.cpus c0).proc = a; rw [hp c0 hc0]; exact e0⟩
  · intro c1 c2 h hne
    have h' : (k'.cpus c1).proc = (k'.cpus c2).proc := h
    have hne' : (k'.cpus c1).proc ≠ 0 := hne
    by_cases e1 : c1 = c
    · rw [e1, hcur] at hne'; exact absurd rfl hne'
    · by_cases e2 : c2 = c
      · rw [e2, hcur] at h'; exact absurd h' hne'
      · rw [hp c1 e1, hp c2 e2] at h'
        rw [hp c1 e1] at hne'
        exact i6 c1 c2 h' hne'

theorem inv_initial {σ : sys} (h : initial σ) : inv σ := by
  obtain ⟨h1, h2, h3, h4⟩ := h
  refine ⟨h3, fun c _ => (h1 c).1, ?_, ?_, ?_, ?_, ?_⟩
  · intro c hc
    rw [(h1 c).2] at hc
    rcases hc with hc | hc <;> cases hc
  · intro c _; exact h4 _
  · intro c
    rw [(h1 c).2, h2]
    constructor
    · intro hc; rcases hc with hc | hc <;> cases hc
    · intro hc; cases hc
  · intro a ha; rw [h4 a] at ha; cases ha
  · intro c1 c2 _ hne
    exact absurd (h1 c1).1 hne

theorem inv_step {σ σ' : sys} (hi : inv σ) (hs : step σ σ') : inv σ' := by
  cases hs with
  | pass_dispatch c fuel q k' hpc h =>
    obtain ⟨e1, hcase⟩ := scheduler_pass_inv h
    rcases hcase with ⟨hn, _, _⟩ | ⟨q', hq', a1, a2, a3, a4, a5, a6⟩
    · cases hn
    · cases hq'
      exact inv_dispatch hi (Or.inl ⟨hpc, e1⟩) a1 a2 a3 a4 a5 a6
  | pass_idle c fuel k' hpc h =>
    obtain ⟨e1, hcase⟩ := scheduler_pass_inv h
    rcases hcase with ⟨_, hc, hl⟩ | ⟨q', hq', _⟩
    · exact inv_calm hi hc (by rw [hl, e1])
    · cases hq'
  | resume_dispatch c fuel q k' hpc h =>
    have hlock : σ.k.locks .list_lock = some c := (hi.2.2.2.2.1 c).1 (Or.inr hpc)
    rcases scheduler_resume_inv h with ⟨hn, _⟩ | ⟨q', hq', a1, a2, a3, a4, a5, a6⟩
    · cases hn
    · cases hq'
      exact inv_dispatch hi (Or.inr ⟨hpc, hlock⟩) a1 a2 a3 a4 a5 (by rw [a6, hlock])
  | resume_idle c fuel k' hpc h =>
    rcases scheduler_resume_inv h with ⟨_, a1, a2, a3, _, a5⟩ | ⟨q', hq', _⟩
    · exact inv_resume_idle hi hpc a1 a2 a3 a5
    · cases hq'
  | forkret c k' hpc h =>
    obtain ⟨c1, _, c3⟩ := closes_calm (forkret_inv h)
    exact inv_closes hi hpc c1 c3
  | yield_resume c i k' hpc h =>
    obtain ⟨c1, _, c3⟩ := closes_calm (yield_resume_inv h)
    exact inv_closes hi hpc c1 c3
  | sleep_resume c i lk k' hpc hlk h =>
    obtain ⟨c1, _, c3⟩ := (sleep_resume_inv h).2 hlk
    exact inv_closes hi hpc c1 c3
  | wait_resume_ret c i addr fuel v k' hpc h =>
    obtain ⟨_, hcase⟩ := wait_resume_inv h
    rcases hcase with ⟨v', _, c1, c3⟩ | ⟨j, hj, _⟩
    · exact inv_closes hi hpc c1 c3
    · cases hj
  | wait_resume_asleep c i addr fuel j k' hpc h =>
    obtain ⟨e1, hcase⟩ := wait_resume_inv h
    rcases hcase with ⟨v', hv, _⟩ | ⟨j', _, hr⟩
    · cases hv
    · exact inv_retires hi (Or.inr hpc) hr (Or.inr e1)
  | yield c i k' hpc h =>
    obtain ⟨hr, e1⟩ := yield_inv h
    exact inv_retires hi (Or.inl hpc) hr (Or.inl e1)
  | sleep c chan lk i k' hpc hlk h =>
    obtain ⟨hr, e1, _⟩ := sleep_inv h
    exact inv_retires hi (Or.inl hpc) hr (Or.inl (e1 hlk))
  | exit c status fuel i k' hpc h =>
    obtain ⟨hr, e1⟩ := exit_inv h
    exact inv_retires hi (Or.inl hpc) hr (Or.inl e1)
  | wait_ret c addr fuel v k' hpc h =>
    obtain ⟨e1, hcase⟩ := wait_inv h
    rcases hcase with ⟨v', _, c1, c3⟩ | ⟨j, hj, _⟩
    · exact inv_calm hi c1 (by rw [c3, e1])
    · cases hj
  | wait_asleep c addr fuel j k' hpc h =>
    obtain ⟨e1, hcase⟩ := wait_inv h
    rcases hcase with ⟨v', hv, _⟩ | ⟨j', _, hr⟩
    · cases hv
    · exact inv_retires hi (Or.inl hpc) hr (Or.inl e1)
  | fork c env v k' hpc hfresh h =>
    obtain ⟨c1, c2⟩ := fork_inv h hi.1 hfresh
    exact inv_calm hi c1 c2
  | wakeup c chan fuel k' h =>
    obtain ⟨c1, c2, c3⟩ := wakeup_inv h
    exact inv_calm hi c1 (by rw [c3, c2])
  | kill c pid fuel v k' h =>
    obtain ⟨c1, c2, c3⟩ := kill_inv h
    exact inv_calm hi c1 (by rw [c3, c2])
  | setkilled c p k' h =>
    obtain ⟨c1, c2, c3⟩ := setkilled_inv h
    exact inv_calm hi c1 (by rw [c3, c2])
  | killed c p v k' h =>
    obtain ⟨c1, c2, c3⟩ := killed_inv h
    exact inv_calm hi c1 (by rw [c3, c2])

theorem inv_reachable {σ : sys} (h : reachable σ) : inv σ := by
  induction h with
  | init σ h => exact inv_initial h
  | next σ σ' _ hs ih => exact inv_step ih hs

/-- C7: in every state the cores can reach from an initial state by their
critical sections, no process is the current process of two cores, every
RUNNING record is the current process of exactly one core, and a scheduler
only ever switches into a record whose state is RUNNABLE. -/
theorem running_on_exactly_one_core (σ : sys) (h : reachable σ) :
    (∀ c1 c2, (σ.k.cpus c1).proc = (σ.k.cpus c2).proc → (σ.k.cpus c1).proc ≠ 0 → c1 = c2) ∧
    (∀ a, is_running σ.k.procs a = true →
      ∃ c, (σ.k.cpus c).proc = a ∧ ∀ c', (σ.k.cpus c').proc = a → c' = c) ∧
    (∀ c q, dispatches σ c q → is_runnable σ.k.procs q = true) := by
  obtain ⟨i0, _, _, _, _, i5, i6⟩ := inv_reachable h
  refine ⟨i6, ?_, ?_⟩
  · intro a ha
    obtain ⟨c, hc⟩ := i5 a ha
    refine ⟨c, hc, fun c' hc' => ?_⟩
    exact i6 c' c (by rw [hc', hc]) (by rw [hc']; exact running_ne_zero i0 ha)
  · intro c q hd
    obtain ⟨fuel, k', hd⟩ := hd
    rcases hd with ⟨_, hd⟩ | ⟨_, hd⟩
    · obtain ⟨_, hcase⟩ := scheduler_pass_inv hd
      rcases hcase with ⟨hn, _⟩ | ⟨q', hq', a1, _⟩
      · cases hn
      · cases hq'; exact a1
    · rcases scheduler_resume_inv hd with ⟨hn, _⟩ | ⟨q', hq', a1, _⟩
      · cases hn
      · cases hq'; exact a1

theorem ex_boot_initial : initial ex_boot := by
  refine ⟨fun c => ⟨rfl, rfl⟩, rfl, rfl, fun a => ?_⟩
  show is_running (fun a => if a = 1 then some (ex_proc (-1) .UNUSED 0 0 2 2)
        else if a = 2 then some (ex_proc 1 .RUNNABLE 0 0 1 1) else none) a = false
  unfold is_running
  by_cases h1 : a = 1
  · simp [h1, ex_proc]
  · by_cases h2 : a = 2
    · simp [h2, ex_proc]
    · simp [h1, h2]

set_option maxRecDepth 4000 in
/-- Witness for C7: after boot the scheduler of core `0` dispatches the root
process at `2`; in the state reached it is RUNNING and the current process
of core `0` only. -/
theorem running_on_exactly_one_core_witness :
    ∃ σ, reachable σ ∧ is_running σ.k.procs 2 = true ∧
      ∃ c, (σ.k.cpus c).proc = 2 ∧ ∀ c', (σ.k.cpus c').proc = 2 → c' = c := by
  have hT : table ex_boot.k.procs [2] := by decide
  obtain ⟨k', h1, h2, _⟩ :=
    @scheduler_pass_dispatch ex_boot.k [2] 0 2 (ex_proc 1 .RUNNABLE 0 0 1 1) 3 hT rfl
      (by decide) rfl (by decide)
  have hr : reachable { k := k', pc := Function.update ex_boot.pc 0 .dispatched } :=
    reachable.next _ _ (reachable.init _ ex_boot_initial)
      (step.pass_dispatch ex_boot 0 3 2 k' rfl h1)
  have hrun : is_running k'.procs 2 = true := by
    rw [h2]; simp [is_running]
  exact ⟨_, hr, hrun, (running_on_exactly_one_core _ hr).2.1 2 hrun⟩

/-- C11 (the code at a failing input): on the well-formed table that holds the
records `3` and `2`, neither of them UNUSED, `procdump` prints the line of
the record `3` only and reports a total of 1, with any fuel that lets it
finish.  After a printed line the body executes `p = p->next` and the `for`
executes it again, so the record after each printed one is skipped.  One
line per record would be two lines and a total of 2. -/
theorem procdump_skips_every_second_record :
    table (ex_kernel ex_zombie 2 2).procs [3, 2] ∧
    [3, 2].filter (in_use (ex_kernel ex_zombie 2 2).procs) = [3, 2] ∧
    (∀ n, procdump (n + 2) (ex_kernel ex_zombie 2 2) =
      .ok ([{ pid := 2, state := states .ZOMBIE, name := [] }], 1)) ∧
    [3, 2].filterMap (dump_of (ex_kernel ex_zombie 2 2).procs) =
      [{ pid := 2, state := states .ZOMBIE, name := [] },
       { pid := 1, state := states .RUNNING, name := [] }] :=
  ⟨by decide, by decide, fun _ => rfl, by decide⟩

theorem procdump_scan_single {m : procmem} {a : Ptr} {r d : proc} (hr : m a = some r)
    (hd : m dummyhead = some d) (ha : a ≠ dummyhead) (hst : r.state ≠ .UNUSED)
    (hn : r.next = dummyhead) (hdn : d.next = a) :
    ∀ (n : Nat) (out : List dumpline) (c : Int),
      procdump_scan n a m out c = .error .fuel := by
  intro n
  induction n with
  | zero => intro out c; rfl
  | succ n ih =>
    intro out c
    simp only [procdump_scan, if_neg ha, rd, hr, hd, hn, hdn, if_neg hst, bind, Except.bind]
    exact ih _ _

/-- C20 (the code at a failing input): on the well-formed table that holds the
single record `2`, which is RUNNING, the loop of `procdump` never reaches the
sentinel: no amount of fuel lets it finish.  After the line of the record is
printed, the `p = p->next` of the body moves to the sentinel and the
`p = p->next` of the `for` moves past it, back to the record. -/
theorem procdump_never_ends_on_single_record :
    table ex_root_kernel.procs [2] ∧ in_use ex_root_kernel.procs 2 = true ∧
    ∀ fuel, procdump fuel ex_root_kernel = .error .fuel := by
  refine ⟨by decide, by decide, fun fuel => ?_⟩
  have h := procdump_scan_single (m := ex_root_kernel.procs) (a := 2) rfl rfl (by decide)
    (by decide) rfl rfl fuel [] 0
  exact h

theorem dump2_scan_none (pid : Int) (m : procmem) (L : List Ptr) :
    ∀ (fuel : Nat) (q : Ptr), chain proc.next m q L dummyhead → dummyhead ∉ L →
      (∀ a ∈ L, has_pid m pid a = false) → L.length < fuel →
      dump2_scan pid fuel q m = .ok dummyhead := by
  induction L with
  | nil =>
    intro fuel q hc _ _ hf
    obtain ⟨n, rfl⟩ : ∃ n, fuel = n + 1 := ⟨fuel - 1, by simp at hf; omega⟩
    rw [chain_nil] at hc
    simp [dump2_scan, hc]
  | cons a L ih =>
    intro fuel q hc hd hA hf
    obtain ⟨n, rfl⟩ : ∃ n, fuel = n + 1 := ⟨fuel - 1, by simp at hf; omega⟩
    rw [chain_cons] at hc
    obtain ⟨rfl, r, hr, hc⟩ := hc
    have hqd : q ≠ dummyhead := fun h => hd (h ▸ by simp)
    have hne : r.pid ≠ pid := by
      have := hA q (List.mem_cons_self _ _)
      simpa [has_pid, hr] using this
    simp only [dump2_scan, if_neg hqd, bind, Except.bind, rd_some hr, if_neg hne]
    exact ih n r.next hc (fun h => hd (List.mem_cons_of_mem _ h))
      (fun b hb => hA b (List.mem_cons_of_mem _ hb)) (by simp at hf ⊢; omega)

theorem dump2_scan_found (pid : Int) (m : procmem) {c : Ptr} {B : List Ptr}
    (hc : has_pid m pid c = true) (A : List Ptr) :
    ∀ (fuel : Nat) (q : Ptr), chain proc.next m q (A ++ c :: B) dummyhead →
      dummyhead ∉ A ++ c :: B → (∀ a ∈ A, has_pid m pid a = false) →
      (A ++ c :: B).length < fuel → dump2_scan pid fuel q m = .ok c := by
  induction A with
  | nil =>
    intro fuel q hch hd _ hf
    obtain ⟨n, rfl⟩ : ∃ n, fuel = n + 1 := ⟨fuel - 1, by simp at hf; omega⟩
    rw [List.nil_append, chain_cons] at hch
    obtain ⟨rfl, r, hr, _⟩ := hch
    have hqd : q ≠ dummyhead := fun h => hd (h ▸ by simp)
    have hp : r.pid = pid := by simpa [has_pid, hr] using hc
    simp only [dump2_scan, if_neg hqd, bind, Except.bind, rd_some hr, if_pos hp]
  | cons a A ih =>
    intro fuel q hch hd hA hf
    obtain ⟨n, rfl⟩ : ∃ n, fuel = n + 1 := ⟨fuel - 1, by simp at hf; omega⟩
    rw [List.cons_append, chain_cons] at hch
    obtain ⟨rfl, r, hr, hch⟩ := hch
    have hqd : q ≠ dummyhead := fun h => hd (h ▸ by simp)
    have hne : r.pid ≠ pid := by
      have := hA q (List.mem_cons_self _ _)
      simpa [has_pid, hr] using this
    simp only [dump2_scan, if_neg hqd, bind, Except.bind, rd_some hr, if_neg hne]
    exact ih n r.next hch (fun h => hd (List.mem_cons_of_mem _ h))
      (fun b hb => hA b (List.mem_cons_of_mem _ hb)) (by simp at hf ⊢; omega)

/-- The search of `dump2` on a well-formed table: the first record with the
pid. -/
theorem dump2_scan_find {m : procmem} {L : List Ptr} {pid : Int} {c : Ptr} {fuel : Nat}
    (hT : table m L) (hfind : L.find? (has_pid m pid) = some c) (hfuel : L.length < fuel) :
    ∃ d, m dummyhead = some d ∧ dump2_scan pid fuel d.next m = .ok c ∧ c ≠ dummyhead := by
  obtain ⟨hp, A, B, rfl, hA⟩ := List.find?_eq_some.1 hfind
  obtain ⟨d, hd, hc, hdL, _⟩ := table_head hT
  refine ⟨d, hd, dump2_scan_found pid m hp A fuel d.next hc hdL ?_ hfuel, ?_⟩
  · intro a ha
    simpa using hA a ha
  · intro h
    exact hdL (h ▸ by simp)

theorem dump2_in_range {register_num : Int} (h1 : 2 ≤ register_num) (h2 : register_num ≤ 11) :
    ¬ (register_num > 11 ∨ register_num < 2) := by
  omega

/-- C12: whatever the pid, the caller, the destination and the table are,
`dump2` with a register index below 2 or above 11 returns -3 and leaves the
state (the user memory included) as it is.  With an index in the range it
returns -2 when no record of the table has the pid, leaving the state as it
is, and -1 when the first record with the pid has a parent record and the
caller's pid is neither the target's nor that parent's; then the state is the
one the call of `myproc()` leaves, with the records and the user memory as
they were.  The value -3 is neither of these two. -/
theorem dump2_rejects_register_out_of_range (s : kernel) (tp : Nat) (pid register_num : Int)
    (return_value fuel : Nat) (hreg : register_num < 2 ∨ register_num > 11) :
    dump2 tp pid register_num return_value fuel s = .ok (-3, s) ∧
    (-3 : Int) ≠ -2 ∧ (-3 : Int) ≠ -1 ∧
    (∀ (L : List Ptr) (rn : Int), 2 ≤ rn → rn ≤ 11 → table s.procs L →
      (∀ a ∈ L, has_pid s.procs pid a = false) → L.length < fuel →
      dump2 tp pid rn return_value fuel s = .ok (-2, s)) ∧
    (∀ (L : List Ptr) (rn : Int) (c : Ptr) (rc cur par : proc), 2 ≤ rn → rn ≤ 11 →
      table s.procs L → L.find? (has_pid s.procs pid) = some c → s.procs c = some rc →
      s.procs (curproc s tp) = some cur → s.procs rc.parent = some par →
      cur.pid ≠ rc.pid → cur.pid ≠ par.pid → L.length < fuel →
      dump2 tp pid rn return_value fuel s = .ok (-1, bracketed tp s) ∧
      (bracketed tp s).procs = s.procs ∧ (bracketed tp s).user = s.user ∧
      (bracketed tp s).pages = s.pages) := by
  refine ⟨?_, by decide, by decide, ?_, ?_⟩
  · have h : register_num > 11 ∨ register_num < 2 := by omega
    simp only [dump2, if_pos h]
  · intro L rn h1 h2 hT hnone hfuel
    obtain ⟨d, hd, hc, hdL, _⟩ := table_head hT
    simp only [dump2, if_neg (dump2_in_range h1 h2), bind, Except.bind, rd_some hd,
      dump2_scan_none pid s.procs L fuel d.next hc hdL hnone hfuel, if_true]
  · intro L rn c rc cur par h1 h2 hT hfind hrc hcur hpar hne1 hne2 hfuel
    obtain ⟨d, hd, hscan, hcd⟩ := dump2_scan_find hT hfind hfuel
    refine ⟨?_, rfl, rfl, rfl⟩
    simp only [dump2, if_neg (dump2_in_range h1 h2), bind, Except.bind, rd_some hd, hscan,
      if_neg hcd, myproc_eq, bracketed_procs, rd_some hcur, rd_some hrc, if_neg hne1,
      rd_some hpar, pure, Except.pure, decide_eq_false hne2, if_true]

set_option maxRecDepth 4000 in
/-- Witness for C12: register index 12, and on the same state the index 2
with a pid no record has, and with the pid of the process at address 3 asked
for by the process at address 4, which is neither it nor its parent: the
state returned with -1 differs from the one before in the saved `intena` of
the core, which `myproc()` has overwritten. -/
theorem dump2_rejects_register_out_of_range_witness :
    dump2 0 2 12 5 4 (ex_kernel ex_family 2 4) = .ok (-3, ex_kernel ex_family 2 4) ∧
    dump2 0 9 2 5 4 (ex_kernel ex_family 2 4) = .ok (-2, ex_kernel ex_family 2 4) ∧
    dump2 0 2 2 5 4 (ex_kernel ex_family 2 4) =
      .ok (-1, bracketed 0 (ex_kernel ex_family 2 4)) := by
  have hT : table (ex_kernel ex_family 2 4).procs [4, 3, 2] := by decide
  have h := dump2_rejects_register_out_of_range (ex_kernel ex_family 2 4) 0 2 12 5 4
    (Or.inr (by decide))
  have h' := dump2_rejects_register_out_of_range (ex_kernel ex_family 2 4) 0 9 12 5 4
    (Or.inr (by decide))
  exact ⟨h.1, h'.2.2.2.1 [4, 3, 2] 2 (by decide) (by decide) hT (by decide) (by decide),
    (h.2.2.2.2 [4, 3, 2] 2 3 (ex_proc 2 .RUNNING 2 0 2 4) (ex_proc 3 .RUNNABLE 3 0 3 1)
      (ex_proc 1 .SLEEPING 0 2 1 3) (by decide) (by decide) hT (by decide) rfl rfl rfl
      (by decide) (by decide) (by decide)).1⟩

/-- C13 (the code at the failing inputs): when the first record with the pid
has no parent (`parent` is the null pointer), as the root process has, and
the caller's pid is not the target's, `dump2` with a register index in the
range does not return -1: it reads `needed_proc->parent->pid` through the
null pointer. -/
theorem dump2_parentless_target_null_deref (s : kernel) (L : List Ptr) (tp : Nat)
    (pid register_num : Int) (return_value fuel : Nat) (c : Ptr) (rc cur : proc)
    (hT : table s.procs L) (h1 : 2 ≤ register_num) (h2 : register_num ≤ 11)
    (hfind : L.find? (has_pid s.procs pid) = some c) (hrc : s.procs c = some rc)
    (hpar : rc.parent = 0) (hcur : s.procs (curproc s tp) = some cur)
    (hne : cur.pid ≠ rc.pid) (hfuel : L.length < fuel) :
    dump2 tp pid register_num return_value fuel s = .error .badptr := by
  obtain ⟨d, hd, hscan, hcd⟩ := dump2_scan_find hT hfind hfuel
  have hnull : rd s.procs 0 = .error .badptr := by simp [rd, hT.1]
  simp only [dump2, if_neg (dump2_in_range h1 h2), bind, Except.bind, rd_some hd, hscan,
    if_neg hcd, myproc_eq, bracketed_procs, rd_some hcur, rd_some hrc, if_neg hne, hpar, hnull]

set_option maxRecDepth 4000 in
/-- Witness for C13: the process with pid 2 asks for register `s2` of the root
process (pid 1), whose `parent` is null. -/
theorem dump2_parentless_target_null_deref_witness :
    table (ex_kernel ex_family 2 3).procs [4, 3, 2] ∧
    dump2 0 1 2 5 4 (ex_kernel ex_family 2 3) = .error .badptr :=
  ⟨by decide, dump2_parentless_target_null_deref (ex_kernel ex_family 2 3) [4, 3, 2] 0 1 2 5 4 2
    (ex_proc 1 .SLEEPING 0 2 1 3) (ex_proc 2 .RUNNING 2 0 2 4) (by decide) (by decide)
    (by decide) (by decide) rfl rfl rfl (by decide) (by decide)⟩

theorem wrap32_id {x : Int} (h1 : -2 ^ 31 ≤ x) (h2 : x < 2 ^ 31) : wrap32 x = x := by
  unfold wrap32
  omega

theorem wrap32_add (x y : Int) : wrap32 (wrap32 x + y) = wrap32 (x + y) := by
  unfold wrap32
  omega

theorem wrap32_wrap32 (x : Int) : wrap32 (wrap32 x) = wrap32 x := by
  unfold wrap32
  omega

/-- The pids of `n` calls of `allocpid`: the counter, incremented with
wrap-around. -/
theorem allocpids_eq (tp : Nat) :
    ∀ (n : Nat) (s : kernel), s.locks .pid_lock = none → wrap32 s.nextpid = s.nextpid →
      ∃ s', allocpids tp n s =
          .ok ((List.range n).map (fun k : Nat => wrap32 (s.nextpid + (k : Int))), s') ∧
        s'.procs = s.procs ∧ s'.nextpid = wrap32 (s.nextpid + (n : Int)) ∧
        s'.locks .pid_lock = none := by
  intro n
  induction n with
  | zero =>
    intro s hl hr
    exact ⟨s, rfl, rfl, by simpa using hr.symm, hl⟩
  | succ n ih =>
    intro s hl hr
    obtain ⟨s1, h1, hp1, _, _, _, hn1, _, _, _, _, hl1⟩ := allocpid_ok tp hl
    obtain ⟨s2, h2, hp2, hn2, hl2⟩ := ih s1 hl1 (by rw [hn1, wrap32_wrap32])
    refine ⟨s2, ?_, hp2.trans hp1, ?_, hl2⟩
    · simp only [allocpids, bind, Except.bind, h1, h2]
      rw [List.range_succ_eq_map, List.map_cons, List.map_map]
      have h0 : wrap32 (s.nextpid + ((0 : Nat) : Int)) = s.nextpid := by simpa using hr
      rw [h0]
      refine congrArg (fun l => Except.ok (s.nextpid :: l, s2)) ?_
      refine List.map_congr_left (fun k _ => ?_)
      simp only [Function.comp, hn1, wrap32_add, Nat.succ_eq_add_one]
      push_cast
      ring_nf
    · rw [hn2, hn1, wrap32_add]
      push_cast
      ring_nf

/-- The pids of the first calls of `allocpid` after boot, while the counter
has not wrapped around. -/
theorem allocpids_small (tp : Nat) {n : Nat} {s : kernel} (h1 : s.nextpid = 1)
    (hl : s.locks .pid_lock = none) (hn : n < 2 ^ 31) :
    ∃ s', allocpids tp n s = .ok ((List.range n).map (fun k : Nat => (k : Int) + 1), s') := by
  obtain ⟨s', h, _⟩ := allocpids_eq tp n s hl (by rw [h1]; decide)
  refine ⟨s', ?_⟩
  rw [h]
  refine congrArg (fun l => Except.ok (l, s')) (List.map_congr_left (fun k hk => ?_))
  have hk' : k < n := List.mem_range.1 hk
  rw [h1, wrap32_id (by omega) (by omega)]
  ring

/-- A record linked by `allocproc` gets the counter as its pid, which no
record of the table has while the pids in the table are below the counter. -/
theorem allocproc_pid_fresh (tp : Nat) {t : kernel} {L : List Ptr} {env : allocenv}
    (hT : table t.procs L) (hpid : t.locks .pid_lock = none)
    (hfree : t.locks .list_lock = none) (hnp : env.bd_malloc ≠ 0)
    (hfresh : t.procs env.bd_malloc = none) (hk : env.kalloc_kstack ≠ 0)
    (ht : env.kalloc_trapframe ≠ 0) (hpt : proc_pagetable env ≠ 0)
    (hpos : 0 < t.nextpid) (hmax : t.nextpid < 2 ^ 31 - 1)
    (hi : pids_issued t L) (hd : pids_distinct t.procs L) :
    ∃ t', allocproc tp env t = .ok (env.bd_malloc, t') ∧
      pids_issued t' (env.bd_malloc :: L) ∧ pids_distinct t'.procs (env.bd_malloc :: L) ∧
      t'.nextpid = t.nextpid + 1 := by
  obtain ⟨t', h, _, hnew, hdata, _, _, _, _, hnext, _⟩ :=
    allocproc_ok tp hT hpid hfree hnp hfresh hk ht hpt
  have hnext' : t'.nextpid = t.nextpid + 1 := by
    rw [hnext, wrap32_id (by omega) (by omega)]
  have hold : ∀ a ∈ L, ∀ r', t'.procs a = some r' →
      ∃ r, t.procs a = some r ∧ r'.pid = r.pid := by
    intro a ha r' hr'
    obtain ⟨r, hr⟩ := table_alloc hT a (List.mem_cons_of_mem _ ha)
    have hne : a ≠ env.bd_malloc := fun e => by rw [e, hfresh] at hr; cases hr
    obtain ⟨r2, hr2, hd2⟩ := data_of_map (hdata a hne) hr
    rw [hr'] at hr2; cases hr2
    exact ⟨r, hr, (data_fields hd2).1⟩
  have hpidnew : ∀ r', t'.procs env.bd_malloc = some r' → r'.pid = t.nextpid := by
    intro r' hr'
    rw [hnew] at hr'; cases hr'
    rfl
  refine ⟨t', h, ?_, ?_, hnext'⟩
  · intro a ha r' hr'
    rcases List.mem_cons.1 ha with rfl | ha
    · rw [hpidnew r' hr', hnext']
      omega
    · obtain ⟨r, hr, he⟩ := hold a ha r' hr'
      have := hi a ha r hr
      rw [he, hnext']
      omega
  · intro a ha b hb ra rb hra hrb he
    rcases List.mem_cons.1 ha with rfl | ha <;> rcases List.mem_cons.1 hb with rfl | hb
    · rfl
    · obtain ⟨r, hr, hbe⟩ := hold b hb rb hrb
      have := hi b hb r hr
      rw [hpidnew ra hra, hbe] at he
      omega
    · obtain ⟨r, hr, hae⟩ := hold a ha ra hra
      have := hi a ha r hr
      rw [hpidnew rb hrb, hae] at he
      omega
    · obtain ⟨r1, hr1, h1⟩ := hold a ha ra hra
      obtain ⟨r2, hr2, h2⟩ := hold b hb rb hrb
      exact hd a ha b hb r1 r2 hr1 hr2 (by rw [← h1, ← h2, he])

/-- C14 (counterexample): from the counter 1 with the pid lock free, the call
number 2^31 of `allocpid` returns -2^31, a negative pid that is smaller than
the pid 2^31 - 1 returned by the call before it. -/
theorem allocpid_wraps_to_negative :
    ex_start.nextpid = 1 ∧ ex_start.locks .pid_lock = none ∧
    ∃ pids s', allocpids 0 2147483648 ex_start = .ok (pids, s') ∧
      pids[2147483646]? = some 2147483647 ∧ pids[2147483647]? = some (-2147483648) := by
  obtain ⟨s', h, _⟩ := allocpids_eq 0 2147483648 ex_start rfl (by decide)
  refine ⟨rfl, rfl, _, s', h, ?_, ?_⟩
  · rw [List.getElem?_map, List.getElem?_range (by norm_num)]
    show some (wrap32 ((1 : Int) + ((2147483646 : Nat) : Int))) = some 2147483647
    norm_num [wrap32]
  · rw [List.getElem?_map, List.getElem?_range (by norm_num)]
    show some (wrap32 ((1 : Int) + ((2147483647 : Nat) : Int))) = some (-2147483648)
    norm_num [wrap32]

/-- C14 (amended): from the counter 1 with the pid lock free, fewer than 2^31
calls of `allocpid` all return: the call number `k` returns `k`, so every
returned pid is positive, each is greater than all the ones before it and no
two are equal.  As to the table: while the counter is positive and below
2^31 - 1 and every record of a well-formed table has a positive pid below
the counter, with no pid shared, a successful `allocproc` links a record
whose pid no other record has, and the same holds again afterwards. -/
theorem allocpid_increasing_below_overflow (s : kernel) (tp n : Nat) (h1 : s.nextpid = 1)
    (hl : s.locks .pid_lock = none) (hn : n < 2 ^ 31) :
    (∃ pids s', allocpids tp n s = .ok (pids, s') ∧
      pids = (List.range n).map (fun k : Nat => (k : Int) + 1) ∧
      (∀ p ∈ pids, 0 < p) ∧ pids.Pairwise (fun a b => a < b) ∧ pids.Nodup) ∧
    (∀ (t : kernel) (L : List Ptr) (env : allocenv), table t.procs L →
      t.locks .pid_lock = none → t.locks .list_lock = none → env.bd_malloc ≠ 0 →
      t.procs env.bd_malloc = none → env.kalloc_kstack ≠ 0 → env.kalloc_trapframe ≠ 0 →
      proc_pagetable env ≠ 0 → 0 < t.nextpid → t.nextpid < 2 ^ 31 - 1 →
      pids_issued t L → pids_distinct t.procs L →
      ∃ t', allocproc tp env t = .ok (env.bd_malloc, t') ∧
        pids_issued t' (env.bd_malloc :: L) ∧ pids_distinct t'.procs (env.bd_malloc :: L)) := by
  obtain ⟨s', h⟩ := allocpids_small tp h1 hl hn
  have hpw : ((List.range n).map (fun k : Nat => (k : Int) + 1)).Pairwise (fun a b => a < b) := by
    rw [List.pairwise_map]
    exact (List.pairwise_lt_range n).imp (fun hab => by omega)
  refine ⟨⟨_, s', h, rfl, ?_, hpw, hpw.imp (fun hab => ne_of_lt hab)⟩, ?_⟩
  · intro p hp
    obtain ⟨k, _, rfl⟩ := List.mem_map.1 hp
    omega
  · intro t L env hT hpid hfree hnp hfresh hk ht hpt hpos hmax hi hd
    obtain ⟨t', h, h2, h3, _⟩ :=
      allocproc_pid_fresh tp hT hpid hfree hnp hfresh hk ht hpt hpos hmax hi hd
    exact ⟨t', h, h2, h3⟩

set_option maxRecDepth 4000 in
/-- Witness for C14: three calls after boot return 1, 2, 3; and `allocproc`
on the table that holds the root process (pid 1, counter 10) links a record
with another pid. -/
theorem allocpid_increasing_below_overflow_witness :
    (∃ s', allocpids 0 3 ex_start = .ok ([1, 2, 3], s')) ∧
    ∃ t', allocproc 0 ex_env ex_root_kernel = .ok (3, t') ∧ pids_distinct t'.procs [3, 2] := by
  obtain ⟨⟨pids, s', h1, h2, _⟩, h3⟩ :=
    allocpid_increasing_below_overflow ex_start 0 3 rfl rfl (by norm_num)
  have hroot : ∀ r, ex_root_kernel.procs 2 = some r → r.pid = 1 := by
    intro r hr
    have hr' : (ex_root_kernel.procs 2).map proc.pid = some r.pid := by rw [hr]; rfl
    have h1 : (ex_root_kernel.procs 2).map proc.pid = some 1 := rfl
    exact Option.some.inj (hr'.symm.trans h1)
  obtain ⟨t', h4, _, h5⟩ := h3 ex_root_kernel [2] ex_env (by decide) rfl rfl (by decide) rfl
    (by decide) (by decide) (by decide) (by decide) (by decide)
    (fun a ha r hr => by
      obtain rfl : a = 2 := by simpa using ha
      rw [hroot r hr]
      exact ⟨by decide, by decide⟩)
    (fun a ha b hb _ _ _ _ _ => by
      obtain rfl : a = 2 := by simpa using ha
      obtain rfl : b = 2 := by simpa using hb
      rfl)
  exact ⟨⟨s', by rw [h1, h2]; rfl⟩, t', h4, h5⟩

theorem bind_ne {α β : Type} {x : Except fault α} {f : α → Except fault β} {e : fault}
    (h1 : x ≠ .error e) (h2 : ∀ v, x = .ok v → f v ≠ .error e) : x.bind f ≠ .error e := by
  cases x with
  | error e' =>
    intro h
    simp only [Except.bind] at h
    cases h
    exact h1 rfl
  | ok v => exact h2 v rfl

theorem rd_ne_running {α : Type} (m : Ptr → Option α) (a : Ptr) :
    rd m a ≠ .error .panic_sched_running := by
  unfold rd
  split <;> simp

theorem upd_ne_running {α : Type} (m : Ptr → Option α) (a : Ptr) (f : α → α) :
    upd m a f ≠ .error .panic_sched_running := by
  unfold upd
  split <;> simp

theorem acquire_ne_running (tp : Nat) (lk : lockid) (s : kernel) :
    acquire tp lk s ≠ .error .panic_sched_running := by
  unfold acquire
  simp only []
  split
  · simp
  · split <;> simp

theorem release_ne_running (tp : Nat) (lk : lockid) (s : kernel) :
    release tp lk s ≠ .error .panic_sched_running := by
  unfold release pop_off
  simp only []
  split
  · simp
  · split
    · simp
    · split <;> simp

theorem myproc_ne (tp : Nat) (s : kernel) (e : fault) : myproc tp s ≠ .error e := by
  rw [myproc_eq]
  simp

theorem wakeup_scan_ne_running (tp : Nat) (chan : Ptr) :
    ∀ (n : Nat) (p : Ptr) (s : kernel),
      wakeup_scan tp chan n p s ≠ .error .panic_sched_running := by
  intro n
  induction n with
  | zero => intro p s; simp [wakeup_scan]
  | succ n ih =>
    intro p s
    unfold wakeup_scan
    split
    · simp
    · try simp only [bind]
      refine bind_ne (myproc_ne _ _ _) (fun v _ => ?_)
      refine bind_ne ?_ (fun s1 _ => ?_)
      · split
        · refine bind_ne (rd_ne_running _ _) (fun r _ => ?_)
          split
          · refine bind_ne (upd_ne_running _ _ _) (fun m _ => ?_)
            simp [pure, Except.pure]
          · simp [pure, Except.pure]
        · simp [pure, Except.pure]
      · exact bind_ne (rd_ne_running _ _) (fun r _ => ih _ _)

theorem wakeup_nolock_ne_running (tp : Nat) (chan : Ptr) (fuel : Nat) (s : kernel) :
    wakeup_nolock tp chan fuel s ≠ .error .panic_sched_running := by
  unfold wakeup_nolock
  try simp only [bind]
  exact bind_ne (rd_ne_running _ _) (fun d _ => wakeup_scan_ne_running _ _ _ _ _)

theorem reparent_scan_ne_running (tp : Nat) (p : Ptr) (fuel : Nat) :
    ∀ (n : Nat) (pp : Ptr) (s : kernel),
      reparent_scan tp p fuel n pp s ≠ .error .panic_sched_running := by
  intro n
  induction n with
  | zero => intro pp s; simp [reparent_scan]
  | succ n ih =>
    intro pp s
    unfold reparent_scan
    split
    · simp
    · try simp only [bind]
      refine bind_ne (rd_ne_running _ _) (fun r _ => ?_)
      refine bind_ne ?_ (fun s1 _ => ?_)
      · split
        · exact bind_ne (upd_ne_running _ _ _) (fun m _ => wakeup_nolock_ne_running _ _ _ _)
        · simp [pure, Except.pure]
      · exact bind_ne (rd_ne_running _ _) (fun r _ => ih _ _)

theorem reparent_ne_running (tp : Nat) (p : Ptr) (fuel : Nat) (s : kernel) :
    reparent tp p fuel s ≠ .error .panic_sched_running := by
  unfold reparent
  try simp only [bind]
  exact bind_ne (rd_ne_running _ _) (fun d _ => reparent_scan_ne_running _ _ _ _ _ _)

/-- The outcome of `sched` for a caller whose record exists, check by check:
the fourth check, made on the state `myproc()` left, passes whenever the
second does. -/
theorem sched_cases {tp : Nat} {s : kernel} {r : proc} (hr : s.procs (curproc s tp) = some r) :
    sched tp s =
      if holding s .list_lock tp = false then .error .panic_sched_list_lock
      else if (s.cpus tp).noff ≠ 1 then .error .panic_sched_locks
      else if r.state = .RUNNING then .error .panic_sched_running
      else .ok ((s.cpus tp).intena, bracketed tp s) := by
  unfold sched
  simp only [myproc_eq, bind, Except.bind, holding_bracketed, bracketed_noff, bracketed_procs,
    rd_some hr]
  by_cases h1 : holding s .list_lock tp = true
  · by_cases h2 : (s.cpus tp).noff = 1
    · have h0 : (s.cpus tp).noff ≠ 0 := by omega
      by_cases h3 : r.state = .RUNNING
      · simp [h1, h2, h3]
      · simp [h1, h2, h3, bracketed_intr_off h0, bracketed_intena_off h0]
    · simp [h1, h2]
  · have h2 : holding s .list_lock tp = false := by simpa using h1
    simp [h2]

/-- The third check of `sched` fails only on a RUNNING caller. -/
theorem sched_running_inv {tp : Nat} {s : kernel} (h : sched tp s = .error .panic_sched_running) :
    is_running s.procs (curproc s tp) = true := by
  cases hr : s.procs (curproc s tp) with
  | none =>
    unfold sched at h
    have hnone : rd s.procs (curproc s tp) = .error .badptr := by simp [rd, hr]
    simp only [myproc_eq, bind, Except.bind, holding_bracketed, bracketed_noff,
      bracketed_procs, hnone] at h
    split at h
    · cases h
    · split at h <;> cases h
  | some r =>
    rw [sched_cases hr] at h
    by_cases hst : r.state = .RUNNING
    · simp [is_running, hr, hst]
    · simp only [if_neg hst] at h
      split at h
      · cases h
      · split at h <;> cases h

/-- After the caller's state has been set to something else than RUNNING,
`sched` does not fail its third check. -/
theorem sched_after_state_ne_running {tp : Nat} {s : kernel} {m m' : procmem} {st : procstate}
    (h : upd m (curproc s tp) (fun r => { r with state := st }) = .ok m')
    (hst : st ≠ .RUNNING) : sched tp { s with procs := m' } ≠ .error .panic_sched_running := by
  intro he
  have hrun := sched_running_inv he
  obtain ⟨r, _, rfl⟩ := upd_ok h
  simp [is_running, curproc, hst] at hrun

theorem yield_ne_running (tp : Nat) (s : kernel) :
    yield tp s ≠ .error .panic_sched_running := by
  unfold yield
  try simp only [bind]
  refine bind_ne (myproc_ne _ _ _) (fun v hv => ?_)
  obtain ⟨p, s0⟩ := v
  obtain ⟨rfl, rfl⟩ := myproc_ok_inv hv
  refine bind_ne (acquire_ne_running _ _ _) (fun s1 h1 => ?_)
  refine bind_ne (upd_ne_running _ _ _) (fun m hm => ?_)
  rw [acquire_bracketed] at h1
  obtain ⟨_, e1⟩ := acquire_ok_inv h1
  have hp : curproc s tp = curproc s1 tp := by rw [e1, acquired_curproc]
  dsimp only at hm
  rw [hp] at hm
  exact sched_after_state_ne_running hm (by decide)

theorem sleep_ne_running (tp : Nat) (chan : Ptr) (lk : lockid) (s : kernel) :
    sleep tp chan lk s ≠ .error .panic_sched_running := by
  unfold sleep
  try simp only [bind]
  refine bind_ne (myproc_ne _ _ _) (fun v hv => ?_)
  obtain ⟨p, s0⟩ := v
  obtain ⟨rfl, rfl⟩ := myproc_ok_inv hv
  dsimp only
  refine bind_ne ?_ (fun s1 h1 => ?_)
  · split
    · exact bind_ne (acquire_ne_running _ _ _) (fun _ _ => release_ne_running _ _ _)
    · simp [pure, Except.pure]
  · have hp : curproc s tp = curproc s1 tp := by
      by_cases hlk : lk ≠ .list_lock
      · rw [if_pos hlk] at h1
        obtain ⟨s0, g1, g2⟩ := bind_ok h1
        rw [acquire_bracketed] at g1
        obtain ⟨_, e1⟩ := acquire_ok_inv g1
        obtain ⟨_, e2⟩ := release_ok_inv g2
        rw [e2, e1, released_curproc, acquired_curproc]
      · rw [if_neg hlk] at h1
        cases h1
        exact (bracketed_curproc tp s tp).symm
    refine bind_ne (upd_ne_running _ _ _) (fun m1 _ => ?_)
    refine bind_ne (upd_ne_running _ _ _) (fun m2 hm => ?_)
    rw [hp] at hm
    exact sched_after_state_ne_running hm (by decide)

theorem exit_ne_running (tp : Nat) (status : Int) (fuel : Nat) (s : kernel) :
    exit tp status fuel s ≠ .error .panic_sched_running := by
  unfold exit
  try simp only [bind]
  refine bind_ne (myproc_ne _ _ _) (fun v hv => ?_)
  obtain ⟨p, s0⟩ := v
  obtain ⟨rfl, rfl⟩ := myproc_ok_inv hv
  dsimp only
  split
  · simp
  · refine bind_ne (upd_ne_running _ _ _) (fun m1 _ => ?_)
    refine bind_ne (upd_ne_running _ _ _) (fun m2 _ => ?_)
    refine bind_ne (acquire_ne_running _ _ _) (fun s1 h1 => ?_)
    refine bind_ne (reparent_ne_running _ _ _ _) (fun s2 h2 => ?_)
    refine bind_ne (rd_ne_running _ _) (fun r _ => ?_)
    refine bind_ne (wakeup_nolock_ne_running _ _ _ _) (fun s3 h3 => ?_)
    refine bind_ne (upd_ne_running _ _ _) (fun m3 _ => ?_)
    refine bind_ne (upd_ne_running _ _ _) (fun m4 hm => ?_)
    have h1' : acquire tp .list_lock { s with procs := m2 } = .ok s1 := by
      rw [← acquire_bracketed]; exact h1
    obtain ⟨_, e1⟩ := acquire_ok_inv h1'
    have hp : curproc s tp = curproc s3 tp := by
      have g2 := (reparent_inside h2).2.2 tp
      have g3 := (wakeup_nolock_inside h3).2.2 tp
      simp only [curproc]
      rw [g3, g2, e1, acquired_proc]
    rw [hp] at hm
    exact sched_after_state_ne_running hm (by decide)

/-- The function `yield` calls `sched` with the lock taken and the caller's
state set to RUNNABLE. -/
theorem yield_calls_sched {tp : Nat} {t : kernel} {r : proc}
    (hfree : t.locks .list_lock = none) (hr : t.procs (curproc t tp) = some r) :
    yield tp t = sched tp { acquired tp .list_lock t with
      procs := Function.update t.procs (curproc t tp) (some { r with state := .RUNNABLE }) } := by
  have hr' : (acquired tp .list_lock t).procs (curproc t tp) = some r := hr
  simp only [yield, myproc_eq, bind, Except.bind, acquire_bracketed, acquire_eq hfree,
    upd_some _ hr']
  rfl

/-- The function `sleep` called with `list_lock` calls `sched` with the
caller's channel set and its state set to SLEEPING. -/
theorem sleep_calls_sched {tp : Nat} {t : kernel} {r : proc} (chan : Ptr)
    (hr : t.procs (curproc t tp) = some r) :
    sleep tp chan .list_lock t = sched tp { bracketed tp t with
      procs := Function.update t.procs (curproc t tp)
        (some { r with chan := chan, state := .SLEEPING }) } := by
  have hr' : (bracketed tp t).procs (curproc t tp) = some r := hr
  simp only [sleep, myproc_eq, bind, Except.bind, ne_eq, not_true_eq_false, if_false, pure,
    Except.pure, upd_some _ hr', upd_update_same, Function.update_idem]
  rfl

/-- The state in which `sched` switched is the one it was called in, up to
the bracket of `myproc()`: the records are the same. -/
theorem sched_switch_procs {tp : Nat} {s s' : kernel} {i : Bool}
    (h : sched tp s = .ok (i, s')) : s'.procs = s.procs := by
  rw [(sched_inv h).1]
  rfl

/-- When `yield` reaches the switch the caller is RUNNABLE. -/
theorem yield_switch_state {tp : Nat} {t t' : kernel} {i : Bool}
    (h : yield tp t = .ok (i, t')) :
    ∃ r, t'.procs (curproc t tp) = some r ∧ r.state = .RUNNABLE := by
  unfold yield at h
  simp only [bind] at h
  obtain ⟨⟨p, s0⟩, h0, h⟩ := bind_ok h
  obtain ⟨rfl, rfl⟩ := myproc_ok_inv h0
  dsimp only at h
  obtain ⟨s1, _, h⟩ := bind_ok h
  obtain ⟨m, hm, h⟩ := bind_ok h
  obtain ⟨r, _, rfl⟩ := upd_ok hm
  rw [sched_switch_procs h]
  exact ⟨_, Function.update_same _ _ _, rfl⟩

/-- When `sleep` reaches the switch the caller is SLEEPING on the channel. -/
theorem sleep_switch_state {tp : Nat} {chan : Ptr} {lk : lockid} {t t' : kernel} {i : Bool}
    (h : sleep tp chan lk t = .ok (i, t')) :
    ∃ r, t'.procs (curproc t tp) = some r ∧ r.state = .SLEEPING ∧ r.chan = chan := by
  unfold sleep at h
  simp only [bind] at h
  obtain ⟨⟨p, s0⟩, h0, h⟩ := bind_ok h
  obtain ⟨rfl, rfl⟩ := myproc_ok_inv h0
  dsimp only at h
  obtain ⟨s1, _, h⟩ := bind_ok h
  obtain ⟨m1, hm1, h⟩ := bind_ok h
  obtain ⟨m2, hm2, h⟩ := bind_ok h
  obtain ⟨r1, _, rfl⟩ := upd_ok hm1
  obtain ⟨r2, hr2, rfl⟩ := upd_ok hm2
  have : r2 = { r1 with chan := chan } := by
    rw [Function.update_same] at hr2
    exact (Option.some.inj hr2).symm
  subst this
  rw [sched_switch_procs h]
  exact ⟨_, Function.update_same _ _ _, rfl, rfl⟩

/-- When `exit` reaches the switch the caller is a ZOMBIE with the exit
status. -/
theorem exit_switch_state {tp : Nat} {status : Int} {fuel : Nat} {t t' : kernel} {i : Bool}
    (h : exit tp status fuel t = .ok (i, t')) :
    ∃ r, t'.procs (curproc t tp) = some r ∧ r.state = .ZOMBIE ∧ r.xstate = status := by
  unfold exit at h
  simp only [bind] at h
  obtain ⟨⟨p, s0⟩, h0, h⟩ := bind_ok h
  obtain ⟨rfl, rfl⟩ := myproc_ok_inv h0
  dsimp only at h
  by_cases hinit : curproc t tp = t.initproc
  · simp [hinit] at h
  · simp only [bracketed_initproc, hinit, if_false, bind] at h
    obtain ⟨m1, _, g1⟩ := bind_ok h
    obtain ⟨m2, _, g2⟩ := bind_ok g1
    obtain ⟨sa, _, g3⟩ := bind_ok g2
    obtain ⟨sb, _, g4⟩ := bind_ok g3
    obtain ⟨r, _, g5⟩ := bind_ok g4
    obtain ⟨sc, _, g6⟩ := bind_ok g5
    obtain ⟨m3, hm3, g7⟩ := bind_ok g6
    obtain ⟨m4, hm4, g8⟩ := bind_ok g7
    obtain ⟨r3, _, rfl⟩ := upd_ok hm3
    obtain ⟨r4, hr4, rfl⟩ := upd_ok hm4
    have : r4 = { r3 with xstate := status } := by
      rw [Function.update_same] at hr4
      exact (Option.some.inj hr4).symm
    subst this
    rw [sched_switch_procs g8]
    exact ⟨_, Function.update_same _ _ _, rfl, rfl⟩

/-- The fourth check of `sched` never fails: it is reached only at nesting
depth 1, where `myproc()` has left the interrupts off. -/
theorem sched_ne_interruptible (tp : Nat) (s : kernel) :
    sched tp s ≠ .error .panic_sched_interruptible := by
  cases hr : s.procs (curproc s tp) with
  | none =>
    unfold sched
    have hnone : rd s.procs (curproc s tp) = .error .badptr := by simp [rd, hr]
    simp only [myproc_eq, bind, Except.bind, holding_bracketed, bracketed_noff,
      bracketed_procs, hnone]
    split
    · simp
    · split <;> simp
  | some r =>
    rw [sched_cases hr]
    split
    · simp
    · split
      · simp
      · split <;> simp

/-- C15, counterexample: core 0 holds `list_lock` at nesting depth 1, its
process is RUNNABLE and its interrupts are on, so that the fourth condition
of the claim is violated; `sched` does not panic but reaches the switch,
because `myproc()` has turned the interrupts off before the check. -/
theorem sched_switches_with_interrupts_on :
    holding ex_interruptible .list_lock 0 = true ∧ (ex_interruptible.cpus 0).noff = 1 ∧
    ex_interruptible.procs (curproc ex_interruptible 0) = some (ex_proc 1 .RUNNABLE 0 0 1 1) ∧
    ex_interruptible.intr 0 = true ∧
    sched 0 ex_interruptible = .ok (true, bracketed 0 ex_interruptible) ∧
    (bracketed 0 ex_interruptible).intr 0 = false := by
  have hr : ex_interruptible.procs (curproc ex_interruptible 0) =
      some (ex_proc 1 .RUNNABLE 0 0 1 1) := rfl
  refine ⟨by decide, by decide, hr, rfl, ?_, bracketed_intr_off (by decide)⟩
  rw [sched_cases hr, if_neg (by decide), if_neg (by decide), if_neg (by decide)]
  rfl

/-- C15 (amended): for a calling process whose record exists, `sched` stops
the kernel exactly when one of its first three checks fails (the core does
not hold `list_lock`, the nesting depth `noff` is not 1, the caller's state
is RUNNING), and then with the panic of that check; the fourth check, on the
interrupts, is made after `myproc()` and never fails.  When the three checks
pass it reaches the switch in the state `myproc()` left: interrupts off, the
records as they were, and nothing changed at all when interrupts were off
already; once it is switched back in, on whichever core, the saved `intena`
of that core is set to the value the process's core had at the switch.
The callers `yield`, `sleep` and `exit` never end in the panic of the third
check, whatever state they are called in: whenever they reach the switch the
caller's record is RUNNABLE, SLEEPING on the channel, or a ZOMBIE with the
exit status; `yield` with the lock free and `sleep` called with `list_lock`
are the call of `sched` on the state in which the caller's record has been
given that state, and `exit` on a well-formed table reaches the switch. -/
theorem sched_panics_iff_a_check_fails (s : kernel) (tp : Nat) (r : proc)
    (hr : s.procs (curproc s tp) = some r) :
    ((∃ e, sched tp s = .error e) ↔
      (holding s .list_lock tp = false ∨ (s.cpus tp).noff ≠ 1 ∨ r.state = .RUNNING)) ∧
    (∀ e, sched tp s = .error e →
      e = .panic_sched_list_lock ∨ e = .panic_sched_locks ∨ e = .panic_sched_running) ∧
    (∀ t, sched tp t ≠ .error .panic_sched_interruptible) ∧
    (holding s .list_lock tp = true → (s.cpus tp).noff = 1 → r.state ≠ .RUNNING →
      sched tp s = .ok ((s.cpus tp).intena, bracketed tp s) ∧
      (bracketed tp s).intr tp = false ∧ (bracketed tp s).procs = s.procs ∧
      (s.intr tp = false → bracketed tp s = s) ∧
      ∀ (tp' : Nat) (t : kernel),
        ((sched_resume tp' (s.cpus tp).intena t).cpus tp').intena = (s.cpus tp).intena) ∧
    (∀ t, yield tp t ≠ .error .panic_sched_running) ∧
    (∀ t chan lk, sleep tp chan lk t ≠ .error .panic_sched_running) ∧
    (∀ t status fuel, exit tp status fuel t ≠ .error .panic_sched_running) ∧
    (∀ t i t', yield tp t = .ok (i, t') →
      ∃ r', t'.procs (curproc t tp) = some r' ∧ r'.state = .RUNNABLE) ∧
    (∀ t chan lk i t', sleep tp chan lk t = .ok (i, t') →
      ∃ r', t'.procs (curproc t tp) = some r' ∧ r'.state = .SLEEPING ∧ r'.chan = chan) ∧
    (∀ t status fuel i t', exit tp status fuel t = .ok (i, t') →
      ∃ r', t'.procs (curproc t tp) = some r' ∧ r'.state = .ZOMBIE ∧ r'.xstate = status) ∧
    (∀ (t : kernel) (r' : proc), t.locks .list_lock = none →
      t.procs (curproc t tp) = some r' →
      yield tp t = sched tp { acquired tp .list_lock t with
        procs := Function.update t.procs (curproc t tp)
          (some { r' with state := .RUNNABLE }) }) ∧
    (∀ (t : kernel) (r' : proc) (chan : Ptr), t.procs (curproc t tp) = some r' →
      sleep tp chan .list_lock t = sched tp { bracketed tp t with
        procs := Function.update t.procs (curproc t tp)
          (some { r' with chan := chan, state := .SLEEPING }) }) ∧
    (∀ (t : kernel) (L : List Ptr) (status : Int) (fuel : Nat) (pr : proc),
      table t.procs L → curproc t tp ≠ t.initproc → t.procs (curproc t tp) = some pr →
      pr.parent ≠ curproc t tp → t.locks .list_lock = none → (t.cpus tp).noff = 0 →
      L.length < fuel → ∃ i t', exit tp status fuel t = .ok (i, t')) := by
  have hc := sched_cases hr
  refine ⟨⟨?_, ?_⟩, ?_, sched_ne_interruptible tp, ?_, yield_ne_running tp,
    fun t chan lk => sleep_ne_running tp chan lk t,
    fun t status fuel => exit_ne_running tp status fuel t,
    fun t i t' h => yield_switch_state h,
    fun t chan lk i t' h => sleep_switch_state h,
    fun t status fuel i t' h => exit_switch_state h,
    fun t r' hfree hr' => yield_calls_sched hfree hr',
    fun t r' chan hr' => sleep_calls_sched chan hr', ?_⟩
  · rintro ⟨e, he⟩
    by_contra hn
    simp only [not_or, Bool.not_eq_false, not_not] at hn
    obtain ⟨h1, h2, h3⟩ := hn
    rw [hc] at he
    simp [h1, h2, h3] at he
  · intro h
    rw [hc]
    by_cases h1 : holding s .list_lock tp = false
    · exact ⟨_, if_pos h1⟩
    · rw [if_neg h1]
      by_cases h2 : (s.cpus tp).noff ≠ 1
      · exact ⟨_, if_pos h2⟩
      · rw [if_neg h2]
        by_cases h3 : r.state = .RUNNING
        · exact ⟨_, if_pos h3⟩
        · exfalso
          rcases h with h | h | h
          · exact h1 h
          · exact h2 h
          · exact h3 h
  · intro e he
    rw [hc] at he
    split at he
    · cases he; exact Or.inl rfl
    · split at he
      · cases he; exact Or.inr (Or.inl rfl)
      · split at he
        · cases he; exact Or.inr (Or.inr rfl)
        · cases he
  · intro h1 h2 h3
    have h0 : (s.cpus tp).noff ≠ 0 := by omega
    refine ⟨?_, bracketed_intr_off h0, rfl, fun h4 => bracketed_of_off h4 (by omega),
      fun tp' t => ?_⟩
    · rw [hc]
      simp [h1, h2, h3]
    · simp [sched_resume]
  · intro t L status fuel pr hT hinit hpr hself hfree hnoff hfuel
    obtain ⟨i, t', h, _⟩ := exit_ok tp status hT hinit hpr hself hfree hnoff hfuel
    exact ⟨i, t', h⟩

set_option maxRecDepth 4000 in
/-- Witness for C15: the root process, made RUNNABLE, holds `list_lock` with
nesting depth 1 and interrupts off; `sched` reaches the switch with the state
unchanged and hands back the saved `intena`. -/
theorem sched_panics_iff_a_check_fails_witness :
    sched 0 (acquired 0 .list_lock (ex_kernel ex_boot.k.procs 2 2)) =
      .ok (true, acquired 0 .list_lock (ex_kernel ex_boot.k.procs 2 2)) ∧
    yield 0 (ex_kernel ex_root 2 2) ≠ .error .panic_sched_running := by
  have h := (sched_panics_iff_a_check_fails (acquired 0 .list_lock (ex_kernel ex_boot.k.procs 2 2))
    0 (ex_proc 1 .RUNNABLE 0 0 1 1) rfl).2.2.2.1 (by decide) (by decide) (by decide)
  refine ⟨h.1.trans ?_,
    (sched_panics_iff_a_check_fails (ex_kernel ex_root 2 2) 0 _ rfl).2.2.2.2.1 _⟩
  rw [h.2.2.2.1 (by decide)]
  rfl

/-- C17: on a well-formed table in which the caller has its `killed` flag
set and has a child, but no ZOMBIE child, `wait` returns -1 after its first
scan: it does not reach `sleep`, the process memory, the pages and the user
memory are as before, and the lock is released. -/
theorem wait_killed_returns_no_child (s : kernel) (L : List Ptr) (tp : Nat) (addr : Nat)
    (fuel : Nat) (pr : proc) (hT : table s.procs L) (hfree : s.locks .list_lock = none)
    (hpr : s.procs (curproc s tp) = some pr) (hkilled : pr.killed ≠ 0)
    (hkids : ∃ a ∈ L, is_child s.procs (curproc s tp) a = true)
    (hnz : ∀ a ∈ L, zombie_child s.procs (curproc s tp) a = false) (hfuel : L.length < fuel) :
    ∃ s', wait tp addr fuel s = .ok (.ret (-1), s') ∧ s'.procs = s.procs ∧
      s'.pages = s.pages ∧ s'.user = s.user ∧ s'.locks .list_lock = none := by
  obtain ⟨d, hd, hc, hdL, _⟩ := table_head hT
  have hz : ∀ a ∈ L, zombie_child (acquired tp .list_lock s).procs (curproc s tp) a = false := by
    intro a ha
    simpa using hnz a ha
  have hany : L.any (is_child (acquired tp .list_lock s).procs (curproc s tp)) = true := by
    rw [List.any_eq_true]
    obtain ⟨a, ha, hch⟩ := hkids
    exact ⟨a, ha, by simpa using hch⟩
  have hscan := wait_scan_none tp (curproc s tp) addr (acquired tp .list_lock s) L fuel d.next
    false hc hdL hz hfuel
  have hd1 : rd (acquired tp .list_lock s).procs dummyhead = .ok d := rd_some hd
  have hme : rd (acquired tp .list_lock s).procs (curproc s tp) = .ok pr := rd_some hpr
  refine ⟨released tp .list_lock (acquired tp .list_lock s), ?_, rfl, rfl, rfl, by simp⟩
  simp only [wait, bind, Except.bind, myproc_eq, acquire_bracketed, acquire_eq hfree, wait_loop, acquired_curproc, hd1, hscan,
    hany, Bool.false_or, Bool.true_eq_false, if_false, hme, ne_eq, hkilled, not_false_eq_true,
    if_true, release_locked (locked_acquired tp s)]

set_option maxRecDepth 4000 in
/-- Witness for C17: the killed root process of `ex_killed` has the sleeping
child `3`. -/
theorem wait_killed_returns_no_child_witness :
    table (ex_kernel ex_killed 2 2).procs [3, 2] ∧
    ∃ s', wait 0 5 3 (ex_kernel ex_killed 2 2) = .ok (.ret (-1), s') ∧
      s'.procs = (ex_kernel ex_killed 2 2).procs := by
  have hT : table (ex_kernel ex_killed 2 2).procs [3, 2] := by decide
  obtain ⟨s', h1, h2, _⟩ :=
    wait_killed_returns_no_child (ex_kernel ex_killed 2 2) [3, 2] 0 5 3
      { ex_proc 1 .RUNNING 0 0 1 3 with killed := 1 } hT rfl rfl (by decide)
      ⟨3, by decide, by decide⟩ (by decide) (by decide)
  exact ⟨hT, s', h1, h2⟩

theorem proc_eq_of_data {r r' : proc} (h : data r' = data r) (hn : r'.next = r.next)
    (hp : r'.prev = r.prev) : r' = r := by
  cases r
  cases r'
  simp only [data, proc.mk.injEq] at h
  simp only at hn hp
  simp only [proc.mk.injEq]
  obtain ⟨h1, h2, h3, h4, h5, h6, h7, h8, h9, h10, h11, h12, h13, h14, _, _⟩ := h
  exact ⟨h1, h2, h3, h4, h5, h6, h7, h8, h9, h10, h11, h12, h13, h14, hn, hp⟩

theorem headOr_mem (q : Ptr) (B : List Ptr) : headOr q B ∈ q :: B := by
  cases B with
  | nil => simp [headOr]
  | cons b B => simp [headOr]

theorem lastOr_reverse (x : Ptr) (A : List Ptr) : lastOr x A.reverse = headOr x A := by
  have h := headOr_reverse x A.reverse
  rw [List.reverse_reverse] at h
  exact h.symm

/-- The links of the sentinel of a well-formed table and of its two
neighbours. -/
theorem table_dummy {m : procmem} {L : List Ptr} (hT : table m L) :
    ∃ d rn rp, m dummyhead = some d ∧ d.next = headOr dummyhead L ∧
      d.prev = lastOr dummyhead L ∧ m (headOr dummyhead L) = some rn ∧ rn.prev = dummyhead ∧
      m (lastOr dummyhead L) = some rp ∧ rp.next = dummyhead := by
  obtain ⟨_, _, hn, hp⟩ := hT
  obtain ⟨rp, hrp, hrpn⟩ := chain_last proc.next hn
  obtain ⟨rn, hrn, hrnp⟩ := chain_last proc.prev hp
  rw [lastOr_reverse] at hrn
  rw [chain_cons] at hn hp
  obtain ⟨_, d, hd, hn⟩ := hn
  obtain ⟨_, d', hd', hp⟩ := hp
  rw [hd] at hd'; cases hd'
  have h1 := chain_head proc.next hn
  have h2 := chain_head proc.prev hp
  rw [headOr_reverse] at h2
  exact ⟨d, rn, rp, hd, h1, h2, hrn, hrnp, hrp, hrpn⟩

theorem mem_split_sub {A : List Ptr} {c : Ptr} {B : List Ptr} :
    (∀ a ∈ dummyhead :: A, a ∈ dummyhead :: (A ++ c :: B)) ∧
    (∀ a ∈ dummyhead :: B, a ∈ dummyhead :: (A ++ c :: B)) := by
  constructor
  · intro a ha
    simp only [List.mem_cons, List.mem_append] at ha ⊢
    tauto
  · intro a ha
    simp only [List.mem_cons, List.mem_append] at ha ⊢
    tauto

/-- In a well-formed table every node is doubly linked with its neighbours. -/
theorem table_linked {m : procmem} {L : List Ptr} (hT : table m L) : linked m L := by
  intro n hn
  rcases List.mem_cons.1 hn with rfl | hn
  · obtain ⟨d, rn, rp, hd, h1, h2, hrn, hrnp, hrp, hrpn⟩ := table_dummy hT
    refine ⟨d, rn, rp, hd, ?_, ?_, hrnp, ?_, ?_, hrpn⟩
    · rw [h1]; exact headOr_mem _ _
    · rw [h1]; exact hrn
    · rw [h2]; exact lastOr_mem _ _
    · rw [h2]; exact hrp
  · obtain ⟨A, B, rfl⟩ := List.append_of_mem hn
    obtain ⟨rc, rp, rn, hrc, hprev, hnext, hrp, hrpn, hrn, hrnp, _, _⟩ := table_nbrs hT
    refine ⟨rc, rn, rp, hrc, ?_, ?_, hrnp, ?_, ?_, hrpn⟩
    · rw [hnext]; exact mem_split_sub.2 _ (headOr_mem _ _)
    · rw [hnext]; exact hrn
    · rw [hprev]; exact mem_split_sub.1 _ (lastOr_mem _ _)
    · rw [hprev]; exact hrp

/-- The links of the nodes of a well-formed table are fixed by the list of
its records: two tables with the same records agree on a node as soon as they
agree on its data. -/
theorem table_links_unique {m m' : procmem} {L : List Ptr} (hT : table m L) (hT' : table m' L)
    {a : Ptr} (ha : a ∈ dummyhead :: L) (hd : (m' a).map data = (m a).map data) :
    m' a = m a := by
  rcases List.mem_cons.1 ha with rfl | ha
  · obtain ⟨d, _, _, hd1, h1, h2, _⟩ := table_dummy hT
    obtain ⟨d', _, _, hd1', h1', h2', _⟩ := table_dummy hT'
    rw [hd1, hd1'] at hd ⊢
    simp only [Option.map_some', Option.some.injEq] at hd
    rw [proc_eq_of_data hd (h1'.trans h1.symm) (h2'.trans h2.symm)]
  · obtain ⟨A, B, rfl⟩ := List.append_of_mem ha
    obtain ⟨rc, _, _, hrc, hprev, hnext, _⟩ := table_nbrs hT
    obtain ⟨rc', _, _, hrc', hprev', hnext', _⟩ := table_nbrs hT'
    rw [hrc, hrc'] at hd ⊢
    simp only [Option.map_some', Option.some.injEq] at hd
    rw [proc_eq_of_data hd (hnext'.trans hnext.symm) (hprev'.trans hprev.symm)]

/-- What `proc_push` leaves untouched. -/
theorem proc_push_frame {m m' : procmem} {head p : Ptr} {h : proc}
    (hrun : proc_push m head p = .ok m') (hh : m head = some h) (hne : head ≠ p) :
    ∀ a, a ≠ p → a ≠ head → a ≠ h.next → m' a = m a := by
  unfold proc_push at hrun
  try simp only [bind] at hrun
  obtain ⟨h1, g1, hrun⟩ := bind_ok hrun
  obtain rfl : h1 = h := by
    have := rd_ok g1
    rw [hh] at this
    exact (Option.some.inj this).symm
  obtain ⟨m1, g2, hrun⟩ := bind_ok hrun
  obtain ⟨m2, g3, hrun⟩ := bind_ok hrun
  obtain ⟨h2, g4, hrun⟩ := bind_ok hrun
  obtain ⟨m3, g5, g6⟩ := bind_ok hrun
  obtain ⟨_, _, rfl⟩ := upd_ok g2
  obtain ⟨_, _, rfl⟩ := upd_ok g3
  have hh2 : h2 = h1 := by
    have := rd_ok g4
    rw [Function.update_noteq hne, Function.update_noteq hne, rd_ok g1] at this
    exact (Option.some.inj this).symm
  subst hh2
  obtain ⟨_, _, rfl⟩ := upd_ok g5
  obtain ⟨_, _, rfl⟩ := upd_ok g6
  intro a ha1 ha2 ha3
  simp [Function.update_apply, ha1, ha2, ha3]

/-- What `proc_remove` leaves untouched. -/
theorem proc_remove_frame {m m' : procmem} {p : Ptr} {r : proc}
    (hrun : proc_remove m p = .ok m') (hr : m p = some r) :
    ∀ a, a ≠ r.prev → a ≠ r.next → m' a = m a := by
  unfold proc_remove at hrun
  try simp only [bind] at hrun
  obtain ⟨r1, g1, hrun⟩ := bind_ok hrun
  obtain rfl : r1 = r := by
    have := rd_ok g1
    rw [hr] at this
    exact (Option.some.inj this).symm
  obtain ⟨m1, g2, hrun⟩ := bind_ok hrun
  obtain ⟨r2, g3, g4⟩ := bind_ok hrun
  obtain ⟨q, hq, rfl⟩ := upd_ok g2
  have hr2 : r2.next = r1.next ∧ r2.prev = r1.prev := by
    have h3 := rd_ok g3
    by_cases e : p = r1.prev
    · rw [← e, Function.update_same] at h3
      rw [← e, rd_ok g1] at hq
      cases hq
      cases h3
      exact ⟨rfl, rfl⟩
    · rw [Function.update_noteq e, rd_ok g1] at h3
      cases h3
      exact ⟨rfl, rfl⟩
  obtain ⟨_, _, rfl⟩ := upd_ok g4
  intro a ha1 ha2
  rw [hr2.1, hr2.2]
  simp [Function.update_apply, ha1, ha2]

/-- Pushing a fresh record and removing it again restores the memory of every
other object, links included. -/
theorem push_remove_restores {m : procmem} {L : List Ptr} {p : Ptr} {r : proc}
    (hT : table m L) (hr : m p = some r) (hp : p ∉ dummyhead :: L) :
    ∃ m1, proc_push m dummyhead p = .ok m1 ∧ table m1 (p :: L) ∧
      (∀ a, (m1 a).map data = (m a).map data) ∧
      ∃ m2, proc_remove m1 p = .ok m2 ∧ table m2 L ∧ ∀ a, a ≠ p → m2 a = m a := by
  obtain ⟨m1, h1, hT1, hd1, hp1⟩ := proc_push_table hT hr hp
  have hT1' : table m1 ([] ++ p :: L) := hT1
  obtain ⟨m2, h2, hT2, hd2, _⟩ := proc_remove_table hT1'
  have hT2' : table m2 L := hT2
  obtain ⟨d, _, _, hd, hdn, _⟩ := table_dummy hT
  have hpd : dummyhead ≠ p := fun e => hp (e ▸ List.mem_cons_self _ _)
  refine ⟨m1, h1, hT1, hd1, m2, h2, hT2', fun a ha => ?_⟩
  by_cases hmem : a ∈ dummyhead :: L
  · exact table_links_unique hT hT2' hmem ((hd2 a).trans (hd1 a))
  · have had : a ≠ dummyhead := fun e => hmem (e ▸ List.mem_cons_self _ _)
    have hah : a ≠ headOr dummyhead L := fun e => hmem (e ▸ headOr_mem _ _)
    rw [proc_remove_frame h2 hp1 a had hah]
    exact proc_push_frame h1 hd hpd a ha had (hdn ▸ hah)

/-- The sentinel that `proc_init` initialises is a well-formed empty table. -/
theorem proc_init_table {m : procmem} {d : proc} (h0 : m 0 = none)
    (hd : m dummyhead = some d) :
    ∃ m0, proc_init m dummyhead = .ok m0 ∧ table m0 [] ∧
      ∀ a, (m0 a).isSome = (m a).isSome := by
  refine ⟨_, upd_some _ hd, ⟨?_, by simp, ?_, ?_⟩, fun a => ?_⟩
  · have : (0 : Ptr) ≠ dummyhead := by decide
    rw [Function.update_noteq this]
    exact h0
  · rw [chain_cons]
    exact ⟨rfl, _, Function.update_same _ _ _, (chain_nil _ _ _ _).2 rfl⟩
  · rw [List.reverse_nil, chain_cons]
    exact ⟨rfl, _, Function.update_same _ _ _, (chain_nil _ _ _ _).2 rfl⟩
  · by_cases e : a = dummyhead
    · subst e
      simp [hd]
    · rw [Function.update_noteq e]

theorem isSome_of_data {m m' : procmem} (h : ∀ a, (m' a).map data = (m a).map data) (a : Ptr) :
    (m' a).isSome = (m a).isSome := by
  have := congrArg Option.isSome (h a)
  simpa using this

/-- A legal sequence of uses of the list helpers runs to the end and leaves a
well-formed table with the records it is meant to hold. -/
theorem listops_table (mi : procmem) (ops : List listop) :
    ∀ (m : procmem) (L : List Ptr), table m L → (∀ a, (m a).isSome = (mi a).isSome) →
      listops_legal mi ops L →
      ∃ m', listops ops m = .ok m' ∧ table m' (listops_abs ops L) := by
  induction ops with
  | nil =>
    intro m L hT _ _
    exact ⟨m, rfl, hT⟩
  | cons op ops ih =>
    intro m L hT hsome hl
    cases op with
    | push p =>
      obtain ⟨hp1, hp2, hl⟩ := hl
      obtain ⟨r, hr⟩ : ∃ r, m p = some r := by
        rw [← hsome p] at hp1
        exact Option.isSome_iff_exists.1 hp1
      obtain ⟨m1, h1, hT1, hd1, _⟩ := proc_push_table hT hr hp2
      obtain ⟨m', h2, hT'⟩ := ih m1 (p :: L) hT1
        (fun a => (isSome_of_data hd1 a).trans (hsome a)) hl
      refine ⟨m', ?_, hT'⟩
      simp only [listops, bind, Except.bind, h1, h2]
    | remove p =>
      obtain ⟨hp, hl⟩ := hl
      obtain ⟨A, B, rfl⟩ := List.append_of_mem hp
      obtain ⟨m1, h1, hT1, hd1, _⟩ := proc_remove_table hT
      rw [erase_split hT.2.1] at hl
      obtain ⟨m', h2, hT'⟩ := ih m1 (A ++ B) hT1
        (fun a => (isSome_of_data hd1 a).trans (hsome a)) hl
      refine ⟨m', ?_, ?_⟩
      · simp only [listops, bind, Except.bind, h1, h2]
      · simp only [listops_abs]
        rw [erase_split hT.2.1]
        exact hT'

/-- C18: from a memory whose sentinel object `proc_init` initialises, every
sequence of `proc_push(&dummyhead, p)` of fresh records and `proc_remove` of
linked records runs to the end and leaves a well-formed table: `next` leads
from the sentinel through the records back to the sentinel and `prev` leads
backwards, every node `n` has `n.next.prev = n` and `n.prev.next = n`, and
the sentinel is still the anchor and is not among the records.  The records
are those the sequence is meant to leave, a pushed record first and the
others in their previous order.  In the table reached, pushing a fresh record
puts it at the head, and removing it again gives back the list, with every
other object of the memory exactly as before the push. -/
theorem list_helpers_keep_table_well_formed (m : procmem) (d : proc) (ops : List listop)
    (h0 : m 0 = none) (hd : m dummyhead = some d) (hlegal : listops_legal m ops []) :
    ∃ m0 m', proc_init m dummyhead = .ok m0 ∧ table m0 [] ∧ listops ops m0 = .ok m' ∧
      table m' (listops_abs ops []) ∧ linked m' (listops_abs ops []) ∧
      dummyhead ∉ listops_abs ops [] ∧ (∃ d', m' dummyhead = some d') ∧
      (∀ p r, m' p = some r → p ∉ dummyhead :: listops_abs ops [] →
        ∃ m1, proc_push m' dummyhead p = .ok m1 ∧ table m1 (p :: listops_abs ops []) ∧
          ∃ m2, proc_remove m1 p = .ok m2 ∧ table m2 (listops_abs ops []) ∧
            ∀ a, a ≠ p → m2 a = m' a) := by
  obtain ⟨m0, hinit, hT0, hsome⟩ := proc_init_table h0 hd
  obtain ⟨m', hrun, hT⟩ := listops_table m ops m0 [] hT0 hsome hlegal
  refine ⟨m0, m', hinit, hT0, hrun, hT, table_linked hT, ?_,
    table_alloc hT dummyhead (List.mem_cons_self _ _), fun p r hr hp => ?_⟩
  · exact (List.nodup_cons.1 hT.2.1).1
  · obtain ⟨m1, h1, hT1, _, m2, h2, hT2, hframe⟩ := push_remove_restores hT hr hp
    exact ⟨m1, h1, hT1, m2, h2, hT2, hframe⟩

set_option maxRecDepth 4000 in
/-- Witness for C18: on a memory with the sentinel and two records, push `2`,
push `3`, remove `2`; the table holds `3`. -/
theorem list_helpers_keep_table_well_formed_witness :
    ∃ m0 m', proc_init ex_raw dummyhead = .ok m0 ∧
      listops [.push 2, .push 3, .remove 2] m0 = .ok m' ∧ table m' [3] ∧ linked m' [3] := by
  obtain ⟨m0, m', h1, _, h2, h3, h4, _⟩ :=
    list_helpers_keep_table_well_formed ex_raw (zeroproc 0) [.push 2, .push 3, .remove 2]
      rfl rfl ⟨rfl, by decide, rfl, by decide, by decide, trivial⟩
  exact ⟨m0, m', h1, h2, h3, h4⟩

theorem upd_frame {α : Type} {m m' : Ptr → Option α} {p : Ptr} {f : α → α}
    (h : upd m p f = .ok m') : ∀ a, a ≠ p → m' a = m a := by
  obtain ⟨_, _, rfl⟩ := upd_ok h
  intro a ha
  exact Function.update_noteq ha _ _

/-- What `freeproc` leaves untouched in the process memory. -/
theorem freeproc_frame {p : Ptr} {s s' : kernel} {r : proc} (h : freeproc p s = .ok s')
    (hr : s.procs p = some r) :
    ∀ a, a ≠ p → a ≠ r.prev → a ≠ r.next → s'.procs a = s.procs a := by
  unfold freeproc at h
  simp only [bind] at h
  obtain ⟨r0, _, h⟩ := bind_ok h
  obtain ⟨m1, h1, h⟩ := bind_ok h
  obtain ⟨r1, _, h⟩ := bind_ok h
  obtain ⟨m2, h2, h⟩ := bind_ok h
  obtain ⟨r2, _, h⟩ := bind_ok h
  obtain ⟨m3, h3, h⟩ := bind_ok h
  cases h
  rw [(kfree_if_same _ _ _).1] at h1
  simp only [(kfree_if_same _ _ _).1] at h2
  simp only [(freept_if_same _ _ _ _).1] at h3
  obtain ⟨q1, hq1, e1⟩ := upd_ok h1
  rw [hr] at hq1; cases hq1
  have hm1p : m1 p = some { r with kstack := 0 } := by rw [e1, Function.update_same]
  obtain ⟨q2, hq2, e2⟩ := upd_ok h2
  rw [hm1p] at hq2; cases hq2
  have hm2p : m2 p = some { r with kstack := 0, trapframe := 0 } := by
    rw [e2, Function.update_same]
  intro a ha1 ha2 ha3
  show Function.update m3 p none a = s.procs a
  rw [Function.update_noteq ha1, proc_remove_frame h3 hm2p a ha2 ha3, upd_frame h2 a ha1,
    upd_frame h1 a ha1]

/-- What a successful `allocproc` leaves untouched in the process memory. -/
theorem allocproc_frame {tp : Nat} {env : allocenv} {s s' : kernel} {p : Ptr} {d : proc}
    (h : allocproc tp env s = .ok (p, s')) (hnp : env.bd_malloc ≠ 0)
    (hk : env.kalloc_kstack ≠ 0) (ht : env.kalloc_trapframe ≠ 0)
    (hpt : proc_pagetable env ≠ 0) (hd : s.procs dummyhead = some d)
    (hne : dummyhead ≠ env.bd_malloc) :
    ∀ a, a ≠ env.bd_malloc → a ≠ dummyhead → a ≠ d.next → s'.procs a = s.procs a := by
  unfold allocproc at h
  simp only [hnp, if_false, bind, hk, ht, hpt] at h
  obtain ⟨⟨pid, s1⟩, h1, g1⟩ := bind_ok h
  obtain ⟨m1, hm1, g2⟩ := bind_ok g1
  obtain ⟨m2, hm2, g3⟩ := bind_ok g2
  obtain ⟨m3, hm3, g4⟩ := bind_ok g3
  obtain ⟨m4, hm4, g5⟩ := bind_ok g4
  obtain ⟨m5, hm5, g6⟩ := bind_ok g5
  obtain ⟨r5, _, g7⟩ := bind_ok g6
  obtain ⟨m6, hm6, g8⟩ := bind_ok g7
  obtain ⟨sa, ha, g9⟩ := bind_ok g8
  obtain ⟨m7, hm7, g10⟩ := bind_ok g9
  cases g10
  obtain ⟨e1, _⟩ := allocpid_inv h1
  obtain ⟨_, esa⟩ := acquire_ok_inv ha
  have hm3' : upd m2 env.bd_malloc (fun r => { r with kstack := env.kalloc_kstack }) = .ok m3 := by
    simpa [kalloc, hk] using hm3
  have hm4' : upd m3 env.bd_malloc (fun r => { r with trapframe := env.kalloc_trapframe }) =
      .ok m4 := by
    simpa [kalloc, ht] using hm4
  have hsam6 : sa.procs = m6 := by rw [esa]; rfl
  rw [hsam6] at hm7
  have hto6 : ∀ a, a ≠ env.bd_malloc → m6 a = s.procs a := by
    intro a ha
    rw [upd_frame hm6 a ha, upd_frame hm5 a ha, upd_frame hm4' a ha, upd_frame hm3' a ha,
      upd_frame hm2 a ha, upd_frame hm1 a ha, e1]
    exact Function.update_noteq ha _ _
  have hd6 : m6 dummyhead = some d := by rw [hto6 dummyhead hne, hd]
  intro a ha1 ha2 ha3
  show m7 a = s.procs a
  rw [proc_push_frame hm7 hd6 hne a ha1 ha2 ha3, hto6 a ha1]

/-- C19: on a well-formed table, when `allocproc` gets all its resources
(fresh ones) and `uvmcopy` fails, `fork` returns -1 and the process memory is
equal to the one before the call: the record of the child is freed and not
linked, the table holds the same records in the same order, each with the
contents and links it had.  The lock is released, the pages are as before,
the user memory is as before outside the address space that was built and
torn down, and the pid counter has advanced by one. -/
theorem fork_copy_failure_restores_table (s : kernel) (L : List Ptr) (tp : Nat)
    (env : allocenv) (pr : proc) (hT : table s.procs L) (hpid : s.locks .pid_lock = none)
    (hfree : s.locks .list_lock = none) (hnp : env.bd_malloc ≠ 0)
    (hfresh : s.procs env.bd_malloc = none) (hk : env.kalloc_kstack ≠ 0)
    (hkf : s.pages env.kalloc_kstack = none) (ht : env.kalloc_trapframe ≠ 0)
    (htf : s.pages env.kalloc_trapframe = none) (hpt : proc_pagetable env ≠ 0)
    (hcopy : env.uvmcopy < 0) (hpr : s.procs (curproc s tp) = some pr) :
    ∃ s', fork tp env s = .ok (-1, s') ∧ s'.procs = s.procs ∧ table s'.procs L ∧
      env.bd_malloc ∉ dummyhead :: L ∧ s'.procs env.bd_malloc = none ∧
      s'.locks .list_lock = none ∧ s'.nextpid = wrap32 (s.nextpid + 1) ∧
      s'.pages = s.pages ∧ (∀ pt, pt ≠ proc_pagetable env → s'.user pt = s.user pt) ∧
      s'.initproc = s.initproc := by
  obtain ⟨s1, hap, hT1, hnr, hdata1, hl1, hpg1, hu1, hi1, hn1, _⟩ :=
    allocproc_ok tp hT hpid hfree hnp hfresh hk ht hpt
  have hpne : curproc s tp ≠ env.bd_malloc := by
    intro h; rw [h, hfresh] at hpr; cases hpr
  obtain ⟨pr1, hpr1, _⟩ := data_of_map (hdata1 _ hpne) hpr
  have hnmem : env.bd_malloc ∉ dummyhead :: L := by
    intro hmem
    obtain ⟨r, hr⟩ := table_alloc hT _ hmem
    rw [hfresh] at hr; cases hr
  have hT1' : table s1.procs ([] ++ env.bd_malloc :: L) := hT1
  obtain ⟨s2, hfp, hT2, hnone, hdata2, hu2, hpg2, hlk2, hcp2, hin2, hi2, hn2⟩ :=
    freeproc_ok hT1' hnr
  have hT2' : table s2.procs L := hT2
  have hl2 : locked tp s2 := locked_congr hl1 hlk2 hcp2 hin2
  obtain ⟨d, _, _, hd, hdn, _⟩ := table_dummy hT
  have hdne : dummyhead ≠ env.bd_malloc := fun e => hnmem (e ▸ List.mem_cons_self _ _)
  have hprocs : s2.procs = s.procs := by
    funext a
    by_cases ha : a = env.bd_malloc
    · rw [ha, hnone, hfresh]
    · by_cases hmem : a ∈ dummyhead :: L
      · exact table_links_unique hT hT2' hmem ((hdata2 a ha).trans (hdata1 a ha))
      · have had : a ≠ dummyhead := fun e => hmem (e ▸ List.mem_cons_self _ _)
        have hah : a ≠ headOr dummyhead L := fun e => hmem (e ▸ headOr_mem _ _)
        rw [freeproc_frame hfp hnr a ha had hah]
        exact allocproc_frame hap hnp hk ht hpt hd hdne a ha had (hdn ▸ hah)
  refine ⟨released tp .list_lock s2, ?_, hprocs, ?_, hnmem, ?_, by simp, ?_, ?_, ?_, ?_⟩
  · simp only [fork, myproc_eq, bind, Except.bind, allocproc_bracketed tp env s hnp, hap, hnp,
      if_false, rd_some hpr1, rd_some hnr, hcopy,
      if_true, hfp, release_locked hl2]
  · show table s2.procs L
    exact hT2'
  · show s2.procs env.bd_malloc = none
    exact hnone
  · simp only [released_nextpid, hn2, hn1]
  · show s2.pages = s.pages
    rw [hpg2, hpg1]
    funext a
    simp only [new_proc, ne_eq, hk, ht, not_false_eq_true, if_true]
    by_cases h1 : a = env.kalloc_trapframe
    · rw [h1, Function.update_same, htf]
    · by_cases h2 : a = env.kalloc_kstack
      · rw [h2, Function.update_noteq (h2 ▸ h1), Function.update_same, hkf]
      · simp [Function.update_apply, h1, h2]
  · intro pt hne
    show s2.user pt = s.user pt
    rw [hu2, hu1]
    simp only [new_proc, ne_eq, hpt, not_false_eq_true, if_true]
    rw [Function.update_noteq hne]
  · simp only [released_initproc, hi2, hi1]

set_option maxRecDepth 4000 in
/-- Witness for C19: the root process forks and `uvmcopy` fails. -/
theorem fork_copy_failure_restores_table_witness :
    table ex_root_kernel.procs [2] ∧
    ∃ s', fork 0 { ex_env with uvmcopy := -1 } ex_root_kernel = .ok (-1, s') ∧
      s'.procs = ex_root_kernel.procs ∧ s'.locks .list_lock = none ∧ s'.nextpid = 11 := by
  have hT : table ex_root_kernel.procs [2] := by decide
  obtain ⟨s', h1, h2, _, _, _, h3, h4, _⟩ :=
    fork_copy_failure_restores_table ex_root_kernel [2] 0 { ex_env with uvmcopy := -1 } _ hT
      rfl rfl (by decide) rfl (by decide) rfl (by decide) rfl (by decide) (by decide) rfl
  exact ⟨hT, s', h1, h2, h3, by rw [h4]; rfl⟩

theorem keeps_zombie_refl (a : Ptr) (m : procmem) : keeps_zombie a m m :=
  fun r hr hz => ⟨r, hr, hz, rfl, rfl⟩

theorem keeps_zombie_trans {a : Ptr} {m1 m2 m3 : procmem} (h1 : keeps_zombie a m1 m2)
    (h2 : keeps_zombie a m2 m3) : keeps_zombie a m1 m3 := by
  intro r hr hz
  obtain ⟨r2, hr2, hz2, hx2, hp2⟩ := h1 r hr hz
  obtain ⟨r3, hr3, hz3, hx3, hp3⟩ := h2 r2 hr2 hz2
  exact ⟨r3, hr3, hz3, hx3.trans hx2, hp3.trans hp2⟩

theorem keeps_zombie_of_eq {a : Ptr} {m m' : procmem} (h : m' a = m a) :
    keeps_zombie a m m' :=
  fun r hr hz => ⟨r, h.trans hr, hz, rfl, rfl⟩

/-- An update that leaves a ZOMBIE record a ZOMBIE with the same exit status
and pid keeps the zombies. -/
theorem upd_keeps_zombie {a : Ptr} {m m' : procmem} {p : Ptr} {f : proc → proc}
    (h : upd m p f = .ok m')
    (hf : ∀ r, m p = some r → r.state = .ZOMBIE →
      (f r).state = .ZOMBIE ∧ (f r).xstate = r.xstate ∧ (f r).pid = r.pid) :
    keeps_zombie a m m' := by
  obtain ⟨q, hq, rfl⟩ := upd_ok h
  by_cases e : a = p
  · subst e
    intro r hr hz
    rw [hq] at hr; cases hr
    obtain ⟨h1, h2, h3⟩ := hf q hq hz
    exact ⟨f q, Function.update_same _ _ _, h1, h2, h3⟩
  · exact keeps_zombie_of_eq (Function.update_noteq e _ _)

theorem wakeup_scan_keeps_zombie (a : Ptr) (tp : Nat) (chan : Ptr) :
    ∀ (n : Nat) (p : Ptr) (s s' : kernel), wakeup_scan tp chan n p s = .ok s' →
      keeps_zombie a s.procs s'.procs := by
  intro n
  induction n with
  | zero => intro p s s' h; simp [wakeup_scan] at h
  | succ n ih =>
    intro p s s' h
    unfold wakeup_scan at h
    split at h
    · cases h
      exact keeps_zombie_refl _ _
    · try simp only [bind] at h
      obtain ⟨⟨me, t⟩, g0, h⟩ := bind_ok h
      obtain ⟨_, rfl⟩ := myproc_ok_inv g0
      dsimp only at h
      obtain ⟨s1, g2, h⟩ := bind_ok h
      obtain ⟨r1, _, h⟩ := bind_ok h
      refine @keeps_zombie_trans a s.procs s1.procs s'.procs ?_ (ih _ _ _ h)
      split at g2
      · obtain ⟨r, g1, g2⟩ := bind_ok g2
        split at g2
        · rename_i hs
          obtain ⟨m1, g3, g2⟩ := bind_ok g2
          cases g2
          refine upd_keeps_zombie g3 (fun q hq hz => ?_)
          have hq' : (bracketed tp s).procs p = some q := hq
          rw [rd_ok g1] at hq'; cases hq'
          rw [hs.1] at hz; cases hz
        · cases g2
          exact keeps_zombie_refl _ _
      · cases g2
        exact keeps_zombie_refl _ _

theorem wakeup_nolock_keeps_zombie {a : Ptr} {tp : Nat} {chan : Ptr} {fuel : Nat}
    {s s' : kernel} (h : wakeup_nolock tp chan fuel s = .ok s') :
    keeps_zombie a s.procs s'.procs := by
  unfold wakeup_nolock at h
  try simp only [bind] at h
  obtain ⟨d, _, h⟩ := bind_ok h
  exact wakeup_scan_keeps_zombie _ _ _ _ _ _ _ h

theorem wakeup_keeps_zombie {a : Ptr} {tp : Nat} {chan : Ptr} {fuel : Nat}
    {s s' : kernel} (h : wakeup tp chan fuel s = .ok s') : keeps_zombie a s.procs s'.procs := by
  unfold wakeup at h
  try simp only [bind] at h
  obtain ⟨s1, g1, h⟩ := bind_ok h
  obtain ⟨s2, g2, g3⟩ := bind_ok h
  obtain ⟨_, e1⟩ := acquire_ok_inv g1
  obtain ⟨_, e3⟩ := release_ok_inv g3
  have := wakeup_nolock_keeps_zombie (a := a) g2
  rw [e3, released_procs]
  rw [e1, acquired_procs] at this
  exact this

theorem kill_scan_keeps_zombie (a : Ptr) (tp : Nat) (pid : Int) :
    ∀ (n : Nat) (p : Ptr) (s : kernel) (v : Int) (s' : kernel),
      kill_scan tp pid n p s = .ok (v, s') → keeps_zombie a s.procs s'.procs := by
  intro n
  induction n with
  | zero => intro p s v s' h; simp [kill_scan] at h
  | succ n ih =>
    intro p s v s' h
    unfold kill_scan at h
    split at h
    · try simp only [bind] at h
      obtain ⟨s1, g1, h⟩ := bind_ok h
      cases h
      obtain ⟨_, e1⟩ := release_ok_inv g1
      rw [e1, released_procs]
      exact keeps_zombie_refl _ _
    · try simp only [bind] at h
      obtain ⟨r, g1, h⟩ := bind_ok h
      split at h
      · obtain ⟨m1, g2, h⟩ := bind_ok h
        obtain ⟨r1, g3, h⟩ := bind_ok h
        obtain ⟨m2, g4, h⟩ := bind_ok h
        obtain ⟨s1, g5, h⟩ := bind_ok h
        cases h
        obtain ⟨_, e1⟩ := release_ok_inv g5
        rw [e1, released_procs]
        show keeps_zombie a s.procs m2
        refine keeps_zombie_trans (upd_keeps_zombie g2 (fun q _ hz => ⟨hz, rfl, rfl⟩)) ?_
        split at g4
        · rename_i hs
          refine upd_keeps_zombie g4 (fun q hq hz => ?_)
          rw [rd_ok g3] at hq; cases hq
          rw [hs] at hz; cases hz
        · cases g4
          exact keeps_zombie_refl _ _
      · exact ih _ _ _ _ h

theorem kill_keeps_zombie {a : Ptr} {tp : Nat} {pid : Int} {fuel : Nat} {s s' : kernel}
    {v : Int} (h : kill tp pid fuel s = .ok (v, s')) : keeps_zombie a s.procs s'.procs := by
  unfold kill at h
  try simp only [bind] at h
  obtain ⟨s1, g1, h⟩ := bind_ok h
  obtain ⟨d, _, h⟩ := bind_ok h
  obtain ⟨_, e1⟩ := acquire_ok_inv g1
  have := kill_scan_keeps_zombie a _ _ _ _ _ _ _ h
  rw [e1, acquired_procs] at this
  exact this

theorem setkilled_keeps_zombie {a : Ptr} {tp : Nat} {p : Ptr} {s s' : kernel}
    (h : setkilled tp p s = .ok s') : keeps_zombie a s.procs s'.procs := by
  unfold setkilled at h
  try simp only [bind] at h
  obtain ⟨s1, g1, h⟩ := bind_ok h
  obtain ⟨m, g2, g3⟩ := bind_ok h
  obtain ⟨_, e1⟩ := acquire_ok_inv g1
  obtain ⟨_, e3⟩ := release_ok_inv g3
  rw [e3, released_procs]
  rw [e1, acquired_procs] at g2
  exact upd_keeps_zombie g2 (fun q _ hz => ⟨hz, rfl, rfl⟩)

theorem reparent_scan_keeps_zombie (a : Ptr) (tp : Nat) (p : Ptr) (fuel : Nat) :
    ∀ (n : Nat) (pp : Ptr) (s s' : kernel), reparent_scan tp p fuel n pp s = .ok s' →
      keeps_zombie a s.procs s'.procs := by
  intro n
  induction n with
  | zero => intro pp s s' h; simp [reparent_scan] at h
  | succ n ih =>
    intro pp s s' h
    unfold reparent_scan at h
    split at h
    · cases h
      exact keeps_zombie_refl _ _
    · try simp only [bind] at h
      obtain ⟨r, _, h⟩ := bind_ok h
      obtain ⟨s1, g2, h⟩ := bind_ok h
      obtain ⟨r1, _, h⟩ := bind_ok h
      refine keeps_zombie_trans ?_ (ih _ _ _ h)
      split at g2
      · try simp only [bind] at g2
        obtain ⟨m, g3, g4⟩ := bind_ok g2
        exact keeps_zombie_trans (upd_keeps_zombie g3 (fun q _ hz => ⟨hz, rfl, rfl⟩))
          (wakeup_nolock_keeps_zombie g4)
      · cases g2
        exact keeps_zombie_refl _ _

theorem reparent_keeps_zombie {a : Ptr} {tp : Nat} {p : Ptr} {fuel : Nat} {s s' : kernel}
    (h : reparent tp p fuel s = .ok s') : keeps_zombie a s.procs s'.procs := by
  unfold reparent at h
  try simp only [bind] at h
  obtain ⟨d, _, h⟩ := bind_ok h
  exact reparent_scan_keeps_zombie _ _ _ _ _ _ _ _ h

theorem scheduler_scan_keeps_zombie (a : Ptr) (tp : Nat) :
    ∀ (n : Nat) (p : Ptr) (s : kernel) (res : Option Ptr) (s' : kernel),
      scheduler_scan tp n p s = .ok (res, s') → keeps_zombie a s.procs s'.procs := by
  intro n
  induction n with
  | zero => intro p s res s' h; simp [scheduler_scan] at h
  | succ n ih =>
    intro p s res s' h
    unfold scheduler_scan at h
    split at h
    · try simp only [bind] at h
      obtain ⟨s1, g1, h⟩ := bind_ok h
      cases h
      obtain ⟨_, e1⟩ := release_ok_inv g1
      rw [e1, released_procs]
      exact keeps_zombie_refl _ _
    · try simp only [bind] at h
      obtain ⟨r, g1, h⟩ := bind_ok h
      split at h
      · rename_i hs
        obtain ⟨m, g2, h⟩ := bind_ok h
        cases h
        refine upd_keeps_zombie g2 (fun q hq hz => ?_)
        rw [rd_ok g1] at hq; cases hq
        rw [hs] at hz; cases hz
      · exact ih _ _ _ _ h

theorem scheduler_pass_keeps_zombie {a : Ptr} {tp fuel : Nat} {s s' : kernel}
    {res : Option Ptr} (h : scheduler_pass tp fuel s = .ok (res, s')) :
    keeps_zombie a s.procs s'.procs := by
  unfold scheduler_pass at h
  try simp only [bind] at h
  obtain ⟨s1, g1, h⟩ := bind_ok h
  obtain ⟨d, _, h⟩ := bind_ok h
  obtain ⟨_, e1⟩ := acquire_ok_inv g1
  have := scheduler_scan_keeps_zombie a _ _ _ _ _ _ h
  rw [e1, acquired_procs] at this
  exact this

theorem scheduler_resume_keeps_zombie {a : Ptr} {tp fuel : Nat} {s s' : kernel}
    {res : Option Ptr} (h : scheduler_resume tp fuel s = .ok (res, s')) :
    keeps_zombie a s.procs s'.procs := by
  unfold scheduler_resume at h
  try simp only [bind] at h
  obtain ⟨r, _, h⟩ := bind_ok h
  have := scheduler_scan_keeps_zombie a _ _ _ _ _ _ h
  exact this

theorem proc_push_keeps_zombie {a : Ptr} {m m' : procmem} {head p : Ptr}
    (h : proc_push m head p = .ok m') : keeps_zombie a m m' := by
  unfold proc_push at h
  try simp only [bind] at h
  obtain ⟨h1, _, h⟩ := bind_ok h
  obtain ⟨m1, g2, h⟩ := bind_ok h
  obtain ⟨m2, g3, h⟩ := bind_ok h
  obtain ⟨h2, _, h⟩ := bind_ok h
  obtain ⟨m3, g5, g6⟩ := bind_ok h
  exact keeps_zombie_trans
    (keeps_zombie_trans (upd_keeps_zombie g2 (fun q _ hz => ⟨hz, rfl, rfl⟩))
      (upd_keeps_zombie g3 (fun q _ hz => ⟨hz, rfl, rfl⟩)))
    (keeps_zombie_trans (upd_keeps_zombie g5 (fun q _ hz => ⟨hz, rfl, rfl⟩))
      (upd_keeps_zombie g6 (fun q _ hz => ⟨hz, rfl, rfl⟩)))

theorem proc_remove_keeps_zombie {a : Ptr} {m m' : procmem} {p : Ptr}
    (h : proc_remove m p = .ok m') : keeps_zombie a m m' := by
  unfold proc_remove at h
  try simp only [bind] at h
  obtain ⟨r1, _, h⟩ := bind_ok h
  obtain ⟨m1, g2, h⟩ := bind_ok h
  obtain ⟨r2, _, g4⟩ := bind_ok h
  exact keeps_zombie_trans (upd_keeps_zombie g2 (fun q _ hz => ⟨hz, rfl, rfl⟩))
    (upd_keeps_zombie g4 (fun q _ hz => ⟨hz, rfl, rfl⟩))

/-- Freeing a record keeps the zombies at every other address. -/
theorem freeproc_keeps_zombie {a p : Ptr} {s s' : kernel} (h : freeproc p s = .ok s')
    (ha : a ≠ p) : keeps_zombie a s.procs s'.procs := by
  unfold freeproc at h
  simp only [bind] at h
  obtain ⟨r0, _, h⟩ := bind_ok h
  obtain ⟨m1, h1, h⟩ := bind_ok h
  obtain ⟨r1, _, h⟩ := bind_ok h
  obtain ⟨m2, h2, h⟩ := bind_ok h
  obtain ⟨r2, _, h⟩ := bind_ok h
  obtain ⟨m3, h3, h⟩ := bind_ok h
  cases h
  rw [(kfree_if_same _ _ _).1] at h1
  simp only [(kfree_if_same _ _ _).1] at h2
  simp only [(freept_if_same _ _ _ _).1] at h3
  show keeps_zombie a s.procs (Function.update m3 p none)
  exact keeps_zombie_trans
    (keeps_zombie_trans (upd_keeps_zombie h1 (fun q _ hz => ⟨hz, rfl, rfl⟩))
      (upd_keeps_zombie h2 (fun q _ hz => ⟨hz, rfl, rfl⟩)))
    (keeps_zombie_trans (proc_remove_keeps_zombie h3)
      (keeps_zombie_of_eq (Function.update_noteq ha _ _)))

theorem upd_keeps_zombie_ne {a : Ptr} {m m' : procmem} {p : Ptr} {f : proc → proc}
    (h : upd m p f = .ok m') (ha : a ≠ p) : keeps_zombie a m m' :=
  keeps_zombie_of_eq (upd_frame h a ha)

theorem kalloc_procs (x : Ptr) (j : trapframe) (t : kernel) : (kalloc x j t).procs = t.procs := by
  unfold kalloc
  split <;> rfl

/-- `allocproc` with a record allocator that hands out unused memory keeps
the zombies, on its success path and on its failure paths. -/
theorem allocproc_keeps_zombie {a : Ptr} {tp : Nat} {env : allocenv} {s s' : kernel} {p : Ptr}
    (h : allocproc tp env s = .ok (p, s')) (hfresh : s.procs env.bd_malloc = none) :
    keeps_zombie a s.procs s'.procs := by
  intro r hr hz
  have ha : a ≠ env.bd_malloc := fun e => by rw [e, hfresh] at hr; cases hr
  refine (?_ : keeps_zombie a s.procs s'.procs) r hr hz
  by_cases hnp : env.bd_malloc = 0
  · unfold allocproc at h
    simp only [hnp, if_true] at h
    cases h
    exact keeps_zombie_refl _ _
  · unfold allocproc at h
    simp only [hnp, if_false, bind] at h
    obtain ⟨⟨pid, s1⟩, h1, h⟩ := bind_ok h
    obtain ⟨m1, hm1, h⟩ := bind_ok h
    obtain ⟨m2, hm2, h⟩ := bind_ok h
    obtain ⟨m3, hm3, h⟩ := bind_ok h
    obtain ⟨e1, _⟩ := allocpid_inv h1
    simp only [kalloc_procs] at hm3
    have k0 : keeps_zombie a s.procs s1.procs := by
      rw [e1]
      exact keeps_zombie_of_eq (Function.update_noteq ha _ _)
    have k3 : keeps_zombie a s.procs m3 :=
      keeps_zombie_trans k0 (keeps_zombie_trans (upd_keeps_zombie_ne hm1 ha)
        (keeps_zombie_trans (upd_keeps_zombie_ne hm2 ha) (upd_keeps_zombie_ne hm3 ha)))
    split at h
    · obtain ⟨s2, g1, h⟩ := bind_ok h
      obtain ⟨s3, g2, h⟩ := bind_ok h
      cases h
      obtain ⟨_, e2⟩ := release_ok_inv g2
      rw [e2, released_procs]
      exact keeps_zombie_trans k3 (freeproc_keeps_zombie g1 ha)
    · obtain ⟨m4, hm4, h⟩ := bind_ok h
      simp only [kalloc_procs] at hm4
      have k4 : keeps_zombie a s.procs m4 := keeps_zombie_trans k3 (upd_keeps_zombie_ne hm4 ha)
      split at h
      · obtain ⟨s2, g1, h⟩ := bind_ok h
        obtain ⟨s3, g2, h⟩ := bind_ok h
        cases h
        obtain ⟨_, e2⟩ := release_ok_inv g2
        rw [e2, released_procs]
        exact keeps_zombie_trans k4 (freeproc_keeps_zombie g1 ha)
      · obtain ⟨m5, hm5, h⟩ := bind_ok h
        have k5 : keeps_zombie a s.procs m5 :=
          keeps_zombie_trans k4 (upd_keeps_zombie_ne hm5 ha)
        split at h
        · obtain ⟨s2, g1, h⟩ := bind_ok h
          obtain ⟨s3, g2, h⟩ := bind_ok h
          cases h
          obtain ⟨_, e2⟩ := release_ok_inv g2
          rw [e2, released_procs]
          exact keeps_zombie_trans k5 (freeproc_keeps_zombie g1 ha)
        · obtain ⟨r5, _, h⟩ := bind_ok h
          obtain ⟨m6, hm6, h⟩ := bind_ok h
          obtain ⟨sa, hacq, h⟩ := bind_ok h
          obtain ⟨m7, hm7, h⟩ := bind_ok h
          cases h
          obtain ⟨_, esa⟩ := acquire_ok_inv hacq
          have hsam6 : sa.procs = m6 := by rw [esa]; rfl
          rw [hsam6] at hm7
          exact keeps_zombie_trans k5 (keeps_zombie_trans (upd_keeps_zombie_ne hm6 ha)
            (proc_push_keeps_zombie hm7))

/-- The pointer `allocproc` returns is null or the record `bd_malloc` handed
out. -/
theorem allocproc_ptr {tp : Nat} {env : allocenv} {s s' : kernel} {p : Ptr}
    (h : allocproc tp env s = .ok (p, s')) : p = 0 ∨ p = env.bd_malloc := by
  by_cases hnp : env.bd_malloc = 0
  · unfold allocproc at h
    simp only [hnp, if_true] at h
    cases h
    exact Or.inl rfl
  · unfold allocproc at h
    simp only [hnp, if_false, bind] at h
    obtain ⟨⟨pid, s1⟩, _, h⟩ := bind_ok h
    obtain ⟨m1, _, h⟩ := bind_ok h
    obtain ⟨m2, _, h⟩ := bind_ok h
    obtain ⟨m3, _, h⟩ := bind_ok h
    split at h
    · obtain ⟨s2, _, h⟩ := bind_ok h
      obtain ⟨s3, _, h⟩ := bind_ok h
      cases h
      exact Or.inl rfl
    · obtain ⟨m4, _, h⟩ := bind_ok h
      split at h
      · obtain ⟨s2, _, h⟩ := bind_ok h
        obtain ⟨s3, _, h⟩ := bind_ok h
        cases h
        exact Or.inl rfl
      · obtain ⟨m5, _, h⟩ := bind_ok h
        split at h
        · obtain ⟨s2, _, h⟩ := bind_ok h
          obtain ⟨s3, _, h⟩ := bind_ok h
          cases h
          exact Or.inl rfl
        · obtain ⟨r5, _, h⟩ := bind_ok h
          obtain ⟨m6, _, h⟩ := bind_ok h
          obtain ⟨sa, _, h⟩ := bind_ok h
          obtain ⟨m7, _, h⟩ := bind_ok h
          cases h
          exact Or.inr rfl

/-- `fork` with a record allocator that hands out unused memory keeps the
zombies, whether it succeeds or fails. -/
theorem fork_keeps_zombie {a : Ptr} {tp : Nat} {env : allocenv} {s s' : kernel} {v : Int}
    (h : fork tp env s = .ok (v, s')) (hfresh : s.procs env.bd_malloc = none) :
    keeps_zombie a s.procs s'.procs := by
  intro r hr hz
  have ha : a ≠ env.bd_malloc := fun e => by rw [e, hfresh] at hr; cases hr
  refine (?_ : keeps_zombie a s.procs s'.procs) r hr hz
  unfold fork at h
  simp only [bind] at h
  obtain ⟨⟨p, s0⟩, h0, h⟩ := bind_ok h
  obtain ⟨rfl, rfl⟩ := myproc_ok_inv h0
  dsimp only at h
  obtain ⟨⟨np, s1⟩, h1, g1⟩ := bind_ok h
  have k1 : keeps_zombie a s.procs s1.procs :=
    allocproc_keeps_zombie (s := bracketed tp s) h1 hfresh
  by_cases hz0 : np = 0
  · rw [if_pos hz0] at g1
    cases g1
    exact k1
  · have hnp : np = env.bd_malloc := (allocproc_ptr h1).resolve_left hz0
    have ha' : a ≠ np := hnp ▸ ha
    rw [if_neg hz0] at g1
    simp only [bind] at g1
    obtain ⟨pr, _, g2⟩ := bind_ok g1
    obtain ⟨nr, _, g3⟩ := bind_ok g2
    by_cases hcopy : env.uvmcopy < 0
    · rw [if_pos hcopy] at g3
      try simp only [bind] at g3
      obtain ⟨t1, hf, g4⟩ := bind_ok g3
      obtain ⟨t2, hrel, g5⟩ := bind_ok g4
      cases g5
      obtain ⟨_, e2⟩ := release_ok_inv hrel
      rw [e2, released_procs]
      exact keeps_zombie_trans k1 (freeproc_keeps_zombie hf ha')
    · rw [if_neg hcopy] at g3
      try simp only [bind] at g3
      obtain ⟨m1, hm1, g4⟩ := bind_ok g3
      obtain ⟨pr2, _, g5⟩ := bind_ok g4
      obtain ⟨nr2, _, g6⟩ := bind_ok g5
      obtain ⟨tf, _, g7⟩ := bind_ok g6
      obtain ⟨pg1, _, g8⟩ := bind_ok g7
      obtain ⟨pg2, _, g9⟩ := bind_ok g8
      obtain ⟨m2, hm2, g10⟩ := bind_ok g9
      obtain ⟨pr3, _, g11⟩ := bind_ok g10
      obtain ⟨m3, hm3, g12⟩ := bind_ok g11
      obtain ⟨pr4, _, g13⟩ := bind_ok g12
      obtain ⟨m4, hm4, g14⟩ := bind_ok g13
      obtain ⟨nr3, _, g15⟩ := bind_ok g14
      obtain ⟨m5, hm5, g16⟩ := bind_ok g15
      obtain ⟨m6, hm6, g17⟩ := bind_ok g16
      obtain ⟨t, hrel, g18⟩ := bind_ok g17
      cases g18
      obtain ⟨_, e2⟩ := release_ok_inv hrel
      rw [e2, released_procs]
      show keeps_zombie a s.procs m6
      exact keeps_zombie_trans k1 (keeps_zombie_trans (upd_keeps_zombie_ne hm1 ha')
        (keeps_zombie_trans (upd_keeps_zombie_ne hm2 ha')
          (keeps_zombie_trans (upd_keeps_zombie_ne hm3 ha')
            (keeps_zombie_trans (upd_keeps_zombie_ne hm4 ha')
              (keeps_zombie_trans (upd_keeps_zombie_ne hm5 ha')
                (upd_keeps_zombie_ne hm6 ha'))))))

theorem freeproc_none {p : Ptr} {s s' : kernel} (h : freeproc p s = .ok s') :
    s'.procs p = none := by
  unfold freeproc at h
  simp only [bind] at h
  obtain ⟨r0, _, h⟩ := bind_ok h
  obtain ⟨m1, _, h⟩ := bind_ok h
  obtain ⟨r1, _, h⟩ := bind_ok h
  obtain ⟨m2, _, h⟩ := bind_ok h
  obtain ⟨r2, _, h⟩ := bind_ok h
  obtain ⟨m3, _, h⟩ := bind_ok h
  cases h
  exact Function.update_same _ _ _

/-- The block of `wait` run on the child `pp`: the zombies at the other
addresses are kept, and the child is kept (the copy failed) or freed, in
which case its pid is returned. -/
theorem wait_found_zombie {a : Ptr} {tp : Nat} {p : Ptr} {addr : Nat} {pp : Ptr}
    {s s' : kernel} {v : Int} {c : proc} (h : wait_found tp p addr pp s = .ok (v, s'))
    (hc : s.procs pp = some c) :
    (a ≠ pp → keeps_zombie a s.procs s'.procs) ∧
    (s'.procs = s.procs ∨ (s'.procs pp = none ∧ v = c.pid)) := by
  unfold wait_found at h
  simp only [bind] at h
  obtain ⟨c1, g1, h⟩ := bind_ok h
  obtain rfl : c1 = c := by
    have := rd_ok g1
    rw [hc] at this
    exact (Option.some.inj this).symm
  obtain ⟨copied, _, h⟩ := bind_ok h
  cases copied with
  | none =>
    simp only [] at h
    obtain ⟨s1, g2, h⟩ := bind_ok h
    cases h
    obtain ⟨_, e2⟩ := release_ok_inv g2
    rw [e2, released_procs]
    exact ⟨fun _ => keeps_zombie_refl _ _, Or.inl rfl⟩
  | some u =>
    simp only [] at h
    obtain ⟨s1, g2, h⟩ := bind_ok h
    obtain ⟨s2, g3, h⟩ := bind_ok h
    cases h
    obtain ⟨_, e3⟩ := release_ok_inv g3
    rw [e3, released_procs]
    have k := fun ha : a ≠ pp => freeproc_keeps_zombie g2 ha
    exact ⟨k, Or.inr ⟨freeproc_none g2, rfl⟩⟩

/-- The inner loop of `wait`, seen from a ZOMBIE record `r` at `a`: the loop
leaves the state alone, or keeps the record, or frees it and returns its
pid, which happens only to a child of the caller. -/
theorem wait_scan_zombie {a : Ptr} {r : proc} (tp : Nat) (p : Ptr) (addr : Nat) :
    ∀ (n : Nat) (pp : Ptr) (hk : Bool) (s : kernel) (res : Option Int) (hk' : Bool)
      (s' : kernel), s.procs a = some r →
      wait_scan tp p addr n pp hk s = .ok (res, hk', s') →
      (res = none ∧ s' = s) ∨ (∃ v, res = some v ∧ keeps_zombie a s.procs s'.procs) ∨
        (s'.procs a = none ∧ res = some r.pid ∧ r.parent = p) := by
  intro n
  induction n with
  | zero => intro pp hk s res hk' s' _ h; simp [wait_scan] at h
  | succ n ih =>
    intro pp hk s res hk' s' hr h
    unfold wait_scan at h
    split at h
    · cases h
      exact Or.inl ⟨rfl, rfl⟩
    · try simp only [bind] at h
      obtain ⟨c, g1, h⟩ := bind_ok h
      split at h
      · rename_i hpar
        split at h
        · try simp only [bind] at h
          obtain ⟨⟨v, s1⟩, g2, h⟩ := bind_ok h
          cases h
          obtain ⟨k1, k2⟩ := wait_found_zombie (a := a) g2 (rd_ok g1)
          right
          by_cases e : a = pp
          · subst e
            rcases k2 with k2 | ⟨k2, k3⟩
            · exact Or.inl ⟨v, rfl, keeps_zombie_of_eq (congrFun k2 a)⟩
            · have hcr : c = r := by
                have := rd_ok g1
                rw [hr] at this
                exact (Option.some.inj this).symm
              rw [hcr] at k3 hpar
              exact Or.inr ⟨k2, by rw [k3], hpar⟩
          · exact Or.inl ⟨v, rfl, k1 e⟩
        · exact ih _ _ _ _ _ _ hr h
      · exact ih _ _ _ _ _ _ hr h

/-- The first half of `sleep(chan, &list_lock)` writes to the caller's record
only. -/
theorem sleep_frame {tp : Nat} {chan : Ptr} {s s' : kernel} {i : Bool}
    (h : sleep tp chan .list_lock s = .ok (i, s')) :
    ∀ a, a ≠ curproc s tp → s'.procs a = s.procs a := by
  unfold sleep at h
  try simp only [bind] at h
  obtain ⟨⟨p, s0⟩, h0, h⟩ := bind_ok h
  obtain ⟨rfl, rfl⟩ := myproc_ok_inv h0
  dsimp only at h
  obtain ⟨s1, h1, h⟩ := bind_ok h
  obtain ⟨m1, hm1, h⟩ := bind_ok h
  obtain ⟨m2, hm2, h⟩ := bind_ok h
  rw [if_neg (by simp)] at h1
  cases h1
  obtain ⟨e, _⟩ := sched_inv h
  intro a ha
  rw [e]
  show m2 a = s.procs a
  rw [upd_frame hm2 a ha, upd_frame hm1 a ha]
  rfl

/-- One round of `wait`, seen from a ZOMBIE record `r` at `a` that is not the
caller's: the record is kept, or it is freed and its pid returned, which
happens only to a child of the caller. -/
theorem wait_loop_zombie {a : Ptr} {r : proc} {tp : Nat} {addr fuel : Nat} {s s' : kernel}
    {out : waitout} (hr : s.procs a = some r) (ha : a ≠ curproc s tp)
    (h : wait_loop tp addr fuel s = .ok (out, s')) :
    keeps_zombie a s.procs s'.procs ∨
      (s'.procs a = none ∧ out = .ret r.pid ∧ r.parent = curproc s tp) := by
  unfold wait_loop at h
  try simp only [bind] at h
  obtain ⟨d, _, h⟩ := bind_ok h
  obtain ⟨⟨res, hk, t⟩, hscan, h⟩ := bind_ok h
  rcases wait_scan_zombie tp _ addr _ _ _ _ _ _ _ hr hscan with
    ⟨rfl, rfl⟩ | ⟨v, rfl, hkz⟩ | ⟨h1, rfl, h3⟩
  · simp only at h
    by_cases hkf : hk = false
    · rw [if_pos hkf] at h
      try simp only [bind] at h
      obtain ⟨t', ht', h⟩ := bind_ok h
      cases h
      obtain ⟨_, e⟩ := release_ok_inv ht'
      rw [e, released_procs]
      exact Or.inl (keeps_zombie_refl _ _)
    · rw [if_neg hkf] at h
      try simp only [bind] at h
      obtain ⟨me, _, h⟩ := bind_ok h
      by_cases hkill : me.killed ≠ 0
      · rw [if_pos hkill] at h
        try simp only [bind] at h
        obtain ⟨t', ht', h⟩ := bind_ok h
        cases h
        obtain ⟨_, e⟩ := release_ok_inv ht'
        rw [e, released_procs]
        exact Or.inl (keeps_zombie_refl _ _)
      · rw [if_neg hkill] at h
        try simp only [bind] at h
        obtain ⟨⟨j, t'⟩, hs, h⟩ := bind_ok h
        cases h
        exact Or.inl (keeps_zombie_of_eq (sleep_frame hs a ha))
  · simp only at h
    cases h
    exact Or.inl hkz
  · simp only at h
    cases h
    exact Or.inr ⟨h1, rfl, h3⟩

theorem wait_zombie {a : Ptr} {r : proc} {tp : Nat} {addr fuel : Nat} {s s' : kernel}
    {out : waitout} (hr : s.procs a = some r) (ha : a ≠ curproc s tp)
    (h : wait tp addr fuel s = .ok (out, s')) :
    keeps_zombie a s.procs s'.procs ∨
      (s'.procs a = none ∧ out = .ret r.pid ∧ r.parent = curproc s tp) := by
  unfold wait at h
  try simp only [bind] at h
  obtain ⟨⟨p, s0⟩, h0, h⟩ := bind_ok h
  obtain ⟨rfl, rfl⟩ := myproc_ok_inv h0
  dsimp only at h
  obtain ⟨s1, h1, h⟩ := bind_ok h
  rw [acquire_bracketed] at h1
  obtain ⟨_, rfl⟩ := acquire_ok_inv h1
  have ha' : a ≠ curproc (acquired tp .list_lock s) tp := by
    rw [acquired_curproc]
    exact ha
  have hr' : (acquired tp .list_lock s).procs a = some r := hr
  have := wait_loop_zombie hr' ha' h
  rw [acquired_curproc] at this
  exact this

/-- C16: a record that is ZOMBIE stays ZOMBIE, with its exit status and its
pid, through every run of `wakeup_nolock`, `wakeup`, `kill`, `setkilled`,
`reparent`, a scheduler pass and a `fork` (whose allocator hands out unused
memory), whatever their arguments and the caller are.  A `wait` called by
another process keeps the record as well, unless it frees it: then the
record is gone from the memory, `wait` returns its pid, and the caller is
its parent. -/
theorem zombie_is_terminal (s s' : kernel) (a : Ptr) (r : proc) (hr : s.procs a = some r)
    (hz : r.state = .ZOMBIE) :
    (tableop s s' →
      ∃ r', s'.procs a = some r' ∧ r'.state = .ZOMBIE ∧ r'.xstate = r.xstate ∧ r'.pid = r.pid) ∧
    (∀ (tp addr fuel : Nat) (out : waitout), a ≠ curproc s tp →
      wait tp addr fuel s = .ok (out, s') →
      (∃ r', s'.procs a = some r' ∧ r'.state = .ZOMBIE ∧ r'.xstate = r.xstate ∧
        r'.pid = r.pid) ∨
      (s'.procs a = none ∧ out = .ret r.pid ∧ r.parent = curproc s tp)) := by
  constructor
  · intro hop
    have hk : keeps_zombie a s.procs s'.procs := by
      cases hop with
      | wakeup_nolock tp chan fuel h => exact wakeup_nolock_keeps_zombie h
      | wakeup tp chan fuel h => exact wakeup_keeps_zombie h
      | kill tp pid fuel v h => exact kill_keeps_zombie h
      | setkilled tp p h => exact setkilled_keeps_zombie h
      | reparent tp p fuel h => exact reparent_keeps_zombie h
      | scheduler_pass tp fuel res h => exact scheduler_pass_keeps_zombie h
      | scheduler_resume tp fuel res h => exact scheduler_resume_keeps_zombie h
      | fork tp env v hfresh h => exact fork_keeps_zombie h hfresh
    exact hk r hr hz
  · intro tp addr fuel out ha h
    rcases wait_zombie hr ha h with hk | hfree
    · exact Or.inl (hk r hr hz)
    · exact Or.inr hfree

set_option maxRecDepth 4000 in
/-- Witness for C16: the ZOMBIE child at `3` of `ex_zombie` (pid 2, exit
status 7) stays as it is when it is the target of `kill` and of `setkilled`,
through a `wakeup`, a `reparent` of its own children, a scheduler pass and a
`fork` of its parent that fails in `uvmcopy`; the `wait` of its parent
returns its pid, and the record is kept or gone. -/
theorem zombie_is_terminal_witness :
    (∃ s', kill 0 2 3 (ex_kernel ex_zombie 2 2) = .ok (0, s') ∧
      ∃ r', s'.procs 3 = some r' ∧ r'.state = .ZOMBIE ∧ r'.xstate = 7 ∧ r'.pid = 2) ∧
    (∃ s', setkilled 0 3 (ex_kernel ex_zombie 2 2) = .ok s' ∧
      ∃ r', s'.procs 3 = some r' ∧ r'.state = .ZOMBIE ∧ r'.xstate = 7 ∧ r'.pid = 2) ∧
    (∃ s', wakeup 0 0 3 (ex_kernel ex_zombie 2 2) = .ok s' ∧
      ∃ r', s'.procs 3 = some r' ∧ r'.state = .ZOMBIE ∧ r'.xstate = 7 ∧ r'.pid = 2) ∧
    (∃ s', reparent 0 3 3 (ex_kernel ex_zombie 2 2) = .ok s' ∧
      ∃ r', s'.procs 3 = some r' ∧ r'.state = .ZOMBIE ∧ r'.xstate = 7 ∧ r'.pid = 2) ∧
    (∃ s', scheduler_pass 1 3 (ex_kernel ex_zombie 2 2) = .ok (none, s') ∧
      ∃ r', s'.procs 3 = some r' ∧ r'.state = .ZOMBIE ∧ r'.xstate = 7 ∧ r'.pid = 2) ∧
    (∃ s', fork 0 { ex_env with bd_malloc := 4, uvmcopy := -1 } (ex_kernel ex_zombie 2 2) =
        .ok (-1, s') ∧
      ∃ r', s'.procs 3 = some r' ∧ r'.state = .ZOMBIE ∧ r'.xstate = 7 ∧ r'.pid = 2) ∧
    (∃ s', wait 0 5 3 ex_zombie_kernel = .ok (.ret 2, s') ∧
      ((∃ r', s'.procs 3 = some r' ∧ r'.state = .ZOMBIE ∧ r'.xstate = 7 ∧ r'.pid = 2) ∨
        s'.procs 3 = none)) := by
  obtain ⟨s1, h1⟩ : ∃ s', kill 0 2 3 (ex_kernel ex_zombie 2 2) = .ok (0, s') := ⟨_, rfl⟩
  obtain ⟨s2, h2⟩ : ∃ s', setkilled 0 3 (ex_kernel ex_zombie 2 2) = .ok s' := ⟨_, rfl⟩
  obtain ⟨s3, h3⟩ : ∃ s', wakeup 0 0 3 (ex_kernel ex_zombie 2 2) = .ok s' := ⟨_, rfl⟩
  obtain ⟨s4, h4⟩ : ∃ s', reparent 0 3 3 (ex_kernel ex_zombie 2 2) = .ok s' := ⟨_, rfl⟩
  obtain ⟨s5, h5⟩ : ∃ s', scheduler_pass 1 3 (ex_kernel ex_zombie 2 2) = .ok (none, s') :=
    ⟨_, rfl⟩
  obtain ⟨s6, h6⟩ : ∃ s', fork 0 { ex_env with bd_malloc := 4, uvmcopy := -1 }
      (ex_kernel ex_zombie 2 2) = .ok (-1, s') := ⟨_, rfl⟩
  obtain ⟨s7, h7⟩ : ∃ s', wait 0 5 3 ex_zombie_kernel = .ok (.ret 2, s') := ⟨_, rfl⟩
  have key := fun s' => (zombie_is_terminal (ex_kernel ex_zombie 2 2) s' 3
      { ex_proc 2 .ZOMBIE 2 0 2 1 with xstate := 7 } rfl rfl).1
  exact ⟨⟨s1, h1, key s1 (tableop.kill 0 2 3 0 h1)⟩,
    ⟨s2, h2, key s2 (tableop.setkilled 0 3 h2)⟩,
    ⟨s3, h3, key s3 (tableop.wakeup 0 0 3 h3)⟩,
    ⟨s4, h4, key s4 (tableop.reparent 0 3 3 h4)⟩,
    ⟨s5, h5, key s5 (tableop.scheduler_pass 1 3 none h5)⟩,
    ⟨s6, h6, key s6 (tableop.fork 0 { ex_env with bd_malloc := 4, uvmcopy := -1 } (-1) rfl h6)⟩,
    ⟨s7, h7, ((zombie_is_terminal ex_zombie_kernel s7 3
      { ex_proc 2 .ZOMBIE 2 0 2 1 with xstate := 7 } rfl rfl).2 0 5 3 (.ret 2) (by decide)
      h7).imp_right (fun h => h.1)⟩⟩

end Xv6
